import Mathlib

/-!
# Lexer, lookahead buffer and parser of the recursive-descent front end

Shallow embedding of `Compiler_Principles/实验三.cpp` (tokenizer
`getNextTokenFromFile`, lookahead layer `getToken` / `peekToken`, the
function `match` and the `parse...` procedures), of the standalone lexer
`Compiler_Principles/实验二.cpp` (`getNextChar`, `ungetChar`, `analyze`) and of
the closure under the empty word of `Compiler_Principles/实验一.c`
(`is_in_set`, `add_to_set`, `copy_set`, `sort_set`, `get_closure`).

Modelling conventions
* The character source `inFile` is the list of characters not yet read.
  `inFile.get(ch)` removes the head, `inFile.peek()` inspects it, and both
  fail on the empty list.  Once a read has failed every later read fails
  too, which is what the empty list does.
* `<cctype>` classification is the one of the "C" locale.
* `std::string` is `String`, `vector<Token>` is `List Token`
  (`push_back t` is `++ [t]`).
* `size_t` has 64 bits.  `bufferIndex` and the length of the buffer are
  natural numbers, below `2^64` in every state of the program
  (`bufferIndex++` is only executed below the length of the buffer); the
  one `size_t` expression that can leave the range, `bufferIndex + k - 1`
  in `peekToken(k)`, is computed modulo `2^64` (`peekIndex`).
* The field `Token::line` is never read and is only written for the
  end-of-input token (`{"EOF", "", 0}`); it is left out.
* `outFile` is the list of the lines written so far.
* `match` is a keyword of Lean: the function `match` is `matchToken`.
* The parsing procedures are the cases of one function `parse` over the
  enumeration `Proc` of their names.  They call each other and loop, so
  `parse` takes a bound `n` on the depth of calls and on the iterations
  of each `while`; the result is `none` only when the bound is too small,
  and `parse_terminates` gives for every procedure and state a bound
  that suffices.  The source has no error path: no procedure returns
  early, exits or throws.
* `Code` is the syntax of the bodies of the procedures and `exec` runs it;
  `parse_eq_exec` states that `parse` is `exec` on `code`.  Statements
  about every loop or every call of the parser are statements about
  `code`.
* `parseT` runs `code` like `exec` and keeps, next to the globals, the
  trace with every line marked by the depth of the invocation that wrote
  it; `parseT_erase` states that it is `parse` when the marks are left
  out.
* In `实验二.cpp` the function `getNextChar` returns a `char` and reports
  the end of the input by `(char)EOF`, the byte 255 (`eofChar`); the
  stream is the list of unread characters with its failure flag, and
  `unget` does nothing once a read has failed.
* In `实验一.c` a state name is a C string, here a `String`; a `StateSet`
  is the list `items[0..count-1]`.  `strcmp` is given by the sign the C
  standard prescribes.  `qsort` is insertion sort: on a duplicate-free
  set the sorted arrangement is unique (`sort_set_unique`).  The arrays
  have `MAX_STATES` entries and `add_to_set` checks no bound: a write to
  `items[MAX_STATES]` is the result `none`.  The `while (changed)` loop
  of `get_closure` takes a bound on its passes, `MAX_STATES + 1` in
  `get_closure`; every pass but the last adds a name.
-/

namespace Compiler

/-! ## Characters -/

/-- The double-quote character. -/
def dquote : Char := Char.ofNat 34

/-- The single-quote character. -/
def squote : Char := Char.ofNat 39

/-- C-locale `isspace`: space, `\t`, `\n`, `\v`, `\f`, `\r`. -/
def isspace (c : Char) : Bool :=
  c.toNat = 32 || (9 ≤ c.toNat && c.toNat ≤ 13)

/-- C-locale `isalpha`: `A`-`Z` and `a`-`z`. -/
def isalpha (c : Char) : Bool :=
  (65 ≤ c.toNat && c.toNat ≤ 90) || (97 ≤ c.toNat && c.toNat ≤ 122)

/-- C-locale `isdigit`: `0`-`9`. -/
def isdigit (c : Char) : Bool :=
  48 ≤ c.toNat && c.toNat ≤ 57

/-- C-locale `isalnum`. -/
def isalnum (c : Char) : Bool :=
  isalpha c || isdigit c

/-! ## Tokens -/

/-- A token: category code `type` and text `value`. -/
structure Token where
  type : String
  value : String
deriving DecidableEq, Repr

/-- The keyword table `keywords` (`map<string,string>`), as an association list. -/
def keywords : List (String × String) :=
  [("const", "CONSTTK"), ("int", "INTTK"), ("char", "CHARTK"),
   ("void", "VOIDTK"), ("main", "MAINTK"), ("if", "IFTK"),
   ("else", "ELSETK"), ("do", "DOTK"), ("while", "WHILETK"),
   ("for", "FORTK"), ("scanf", "SCANFTK"), ("printf", "PRINTFTK"),
   ("return", "RETURNTK")]

/-- The function `getSingleCharToken`: category of a one-character symbol, `""` if none. -/
def getSingleCharToken (c : Char) : String :=
  if c = '+' then "PLUS" else if c = '-' then "MINU"
  else if c = '*' then "MULT" else if c = '/' then "DIV"
  else if c = ';' then "SEMICN" else if c = ',' then "COMMA"
  else if c = '(' then "LPARENT" else if c = ')' then "RPARENT"
  else if c = '[' then "LBRACK" else if c = ']' then "RBRACK"
  else if c = '{' then "LBRACE" else if c = '}' then "RBRACE"
  else ""

/-- Loop condition of the identifier scan: `isalnum(c) || c == '_'`. -/
def identChar (c : Char) : Bool :=
  isalnum c || c == '_'

/-- Category of an identifier-shaped text:
`if (keywords.count(s)) keywords[s] else "IDENFR"`. -/
def identType (s : String) : String :=
  match keywords.lookup s with
  | some t => t
  | none => "IDENFR"

/-- The token returned at end of input, `{"EOF", "", 0}`. -/
def eofToken : Token := ⟨"EOF", ""⟩

/-- The function `getNextTokenFromFile`, on the unread characters; returns the
token and the characters left unread.  A character on which the body
falls through without `return` (white space, a `!` not followed by `=`, a
symbol unknown to `getSingleCharToken`) sends the `while` loop to its next
iteration. -/
def getNextTokenFromFile : List Char → Token × List Char
  | [] => (eofToken, [])
  | ch :: rest =>
    if isspace ch then getNextTokenFromFile rest
    else if isalpha ch || ch == '_' then
      let s := String.mk (ch :: rest.takeWhile identChar)
      (⟨identType s, s⟩, rest.dropWhile identChar)
    else if isdigit ch then
      (⟨"INTCON", String.mk (ch :: rest.takeWhile isdigit)⟩, rest.dropWhile isdigit)
    else if ch == dquote then
      (⟨"STRCON", String.mk (rest.takeWhile (fun c => c != dquote))⟩,
        (rest.dropWhile (fun c => c != dquote)).tail)
    else if ch == squote then
      (⟨"CHARCON", String.mk (rest.takeWhile (fun c => c != squote))⟩,
        (rest.dropWhile (fun c => c != squote)).tail)
    else if ch == '<' then
      if rest.head? = some '=' then (⟨"LEQ", "<="⟩, rest.tail) else (⟨"LSS", "<"⟩, rest)
    else if ch == '>' then
      if rest.head? = some '=' then (⟨"GEQ", ">="⟩, rest.tail) else (⟨"GRE", ">"⟩, rest)
    else if ch == '=' then
      if rest.head? = some '=' then (⟨"EQL", "=="⟩, rest.tail) else (⟨"ASSIGN", "="⟩, rest)
    else if ch == '!' then
      if rest.head? = some '=' then (⟨"NEQ", "!="⟩, rest.tail) else getNextTokenFromFile rest
    else
      if getSingleCharToken ch != "" then (⟨getSingleCharToken ch, String.mk [ch]⟩, rest)
      else getNextTokenFromFile rest

/-- Repeated `getNextTokenFromFile` until it answers `EOF`, at most `fuel`
calls: the tokens returned before the end-of-input token. -/
def tokenizeLoop : Nat → List Char → List Token
  | 0, _ => []
  | fuel + 1, inp =>
    if (getNextTokenFromFile inp).1.type = "EOF" then []
    else (getNextTokenFromFile inp).1 :: tokenizeLoop fuel (getNextTokenFromFile inp).2

/-- The token sequence of a text.  Every call that does not answer `EOF`
consumes at least one character, so `inp.length` calls suffice. -/
def tokenize (inp : List Char) : List Token :=
  tokenizeLoop inp.length inp

/-! ## Lookahead buffer -/

/-- The global variables of the program: the two streams, `currentToken`,
`tokenBuffer` and `bufferIndex`.  `outFile` holds the lines written so far. -/
structure State where
  inFile : List Char
  outFile : List String
  currentToken : Token
  tokenBuffer : List Token
  bufferIndex : Nat
deriving DecidableEq, Repr

/-- The globals at program start, on the input text `inp`: nothing written,
`currentToken` default-constructed, empty buffer, `bufferIndex = 0`. -/
def initState (inp : List Char) : State :=
  ⟨inp, [], ⟨"", ""⟩, [], 0⟩

/-- The function `getToken`: the buffered token at `bufferIndex` (and
`bufferIndex++`) when there is one, otherwise a token read from the file,
returned without being stored. -/
def getToken (s : State) : Token × State :=
  if s.bufferIndex < s.tokenBuffer.length then
    (s.tokenBuffer.getD s.bufferIndex eofToken, { s with bufferIndex := s.bufferIndex + 1 })
  else
    ((getNextTokenFromFile s.inFile).1, { s with inFile := (getNextTokenFromFile s.inFile).2 })

/-- The `while` loop of `peekToken` followed by the final `return`, for the
index `idx`, the value of `bufferIndex + k - 1`.  The second argument bounds the number of
iterations; every iteration that does not return appends one token, so
`idx + 1 - tokenBuffer.size()` iterations always suffice, and when the bound
is `0` the loop condition is false. -/
def peekTokenLoop (idx : Nat) : Nat → State → Token × State
  | 0, s => (s.tokenBuffer.getD idx eofToken, s)
  | fuel + 1, s =>
    if s.tokenBuffer.length ≤ idx then
      if (getNextTokenFromFile s.inFile).1.type = "EOF" then
        ((getNextTokenFromFile s.inFile).1, { s with inFile := (getNextTokenFromFile s.inFile).2 })
      else
        peekTokenLoop idx fuel
          { s with inFile := (getNextTokenFromFile s.inFile).2,
                   tokenBuffer := s.tokenBuffer ++ [(getNextTokenFromFile s.inFile).1] }
    else (s.tokenBuffer.getD idx eofToken, s)

/-- The number of values of the type `size_t`: `2^64`. -/
def sizeRange : Nat := 18446744073709551616

/-- The value of `bufferIndex + k - 1` in `peekToken(k)`.  Both operands are
`size_t` and the result is taken modulo `2^64`: for `k = 0` it is
`bufferIndex - 1`, or `2^64 - 1` when `bufferIndex` is `0`, and a sum that
reaches `2^64` starts again at `0`.  In every state of the program
`bufferIndex` is a `size_t`, below `2^64`; for a number that is not, which no
state of the program holds, the index is `bufferIndex + k - 1`. -/
def peekIndex (bufferIndex k : Nat) : Nat :=
  if bufferIndex < sizeRange then (bufferIndex + k + (sizeRange - 1)) % sizeRange
  else bufferIndex + k - 1

/-- The function `peekToken(k)`: the loop runs on the index
`bufferIndex + k - 1` computed in `size_t`. -/
def peekToken (k : Nat) (s : State) : Token × State :=
  peekTokenLoop (peekIndex s.bufferIndex k)
    (peekIndex s.bufferIndex k + 1 - s.tokenBuffer.length) s

/-- The function `initParser`: `currentToken = getToken()`. -/
def initParser (s : State) : State :=
  { (getToken s).2 with currentToken := (getToken s).1 }

/-! ## Specification vocabulary -/

/-- The state invariant `bufferIndex ≤ tokenBuffer.size()`. -/
@[reducible]
def BufferOk (s : State) : Prop :=
  s.bufferIndex ≤ s.tokenBuffer.length

/-- The token returned by the `(n+1)`-th of successive `getNextTokenFromFile`
calls on the unread characters `inp`. -/
def nthFromFile : Nat → List Char → Token
  | 0, inp => (getNextTokenFromFile inp).1
  | n + 1, inp => nthFromFile n (getNextTokenFromFile inp).2

/-- The unread characters after `n` successive `getNextTokenFromFile` calls. -/
def fileAfter : Nat → List Char → List Char
  | 0, inp => inp
  | n + 1, inp => fileAfter n (getNextTokenFromFile inp).2

/-- The pending stream of a state, position `n` (from `0`): the buffered tokens
from `bufferIndex` onward, followed by the tokens `getNextTokenFromFile`
would still yield from the character source. -/
def pending (s : State) (n : Nat) : Token :=
  match (s.tokenBuffer.drop s.bufferIndex)[n]? with
  | some t => t
  | none => nthFromFile (n - (s.tokenBuffer.drop s.bufferIndex).length) s.inFile

/-- The token at absolute position `j` of the buffer `buf` extended by the
tokens still to be read from `inp`. -/
def streamAt (buf : List Token) (inp : List Char) (j : Nat) : Token :=
  match buf[j]? with
  | some t => t
  | none => nthFromFile (j - buf.length) inp

/-- The tokens returned by `peekToken(1)`, ..., `peekToken(k)` called in this
order, and the state after them. -/
def peekUpTo : Nat → State → List Token × State
  | 0, s => ([], s)
  | k + 1, s =>
    ((peekUpTo k s).1 ++ [(peekToken (k + 1) (peekUpTo k s).2).1],
      (peekToken (k + 1) (peekUpTo k s).2).2)

/-- The tokens returned by `k` consecutive `getToken()` calls, and the state
after them. -/
def getTokens : Nat → State → List Token × State
  | 0, s => ([], s)
  | k + 1, s =>
    ((getToken s).1 :: (getTokens k (getToken s).2).1, (getTokens k (getToken s).2).2)

/-- The state after the calls `peekToken(j)` for the `j` of `ks`, in order. -/
def peekAll (ks : List Nat) (s : State) : State :=
  ks.foldl (fun t j => (peekToken j t).2) s

/-- Postcondition "after `peekToken(k)` the buffer holds at least
`bufferIndex + k` tokens and the returned token is the buffered token at index
`bufferIndex + k - 1`". -/
@[reducible]
def PeekFillsBuffer (k : Nat) (s : State) : Prop :=
  s.bufferIndex + k ≤ (peekToken k s).2.tokenBuffer.length ∧
    (peekToken k s).2.tokenBuffer[s.bufferIndex + k - 1]? = some (peekToken k s).1

/-- Postcondition "`getToken()` moves the cursor forward by exactly one". -/
@[reducible]
def AdvanceMovesCursor (s : State) : Prop :=
  (getToken s).2.bufferIndex = s.bufferIndex + 1

/-- A call of the lookahead layer: `peekToken(k)` or `getToken()`. -/
inductive BufferCall where
  | peek (k : Nat)
  | advance
deriving DecidableEq, Repr

/-- Runs a sequence of lookahead-layer calls; returns the tokens returned by
the `getToken()` calls among them, in call order, and the final state. -/
def runCalls : List BufferCall → State → List Token × State
  | [], s => ([], s)
  | BufferCall.peek k :: cs, s => runCalls cs (peekToken k s).2
  | BufferCall.advance :: cs, s =>
    ((getToken s).1 :: (runCalls cs (getToken s).2).1, (runCalls cs (getToken s).2).2)

/-- Number of `getToken()` calls in a sequence of calls. -/
def advances : List BufferCall → Nat
  | [] => 0
  | BufferCall.peek _ :: cs => advances cs
  | BufferCall.advance :: cs => advances cs + 1

/-- The state reached on the text `b c` by `peekToken(2)` and two `getToken()`
calls: the tokens `b` and `c` are buffered and consumed, `bufferIndex` is `2`
and the input is exhausted. -/
def wrapState : State :=
  (getToken (getToken (peekToken 2 (initState "b c".toList)).2).2).2

/-- Every `peekToken(k)` in the sequence has `k ≥ 1`. -/
def PeeksPositive : List BufferCall → Prop
  | [] => True
  | BufferCall.peek k :: cs => 1 ≤ k ∧ PeeksPositive cs
  | BufferCall.advance :: cs => PeeksPositive cs

/-- The characters that start an operator or a one-character symbol:
`<`, `>`, `=`, `!`, `+`, `-`, `*`, `/`, `;`, `,`, `(`, `)`, `[`, `]`, `{`, `}`. -/
def ruleStarts : List Char :=
  ['<', '>', '=', '!', '+', '-', '*', '/', ';', ',', '(', ')', '[', ']', '{', '}']

/-- A character that matches no token-formation rule: not a letter, underscore,
digit, quote, nor one of the characters of `ruleStarts`. -/
def noRule (c : Char) : Bool :=
  !(isalpha c || c == '_' || isdigit c || c == dquote || c == squote || ruleStarts.contains c)

/-- The text of a token in the source: the lexeme, wrapped in its two quote
characters for a string or character literal. -/
def tokenText (t : Token) : List Char :=
  if t.type = "STRCON" then dquote :: t.value.data ++ [dquote]
  else if t.type = "CHARCON" then squote :: t.value.data ++ [squote]
  else t.value.data

/-- The reading of the consumption contract: the characters removed by one call
on `inp` are some white space followed by exactly the text of the returned
token, and what is left is the rest of `inp`. -/
def ConsumesExactly (inp : List Char) : Prop :=
  ∃ ws : List Char, (∀ c ∈ ws, isspace c = true) ∧
    inp = ws ++ tokenText (getNextTokenFromFile inp).1 ++ (getNextTokenFromFile inp).2

/-- What one call removes in general: characters that are skipped (white space,
`!`, characters of `noRule`), then the text of the token `t`, complete or, for a
literal cut by the end of input, without its closing quote; `rest` is left. -/
def Consumed (inp : List Char) (t : Token) (rest : List Char) : Prop :=
  ∃ skipped text : List Char, inp = skipped ++ text ++ rest ∧
    (∀ c ∈ skipped, isspace c = true ∨ c = '!' ∨ noRule c = true) ∧
    (text = tokenText t ∨
      ((t.type = "STRCON" ∨ t.type = "CHARCON") ∧ text = (tokenText t).dropLast ∧ rest = []))

/-! ## Parser -/

/-- The line `match` writes for a token: `type`, a blank, `value`. -/
def terminalLine (t : Token) : String :=
  t.type ++ " " ++ t.value

/-- The function `match(expectedType)`: writes the current token, then
`currentToken = getToken()`.  The argument is never looked at. -/
def matchToken (_expectedType : String) (s : State) : State :=
  { (getToken { s with outFile := s.outFile ++ [terminalLine s.currentToken] }).2 with
    currentToken := (getToken { s with outFile := s.outFile ++ [terminalLine s.currentToken] }).1 }

/-- The statement `outFile << tag << endl`. -/
def emit (tag : String) (s : State) : State :=
  { s with outFile := s.outFile ++ [tag] }

/-- A piece of parser code acting on the globals; `none` when an iteration
bound is exhausted before it completes. -/
@[reducible]
def Action : Type := State → Option State

/-- The body of a loop: the state it leaves, and `false` if it left by `break`. -/
@[reducible]
def Body : Type := State → Option (State × Bool)

/-- A statement that always completes. -/
def act (f : State → State) : Action :=
  fun s => some (f s)

/-- The call `match()`. -/
def mt : Action :=
  act (matchToken "")

/-- The empty statement. -/
def skip : Action :=
  fun s => some s

/-- Statements in sequence. -/
def seq : List Action → Action
  | [] => fun s => some s
  | a :: as => fun s => (a s).bind (seq as)

/-- The test `currentToken.type == k₁ || ... || currentToken.type == kₙ`. -/
def curIn (kinds : List String) (s : State) : Bool :=
  decide (s.currentToken.type ∈ kinds)

/-- The statement `if (currentToken.type == k₁ || ...) a else b`. -/
def ifCur {α : Type} (kinds : List String) (a b : State → α) : State → α :=
  fun s => if s.currentToken.type ∈ kinds then a s else b s

/-- The declaration `Token next = peekToken(k);` followed by code using `next`. -/
def withPeek {α : Type} (k : Nat) (f : Token → State → α) : State → α :=
  fun s => f (peekToken k s).1 (peekToken k s).2

/-- A loop body that ran to its end: the loop goes on. -/
def go (a : Action) : Body :=
  fun s => (a s).map (fun s1 => (s1, true))

/-- The statement `break`. -/
def brk : Body :=
  fun s => some (s, false)

/-- The loop `while (cond) body`, at most `n` iterations. -/
def whileDo (cond : State → Bool) (body : Body) : Nat → Action
  | 0 => fun _ => none
  | n + 1 => fun s =>
    if cond s then
      (body s).bind (fun r => if r.2 then whileDo cond body n r.1 else some r.1)
    else some s

/-- The parsing procedures. -/
inductive Proc where
  | parseProgram | parseConstDecl | parseConstDef | parseUnsignedInteger | parseInteger
  | parseVarDecl | parseVarDef | parseDeclHead | parseFuncDefWithRet | parseFuncDefVoid
  | parseMainFunc | parseParamTable | parseCompoundStmt | parseStmtList | parseStatement
  | parseAssignStmt | parseCondStmt | parseCondition | parseLoopStmt | parseStep
  | parseScanf | parsePrintf | parseReturnStmt | parseExpression | parseTerm | parseFactor
  | parseFuncCallWithRet | parseFuncCallVoid | parseValueParamTable
deriving DecidableEq, Repr

/-- The tokens that start a statement, as tested by `parseStmtList`. -/
def stmtFirst : List String :=
  ["IFTK", "WHILETK", "DOTK", "FORTK", "LBRACE", "SCANFTK", "PRINTFTK", "RETURNTK",
   "SEMICN", "IDENFR"]

/-- The recursive-descent procedures.  `parse (n + 1) p` is the body of
procedure `p` in which every call and every loop is bounded by `n`; `parse 0 p`
does not complete. -/
def parse : Nat → Proc → Action
  | 0, _ => fun _ => none
  | n + 1, Proc.parseProgram =>
    seq [ifCur ["CONSTTK"] (parse n Proc.parseConstDecl) skip,
      whileDo (curIn ["INTTK", "CHARTK"])
        (withPeek 1 (fun _ => withPeek 2 (fun next2 =>
          if next2.type ≠ "LPARENT" then go (parse n Proc.parseVarDecl) else brk))) n,
      whileDo (curIn ["INTTK", "CHARTK", "VOIDTK"])
        (ifCur ["INTTK", "CHARTK"] (go (parse n Proc.parseFuncDefWithRet))
          (withPeek 1 (fun next =>
            if next.type = "MAINTK" then brk else go (parse n Proc.parseFuncDefVoid)))) n,
      parse n Proc.parseMainFunc,
      act (emit "<程序>")]
  | n + 1, Proc.parseConstDecl =>
    seq [whileDo (curIn ["CONSTTK"]) (go (seq [mt, parse n Proc.parseConstDef, mt])) n,
      act (emit "<常量说明>")]
  | n + 1, Proc.parseConstDef =>
    seq [ifCur ["INTTK"]
        (seq [mt, mt, mt, parse n Proc.parseInteger,
          whileDo (curIn ["COMMA"]) (go (seq [mt, mt, mt, parse n Proc.parseInteger])) n])
        (ifCur ["CHARTK"]
          (seq [mt, mt, mt, mt, whileDo (curIn ["COMMA"]) (go (seq [mt, mt, mt, mt])) n])
          skip),
      act (emit "<常量定义>")]
  | _ + 1, Proc.parseUnsignedInteger =>
    seq [mt, act (emit "<无符号整数>")]
  | n + 1, Proc.parseInteger =>
    seq [ifCur ["PLUS", "MINU"] mt skip, parse n Proc.parseUnsignedInteger,
      act (emit "<整数>")]
  | n + 1, Proc.parseVarDecl =>
    seq [whileDo (curIn ["INTTK", "CHARTK"])
        (withPeek 2 (fun next2 =>
          if next2.type = "LPARENT" then brk else go (seq [parse n Proc.parseVarDef, mt]))) n,
      act (emit "<变量说明>")]
  | n + 1, Proc.parseVarDef =>
    seq [mt, mt,
      ifCur ["LBRACK"] (seq [mt, parse n Proc.parseUnsignedInteger, mt]) skip,
      whileDo (curIn ["COMMA"])
        (go (seq [mt, mt,
          ifCur ["LBRACK"] (seq [mt, parse n Proc.parseUnsignedInteger, mt]) skip])) n,
      act (emit "<变量定义>")]
  | _ + 1, Proc.parseDeclHead =>
    seq [mt, mt, act (emit "<声明头部>")]
  | n + 1, Proc.parseFuncDefWithRet =>
    seq [parse n Proc.parseDeclHead, mt, parse n Proc.parseParamTable, mt, mt,
      parse n Proc.parseCompoundStmt, mt, act (emit "<有返回值函数定义>")]
  | n + 1, Proc.parseFuncDefVoid =>
    seq [mt, mt, mt, parse n Proc.parseParamTable, mt, mt,
      parse n Proc.parseCompoundStmt, mt, act (emit "<无返回值函数定义>")]
  | n + 1, Proc.parseMainFunc =>
    seq [mt, mt, mt, mt, mt, parse n Proc.parseCompoundStmt, mt, act (emit "<主函数>")]
  | n + 1, Proc.parseParamTable =>
    seq [ifCur ["INTTK", "CHARTK"]
        (seq [mt, mt, whileDo (curIn ["COMMA"]) (go (seq [mt, mt, mt])) n]) skip,
      act (emit "<参数表>")]
  | n + 1, Proc.parseCompoundStmt =>
    seq [ifCur ["CONSTTK"] (parse n Proc.parseConstDecl) skip,
      ifCur ["INTTK", "CHARTK"] (parse n Proc.parseVarDecl) skip,
      parse n Proc.parseStmtList,
      act (emit "<复合语句>")]
  | n + 1, Proc.parseStmtList =>
    seq [whileDo (curIn stmtFirst) (go (parse n Proc.parseStatement)) n,
      act (emit "<语句列>")]
  | n + 1, Proc.parseStatement =>
    seq [ifCur ["IFTK"] (parse n Proc.parseCondStmt)
        (ifCur ["WHILETK", "DOTK", "FORTK"] (parse n Proc.parseLoopStmt)
        (ifCur ["LBRACE"] (seq [mt, parse n Proc.parseStmtList, mt])
        (ifCur ["SCANFTK"] (seq [parse n Proc.parseScanf, mt])
        (ifCur ["PRINTFTK"] (seq [parse n Proc.parsePrintf, mt])
        (ifCur ["RETURNTK"] (seq [parse n Proc.parseReturnStmt, mt])
        (ifCur ["SEMICN"] mt
        (ifCur ["IDENFR"]
          (withPeek 1 (fun next =>
            if next.type = "LPARENT" then seq [parse n Proc.parseFuncCallVoid, mt]
            else seq [parse n Proc.parseAssignStmt, mt]))
          skip))))))),
      act (emit "<语句>")]
  | n + 1, Proc.parseAssignStmt =>
    seq [mt, ifCur ["LBRACK"] (seq [mt, parse n Proc.parseExpression, mt]) skip, mt,
      parse n Proc.parseExpression, act (emit "<赋值语句>")]
  | n + 1, Proc.parseCondStmt =>
    seq [mt, mt, parse n Proc.parseCondition, mt, parse n Proc.parseStatement,
      ifCur ["ELSETK"] (seq [mt, parse n Proc.parseStatement]) skip,
      act (emit "<条件语句>")]
  | n + 1, Proc.parseCondition =>
    seq [parse n Proc.parseExpression,
      ifCur ["LSS", "LEQ", "GRE", "GEQ", "EQL", "NEQ"]
        (seq [mt, parse n Proc.parseExpression]) skip,
      act (emit "<条件>")]
  | n + 1, Proc.parseLoopStmt =>
    seq [ifCur ["WHILETK"]
        (seq [mt, mt, parse n Proc.parseCondition, mt, parse n Proc.parseStatement])
        (ifCur ["DOTK"]
          (seq [mt, parse n Proc.parseStatement, mt, mt, parse n Proc.parseCondition, mt])
          (ifCur ["FORTK"]
            (seq [mt, mt, mt, mt, parse n Proc.parseExpression, mt,
              parse n Proc.parseCondition, mt, mt, mt, mt, ifCur ["PLUS"] mt mt,
              parse n Proc.parseStep, mt, parse n Proc.parseStatement])
            skip)),
      act (emit "<循环语句>")]
  | n + 1, Proc.parseStep =>
    seq [parse n Proc.parseUnsignedInteger, act (emit "<步长>")]
  | n + 1, Proc.parseScanf =>
    seq [mt, mt, mt, whileDo (curIn ["COMMA"]) (go (seq [mt, mt])) n, mt,
      act (emit "<读语句>")]
  | n + 1, Proc.parsePrintf =>
    seq [mt, mt,
      ifCur ["STRCON"]
        (seq [mt, act (emit "<字符串>"),
          ifCur ["COMMA"] (seq [mt, parse n Proc.parseExpression]) skip])
        (parse n Proc.parseExpression),
      mt, act (emit "<写语句>")]
  | n + 1, Proc.parseReturnStmt =>
    seq [mt, ifCur ["LPARENT"] (seq [mt, parse n Proc.parseExpression, mt]) skip,
      act (emit "<返回语句>")]
  | n + 1, Proc.parseExpression =>
    seq [ifCur ["PLUS", "MINU"] mt skip, parse n Proc.parseTerm,
      whileDo (curIn ["PLUS", "MINU"]) (go (seq [mt, parse n Proc.parseTerm])) n,
      act (emit "<表达式>")]
  | n + 1, Proc.parseTerm =>
    seq [parse n Proc.parseFactor,
      whileDo (curIn ["MULT", "DIV"]) (go (seq [mt, parse n Proc.parseFactor])) n,
      act (emit "<项>")]
  | n + 1, Proc.parseFactor =>
    seq [ifCur ["IDENFR"]
        (withPeek 1 (fun next =>
          if next.type = "LPARENT" then parse n Proc.parseFuncCallWithRet
          else if next.type = "LBRACK" then seq [mt, mt, parse n Proc.parseExpression, mt]
          else mt))
        (ifCur ["LPARENT"] (seq [mt, parse n Proc.parseExpression, mt])
        (ifCur ["INTCON", "PLUS", "MINU"] (parse n Proc.parseInteger)
        (ifCur ["CHARCON"] mt skip))),
      act (emit "<因子>")]
  | n + 1, Proc.parseFuncCallWithRet =>
    seq [mt, mt, parse n Proc.parseValueParamTable, mt, act (emit "<有返回值函数调用语句>")]
  | n + 1, Proc.parseFuncCallVoid =>
    seq [mt, mt, parse n Proc.parseValueParamTable, mt, act (emit "<无返回值函数调用语句>")]
  | n + 1, Proc.parseValueParamTable =>
    seq [ifCur ["RPARENT"] skip
        (seq [parse n Proc.parseExpression,
          whileDo (curIn ["COMMA"]) (go (seq [mt, parse n Proc.parseExpression])) n]),
      act (emit "<值参数表>")]

/-- The record a procedure writes when it completes. -/
def Proc.tag : Proc → String
  | Proc.parseProgram => "<程序>"
  | Proc.parseConstDecl => "<常量说明>"
  | Proc.parseConstDef => "<常量定义>"
  | Proc.parseUnsignedInteger => "<无符号整数>"
  | Proc.parseInteger => "<整数>"
  | Proc.parseVarDecl => "<变量说明>"
  | Proc.parseVarDef => "<变量定义>"
  | Proc.parseDeclHead => "<声明头部>"
  | Proc.parseFuncDefWithRet => "<有返回值函数定义>"
  | Proc.parseFuncDefVoid => "<无返回值函数定义>"
  | Proc.parseMainFunc => "<主函数>"
  | Proc.parseParamTable => "<参数表>"
  | Proc.parseCompoundStmt => "<复合语句>"
  | Proc.parseStmtList => "<语句列>"
  | Proc.parseStatement => "<语句>"
  | Proc.parseAssignStmt => "<赋值语句>"
  | Proc.parseCondStmt => "<条件语句>"
  | Proc.parseCondition => "<条件>"
  | Proc.parseLoopStmt => "<循环语句>"
  | Proc.parseStep => "<步长>"
  | Proc.parseScanf => "<读语句>"
  | Proc.parsePrintf => "<写语句>"
  | Proc.parseReturnStmt => "<返回语句>"
  | Proc.parseExpression => "<表达式>"
  | Proc.parseTerm => "<项>"
  | Proc.parseFactor => "<因子>"
  | Proc.parseFuncCallWithRet => "<有返回值函数调用语句>"
  | Proc.parseFuncCallVoid => "<无返回值函数调用语句>"
  | Proc.parseValueParamTable => "<值参数表>"

/-- The program `main` after the files are open: `initParser(); parseProgram();`
on the text `inp`, procedures and loops bounded by `n`. -/
def runParser (n : Nat) (inp : List Char) : Option State :=
  parse n Proc.parseProgram (initParser (initState inp))

/-- The tags written below an expression. -/
def exprTags : List String :=
  ["<表达式>", "<项>", "<因子>", "<有返回值函数调用语句>", "<值参数表>", "<整数>", "<无符号整数>"]

/-- The tags written below a statement. -/
def stmtTags : List String :=
  exprTags ++ ["<条件>", "<步长>", "<语句>", "<语句列>", "<条件语句>", "<循环语句>", "<赋值语句>",
    "<读语句>", "<写语句>", "<字符串>", "<返回语句>", "<无返回值函数调用语句>"]

/-- The tags written below a compound statement. -/
def compoundTags : List String :=
  stmtTags ++ ["<常量说明>", "<常量定义>", "<变量说明>", "<变量定义>", "<复合语句>"]

/-- The tags a procedure can write, itself or through the procedures it calls. -/
def mayEmit : Proc → List String
  | Proc.parseProgram =>
    compoundTags ++ ["<声明头部>", "<参数表>", "<有返回值函数定义>", "<无返回值函数定义>",
      "<主函数>", "<程序>"]
  | Proc.parseConstDecl => ["<常量说明>", "<常量定义>", "<整数>", "<无符号整数>"]
  | Proc.parseConstDef => ["<常量定义>", "<整数>", "<无符号整数>"]
  | Proc.parseUnsignedInteger => ["<无符号整数>"]
  | Proc.parseInteger => ["<整数>", "<无符号整数>"]
  | Proc.parseVarDecl => ["<变量说明>", "<变量定义>", "<无符号整数>"]
  | Proc.parseVarDef => ["<变量定义>", "<无符号整数>"]
  | Proc.parseDeclHead => ["<声明头部>"]
  | Proc.parseFuncDefWithRet =>
    compoundTags ++ ["<声明头部>", "<参数表>", "<有返回值函数定义>"]
  | Proc.parseFuncDefVoid => compoundTags ++ ["<参数表>", "<无返回值函数定义>"]
  | Proc.parseMainFunc => compoundTags ++ ["<主函数>"]
  | Proc.parseParamTable => ["<参数表>"]
  | Proc.parseCompoundStmt => compoundTags
  | Proc.parseStmtList => stmtTags
  | Proc.parseStatement => stmtTags
  | Proc.parseAssignStmt => exprTags ++ ["<赋值语句>"]
  | Proc.parseCondStmt => stmtTags
  | Proc.parseCondition => exprTags ++ ["<条件>"]
  | Proc.parseLoopStmt => stmtTags
  | Proc.parseStep => ["<步长>", "<无符号整数>"]
  | Proc.parseScanf => ["<读语句>"]
  | Proc.parsePrintf => exprTags ++ ["<写语句>", "<字符串>"]
  | Proc.parseReturnStmt => exprTags ++ ["<返回语句>"]
  | Proc.parseExpression => exprTags
  | Proc.parseTerm => exprTags
  | Proc.parseFactor => exprTags
  | Proc.parseFuncCallWithRet => exprTags
  | Proc.parseFuncCallVoid => exprTags ++ ["<无返回值函数调用语句>"]
  | Proc.parseValueParamTable => exprTags

/-- The relation `R` holds between the state before and the state after every
completed run of `a`. -/
def Pres (R : State → State → Prop) (a : Action) : Prop :=
  ∀ s s1, a s = some s1 → R s s1

/-- The relation `R` holds between the state before and the state after every
completed run of the loop body `b`. -/
def PresB (R : State → State → Prop) (b : Body) : Prop :=
  ∀ s s1 f, b s = some (s1, f) → R s s1

/-- A relation between states that is reflexive, transitive and holds across
`match`, across `peekToken` and across writing a tag allowed by `T`. -/
structure Closed (R : State → State → Prop) (T : String → Prop) : Prop where
  refl : ∀ s, R s s
  trans : ∀ a b c, R a b → R b c → R a c
  onMatch : ∀ e s, R s (matchToken e s)
  onPeek : ∀ k s, 1 ≤ k → R s (peekToken k s).2
  onEmit : ∀ t s, T t → R s (emit t s)

/-- Nothing is left to parse: the current token is end-of-input, no token is
buffered ahead of the cursor and the tokenizer answers end-of-input. -/
@[reducible]
def atEnd (s : State) : Prop :=
  s.currentToken.type = "EOF" ∧ s.tokenBuffer.length ≤ s.bufferIndex ∧
    (getNextTokenFromFile s.inFile).1.type = "EOF"

/-- A bound on what is left to parse: `0` at the end, otherwise one more than
twice the unread characters and buffered tokens, plus one for a current token
that is not end-of-input.  Every `match` away from the end lowers it. -/
def work (s : State) : Nat :=
  if atEnd s then 0
  else 2 * (s.inFile.length + (s.tokenBuffer.length - s.bufferIndex)) +
    (if s.currentToken.type = "EOF" then 0 else 1) + 1

/-- Started at the end of input, `a` completes and leaves the state at the end
of input. -/
def TmEnd (a : Action) : Prop :=
  ∀ s, atEnd s → ∃ s1, a s = some s1 ∧ atEnd s1

/-- Depth of the calls a procedure makes when it is started at the end of
input. -/
def rankEnd : Proc → Nat
  | Proc.parseProgram => 3
  | Proc.parseInteger => 1
  | Proc.parseFuncDefWithRet => 2
  | Proc.parseFuncDefVoid => 2
  | Proc.parseMainFunc => 2
  | Proc.parseCompoundStmt => 1
  | Proc.parseAssignStmt => 3
  | Proc.parseCondStmt => 4
  | Proc.parseCondition => 3
  | Proc.parseStep => 1
  | Proc.parsePrintf => 3
  | Proc.parseExpression => 2
  | Proc.parseTerm => 1
  | Proc.parseFuncCallWithRet => 4
  | Proc.parseFuncCallVoid => 4
  | Proc.parseValueParamTable => 3
  | _ => 0

/-- What is left to parse does not grow. -/
@[reducible]
def Rw : State → State → Prop :=
  fun s s1 => work s1 ≤ work s

/-- What is left to parse shrinks, unless nothing was left. -/
@[reducible]
def Rs : State → State → Prop :=
  fun s s1 => work s1 ≤ work s - 1

/-- The relation `R` holds across every completed run of `a` started with a
current token whose type satisfies `P`. -/
def PresIf (P : String → Prop) (R : State → State → Prop) (a : Action) : Prop :=
  ∀ s s1, P s.currentToken.type → a s = some s1 → R s s1

/-- The procedures whose body starts with `match()`. -/
def startsWithMatch : Proc → Bool
  | Proc.parseUnsignedInteger => true
  | Proc.parseVarDef => true
  | Proc.parseDeclHead => true
  | Proc.parseFuncDefVoid => true
  | Proc.parseMainFunc => true
  | Proc.parseAssignStmt => true
  | Proc.parseCondStmt => true
  | Proc.parseScanf => true
  | Proc.parsePrintf => true
  | Proc.parseReturnStmt => true
  | Proc.parseFuncCallWithRet => true
  | Proc.parseFuncCallVoid => true
  | _ => false

/-- Started with at most `B` left to parse, `a` completes and does not
increase what is left. -/
def Tm (B : Nat) (a : Action) : Prop :=
  ∀ s, work s ≤ B → ∃ s1, a s = some s1 ∧ work s1 ≤ work s

/-- Depth of the calls a procedure makes before it has matched a token. -/
def rankCall : Proc → Nat
  | Proc.parseProgram => 2
  | Proc.parseInteger => 1
  | Proc.parseVarDecl => 1
  | Proc.parseFuncDefWithRet => 1
  | Proc.parseCompoundStmt => 3
  | Proc.parseStmtList => 2
  | Proc.parseStatement => 1
  | Proc.parseCondition => 5
  | Proc.parseStep => 1
  | Proc.parseExpression => 4
  | Proc.parseTerm => 3
  | Proc.parseFactor => 2
  | Proc.parseValueParamTable => 5
  | _ => 0

/-- A bound that lets procedure `p` complete when at most `B` is left to parse. -/
def fuelBound (B : Nat) (p : Proc) : Nat :=
  if B = 0 then rankEnd p + 1 else 8 * B + rankCall p

/-- Every completed run of `a` is a completed run of `b` with the same result. -/
def Le (a b : Action) : Prop :=
  ∀ s s1, a s = some s1 → b s = some s1

/-- Every completed run of the loop body `a` is one of `b` with the same result. -/
def LeB (a b : Body) : Prop :=
  ∀ s r, a s = some r → b s = some r

/-- The output grew by records that are lines written by `match` or tags
allowed by `T`. -/
def Out (T : String → Prop) (s s1 : State) : Prop :=
  ∃ recs : List String, s1.outFile = s.outFile ++ recs ∧
    ∀ r ∈ recs, (∃ t : Token, r = terminalLine t) ∨ T r

/-- The tags that can be written inside an invocation of a procedure before its
own record: those of the procedures it calls, and `<字符串>` for
`parsePrintf`. -/
def nestedTags : Proc → List String
  | Proc.parseProgram =>
    compoundTags ++ ["<声明头部>", "<参数表>", "<有返回值函数定义>", "<无返回值函数定义>",
      "<主函数>"]
  | Proc.parseConstDecl => ["<常量定义>", "<整数>", "<无符号整数>"]
  | Proc.parseConstDef => ["<整数>", "<无符号整数>"]
  | Proc.parseUnsignedInteger => []
  | Proc.parseInteger => ["<无符号整数>"]
  | Proc.parseVarDecl => ["<变量定义>", "<无符号整数>"]
  | Proc.parseVarDef => ["<无符号整数>"]
  | Proc.parseDeclHead => []
  | Proc.parseFuncDefWithRet => compoundTags ++ ["<声明头部>", "<参数表>"]
  | Proc.parseFuncDefVoid => compoundTags ++ ["<参数表>"]
  | Proc.parseMainFunc => compoundTags
  | Proc.parseParamTable => []
  | Proc.parseCompoundStmt =>
    stmtTags ++ ["<常量说明>", "<常量定义>", "<变量说明>", "<变量定义>"]
  | Proc.parseStmtList => stmtTags
  | Proc.parseStatement => stmtTags
  | Proc.parseAssignStmt => exprTags
  | Proc.parseCondStmt => stmtTags
  | Proc.parseCondition => exprTags
  | Proc.parseLoopStmt => stmtTags
  | Proc.parseStep => ["<无符号整数>"]
  | Proc.parseScanf => []
  | Proc.parsePrintf => exprTags ++ ["<字符串>"]
  | Proc.parseReturnStmt => exprTags
  | Proc.parseExpression => exprTags
  | Proc.parseTerm => exprTags
  | Proc.parseFactor => exprTags
  | Proc.parseFuncCallWithRet => exprTags
  | Proc.parseFuncCallVoid => exprTags
  | Proc.parseValueParamTable => exprTags

/-- The procedures that can be entered again below themselves: the statement
procedures that contain statements and the expression procedures. -/
def selfNesting : List Proc :=
  [Proc.parseStmtList, Proc.parseStatement, Proc.parseCondStmt, Proc.parseLoopStmt,
    Proc.parseExpression, Proc.parseTerm, Proc.parseFactor, Proc.parseFuncCallWithRet,
    Proc.parseValueParamTable]

/-- The tokens the parser meets from a state on: the current token, then the
pending stream. -/
def upcoming (s : State) : Nat → Token
  | 0 => s.currentToken
  | i + 1 => pending s i

/-- The lines of a trace written by `match`: they hold a blank, which no tag does. -/
def terminals (out : List String) : List String :=
  out.filter (fun l => decide (' ' ∈ l.data))

/-- The first `j` tokens returned by successive `getNextTokenFromFile` calls on a
text, end-of-input tokens included. -/
def firstTokens (j : Nat) (inp : List Char) : List Token :=
  (List.range j).map (fun i => nthFromFile i inp)

/-- The parser has matched the next `j` upcoming tokens, for some `j`, and
written their lines in this order; the buffer invariant is kept. -/
def Adv (s s1 : State) : Prop :=
  BufferOk s → BufferOk s1 ∧ ∃ j : Nat,
    terminals s1.outFile =
      terminals s.outFile ++ (List.range j).map (fun i => terminalLine (upcoming s i)) ∧
    ∀ i, upcoming s1 i = upcoming s (i + j)

/-- The text of the scenario `int a; void main ( ) { a = 1 ; }`. -/
def scenarioText : List Char :=
  "int a; void main ( ) \x7b a = 1 ; \x7d".toList

/-- The trace of the scenario, line by line. -/
def scenarioTrace : List String :=
  ["INTTK int", "IDENFR a", "<变量定义>", "SEMICN ;", "<变量说明>", "VOIDTK void",
    "MAINTK main", "LPARENT (", "RPARENT )", "LBRACE \x7b", "IDENFR a", "ASSIGN =", "INTCON 1",
    "<无符号整数>", "<整数>", "<因子>", "<项>", "<表达式>", "<赋值语句>", "SEMICN ;", "<语句>",
    "<语句列>", "<复合语句>", "RBRACE \x7d", "<主函数>", "<程序>"]

/-- The tags of the 29 nonterminals of the grammar, in the order of the
interface description: program, constant declaration block, constant
definition, unsigned integer, signed integer, variable declaration block, variable
definition, declaration head, value-returning function definition, void
function definition, entry function, parameter table, compound statement,
statement list, statement, assignment, conditional, condition, loop, step,
read, write, return, expression, term, factor, value-returning call, void call,
argument table. -/
def grammarTags : List String :=
  ["<程序>", "<常量说明>", "<常量定义>", "<无符号整数>", "<整数>", "<变量说明>", "<变量定义>",
    "<声明头部>", "<有返回值函数定义>", "<无返回值函数定义>", "<主函数>", "<参数表>",
    "<复合语句>", "<语句列>", "<语句>", "<赋值语句>", "<条件语句>", "<条件>", "<循环语句>",
    "<步长>", "<读语句>", "<写语句>", "<返回语句>", "<表达式>", "<项>", "<因子>",
    "<有返回值函数调用语句>", "<无返回值函数调用语句>", "<值参数表>"]

/-- The text `printf ( "hi" )`. -/
def printfText : List Char :=
  "printf ( ".toList ++ dquote :: "hi".toList ++ dquote :: " )".toList

/-- The function `getToken` with the element access checked: `none` if
`tokenBuffer[bufferIndex]` is read outside the vector. -/
def getTokenChecked (s : State) : Option (Token × State) :=
  if s.bufferIndex < s.tokenBuffer.length then
    (s.tokenBuffer[s.bufferIndex]?).map
      (fun t => (t, { s with bufferIndex := s.bufferIndex + 1 }))
  else
    some ((getNextTokenFromFile s.inFile).1,
      { s with inFile := (getNextTokenFromFile s.inFile).2 })

/-- The loop and final `return` of `peekToken` with the element access checked:
`none` if `tokenBuffer[idx]` is read outside the vector. -/
def peekTokenLoopChecked (idx : Nat) : Nat → State → Option (Token × State)
  | 0, s => (s.tokenBuffer[idx]?).map (fun t => (t, s))
  | fuel + 1, s =>
    if s.tokenBuffer.length ≤ idx then
      if (getNextTokenFromFile s.inFile).1.type = "EOF" then
        some ((getNextTokenFromFile s.inFile).1,
          { s with inFile := (getNextTokenFromFile s.inFile).2 })
      else
        peekTokenLoopChecked idx fuel
          { s with inFile := (getNextTokenFromFile s.inFile).2,
                   tokenBuffer := s.tokenBuffer ++ [(getNextTokenFromFile s.inFile).1] }
    else (s.tokenBuffer[idx]?).map (fun t => (t, s))

/-- The function `peekToken(k)` with the element access checked. -/
def peekTokenChecked (k : Nat) (s : State) : Option (Token × State) :=
  peekTokenLoopChecked (peekIndex s.bufferIndex k)
    (peekIndex s.bufferIndex k + 1 - s.tokenBuffer.length) s

/-- The first loop of `parseProgram`: while the current token is `int` or
`char`, look two tokens ahead; run `parseVarDecl` unless that token is `(`,
in which case leave the loop. -/
def programVarLoop (n : Nat) : Action :=
  whileDo (curIn ["INTTK", "CHARTK"])
    (withPeek 1 (fun _ => withPeek 2 (fun next2 =>
      if next2.type ≠ "LPARENT" then go (parse n Proc.parseVarDecl) else brk))) n

/-- The second loop of `parseProgram`: the function definitions before the
entry function. -/
def programFuncLoop (n : Nat) : Action :=
  whileDo (curIn ["INTTK", "CHARTK", "VOIDTK"])
    (ifCur ["INTTK", "CHARTK"] (go (parse n Proc.parseFuncDefWithRet))
      (withPeek 1 (fun next =>
        if next.type = "MAINTK" then brk else go (parse n Proc.parseFuncDefVoid)))) n

/-- The bound of the claim on the buffer: `bufferIndex ≤ tokenBuffer.size()` and
at most two tokens buffered ahead of the cursor
(`tokenBuffer.size() - bufferIndex ≤ 2`). -/
@[reducible]
def Lookahead2 (s : State) : Prop :=
  s.bufferIndex ≤ s.tokenBuffer.length ∧ s.tokenBuffer.length ≤ s.bufferIndex + 2

/-- One operation of the parser on the globals: `initParser`, `match`,
`peekToken(1)`, `peekToken(2)`, or writing a record. -/
def ParserStep (s t : State) : Prop :=
  t = initParser s ∨ (∃ e : String, t = matchToken e s) ∨ t = (peekToken 1 s).2 ∨
    t = (peekToken 2 s).2 ∨ ∃ tag : String, t = emit tag s

/-- A relation between states that is reflexive, transitive and holds across
`match`, across `peekToken(k)` for `1 ≤ k ≤ K`, and across writing a tag allowed
by `T`. -/
structure ClosedUpTo (K : Nat) (R : State → State → Prop) (T : String → Prop) : Prop where
  refl : ∀ s, R s s
  trans : ∀ a b c, R a b → R b c → R a c
  onMatch : ∀ e s, R s (matchToken e s)
  onPeek : ∀ k s, 1 ≤ k → k ≤ K → R s (peekToken k s).2
  onEmit : ∀ t s, T t → R s (emit t s)

/-- The statements the parsing procedures are made of: `match()`, writing a
record, a call, sequence, `if` on the type of the current token,
`Token t = peekToken(k)` followed by code that may test `t`, `while` on the
type of the current token, `break`. -/
inductive Code where
  | mt : Code
  | emit : String → Code
  | call : Proc → Code
  | skip : Code
  | seq : Code → Code → Code
  | ifCur : List String → Code → Code → Code
  | peek : Nat → (Token → Code) → Code
  | loop : List String → Code → Code
  | brk : Code

/-- A sequence of statements. -/
def Code.seqs : List Code → Code
  | [] => Code.skip
  | c :: cs => Code.seq c (Code.seqs cs)

/-- Execution of a statement with bound `n` on calls and loops; the flag of the
result is `false` when a `break` was executed. -/
def exec (n : Nat) : Code → Body
  | Code.mt => go mt
  | Code.emit t => go (act (emit t))
  | Code.call p => go (parse n p)
  | Code.skip => go skip
  | Code.seq a b => fun s => (exec n a s).bind (fun r => if r.2 then exec n b r.1 else some r)
  | Code.ifCur kinds a b => ifCur kinds (exec n a) (exec n b)
  | Code.peek k f => withPeek k (fun t => exec n (f t))
  | Code.loop kinds b => go (whileDo (curIn kinds) (exec n b) n)
  | Code.brk => brk

/-- The bodies of the parsing procedures, statement by statement. -/
def code : Proc → Code
  | Proc.parseProgram =>
    .seqs [.ifCur ["CONSTTK"] (.call Proc.parseConstDecl) .skip,
      .loop ["INTTK", "CHARTK"]
        (.peek 1 (fun _ => .peek 2 (fun next2 =>
          if next2.type ≠ "LPARENT" then (.call Proc.parseVarDecl) else .brk))),
      .loop ["INTTK", "CHARTK", "VOIDTK"]
        (.ifCur ["INTTK", "CHARTK"] (.call Proc.parseFuncDefWithRet)
          (.peek 1 (fun next =>
            if next.type = "MAINTK" then .brk else (.call Proc.parseFuncDefVoid)))),
      .call Proc.parseMainFunc,
      .emit "<程序>"]
  | Proc.parseConstDecl =>
    .seqs [.loop ["CONSTTK"] (.seqs [.mt, .call Proc.parseConstDef, .mt]),
      .emit "<常量说明>"]
  | Proc.parseConstDef =>
    .seqs [.ifCur ["INTTK"]
        (.seqs [.mt, .mt, .mt, .call Proc.parseInteger,
          .loop ["COMMA"] (.seqs [.mt, .mt, .mt, .call Proc.parseInteger])])
        (.ifCur ["CHARTK"]
          (.seqs [.mt, .mt, .mt, .mt, .loop ["COMMA"] (.seqs [.mt, .mt, .mt, .mt])])
          .skip),
      .emit "<常量定义>"]
  | Proc.parseUnsignedInteger =>
    .seqs [.mt, .emit "<无符号整数>"]
  | Proc.parseInteger =>
    .seqs [.ifCur ["PLUS", "MINU"] .mt .skip, .call Proc.parseUnsignedInteger,
      .emit "<整数>"]
  | Proc.parseVarDecl =>
    .seqs [.loop ["INTTK", "CHARTK"]
        (.peek 2 (fun next2 =>
          if next2.type = "LPARENT" then .brk else (.seqs [.call Proc.parseVarDef, .mt]))),
      .emit "<变量说明>"]
  | Proc.parseVarDef =>
    .seqs [.mt, .mt,
      .ifCur ["LBRACK"] (.seqs [.mt, .call Proc.parseUnsignedInteger, .mt]) .skip,
      .loop ["COMMA"]
        (.seqs [.mt, .mt,
          .ifCur ["LBRACK"] (.seqs [.mt, .call Proc.parseUnsignedInteger, .mt]) .skip]),
      .emit "<变量定义>"]
  | Proc.parseDeclHead =>
    .seqs [.mt, .mt, .emit "<声明头部>"]
  | Proc.parseFuncDefWithRet =>
    .seqs [.call Proc.parseDeclHead, .mt, .call Proc.parseParamTable, .mt, .mt,
      .call Proc.parseCompoundStmt, .mt, .emit "<有返回值函数定义>"]
  | Proc.parseFuncDefVoid =>
    .seqs [.mt, .mt, .mt, .call Proc.parseParamTable, .mt, .mt,
      .call Proc.parseCompoundStmt, .mt, .emit "<无返回值函数定义>"]
  | Proc.parseMainFunc =>
    .seqs [.mt, .mt, .mt, .mt, .mt, .call Proc.parseCompoundStmt, .mt, .emit "<主函数>"]
  | Proc.parseParamTable =>
    .seqs [.ifCur ["INTTK", "CHARTK"]
        (.seqs [.mt, .mt, .loop ["COMMA"] (.seqs [.mt, .mt, .mt])]) .skip,
      .emit "<参数表>"]
  | Proc.parseCompoundStmt =>
    .seqs [.ifCur ["CONSTTK"] (.call Proc.parseConstDecl) .skip,
      .ifCur ["INTTK", "CHARTK"] (.call Proc.parseVarDecl) .skip,
      .call Proc.parseStmtList,
      .emit "<复合语句>"]
  | Proc.parseStmtList =>
    .seqs [.loop stmtFirst (.call Proc.parseStatement),
      .emit "<语句列>"]
  | Proc.parseStatement =>
    .seqs [.ifCur ["IFTK"] (.call Proc.parseCondStmt)
        (.ifCur ["WHILETK", "DOTK", "FORTK"] (.call Proc.parseLoopStmt)
        (.ifCur ["LBRACE"] (.seqs [.mt, .call Proc.parseStmtList, .mt])
        (.ifCur ["SCANFTK"] (.seqs [.call Proc.parseScanf, .mt])
        (.ifCur ["PRINTFTK"] (.seqs [.call Proc.parsePrintf, .mt])
        (.ifCur ["RETURNTK"] (.seqs [.call Proc.parseReturnStmt, .mt])
        (.ifCur ["SEMICN"] .mt
        (.ifCur ["IDENFR"]
          (.peek 1 (fun next =>
            if next.type = "LPARENT" then .seqs [.call Proc.parseFuncCallVoid, .mt]
            else .seqs [.call Proc.parseAssignStmt, .mt]))
          .skip))))))),
      .emit "<语句>"]
  | Proc.parseAssignStmt =>
    .seqs [.mt, .ifCur ["LBRACK"] (.seqs [.mt, .call Proc.parseExpression, .mt]) .skip, .mt,
      .call Proc.parseExpression, .emit "<赋值语句>"]
  | Proc.parseCondStmt =>
    .seqs [.mt, .mt, .call Proc.parseCondition, .mt, .call Proc.parseStatement,
      .ifCur ["ELSETK"] (.seqs [.mt, .call Proc.parseStatement]) .skip,
      .emit "<条件语句>"]
  | Proc.parseCondition =>
    .seqs [.call Proc.parseExpression,
      .ifCur ["LSS", "LEQ", "GRE", "GEQ", "EQL", "NEQ"]
        (.seqs [.mt, .call Proc.parseExpression]) .skip,
      .emit "<条件>"]
  | Proc.parseLoopStmt =>
    .seqs [.ifCur ["WHILETK"]
        (.seqs [.mt, .mt, .call Proc.parseCondition, .mt, .call Proc.parseStatement])
        (.ifCur ["DOTK"]
          (.seqs [.mt, .call Proc.parseStatement, .mt, .mt, .call Proc.parseCondition, .mt])
          (.ifCur ["FORTK"]
            (.seqs [.mt, .mt, .mt, .mt, .call Proc.parseExpression, .mt,
              .call Proc.parseCondition, .mt, .mt, .mt, .mt, .ifCur ["PLUS"] .mt .mt,
              .call Proc.parseStep, .mt, .call Proc.parseStatement])
            .skip)),
      .emit "<循环语句>"]
  | Proc.parseStep =>
    .seqs [.call Proc.parseUnsignedInteger, .emit "<步长>"]
  | Proc.parseScanf =>
    .seqs [.mt, .mt, .mt, .loop ["COMMA"] (.seqs [.mt, .mt]), .mt,
      .emit "<读语句>"]
  | Proc.parsePrintf =>
    .seqs [.mt, .mt,
      .ifCur ["STRCON"]
        (.seqs [.mt, .emit "<字符串>",
          .ifCur ["COMMA"] (.seqs [.mt, .call Proc.parseExpression]) .skip])
        (.call Proc.parseExpression),
      .mt, .emit "<写语句>"]
  | Proc.parseReturnStmt =>
    .seqs [.mt, .ifCur ["LPARENT"] (.seqs [.mt, .call Proc.parseExpression, .mt]) .skip,
      .emit "<返回语句>"]
  | Proc.parseExpression =>
    .seqs [.ifCur ["PLUS", "MINU"] .mt .skip, .call Proc.parseTerm,
      .loop ["PLUS", "MINU"] (.seqs [.mt, .call Proc.parseTerm]),
      .emit "<表达式>"]
  | Proc.parseTerm =>
    .seqs [.call Proc.parseFactor,
      .loop ["MULT", "DIV"] (.seqs [.mt, .call Proc.parseFactor]),
      .emit "<项>"]
  | Proc.parseFactor =>
    .seqs [.ifCur ["IDENFR"]
        (.peek 1 (fun next =>
          if next.type = "LPARENT" then .call Proc.parseFuncCallWithRet
          else if next.type = "LBRACK" then .seqs [.mt, .mt, .call Proc.parseExpression, .mt]
          else .mt))
        (.ifCur ["LPARENT"] (.seqs [.mt, .call Proc.parseExpression, .mt])
        (.ifCur ["INTCON", "PLUS", "MINU"] (.call Proc.parseInteger)
        (.ifCur ["CHARCON"] .mt .skip))),
      .emit "<因子>"]
  | Proc.parseFuncCallWithRet =>
    .seqs [.mt, .mt, .call Proc.parseValueParamTable, .mt, .emit "<有返回值函数调用语句>"]
  | Proc.parseFuncCallVoid =>
    .seqs [.mt, .mt, .call Proc.parseValueParamTable, .mt, .emit "<无返回值函数调用语句>"]
  | Proc.parseValueParamTable =>
    .seqs [.ifCur ["RPARENT"] .skip
        (.seqs [.call Proc.parseExpression,
          .loop ["COMMA"] (.seqs [.mt, .call Proc.parseExpression])]),
      .emit "<值参数表>"]

/-- The statement `c` does what the action `a` does and never breaks. -/
def Sim (n : Nat) (a : Action) (c : Code) : Prop :=
  exec n c = go a

/-- The statement `c` does what the loop body `b` does. -/
def SimB (n : Nat) (b : Body) (c : Code) : Prop :=
  exec n c = b

/-- The loop `while (type of the current token ∈ kinds) body` occurs in the
statement. -/
def Code.hasLoop : Code → List String → Code → Prop
  | Code.seq a b, k, x => a.hasLoop k x ∨ b.hasLoop k x
  | Code.ifCur _ a b, k, x => a.hasLoop k x ∨ b.hasLoop k x
  | Code.peek _ f, k, x => ∃ t, (f t).hasLoop k x
  | Code.loop k0 b, k, x => (k = k0 ∧ x = b) ∨ b.hasLoop k x
  | _, _, _ => False

/-- A call `peekToken(j)` occurs in the statement. -/
def Code.hasPeek : Code → Nat → Prop
  | Code.seq a b, j => a.hasPeek j ∨ b.hasPeek j
  | Code.ifCur _ a b, j => a.hasPeek j ∨ b.hasPeek j
  | Code.peek k f, j => j = k ∨ ∃ t, (f t).hasPeek j
  | Code.loop _ b, j => b.hasPeek j
  | _, _ => False

/-- The statement can be passed without a `match()` of its own text being
executed (a call counts as possibly matching nothing). -/
def Code.mayPass : Code → Prop
  | Code.mt => False
  | Code.seq a b => a.mayPass ∧ b.mayPass
  | Code.ifCur _ a b => a.mayPass ∨ b.mayPass
  | Code.peek _ f => ∃ t, (f t).mayPass
  | _ => True

/-- The statement can call procedure `q` before any `match()` of its own text
has been executed. -/
def Code.callsFirst : Code → Proc → Prop
  | Code.call p, q => q = p
  | Code.seq a b, q => a.callsFirst q ∨ (a.mayPass ∧ b.callsFirst q)
  | Code.ifCur _ a b, q => a.callsFirst q ∨ b.callsFirst q
  | Code.peek _ f, q => ∃ t, (f t).callsFirst q
  | Code.loop _ b, q => b.callsFirst q
  | _, _ => False

/-- The statement calls procedure `q` when it is executed with the current
token at end-of-input throughout: tests on the type of the current token are
decided by `"EOF"`, and `peekToken` answers the end-of-input token. -/
def Code.callsAtEnd : Code → Proc → Prop
  | Code.call p, q => q = p
  | Code.seq a b, q => a.callsAtEnd q ∨ b.callsAtEnd q
  | Code.ifCur kinds a b, q => ("EOF" ∈ kinds ∧ a.callsAtEnd q) ∨ ("EOF" ∉ kinds ∧ b.callsAtEnd q)
  | Code.peek _ f, q => (f eofToken).callsAtEnd q
  | Code.loop kinds b, q => "EOF" ∈ kinds ∧ b.callsAtEnd q
  | _, _ => False

/-- The run from `s` to `s1` has matched the token that was current in `s`: the
first line it wrote is the line of that token. -/
def Consumes (s s1 : State) : Prop :=
  ∃ recs : List String, s1.outFile = s.outFile ++ terminalLine s.currentToken :: recs

/-- Every iteration of the statement `c` that is started with a current token
whose type satisfies `P`, and that does not break, matches that token. -/
def EatsC (P : String → Prop) (n : Nat) (c : Code) : Prop :=
  ∀ s r, P s.currentToken.type → exec n c s = some (r, true) → Consumes s r

/-- The output only grows. -/
@[reducible]
def Grows : State → State → Prop :=
  fun s s1 => s.outFile <+: s1.outFile

/-- The value `getNextChar` returns when the read fails: `EOF` converted to
`char`, the byte 255 (`char` is signed, so this byte compares equal to `EOF`). -/
def eofChar : Char := Char.ofNat 255

/-- The input stream of the standalone lexer: the characters not yet read, and
whether a read has failed (`failbit`). -/
structure CharSource where
  rest : List Char
  failed : Bool
deriving DecidableEq, Repr

/-- The function `getNextChar`: the character read by `inFile.get(c)`, or
`eofChar` when the read fails. -/
def getNextChar (f : CharSource) : Char × CharSource :=
  if f.failed then (eofChar, f)
  else
    match f.rest with
    | [] => (eofChar, { f with failed := true })
    | c :: r => (c, { f with rest := r })

/-- The function `ungetChar`, that is `inFile.unget()`: puts back the character
read last, which at every call is the argument `c`; does nothing on a stream
whose last read failed. -/
def ungetChar (c : Char) (f : CharSource) : CharSource :=
  if f.failed then f else { f with rest := c :: f.rest }

/-- The loop `while ((ch = getNextChar()) != EOF && p(ch)) text += ch;`: the
text collected, the character on which the loop stopped and the stream. -/
def scanWhile (p : Char → Bool) : Nat → CharSource → List Char × Char × CharSource
  | 0, f => ([], eofChar, f)
  | n + 1, f =>
    if (getNextChar f).1 != eofChar && p (getNextChar f).1 then
      ((getNextChar f).1 :: (scanWhile p n (getNextChar f).2).1,
        (scanWhile p n (getNextChar f).2).2)
    else ([], (getNextChar f).1, (getNextChar f).2)

/-- The two-character test of `analyze` for `<`, `>`, `=`: the line written and
the stream, `nextCh` being put back when it is not `=`. -/
def analyzeOperator (two one : String) (f : CharSource) : String × CharSource :=
  if (getNextChar f).1 == '=' then (two, (getNextChar f).2)
  else (one, ungetChar (getNextChar f).1 (getNextChar f).2)

/-- The `while` loop of `analyze`, at most `n` iterations: the lines written. -/
def analyzeLoop : Nat → CharSource → List String
  | 0, _ => []
  | n + 1, f =>
    let ch := (getNextChar f).1
    let f1 := (getNextChar f).2
    if ch == eofChar then []
    else if isspace ch then analyzeLoop n f1
    else if isalpha ch || ch == '_' then
      let r := scanWhile identChar (f1.rest.length + 1) f1
      let token := String.mk (ch :: r.1)
      (identType token ++ " " ++ token) ::
        analyzeLoop n (if r.2.1 != eofChar then ungetChar r.2.1 r.2.2 else r.2.2)
    else if isdigit ch then
      let r := scanWhile isdigit (f1.rest.length + 1) f1
      ("INTCON" ++ " " ++ String.mk (ch :: r.1)) ::
        analyzeLoop n (if r.2.1 != eofChar then ungetChar r.2.1 r.2.2 else r.2.2)
    else if ch == dquote then
      let r := scanWhile (fun c => c != dquote) (f1.rest.length + 1) f1
      ("STRCON" ++ " " ++ String.mk r.1) :: analyzeLoop n r.2.2
    else if ch == squote then
      let r := scanWhile (fun c => c != squote) (f1.rest.length + 1) f1
      ("CHARCON" ++ " " ++ String.mk r.1) :: analyzeLoop n r.2.2
    else if ch == '<' then
      (analyzeOperator "LEQ <=" "LSS <" f1).1 :: analyzeLoop n (analyzeOperator "LEQ <=" "LSS <" f1).2
    else if ch == '>' then
      (analyzeOperator "GEQ >=" "GRE >" f1).1 :: analyzeLoop n (analyzeOperator "GEQ >=" "GRE >" f1).2
    else if ch == '=' then
      (analyzeOperator "EQL ==" "ASSIGN =" f1).1 ::
        analyzeLoop n (analyzeOperator "EQL ==" "ASSIGN =" f1).2
    else if ch == '!' then
      if (getNextChar f1).1 == '=' then "NEQ !=" :: analyzeLoop n (getNextChar f1).2
      else analyzeLoop n (ungetChar (getNextChar f1).1 (getNextChar f1).2)
    else if getSingleCharToken ch != "" then
      (getSingleCharToken ch ++ " " ++ String.mk [ch]) :: analyzeLoop n f1
    else analyzeLoop n f1

/-- The function `analyze` of the standalone lexer on the text `inp`: the lines
it writes.  Every iteration reads at least one character, so `inp.length + 1`
iterations suffice. -/
def analyze (inp : List Char) : List String :=
  analyzeLoop (inp.length + 1) ⟨inp, false⟩

/-- The stream is in a state the program can be in: a read has failed only
when nothing was left. -/
@[reducible]
def GoodSource (f : CharSource) : Prop :=
  f.failed = true → f.rest = []

/-- The text is ASCII. -/
@[reducible]
def Ascii (inp : List Char) : Prop :=
  ∀ c ∈ inp, c.toNat < 128

/-- The capacity `MAX_STATES` of a state set. -/
def MAX_STATES : Nat := 100

/-- The type `StateSet` of `实验一.c`: the names `items[0]`, ..., `items[count-1]`
(`count` is the length of the list).  A name is a string shorter than
`MAX_NAME_LEN`. -/
@[reducible]
def StateSet : Type := List String

/-- The type `Transition`: one rule of the automaton; `input_char = '~'` stands
for the empty word. -/
structure Transition where
  src : String
  input_char : Char
  dst : String
deriving DecidableEq, Repr

/-- The library function `strcmp` on the characters of two strings, by the
sign the C standard prescribes: `0` when they are equal, otherwise negative or
positive as the first character that differs is smaller or greater in the
first string, the end of a string being smaller than every character. -/
def strcmpChars : List Char → List Char → Int
  | [], [] => 0
  | [], _ :: _ => -1
  | _ :: _, [] => 1
  | a :: as, b :: bs =>
    if a = b then strcmpChars as bs else if a.toNat < b.toNat then -1 else 1

/-- The library function `strcmp`. -/
def strcmp (a b : String) : Int :=
  strcmpChars a.data b.data

/-- The function `is_in_set`: some `items[i]` with `i < count` compares equal to
`name`. -/
def is_in_set (set : StateSet) (name : String) : Bool :=
  set.any (fun item => strcmp item name == 0)

/-- The function `add_to_set`: nothing if `name` is already there, otherwise
`strcpy(set->items[set->count], name); set->count++`, which writes outside the
array when `count` has reached `MAX_STATES`: `none`. -/
def add_to_set (set : StateSet) (name : String) : Option StateSet :=
  if set.any (fun item => strcmp item name == 0) then some set
  else if set.length < MAX_STATES then some (set ++ [name])
  else none

/-- The function `copy_set`. -/
def copy_set (src : StateSet) : StateSet := src

/-- The function `sort_set`: `qsort` with `strcmp` as comparison.  The result
of `qsort` is the rearrangement in ascending order, computed here by
insertion. -/
def sort_set (set : StateSet) : StateSet :=
  set.insertionSort (fun a b => strcmp a b ≤ 0)

/-- The loop over `k` of `get_closure` for the state `curr`: each rule
`curr -~-> dst` whose `dst` is not yet in `result` adds it and sets
`changed`. -/
def closureInner (curr : String) : List Transition → StateSet × Bool → Option (StateSet × Bool)
  | [], st => some st
  | t :: ts, st =>
    if strcmp t.src curr = 0 ∧ t.input_char = '~' then
      if is_in_set st.1 t.dst then closureInner curr ts st
      else (add_to_set st.1 t.dst).bind (fun res => closureInner curr ts (res, true))
    else closureInner curr ts st

/-- The loop over `i < current_count` of `get_closure`: `items` are the names
`result->items[0]`, ..., `result->items[current_count-1]` left to visit, which
additions at the end of `result` do not change. -/
def closurePass (nfa : List Transition) : List String → StateSet × Bool → Option (StateSet × Bool)
  | [], st => some st
  | curr :: items, st => (closureInner curr nfa st).bind (closurePass nfa items)

/-- The loop `while (changed)` of `get_closure`, at most `n` passes. -/
def closureLoop (nfa : List Transition) : Nat → StateSet → Option StateSet
  | 0, _ => none
  | n + 1, result =>
    (closurePass nfa result (result, false)).bind
      (fun r => if r.2 then closureLoop nfa n r.1 else some r.1)

/-- The function `get_closure` for the rules `nfa` (`nfa_transitions[0]`, ...,
`nfa_transitions[nfa_count-1]`): `none` when a write outside the array occurs.
A pass that sets `changed` adds a name, and a set holds at most `MAX_STATES`
names, so `MAX_STATES + 1` passes suffice. -/
def get_closure (nfa : List Transition) (input_states : StateSet) : Option StateSet :=
  (closureLoop nfa (MAX_STATES + 1) (copy_set input_states)).map sort_set

/-- One `~` rule leads from `a` to `b`. -/
def EpsStep (nfa : List Transition) (a b : String) : Prop :=
  ∃ t ∈ nfa, t.src = a ∧ t.input_char = '~' ∧ t.dst = b

/-- The state `x` is reached from a state of `S` by zero or more `~` rules. -/
def EpsReach (nfa : List Transition) (S : StateSet) (x : String) : Prop :=
  ∃ s ∈ S, Relation.ReflTransGen (EpsStep nfa) s x

/-- A set of `MAX_STATES` names: `aa`, `ab`, ..., `jj`. -/
def fullSet : StateSet :=
  (List.range 100).map (fun i => String.mk [Char.ofNat (97 + i / 10), Char.ofNat (97 + i % 10)])

/-- The invariant of the loops of `get_closure`: `result` has no duplicates,
contains the input set, and holds only states reached from it. -/
def ClosureInv (nfa : List Transition) (S res : StateSet) : Prop :=
  res.Nodup ∧ (∀ x ∈ S, x ∈ res) ∧ ∀ x ∈ res, EpsReach nfa S x

/-- Every duplicate-free list of states reached from `S` fits into a set. -/
def FitsCapacity (nfa : List Transition) (S : StateSet) : Prop :=
  ∀ l : List String, l.Nodup → (∀ x ∈ l, EpsReach nfa S x) → l.length ≤ MAX_STATES

/-- A table of five rules: `X -~-> 3`, `3 -~-> 1`, `1 -a-> 2`, `1 -~-> Y`,
`Y -~-> X`. -/
def closureTable : List Transition :=
  [⟨"X", '~', "3"⟩, ⟨"3", '~', "1"⟩, ⟨"1", 'a', "2"⟩, ⟨"1", '~', "Y"⟩, ⟨"Y", '~', "X"⟩]

/-- A table with the one rule `aa -~-> x`. -/
def overflowTable : List Transition := [⟨"aa", '~', "x"⟩]

/-- The globals together with the marked trace: every line written so far with
the depth of the invocation that wrote it. -/
@[reducible]
def Traced : Type := State × List (Nat × String)

/-- The loop `while (cond) body` on the globals with the marked trace. -/
def whileDoT (cond : State → Bool) (body : Traced → Option (Traced × Bool)) :
    Nat → Traced → Option Traced
  | 0 => fun _ => none
  | n + 1 => fun x =>
    if cond x.1 then
      (body x).bind (fun r => if r.2 then whileDoT cond body n r.1 else some r.1)
    else some x

/-- Execution of a statement inside an invocation at depth `d`, keeping the
marked trace: `match()` and the writing of a record add their line with the
mark `d`, and a call runs the procedure at depth `d + 1`. -/
def execT (call : Proc → Nat → Traced → Option Traced) (n d : Nat) :
    Code → Traced → Option (Traced × Bool)
  | Code.mt => fun x =>
    some ((matchToken "" x.1, x.2 ++ [(d, terminalLine x.1.currentToken)]), true)
  | Code.emit t => fun x => some ((emit t x.1, x.2 ++ [(d, t)]), true)
  | Code.call p => fun x => (call p (d + 1) x).map (fun y => (y, true))
  | Code.skip => fun x => some (x, true)
  | Code.seq a b => fun x =>
    (execT call n d a x).bind (fun r => if r.2 then execT call n d b r.1 else some r)
  | Code.ifCur kinds a b => fun x =>
    if x.1.currentToken.type ∈ kinds then execT call n d a x else execT call n d b x
  | Code.peek k f => fun x =>
    execT call n d (f (peekToken k x.1).1) ((peekToken k x.1).2, x.2)
  | Code.loop kinds b => fun x =>
    (whileDoT (curIn kinds) (execT call n d b) n x).map (fun y => (y, true))
  | Code.brk => fun x => some (x, false)

/-- The procedures run with the marked trace: `parseT n p d` is the invocation
of `p` at depth `d`, with the bound `n` of `parse`. -/
def parseT : Nat → Proc → Nat → Traced → Option Traced
  | 0, _ => fun _ _ => none
  | n + 1, p => fun d x => (execT (parseT n) n d (code p) x).map Prod.fst

/-- What an invocation at depth `d` adds to the marked trace apart from its own
record: the lines it writes itself carry the mark `d` and are lines of `match`
or the tag `<字符串>`; all other lines carry a greater mark. -/
def GoodT (d : Nat) (x y : Traced) : Prop :=
  ∃ marks : List (Nat × String), y.2 = x.2 ++ marks ∧
    y.1.outFile = x.1.outFile ++ marks.map Prod.snd ∧
    ∀ r ∈ marks, d < r.1 ∨ (r.1 = d ∧ ((∃ t : Token, r.2 = terminalLine t) ∨ r.2 = "<字符串>"))

/-- The calls made at depth `d` add lines with greater marks only. -/
def CallT (call : Proc → Nat → Traced → Option Traced) (d : Nat) : Prop :=
  ∀ q x y, call q (d + 1) x = some y → ∃ marks : List (Nat × String), y.2 = x.2 ++ marks ∧
    y.1.outFile = x.1.outFile ++ marks.map Prod.snd ∧ ∀ r ∈ marks, d < r.1

/-- The statement `c` runs to its end and adds lines as `GoodT` says. -/
def HeadT (call : Proc → Nat → Traced → Option Traced) (n d : Nat) (c : Code) : Prop :=
  ∀ x y b, execT call n d c x = some (y, b) → b = true ∧ GoodT d x y

/-- The loop body `c` adds lines as `GoodT` says. -/
def BodyT (call : Proc → Nat → Traced → Option Traced) (n d : Nat) (c : Code) : Prop :=
  ∀ x y b, execT call n d c x = some (y, b) → GoodT d x y

/-- The statement `c` adds lines as `GoodT` says and then, as its last action,
the record `tag` with the mark `d`. -/
def OwnT (call : Proc → Nat → Traced → Option Traced) (n d : Nat) (tag : String)
    (c : Code) : Prop :=
  ∀ x y b, execT call n d c x = some (y, b) →
    ∃ y0, GoodT d x y0 ∧ y = (emit tag y0.1, y0.2 ++ [(d, tag)])

/-- The body of the first loop of `parseProgram`: `peekToken(1)`, `peekToken(2)`,
then `parseVarDecl` unless the token two ahead is `(`, in which case `break`. -/
def programVarBody (n : Nat) : Body :=
  withPeek 1 (fun _ => withPeek 2 (fun next2 =>
    if next2.type ≠ "LPARENT" then go (parse n Proc.parseVarDecl) else brk))

/-- The body of the second loop of `parseProgram`: at `int` or `char`
`parseFuncDefWithRet`, without any lookahead; at `void` the test for `main`. -/
def programFuncBody (n : Nat) : Body :=
  ifCur ["INTTK", "CHARTK"] (go (parse n Proc.parseFuncDefWithRet))
    (withPeek 1 (fun next =>
      if next.type = "MAINTK" then brk else go (parse n Proc.parseFuncDefVoid)))

/-- The body of the loop of `parseVarDecl`: `peekToken(2)`, then `break` if that
token is `(`, otherwise `parseVarDef` and `match()`. -/
def varDeclBody (n : Nat) : Body :=
  withPeek 2 (fun next2 =>
    if next2.type = "LPARENT" then brk else go (seq [parse n Proc.parseVarDef, mt]))

/-- A text with a declaration after a function definition. -/
def lateDeclText : List Char :=
  "int f ( ) \x7b \x7d int a ; void main ( ) \x7b \x7d".toList

/-- The trace of `lateDeclText`. -/
def lateDeclTrace : List String :=
  ["INTTK int", "IDENFR f", "<声明头部>", "LPARENT (", "<参数表>", "RPARENT )",
    "LBRACE \x7b", "<语句列>", "<复合语句>", "RBRACE \x7d", "<有返回值函数定义>",
    "INTTK int", "IDENFR a", "<声明头部>", "SEMICN ;", "<参数表>", "VOIDTK void",
    "MAINTK main", "<语句列>", "<复合语句>", "LPARENT (", "<有返回值函数定义>",
    "RPARENT )", "LBRACE \x7b", "RBRACE \x7d", "EOF ", "EOF ", "<语句列>", "<复合语句>",
    "EOF ", "<主函数>", "<程序>"]

/-! ## The tokenizer at end of input -/

theorem lookup_mem {k v : String} :
    ∀ l : List (String × String), l.lookup k = some v → (k, v) ∈ l
  | [], h => by simp [List.lookup] at h
  | (a, b) :: l, h => by
    by_cases hk : k = a
    · subst hk
      simp [List.lookup] at h
      simp [h]
    · have hb : (k == a) = false := by simpa using hk
      simp only [List.lookup, hb] at h
      exact List.mem_cons_of_mem _ (lookup_mem l h)

theorem identType_cases (s : String) :
    identType s = "IDENFR" ∨ (s, identType s) ∈ keywords := by
  unfold identType
  cases h : keywords.lookup s with
  | none => exact Or.inl rfl
  | some t => exact Or.inr (lookup_mem _ h)

theorem identType_ne_eof (s : String) : identType s ≠ "EOF" := by
  rcases identType_cases s with h | h
  · rw [h]; decide
  · intro he
    rw [he] at h
    simp [keywords] at h

theorem ite_ne_of {α : Type} {c : Prop} [Decidable c] {a b x : α} (ha : a ≠ x) (hb : b ≠ x) :
    (if c then a else b) ≠ x := by
  split <;> assumption

theorem getSingleCharToken_ne_eof (c : Char) : getSingleCharToken c ≠ "EOF" := by
  unfold getSingleCharToken
  iterate 12 refine ite_ne_of (by decide) ?_
  decide

theorem getNextTokenFromFile_eof (inp : List Char) :
    (getNextTokenFromFile inp).1.type = "EOF" → getNextTokenFromFile inp = (eofToken, []) := by
  induction inp with
  | nil => intro _; rfl
  | cons ch rest ih =>
    intro h
    rw [getNextTokenFromFile] at h ⊢
    by_cases h1 : isspace ch = true
    · rw [if_pos h1] at h ⊢; exact ih h
    rw [if_neg h1] at h ⊢
    by_cases h2 : (isalpha ch || ch == '_') = true
    · rw [if_pos h2] at h; exact absurd h (identType_ne_eof _)
    rw [if_neg h2] at h ⊢
    by_cases h3 : isdigit ch = true
    · rw [if_pos h3] at h; exact absurd h (show "INTCON" ≠ "EOF" by decide)
    rw [if_neg h3] at h ⊢
    by_cases h4 : (ch == dquote) = true
    · rw [if_pos h4] at h; exact absurd h (show "STRCON" ≠ "EOF" by decide)
    rw [if_neg h4] at h ⊢
    by_cases h5 : (ch == squote) = true
    · rw [if_pos h5] at h; exact absurd h (show "CHARCON" ≠ "EOF" by decide)
    rw [if_neg h5] at h ⊢
    by_cases h6 : (ch == '<') = true
    · rw [if_pos h6] at h
      by_cases hn : rest.head? = some '='
      · rw [if_pos hn] at h; exact absurd h (show "LEQ" ≠ "EOF" by decide)
      · rw [if_neg hn] at h; exact absurd h (show "LSS" ≠ "EOF" by decide)
    rw [if_neg h6] at h ⊢
    by_cases h7 : (ch == '>') = true
    · rw [if_pos h7] at h
      by_cases hn : rest.head? = some '='
      · rw [if_pos hn] at h; exact absurd h (show "GEQ" ≠ "EOF" by decide)
      · rw [if_neg hn] at h; exact absurd h (show "GRE" ≠ "EOF" by decide)
    rw [if_neg h7] at h ⊢
    by_cases h8 : (ch == '=') = true
    · rw [if_pos h8] at h
      by_cases hn : rest.head? = some '='
      · rw [if_pos hn] at h; exact absurd h (show "EQL" ≠ "EOF" by decide)
      · rw [if_neg hn] at h; exact absurd h (show "ASSIGN" ≠ "EOF" by decide)
    rw [if_neg h8] at h ⊢
    by_cases h9 : (ch == '!') = true
    · rw [if_pos h9] at h ⊢
      by_cases hn : rest.head? = some '='
      · rw [if_pos hn] at h; exact absurd h (show "NEQ" ≠ "EOF" by decide)
      · rw [if_neg hn] at h ⊢; exact ih h
    rw [if_neg h9] at h ⊢
    by_cases h10 : (getSingleCharToken ch != "") = true
    · rw [if_pos h10] at h; exact absurd h (getSingleCharToken_ne_eof _)
    · rw [if_neg h10] at h ⊢; exact ih h

theorem nthFromFile_nil : ∀ n, nthFromFile n [] = eofToken
  | 0 => rfl
  | n + 1 => by simpa [nthFromFile, getNextTokenFromFile] using nthFromFile_nil n

theorem nthFromFile_of_eof {inp : List Char}
    (h : (getNextTokenFromFile inp).1.type = "EOF") : ∀ n, nthFromFile n inp = eofToken
  | 0 => by simp [nthFromFile, getNextTokenFromFile_eof inp h]
  | n + 1 => by simp [nthFromFile, getNextTokenFromFile_eof inp h, nthFromFile_nil]

/-! ## Consumption of characters -/

theorem getNextTokenFromFile_suffix_step (ch : Char) (rest : List Char)
    (hrec : (getNextTokenFromFile rest).2 <:+ rest) :
    (getNextTokenFromFile (ch :: rest)).2 <:+ rest := by
  have htail : ∀ l : List Char, l.tail <:+ l := fun l => List.tail_suffix l
  rw [getNextTokenFromFile]
  by_cases h1 : isspace ch = true
  · rw [if_pos h1]; exact hrec
  rw [if_neg h1]
  by_cases h2 : (isalpha ch || ch == '_') = true
  · rw [if_pos h2]; exact List.dropWhile_suffix _
  rw [if_neg h2]
  by_cases h3 : isdigit ch = true
  · rw [if_pos h3]; exact List.dropWhile_suffix _
  rw [if_neg h3]
  by_cases h4 : (ch == dquote) = true
  · rw [if_pos h4]; exact (htail _).trans (List.dropWhile_suffix _)
  rw [if_neg h4]
  by_cases h5 : (ch == squote) = true
  · rw [if_pos h5]; exact (htail _).trans (List.dropWhile_suffix _)
  rw [if_neg h5]
  by_cases h6 : (ch == '<') = true
  · rw [if_pos h6]
    by_cases hn : rest.head? = some '='
    · rw [if_pos hn]; exact htail _
    · rw [if_neg hn]
  rw [if_neg h6]
  by_cases h7 : (ch == '>') = true
  · rw [if_pos h7]
    by_cases hn : rest.head? = some '='
    · rw [if_pos hn]; exact htail _
    · rw [if_neg hn]
  rw [if_neg h7]
  by_cases h8 : (ch == '=') = true
  · rw [if_pos h8]
    by_cases hn : rest.head? = some '='
    · rw [if_pos hn]; exact htail _
    · rw [if_neg hn]
  rw [if_neg h8]
  by_cases h9 : (ch == '!') = true
  · rw [if_pos h9]
    by_cases hn : rest.head? = some '='
    · rw [if_pos hn]; exact htail _
    · rw [if_neg hn]; exact hrec
  rw [if_neg h9]
  by_cases h10 : (getSingleCharToken ch != "") = true
  · rw [if_pos h10]
  · rw [if_neg h10]; exact hrec

/-- A call on a non-empty source leaves a suffix of the characters after the
first one: it consumes at least one character. -/
theorem getNextTokenFromFile_suffix_cons :
    ∀ (rest : List Char) (ch : Char), (getNextTokenFromFile (ch :: rest)).2 <:+ rest
  | [], ch => getNextTokenFromFile_suffix_step ch [] (List.suffix_refl _)
  | c :: r, ch =>
    getNextTokenFromFile_suffix_step ch (c :: r)
      ((getNextTokenFromFile_suffix_cons r c).trans (List.suffix_cons c r))

theorem getNextTokenFromFile_length_lt {inp : List Char}
    (h : (getNextTokenFromFile inp).1.type ≠ "EOF") :
    (getNextTokenFromFile inp).2.length < inp.length := by
  cases inp with
  | nil => exact absurd rfl h
  | cons ch rest =>
    exact Nat.lt_succ_of_le (getNextTokenFromFile_suffix_cons rest ch).length_le

/-- The bound `inp.length` on the number of calls in `tokenize` is never the
reason the loop stops: any larger bound gives the same token sequence. -/
theorem tokenizeLoop_fuel :
    ∀ (n : Nat) (inp : List Char), inp.length ≤ n →
      tokenizeLoop n inp = tokenizeLoop inp.length inp
  | 0, inp, h => by
    have : inp.length = 0 := by omega
    rw [this]
  | n + 1, [], _ => by simp [tokenizeLoop, getNextTokenFromFile, eofToken]
  | n + 1, ch :: rest, h => by
    have hle := (getNextTokenFromFile_suffix_cons rest ch).length_le
    rw [List.length_cons, tokenizeLoop, tokenizeLoop]
    rw [tokenizeLoop_fuel n _ (by simp at h; omega), tokenizeLoop_fuel rest.length _ hle]

theorem getNextTokenFromFile_skip_space :
    ∀ (ws inp : List Char), (∀ w ∈ ws, isspace w = true) →
      getNextTokenFromFile (ws ++ inp) = getNextTokenFromFile inp
  | [], _, _ => rfl
  | w :: ws, inp, h => by
    rw [List.cons_append, getNextTokenFromFile, if_pos (h w (List.mem_cons_self _ _))]
    exact getNextTokenFromFile_skip_space ws inp (fun x hx => h x (List.mem_cons_of_mem _ hx))

/-! ## Token formation -/

theorem getNextTokenFromFile_lss (rest : List Char) :
    getNextTokenFromFile ('<' :: rest) =
      if rest.head? = some '=' then (⟨"LEQ", "<="⟩, rest.tail) else (⟨"LSS", "<"⟩, rest) := by
  rw [getNextTokenFromFile]
  rfl

theorem getNextTokenFromFile_gre (rest : List Char) :
    getNextTokenFromFile ('>' :: rest) =
      if rest.head? = some '=' then (⟨"GEQ", ">="⟩, rest.tail) else (⟨"GRE", ">"⟩, rest) := by
  rw [getNextTokenFromFile]
  rfl

theorem getNextTokenFromFile_assign (rest : List Char) :
    getNextTokenFromFile ('=' :: rest) =
      if rest.head? = some '=' then (⟨"EQL", "=="⟩, rest.tail) else (⟨"ASSIGN", "="⟩, rest) := by
  rw [getNextTokenFromFile]
  rfl

theorem getNextTokenFromFile_bang (rest : List Char) :
    getNextTokenFromFile ('!' :: rest) =
      if rest.head? = some '=' then (⟨"NEQ", "!="⟩, rest.tail)
      else getNextTokenFromFile rest := by
  rw [getNextTokenFromFile]
  rfl

theorem getNextTokenFromFile_dquote (rest : List Char) :
    getNextTokenFromFile (dquote :: rest) =
      (⟨"STRCON", String.mk (rest.takeWhile (fun c => c != dquote))⟩,
        (rest.dropWhile (fun c => c != dquote)).tail) := by
  rw [getNextTokenFromFile]
  rfl

theorem getNextTokenFromFile_squote (rest : List Char) :
    getNextTokenFromFile (squote :: rest) =
      (⟨"CHARCON", String.mk (rest.takeWhile (fun c => c != squote))⟩,
        (rest.dropWhile (fun c => c != squote)).tail) := by
  rw [getNextTokenFromFile]
  rfl

theorem isspace_of_ident_start {c : Char} (h : (isalpha c || c == '_') = true) :
    isspace c = false := by
  by_cases hc : c = '_'
  · subst hc; decide
  · have ha : isalpha c = true := by simpa [hc] using h
    simp only [isalpha, Bool.or_eq_true, Bool.and_eq_true, decide_eq_true_eq] at ha
    simp only [isspace, Bool.or_eq_false_iff, Bool.and_eq_false_iff, decide_eq_false_iff_not]
    omega

theorem getNextTokenFromFile_ident {c : Char} (h : (isalpha c || c == '_') = true)
    (rest : List Char) :
    getNextTokenFromFile (c :: rest) =
      (⟨identType (String.mk (c :: rest.takeWhile identChar)),
          String.mk (c :: rest.takeWhile identChar)⟩, rest.dropWhile identChar) := by
  rw [getNextTokenFromFile, if_neg (by simp [isspace_of_ident_start h]), if_pos h]

theorem takeWhile_run {p : Char → Bool} {cs rest : List Char} (hcs : ∀ x ∈ cs, p x = true)
    (hrest : ∀ x, rest.head? = some x → p x = false) :
    (cs ++ rest).takeWhile p = cs ∧ (cs ++ rest).dropWhile p = rest := by
  rw [List.takeWhile_append_of_pos hcs, List.dropWhile_append_of_pos hcs]
  cases rest with
  | nil => simp
  | cons x r =>
    have hx : p x = false := hrest x rfl
    simp [hx]

theorem lookup_none {k : String} :
    ∀ l : List (String × String), (∀ p ∈ l, k ≠ p.1) → l.lookup k = none
  | [], _ => rfl
  | (a, b) :: l, h => by
    have hb : (k == a) = false := by simpa using h (a, b) (List.mem_cons_self _ _)
    simp only [List.lookup, hb]
    exact lookup_none l (fun p hp => h p (List.mem_cons_of_mem _ hp))

theorem takeWhile_until {q : Char} {s : List Char} (hs : q ∉ s) (r : List Char) :
    (s ++ q :: r).takeWhile (fun c => c != q) = s ∧
      (s ++ q :: r).dropWhile (fun c => c != q) = q :: r := by
  apply takeWhile_run
  · intro x hx
    have : x ≠ q := fun h => hs (h ▸ hx)
    simpa using this
  · intro x hx
    simp only [List.head?_cons, Option.some.injEq] at hx
    simp [hx]

theorem takeWhile_open {q : Char} {s : List Char} (hs : q ∉ s) :
    s.takeWhile (fun c => c != q) = s ∧ s.dropWhile (fun c => c != q) = [] := by
  have h := @takeWhile_run (fun c => c != q) s []
    (fun x hx => by
      have : x ≠ q := fun h => hs (h ▸ hx)
      simpa using this)
    (fun x hx => by simp at hx)
  simpa using h

/-! ## The lookahead loop -/

theorem streamAt_push (buf : List Token) (inp : List Char) (j : Nat) :
    streamAt (buf ++ [(getNextTokenFromFile inp).1]) (getNextTokenFromFile inp).2 j =
      streamAt buf inp j := by
  unfold streamAt
  rcases Nat.lt_trichotomy j buf.length with hj | hj | hj
  · rw [List.getElem?_append_left hj, List.getElem?_eq_getElem hj]
  · subst hj
    simp [nthFromFile]
  · have h1 : (buf ++ [(getNextTokenFromFile inp).1])[j]? = none := by
      apply List.getElem?_eq_none
      simp; omega
    have h2 : buf[j]? = none := List.getElem?_eq_none (by omega)
    rw [h1, h2]
    have h3 : j - buf.length = (j - (buf ++ [(getNextTokenFromFile inp).1]).length) + 1 := by
      simp; omega
    rw [h3, nthFromFile]

theorem streamAt_eof (buf : List Token) {inp : List Char}
    (h : (getNextTokenFromFile inp).1.type = "EOF") (j : Nat) :
    streamAt buf (getNextTokenFromFile inp).2 j = streamAt buf inp j := by
  unfold streamAt
  cases buf[j]? with
  | some t => rfl
  | none =>
    simp only [getNextTokenFromFile_eof inp h, nthFromFile_nil, nthFromFile_of_eof h]

/-- The loop of `peekToken` does not change the stream made of the buffer and
the tokens still to be read. -/
theorem peekTokenLoop_streamAt (idx : Nat) :
    ∀ (fuel : Nat) (s : State) (j : Nat),
      streamAt (peekTokenLoop idx fuel s).2.tokenBuffer (peekTokenLoop idx fuel s).2.inFile j =
        streamAt s.tokenBuffer s.inFile j
  | 0, s, j => rfl
  | fuel + 1, s, j => by
    rw [peekTokenLoop]
    by_cases hg : s.tokenBuffer.length ≤ idx
    · rw [if_pos hg]
      by_cases he : (getNextTokenFromFile s.inFile).1.type = "EOF"
      · rw [if_pos he]
        exact streamAt_eof _ he j
      · rw [if_neg he, peekTokenLoop_streamAt idx fuel]
        exact streamAt_push _ _ j
    · rw [if_neg hg]

/-- Frame of the loop of `peekToken`. -/
theorem peekTokenLoop_frame (idx : Nat) :
    ∀ (fuel : Nat) (s : State),
      (peekTokenLoop idx fuel s).2.bufferIndex = s.bufferIndex ∧
      (peekTokenLoop idx fuel s).2.currentToken = s.currentToken ∧
      (peekTokenLoop idx fuel s).2.outFile = s.outFile ∧
      s.tokenBuffer <+: (peekTokenLoop idx fuel s).2.tokenBuffer
  | 0, s => ⟨rfl, rfl, rfl, List.prefix_refl _⟩
  | fuel + 1, s => by
    rw [peekTokenLoop]
    by_cases hg : s.tokenBuffer.length ≤ idx
    · rw [if_pos hg]
      by_cases he : (getNextTokenFromFile s.inFile).1.type = "EOF"
      · rw [if_pos he]
        exact ⟨rfl, rfl, rfl, List.prefix_refl _⟩
      · rw [if_neg he]
        obtain ⟨h1, h2, h3, h4⟩ := peekTokenLoop_frame idx fuel
          { s with inFile := (getNextTokenFromFile s.inFile).2,
                   tokenBuffer := s.tokenBuffer ++ [(getNextTokenFromFile s.inFile).1] }
        exact ⟨h1, h2, h3, (List.prefix_append _ _).trans h4⟩
    · rw [if_neg hg]
      exact ⟨rfl, rfl, rfl, List.prefix_refl _⟩

/-- With enough iterations allowed, the loop of `peekToken` returns the token
at position `idx` of the stream. -/
theorem peekTokenLoop_result (idx : Nat) :
    ∀ (fuel : Nat) (s : State), idx + 1 - s.tokenBuffer.length ≤ fuel →
      (peekTokenLoop idx fuel s).1 = streamAt s.tokenBuffer s.inFile idx
  | 0, s, hf => by
    have hlt : idx < s.tokenBuffer.length := by omega
    simp [peekTokenLoop, streamAt, List.getD, List.getElem?_eq_getElem hlt]
  | fuel + 1, s, hf => by
    rw [peekTokenLoop]
    by_cases hg : s.tokenBuffer.length ≤ idx
    · rw [if_pos hg]
      by_cases he : (getNextTokenFromFile s.inFile).1.type = "EOF"
      · rw [if_pos he]
        have h2 : s.tokenBuffer[idx]? = none := List.getElem?_eq_none hg
        simp only [streamAt, h2, nthFromFile_of_eof he, getNextTokenFromFile_eof _ he]
      · rw [if_neg he, peekTokenLoop_result idx fuel _ (by simp; omega)]
        exact streamAt_push _ _ idx
    · rw [if_neg hg]
      have hlt : idx < s.tokenBuffer.length := by omega
      simp [streamAt, List.getD, List.getElem?_eq_getElem hlt]

/-! ## The pending stream -/

theorem pending_eq_streamAt {s : State} (hs : BufferOk s) (n : Nat) :
    pending s n = streamAt s.tokenBuffer s.inFile (s.bufferIndex + n) := by
  unfold BufferOk at hs
  unfold pending streamAt
  rw [List.getElem?_drop, List.length_drop]
  have : n - (s.tokenBuffer.length - s.bufferIndex) =
      s.bufferIndex + n - s.tokenBuffer.length := by omega
  rw [this]

theorem peekIndex_le {bi k : Nat} (hk : 1 ≤ k) : peekIndex bi k ≤ bi + k - 1 := by
  unfold peekIndex sizeRange
  split <;> omega

theorem peekIndex_eq {bi k : Nat} (hk : 1 ≤ k) (hw : bi + k ≤ sizeRange) :
    peekIndex bi k = bi + k - 1 := by
  unfold sizeRange at hw
  unfold peekIndex sizeRange
  split <;> omega

/-- For a `bufferIndex` in the range of `size_t` and `k ≥ 1` the index is
`bufferIndex + k - 1` modulo `2^64`. -/
theorem peekIndex_mod {bi k : Nat} (hb : bi < sizeRange) (hk : 1 ≤ k) :
    peekIndex bi k = (bi + k - 1) % sizeRange := by
  unfold peekIndex
  rw [if_pos hb]
  unfold sizeRange
  omega

theorem peekIndex_one (bi : Nat) : peekIndex bi 1 = bi := by
  unfold peekIndex sizeRange
  split <;> omega

/-- The token `peekToken(k)` returns is the one at position `peekIndex` of the
stream made of the buffer and the tokens still to be read. -/
theorem peekToken_stream (k : Nat) (s : State) :
    (peekToken k s).1 = streamAt s.tokenBuffer s.inFile (peekIndex s.bufferIndex k) := by
  unfold peekToken
  exact peekTokenLoop_result _ _ s (le_refl _)

theorem peekToken_streamAt (k : Nat) (s : State) (j : Nat) :
    streamAt (peekToken k s).2.tokenBuffer (peekToken k s).2.inFile j =
      streamAt s.tokenBuffer s.inFile j :=
  peekTokenLoop_streamAt _ _ s j

theorem peekToken_bufferIndex (k : Nat) (s : State) :
    (peekToken k s).2.bufferIndex = s.bufferIndex :=
  (peekTokenLoop_frame _ _ s).1

/-- A peek does not change what a later peek returns. -/
theorem peekToken_after_peek (j k : Nat) (s : State) :
    (peekToken k (peekToken j s).2).1 = (peekToken k s).1 := by
  rw [peekToken_stream, peekToken_bufferIndex, peekToken_streamAt, ← peekToken_stream]

theorem peekToken_bufferOk (k : Nat) {s : State} (hs : BufferOk s) :
    BufferOk (peekToken k s).2 := by
  unfold BufferOk at hs ⊢
  obtain ⟨h1, -, -, h4⟩ := peekTokenLoop_frame (peekIndex s.bufferIndex k)
    (peekIndex s.bufferIndex k + 1 - s.tokenBuffer.length) s
  unfold peekToken
  rw [h1]
  exact hs.trans h4.length_le

theorem peekToken_pending (k : Nat) {s : State} (hs : BufferOk s) (n : Nat) :
    pending (peekToken k s).2 n = pending s n := by
  rw [pending_eq_streamAt (peekToken_bufferOk k hs), pending_eq_streamAt hs]
  unfold peekToken
  rw [(peekTokenLoop_frame _ _ s).1]
  exact peekTokenLoop_streamAt _ _ s _

theorem peekToken_result {k : Nat} (hk : 1 ≤ k) {s : State} (hs : BufferOk s)
    (hw : s.bufferIndex + k ≤ sizeRange) : (peekToken k s).1 = pending s (k - 1) := by
  rw [pending_eq_streamAt hs, peekToken_stream, peekIndex_eq hk hw]
  congr 1
  omega

/-- The token `peekToken(1)` returns is the first pending one. -/
theorem peekToken_one_result {s : State} (hs : BufferOk s) :
    (peekToken 1 s).1 = pending s 0 := by
  rw [pending_eq_streamAt hs, peekToken_stream, peekIndex_one]
  rfl

theorem getToken_bufferOk {s : State} (hs : BufferOk s) : BufferOk (getToken s).2 := by
  unfold BufferOk at hs ⊢
  unfold getToken
  by_cases h : s.bufferIndex < s.tokenBuffer.length
  · rw [if_pos h]; exact h
  · rw [if_neg h]; exact hs

theorem getToken_result {s : State} (hs : BufferOk s) : (getToken s).1 = pending s 0 := by
  rw [pending_eq_streamAt hs]
  unfold BufferOk at hs
  unfold getToken streamAt
  by_cases h : s.bufferIndex < s.tokenBuffer.length
  · rw [if_pos h]
    simp [List.getD, List.getElem?_eq_getElem h]
  · rw [if_neg h]
    have h2 : s.tokenBuffer[s.bufferIndex + 0]? = none := List.getElem?_eq_none (by omega)
    have h3 : s.bufferIndex + 0 - s.tokenBuffer.length = 0 := by omega
    rw [h2, h3]
    rfl

theorem getToken_pending {s : State} (hs : BufferOk s) (n : Nat) :
    pending (getToken s).2 n = pending s (n + 1) := by
  rw [pending_eq_streamAt (getToken_bufferOk hs), pending_eq_streamAt hs]
  unfold BufferOk at hs
  unfold getToken
  by_cases h : s.bufferIndex < s.tokenBuffer.length
  · rw [if_pos h]
    show streamAt s.tokenBuffer s.inFile (s.bufferIndex + 1 + n) = _
    congr 1
    omega
  · rw [if_neg h]
    show streamAt s.tokenBuffer (getNextTokenFromFile s.inFile).2 (s.bufferIndex + n) = _
    unfold streamAt
    have h2 : s.tokenBuffer[s.bufferIndex + n]? = none := List.getElem?_eq_none (by omega)
    have h3 : s.tokenBuffer[s.bufferIndex + (n + 1)]? = none := List.getElem?_eq_none (by omega)
    have h4 : s.bufferIndex + (n + 1) - s.tokenBuffer.length =
        (s.bufferIndex + n - s.tokenBuffer.length) + 1 := by omega
    rw [h2, h3, h4, nthFromFile]

theorem peekUpTo_spec {s : State} (hs : BufferOk s) :
    ∀ k, s.bufferIndex + k ≤ sizeRange →
      (peekUpTo k s).1 = (List.range k).map (pending s) ∧
      BufferOk (peekUpTo k s).2 ∧ (∀ n, pending (peekUpTo k s).2 n = pending s n) ∧
      (peekUpTo k s).2.bufferIndex = s.bufferIndex
  | 0, _ => ⟨rfl, hs, fun _ => rfl, rfl⟩
  | k + 1, hw => by
    obtain ⟨h1, h2, h3, h4⟩ := peekUpTo_spec hs k (by omega)
    refine ⟨?_, peekToken_bufferOk _ h2, fun n => ?_, ?_⟩
    · rw [peekUpTo, h1, peekToken_result (by omega) h2 (by rw [h4]; exact hw), h3,
        List.range_succ, List.map_append]
      rfl
    · rw [peekUpTo, peekToken_pending _ h2, h3]
    · rw [peekUpTo, peekToken_bufferIndex, h4]

theorem getTokens_spec :
    ∀ (k : Nat) {s : State}, BufferOk s →
      (getTokens k s).1 = (List.range k).map (pending s) ∧
      BufferOk (getTokens k s).2 ∧ ∀ n, pending (getTokens k s).2 n = pending s (n + k)
  | 0, s, hs => ⟨rfl, hs, fun _ => rfl⟩
  | k + 1, s, hs => by
    obtain ⟨h1, h2, h3⟩ := getTokens_spec k (getToken_bufferOk hs)
    refine ⟨?_, h2, fun n => ?_⟩
    · rw [getTokens, h1, getToken_result hs, List.range_succ_eq_map, List.map_cons, List.map_map]
      show pending s 0 :: _ = _
      congr 1
      apply List.map_congr_left
      intro n _
      exact getToken_pending hs n
    · rw [getTokens, h3, getToken_pending hs]
      congr 1

theorem runCalls_spec :
    ∀ (cs : List BufferCall) {s : State}, BufferOk s → PeeksPositive cs →
      (runCalls cs s).1 = (List.range (advances cs)).map (pending s) ∧
      BufferOk (runCalls cs s).2 ∧
      ∀ n, pending (runCalls cs s).2 n = pending s (n + advances cs)
  | [], s, hs, _ => ⟨rfl, hs, fun _ => rfl⟩
  | BufferCall.peek k :: cs, s, hs, hp => by
    obtain ⟨h1, h2, h3⟩ := runCalls_spec cs (peekToken_bufferOk k hs) hp.2
    refine ⟨?_, h2, fun n => ?_⟩
    · rw [runCalls, h1, advances]
      apply List.map_congr_left
      intro n _
      exact peekToken_pending k hs n
    · rw [runCalls, h3, advances, peekToken_pending k hs]
  | BufferCall.advance :: cs, s, hs, hp => by
    obtain ⟨h1, h2, h3⟩ := runCalls_spec cs (getToken_bufferOk hs) hp
    refine ⟨?_, h2, fun n => ?_⟩
    · rw [runCalls, h1, advances, getToken_result hs, List.range_succ_eq_map, List.map_cons,
        List.map_map]
      show pending s 0 :: _ = _
      congr 1
      apply List.map_congr_left
      intro n _
      exact getToken_pending hs n
    · rw [runCalls, h3, advances, getToken_pending hs]
      congr 1

theorem range_succ_map_nthFromFile (inp : List Char) (m : Nat) :
    (getNextTokenFromFile inp).1 ::
        (List.range m).map (fun i => nthFromFile i (getNextTokenFromFile inp).2) =
      (List.range (m + 1)).map (fun i => nthFromFile i inp) := by
  rw [List.range_succ_eq_map, List.map_cons, List.map_map]
  rfl

/-- What the loop of `peekToken` does to the buffer and how it ends: it appends
the first `m` tokens of the file, none of them of type `EOF`, and then either
position `idx` is buffered and returned, or the file has answered `EOF`, which
is returned and not appended. -/
theorem peekTokenLoop_buffer (idx : Nat) :
    ∀ (fuel : Nat) (s : State), idx + 1 - s.tokenBuffer.length ≤ fuel →
      ∃ m : Nat,
        (peekTokenLoop idx fuel s).2.tokenBuffer =
          s.tokenBuffer ++ (List.range m).map (fun i => nthFromFile i s.inFile) ∧
        (∀ i, i < m → (nthFromFile i s.inFile).type ≠ "EOF") ∧
        ((idx < (peekTokenLoop idx fuel s).2.tokenBuffer.length ∧
            (peekTokenLoop idx fuel s).2.tokenBuffer[idx]? = some (peekTokenLoop idx fuel s).1 ∧
            (peekTokenLoop idx fuel s).2.inFile = fileAfter m s.inFile ∧
            s.tokenBuffer.length + m = max s.tokenBuffer.length (idx + 1)) ∨
          ((peekTokenLoop idx fuel s).2.tokenBuffer.length ≤ idx ∧
            (peekTokenLoop idx fuel s).1 = eofToken ∧
            (peekTokenLoop idx fuel s).2.inFile = [] ∧
            nthFromFile m s.inFile = eofToken))
  | 0, s, hf => by
    have hlt : idx < s.tokenBuffer.length := by omega
    refine ⟨0, by simp [peekTokenLoop], fun i hi => absurd hi (Nat.not_lt_zero i), Or.inl ?_⟩
    refine ⟨hlt, ?_, rfl, ?_⟩
    · simp [peekTokenLoop, List.getD, List.getElem?_eq_getElem hlt]
    · rw [Nat.add_zero, Nat.max_eq_left (by omega)]
  | fuel + 1, s, hf => by
    rw [peekTokenLoop]
    by_cases hg : s.tokenBuffer.length ≤ idx
    · rw [if_pos hg]
      by_cases he : (getNextTokenFromFile s.inFile).1.type = "EOF"
      · rw [if_pos he]
        refine ⟨0, by simp, fun i hi => absurd hi (Nat.not_lt_zero i), Or.inr ?_⟩
        refine ⟨hg, ?_, ?_, ?_⟩
        · rw [getNextTokenFromFile_eof _ he]
        · show (getNextTokenFromFile s.inFile).2 = []
          rw [getNextTokenFromFile_eof _ he]
        · exact nthFromFile_of_eof he 0
      · rw [if_neg he]
        obtain ⟨m, hb, hne, hend⟩ := peekTokenLoop_buffer idx fuel
          { s with inFile := (getNextTokenFromFile s.inFile).2,
                   tokenBuffer := s.tokenBuffer ++ [(getNextTokenFromFile s.inFile).1] }
          (by simp; omega)
        refine ⟨m + 1, ?_, ?_, ?_⟩
        · rw [hb, ← range_succ_map_nthFromFile, List.append_assoc]
          rfl
        · intro i hi
          cases i with
          | zero => exact he
          | succ i => exact hne i (by omega)
        · rcases hend with ⟨h1, h2, h3, h4⟩ | ⟨h1, h2, h3, h4⟩
          · refine Or.inl ⟨h1, h2, h3, ?_⟩
            simp only [List.length_append, List.length_singleton] at h4
            rw [Nat.max_eq_right (by omega)] at h4
            rw [Nat.max_eq_right (by omega)]
            omega
          · exact Or.inr ⟨h1, h2, h3, h4⟩
    · rw [if_neg hg]
      have hlt : idx < s.tokenBuffer.length := by omega
      refine ⟨0, by simp, fun i hi => absurd hi (Nat.not_lt_zero i), Or.inl ?_⟩
      refine ⟨hlt, ?_, rfl, ?_⟩
      · simp [List.getD, List.getElem?_eq_getElem hlt]
      · rw [Nat.add_zero, Nat.max_eq_left (by omega)]

theorem peekAll_spec :
    ∀ (ks : List Nat) {s : State}, BufferOk s →
      BufferOk (peekAll ks s) ∧ ∀ n, pending (peekAll ks s) n = pending s n
  | [], s, hs => ⟨hs, fun _ => rfl⟩
  | j :: ks, s, hs => by
    obtain ⟨h1, h2⟩ := peekAll_spec ks (peekToken_bufferOk j hs)
    exact ⟨h1, fun n => (h2 n).trans (peekToken_pending j hs n)⟩

/-- Peeks change neither `bufferIndex` nor the stream made of the buffer and
the tokens still to be read. -/
theorem peekAll_stream :
    ∀ (ks : List Nat) (s : State),
      (peekAll ks s).bufferIndex = s.bufferIndex ∧
      ∀ j, streamAt (peekAll ks s).tokenBuffer (peekAll ks s).inFile j =
        streamAt s.tokenBuffer s.inFile j
  | [], _ => ⟨rfl, fun _ => rfl⟩
  | j :: ks, s => by
    obtain ⟨h1, h2⟩ := peekAll_stream ks (peekToken j s).2
    exact ⟨h1.trans (peekToken_bufferIndex j s),
      fun i => (h2 i).trans (peekToken_streamAt j s i)⟩

theorem state_inFile_eta (s : State) (h : s.inFile = []) :
    ({ s with inFile := [] } : State) = s := by
  cases s
  simp only at h
  rw [h]

/-- Once the input is exhausted the loop of `peekToken` leaves the state as it
is. -/
theorem peekTokenLoop_exhausted (idx : Nat) {s : State} (h : s.inFile = []) :
    ∀ fuel, (peekTokenLoop idx fuel s).2 = s
  | 0 => rfl
  | fuel + 1 => by
    rw [peekTokenLoop]
    have he : (getNextTokenFromFile s.inFile).1.type = "EOF" := by
      rw [h]
      rfl
    by_cases hg : s.tokenBuffer.length ≤ idx
    · rw [if_pos hg, if_pos he]
      show ({ s with inFile := (getNextTokenFromFile s.inFile).2 } : State) = s
      rw [getNextTokenFromFile_eof _ he]
      exact state_inFile_eta s h
    · rw [if_neg hg]

theorem peekUpTo_exhausted {s : State} (h : s.inFile = []) :
    ∀ k, (peekUpTo k s).2 = s
  | 0 => rfl
  | k + 1 => by
    rw [peekUpTo]
    show (peekToken (k + 1) (peekUpTo k s).2).2 = s
    rw [peekUpTo_exhausted h k]
    exact peekTokenLoop_exhausted _ h _

theorem peekUpTo_last {s : State} (h : s.inFile = []) :
    ∀ k, 1 ≤ k → (peekToken k s).1 ∈ (peekUpTo k s).1
  | 0, hk => absurd hk (by decide)
  | k + 1, _ => by
    rw [peekUpTo]
    show (peekToken (k + 1) s).1 ∈
      (peekUpTo k s).1 ++ [(peekToken (k + 1) (peekUpTo k s).2).1]
    rw [peekUpTo_exhausted h k]
    exact List.mem_append_right _ (List.mem_singleton_self _)

/-! ## Lookahead buffer: the claims -/

/-- C1, as stated, fails for a `k` that makes `bufferIndex + k - 1` leave the
range of `size_t`.  In the state reached on the text `b c` when both tokens are
buffered and consumed (`bufferIndex = 2`, input exhausted), `peekToken(k)` with
`k = 2^64 - 1` computes the index `0` and returns the consumed token `b`, so
`b` is among the tokens returned by `peekToken(1)`, ..., `peekToken(k)`, while
each of the `k` calls of `getToken()` that follow returns the end-of-input
token. -/
theorem advance_after_peek_wraps :
    BufferOk wrapState ∧ wrapState.bufferIndex = 2 ∧
    wrapState.tokenBuffer = [⟨"IDENFR", "b"⟩, ⟨"IDENFR", "c"⟩] ∧
    peekIndex wrapState.bufferIndex 18446744073709551615 = 0 ∧
    peekToken 18446744073709551615 wrapState = (⟨"IDENFR", "b"⟩, wrapState) ∧
    (⟨"IDENFR", "b"⟩ : Token) ∈ (peekUpTo 18446744073709551615 wrapState).1 ∧
    (∀ t ∈ (getTokens 18446744073709551615
        (peekUpTo 18446744073709551615 wrapState).2).1, t = eofToken) ∧
    (getTokens 18446744073709551615 (peekUpTo 18446744073709551615 wrapState).2).1 ≠
      (peekUpTo 18446744073709551615 wrapState).1 := by
  have hin : wrapState.inFile = [] := by decide
  have hok : BufferOk wrapState := by decide
  have hp : peekToken 18446744073709551615 wrapState = (⟨"IDENFR", "b"⟩, wrapState) := by
    decide
  have hmem : (⟨"IDENFR", "b"⟩ : Token) ∈ (peekUpTo 18446744073709551615 wrapState).1 := by
    have h := peekUpTo_last hin 18446744073709551615 (by decide)
    rw [hp] at h
    exact h
  have hall : ∀ t ∈ (getTokens 18446744073709551615
      (peekUpTo 18446744073709551615 wrapState).2).1, t = eofToken := by
    intro t ht
    rw [peekUpTo_exhausted hin, (getTokens_spec _ hok).1] at ht
    obtain ⟨n, -, hn⟩ := List.mem_map.1 ht
    rw [← hn]
    unfold pending
    have hd : wrapState.tokenBuffer.drop wrapState.bufferIndex = [] := by decide
    rw [hd, hin]
    simp only [List.getElem?_nil, nthFromFile_nil]
  refine ⟨hok, by decide, by decide, by decide, hp, hmem, hall, fun e => ?_⟩
  rw [← e] at hmem
  exact absurd (hall _ hmem) (by decide)

/-- C1, amended: in every state satisfying the buffer invariant and for every
`k ≥ 1`, a `getToken()` made right after `peekToken(k)` returns the token that
`peekToken(1)` returns at that point (before as well as after the
`peekToken(k)`); and when `bufferIndex + k - 1` stays in the range of `size_t`
(`bufferIndex + k ≤ 2^64`), `k` consecutive `getToken()` calls return, in
order, exactly the tokens that `peekToken(1)`, ..., `peekToken(k)` returned
before them (also when only `peekToken(k)` was called before them). -/
theorem advance_after_peek (s : State) (hs : BufferOk s) (k : Nat) (_hk : 1 ≤ k) :
    (getToken (peekToken k s).2).1 = (peekToken 1 s).1 ∧
    (getToken (peekToken k s).2).1 = (peekToken 1 (peekToken k s).2).1 ∧
    (s.bufferIndex + k ≤ sizeRange →
      (getTokens k (peekUpTo k s).2).1 = (peekUpTo k s).1 ∧
      (getTokens k (peekToken k s).2).1 = (peekUpTo k s).1) := by
  have hk1 := peekToken_bufferOk k hs
  refine ⟨?_, ?_, fun hw => ?_⟩
  · rw [getToken_result hk1, peekToken_pending k hs, peekToken_one_result hs]
  · rw [getToken_result hk1, peekToken_one_result hk1]
  · obtain ⟨hp1, hp2, hp3, -⟩ := peekUpTo_spec hs k hw
    refine ⟨?_, ?_⟩
    · rw [(getTokens_spec k hp2).1, hp1]
      exact List.map_congr_left (fun n _ => hp3 n)
    · rw [(getTokens_spec k hk1).1, hp1]
      exact List.map_congr_left (fun n _ => peekToken_pending k hs n)

/-- Witness of C1, amended: the start state on the text `int a ;` with
`k = 2`. -/
theorem advance_after_peek_witness :
    BufferOk (initState "int a ;".toList) ∧ 1 ≤ 2 ∧
    (initState "int a ;".toList).bufferIndex + 2 ≤ sizeRange ∧
    (getToken (peekToken 2 (initState "int a ;".toList)).2).1 =
      (peekToken 1 (initState "int a ;".toList)).1 ∧
    (getTokens 2 (peekUpTo 2 (initState "int a ;".toList)).2).1 =
      (peekUpTo 2 (initState "int a ;".toList)).1 :=
  ⟨by decide, by decide, by decide,
    (advance_after_peek (initState "int a ;".toList) (by decide) 2 (by decide)).1,
    ((advance_after_peek (initState "int a ;".toList) (by decide) 2 (by decide)).2.2
      (by decide)).1⟩

/-- C2: lookahead-buffer invariant.  In every state satisfying the buffer
invariant (which the start state satisfies and both operations preserve),
`peekToken(k)` with `k ≥ 1` leaves the pending stream unchanged (and returns
its `k`-th token when `bufferIndex + k - 1` stays in the range of `size_t`),
and `getToken()` returns its first token and leaves exactly its tail.  Hence
any interleaving of peeks and advances delivers, through its advances, the
pending stream in order, nothing skipped, duplicated or reordered, and leaves
the rest of the stream pending. -/
theorem pending_stream_invariant (s : State) (hs : BufferOk s) :
    (∀ inp, BufferOk (initState inp)) ∧
    (∀ k, 1 ≤ k → BufferOk (peekToken k s).2 ∧
      (∀ n, pending (peekToken k s).2 n = pending s n) ∧
      (s.bufferIndex + k ≤ sizeRange → (peekToken k s).1 = pending s (k - 1))) ∧
    (BufferOk (getToken s).2 ∧ (getToken s).1 = pending s 0 ∧
      ∀ n, pending (getToken s).2 n = pending s (n + 1)) ∧
    (∀ cs, PeeksPositive cs →
      (runCalls cs s).1 = (List.range (advances cs)).map (pending s) ∧
      ∀ n, pending (runCalls cs s).2 n = pending s (n + advances cs)) := by
  refine ⟨fun _ => Nat.le_refl 0,
    fun k hk => ⟨peekToken_bufferOk k hs, peekToken_pending k hs,
      fun hw => peekToken_result hk hs hw⟩,
    ⟨getToken_bufferOk hs, getToken_result hs, getToken_pending hs⟩, fun cs hcs => ?_⟩
  obtain ⟨h1, -, h3⟩ := runCalls_spec cs hs hcs
  exact ⟨h1, h3⟩

/-- Witness of C2: the state reached on the text `a b c` after `initParser` and
one `peekToken(2)`, with the calls `peekToken(2)`, `getToken()`,
`peekToken(1)`, `getToken()`. -/
theorem pending_stream_invariant_witness :
    BufferOk (peekToken 2 (initParser (initState "a b c".toList))).2 ∧
    PeeksPositive [BufferCall.peek 2, BufferCall.advance, BufferCall.peek 1,
      BufferCall.advance] ∧
    (runCalls [BufferCall.peek 2, BufferCall.advance, BufferCall.peek 1, BufferCall.advance]
        (peekToken 2 (initParser (initState "a b c".toList))).2).1 =
      (List.range 2).map (pending (peekToken 2 (initParser (initState "a b c".toList))).2) ∧
    (List.range 2).map (pending (peekToken 2 (initParser (initState "a b c".toList))).2) =
      [⟨"IDENFR", "b"⟩, ⟨"IDENFR", "c"⟩] :=
  ⟨by decide, by simp [PeeksPositive],
    ((pending_stream_invariant (peekToken 2 (initParser (initState "a b c".toList))).2
      (by decide)).2.2.2 _ (by simp [PeeksPositive])).1,
    by decide⟩

/-- C3: `peekToken` is idempotent.  In every state satisfying the buffer
invariant and for every `k ≥ 1`, a second `peekToken(k)` returns the token the
first one returned, and so does every later `peekToken(k)` made after any
number of further peeks (at `k` or at other positions `≥ 1`) as long as no
`getToken()` intervenes; positions at or beyond the end of input included. -/
theorem peekToken_idempotent (s : State) (hs : BufferOk s) (k : Nat) (hk : 1 ≤ k) :
    (peekToken k (peekToken k s).2).1 = (peekToken k s).1 ∧
    (∀ m : Nat, (peekToken k (peekAll (List.replicate m k) s)).1 = (peekToken k s).1) ∧
    (∀ ks : List Nat, (peekToken k (peekAll ks s)).1 = (peekToken k s).1) := by
  have hall : ∀ ks : List Nat, (peekToken k (peekAll ks s)).1 = (peekToken k s).1 := by
    intro ks
    obtain ⟨h1, h2⟩ := peekAll_stream ks s
    rw [peekToken_stream, peekToken_stream, h1, h2]
  exact ⟨hall [k], fun m => hall _, hall⟩

/-- Witness of C3: the start state on the text `a` with `k = 2`, a position
beyond the end of input. -/
theorem peekToken_idempotent_witness :
    BufferOk (initState "a".toList) ∧ 1 ≤ 2 ∧
    (peekToken 2 (peekToken 2 (initState "a".toList)).2).1 =
      (peekToken 2 (initState "a".toList)).1 ∧
    (peekToken 2 (initState "a".toList)).1 = eofToken :=
  ⟨by decide, by decide,
    (peekToken_idempotent (initState "a".toList) (by decide) 2 (by decide)).1, by decide⟩

/-- C4, as stated, fails: on the text `a`, `peekToken(2)` in the start state
returns the end-of-input token and leaves one token in the buffer, fewer than
`bufferIndex + 2`, and the returned token is not a buffered one. -/
theorem peekToken_short_buffer :
    ¬ PeekFillsBuffer 2 (initState "a".toList) ∧
    (peekToken 2 (initState "a".toList)).1 = eofToken ∧
    (peekToken 2 (initState "a".toList)).2.tokenBuffer = [⟨"IDENFR", "a"⟩] := by
  decide

/-- C4, amended: for every state and every `k ≥ 1` for which
`bufferIndex + k - 1` stays in the range of `size_t` (`bufferIndex + k ≤ 2^64`),
`peekToken(k)` appends to the buffer the tokens it fetches that are not
end-of-input, each exactly once and in the order fetched, and no others,
fetching no more than needed.  If the token it returns is not of type
`EOF`, the buffer then holds at least `bufferIndex + k` tokens and the
returned token is the buffered token at index `bufferIndex + k - 1`.  If
instead the tokenizer answers end-of-input before that position is buffered,
the end-of-input token is returned without being appended, the buffer holds
fewer than `bufferIndex + k` tokens, and the character source is exhausted. -/
theorem peekToken_fills_buffer (s : State) (k : Nat) (hk : 1 ≤ k)
    (hw : s.bufferIndex + k ≤ sizeRange) :
    (∃ m : Nat,
      (peekToken k s).2.tokenBuffer =
        s.tokenBuffer ++ (List.range m).map (fun i => nthFromFile i s.inFile) ∧
      (∀ i, i < m → (nthFromFile i s.inFile).type ≠ "EOF") ∧
      (PeekFillsBuffer k s → (peekToken k s).2.inFile = fileAfter m s.inFile ∧
        s.tokenBuffer.length + m = max s.tokenBuffer.length (s.bufferIndex + k))) ∧
    ((peekToken k s).1.type ≠ "EOF" → PeekFillsBuffer k s) ∧
    (PeekFillsBuffer k s ∨
      ((peekToken k s).2.tokenBuffer.length < s.bufferIndex + k ∧
        (peekToken k s).1 = eofToken ∧ (peekToken k s).2.inFile = [])) := by
  obtain ⟨m, hb, hne, hend⟩ := peekTokenLoop_buffer (s.bufferIndex + k - 1)
    (s.bufferIndex + k - 1 + 1 - s.tokenBuffer.length) s (le_refl _)
  have hidx : s.bufferIndex + k - 1 + 1 = s.bufferIndex + k := by omega
  unfold PeekFillsBuffer
  unfold peekToken
  rw [peekIndex_eq hk hw]
  rcases hend with ⟨h1, h2, h3, h4⟩ | ⟨h1, h2, h3, -⟩
  · rw [hidx] at h4
    have hfill : s.bufferIndex + k ≤ (peekTokenLoop (s.bufferIndex + k - 1)
        (s.bufferIndex + k - 1 + 1 - s.tokenBuffer.length) s).2.tokenBuffer.length := by
      omega
    exact ⟨⟨m, hb, hne, fun _ => ⟨h3, h4⟩⟩, fun _ => ⟨hfill, h2⟩, Or.inl ⟨hfill, h2⟩⟩
  · have hshort : (peekTokenLoop (s.bufferIndex + k - 1)
        (s.bufferIndex + k - 1 + 1 - s.tokenBuffer.length) s).2.tokenBuffer.length <
        s.bufferIndex + k := by omega
    refine ⟨⟨m, hb, hne, fun hf => absurd hf.1 (by omega)⟩, fun hne2 => ?_,
      Or.inr ⟨hshort, h2, h3⟩⟩
    rw [h2] at hne2
    exact absurd rfl hne2

/-- Witness of C4, amended: on the text `a b c`, `peekToken(2)` in the start
state returns a token that is not end-of-input. -/
theorem peekToken_fills_buffer_witness :
    1 ≤ 2 ∧ (initState "a b c".toList).bufferIndex + 2 ≤ sizeRange ∧
    (peekToken 2 (initState "a b c".toList)).1.type ≠ "EOF" ∧
    PeekFillsBuffer 2 (initState "a b c".toList) :=
  ⟨by decide, by decide, by decide,
    (peekToken_fills_buffer (initState "a b c".toList) 2 (by decide) (by decide)).2.1
      (by decide)⟩

/-- C5: frame of `peekToken`.  For every state and `k ≥ 1`, `peekToken(k)` leaves
`bufferIndex` and `currentToken` (and the output written so far) unchanged,
and the buffer before the call is a prefix of the buffer after it. -/
theorem peekToken_frame (s : State) (k : Nat) (_hk : 1 ≤ k) :
    (peekToken k s).2.bufferIndex = s.bufferIndex ∧
    (peekToken k s).2.currentToken = s.currentToken ∧
    (peekToken k s).2.outFile = s.outFile ∧
    s.tokenBuffer <+: (peekToken k s).2.tokenBuffer :=
  peekTokenLoop_frame _ _ s

/-- Witness of C5: the state reached on the text `a b c` after `initParser`,
with `k = 2`. -/
theorem peekToken_frame_witness :
    1 ≤ 2 ∧
    (peekToken 2 (initParser (initState "a b c".toList))).2.bufferIndex =
      (initParser (initState "a b c".toList)).bufferIndex ∧
    (initParser (initState "a b c".toList)).tokenBuffer <+:
      (peekToken 2 (initParser (initState "a b c".toList))).2.tokenBuffer :=
  ⟨by decide, (peekToken_frame (initParser (initState "a b c".toList)) 2 (by decide)).1,
    (peekToken_frame (initParser (initState "a b c".toList)) 2 (by decide)).2.2.2⟩

/-- C6, as stated, fails: on the text `a` the first `getToken()` finds nothing
buffered, returns the token read from the file and leaves `bufferIndex` at
`0`. -/
theorem getToken_cursor_unmoved :
    ¬ AdvanceMovesCursor (initState "a".toList) ∧
    (getToken (initState "a".toList)).1 = ⟨"IDENFR", "a"⟩ ∧
    (getToken (initState "a".toList)).2.bufferIndex = 0 ∧
    (getToken (initState "a".toList)).2.tokenBuffer = [] := by
  decide

/-- C6, amended: in every state satisfying the buffer invariant, `getToken()`
returns the first pending token and leaves the rest of the pending stream.
When a token is buffered at the cursor, that token is returned, `bufferIndex`
grows by exactly one and buffer and character source are unchanged.  When
none is, the token is fetched from the tokenizer and returned without being
stored: buffer and `bufferIndex` are unchanged and the character source has
moved past the fetched token.  `currentToken` and the output are unchanged in
both cases. -/
theorem getToken_advances (s : State) (hs : BufferOk s) :
    (getToken s).1 = pending s 0 ∧
    (∀ n, pending (getToken s).2 n = pending s (n + 1)) ∧
    (s.bufferIndex < s.tokenBuffer.length →
      s.tokenBuffer[s.bufferIndex]? = some (getToken s).1 ∧
      (getToken s).2.bufferIndex = s.bufferIndex + 1 ∧
      (getToken s).2.inFile = s.inFile) ∧
    (¬ s.bufferIndex < s.tokenBuffer.length →
      getNextTokenFromFile s.inFile = ((getToken s).1, (getToken s).2.inFile) ∧
      (getToken s).2.bufferIndex = s.bufferIndex) ∧
    (getToken s).2.tokenBuffer = s.tokenBuffer ∧
    (getToken s).2.currentToken = s.currentToken ∧
    (getToken s).2.outFile = s.outFile := by
  refine ⟨getToken_result hs, getToken_pending hs, ?_, ?_, ?_, ?_, ?_⟩
  · intro h
    unfold getToken
    rw [if_pos h]
    exact ⟨by simp [List.getD, List.getElem?_eq_getElem h], rfl, rfl⟩
  · intro h
    unfold getToken
    rw [if_neg h]
    exact ⟨rfl, rfl⟩
  all_goals
    unfold getToken
    by_cases h : s.bufferIndex < s.tokenBuffer.length
    · rw [if_pos h]
    · rw [if_neg h]

/-- Witness of C6, amended: the state reached on the text `a b c` after
`initParser` and `peekToken(2)`, where the cursor has two tokens buffered. -/
theorem getToken_advances_witness :
    BufferOk (peekToken 2 (initParser (initState "a b c".toList))).2 ∧
    (getToken (peekToken 2 (initParser (initState "a b c".toList))).2).1 =
      pending (peekToken 2 (initParser (initState "a b c".toList))).2 0 ∧
    (getToken (peekToken 2 (initParser (initState "a b c".toList))).2).1 = ⟨"IDENFR", "b"⟩ :=
  ⟨by decide,
    (getToken_advances (peekToken 2 (initParser (initState "a b c".toList))).2 (by decide)).1,
    by decide⟩

/-! ## Tokenizer: the claims -/

/-- C7: two-character operator disambiguation.  Whatever follows, `<=`, `>=`,
`==`, `!=` each give one token (`LEQ <=`, `GEQ >=`, `EQL ==`, `NEQ !=`) and
consume both characters; `<`, `>`, `=` followed by a character other than `=`
or by the end of input give `LSS <`, `GRE >`, `ASSIGN =` and leave what
follows unread.  The text `<=` is the single token `LEQ <=`, and `< =` is the
two tokens `LSS <`, `ASSIGN =`. -/
theorem two_char_operators (rest : List Char) :
    getNextTokenFromFile ('<' :: '=' :: rest) = (⟨"LEQ", "<="⟩, rest) ∧
    getNextTokenFromFile ('>' :: '=' :: rest) = (⟨"GEQ", ">="⟩, rest) ∧
    getNextTokenFromFile ('=' :: '=' :: rest) = (⟨"EQL", "=="⟩, rest) ∧
    getNextTokenFromFile ('!' :: '=' :: rest) = (⟨"NEQ", "!="⟩, rest) ∧
    (rest.head? ≠ some '=' →
      getNextTokenFromFile ('<' :: rest) = (⟨"LSS", "<"⟩, rest) ∧
      getNextTokenFromFile ('>' :: rest) = (⟨"GRE", ">"⟩, rest) ∧
      getNextTokenFromFile ('=' :: rest) = (⟨"ASSIGN", "="⟩, rest)) ∧
    tokenize "<=".toList = [⟨"LEQ", "<="⟩] ∧
    tokenize "< =".toList = [⟨"LSS", "<"⟩, ⟨"ASSIGN", "="⟩] := by
  refine ⟨?_, ?_, ?_, ?_, fun h => ⟨?_, ?_, ?_⟩, by decide, by decide⟩
  · rw [getNextTokenFromFile_lss]; rfl
  · rw [getNextTokenFromFile_gre]; rfl
  · rw [getNextTokenFromFile_assign]; rfl
  · rw [getNextTokenFromFile_bang]; rfl
  · rw [getNextTokenFromFile_lss, if_neg h]
  · rw [getNextTokenFromFile_gre, if_neg h]
  · rw [getNextTokenFromFile_assign, if_neg h]

/-- Witness of C7: the rest of input ` a`, which does not start with `=`. -/
theorem two_char_operators_witness :
    " a".toList.head? ≠ some '=' ∧
    getNextTokenFromFile ('<' :: " a".toList) = (⟨"LSS", "<"⟩, " a".toList) :=
  ⟨by decide, ((two_char_operators " a".toList).2.2.2.2.1 (by decide)).1⟩

/-- C8: identifier/keyword rule.  When the first character that is not white
space is a letter or an underscore, followed by a run `cs` of letters, digits
and underscores that is maximal (what follows the run does not start with such
a character), the returned text is that character with the whole run, the
characters after the run are left unread, and the category is the one the
keyword table gives when the text is one of its 13 reserved words and `IDENFR`
otherwise; `int1` and `main_` are `IDENFR`. -/
theorem identifier_or_keyword (ws cs rest : List Char) (c : Char)
    (hws : ∀ w ∈ ws, isspace w = true)
    (hc : isalpha c = true ∨ c = '_')
    (hcs : ∀ x ∈ cs, isalpha x = true ∨ isdigit x = true ∨ x = '_')
    (hrest : ∀ x, rest.head? = some x → ¬ (isalpha x = true ∨ isdigit x = true ∨ x = '_')) :
    (getNextTokenFromFile (ws ++ c :: (cs ++ rest))).1.value = String.mk (c :: cs) ∧
    (getNextTokenFromFile (ws ++ c :: (cs ++ rest))).2 = rest ∧
    (∀ p ∈ keywords, String.mk (c :: cs) = p.1 →
      (getNextTokenFromFile (ws ++ c :: (cs ++ rest))).1.type = p.2) ∧
    ((∀ p ∈ keywords, String.mk (c :: cs) ≠ p.1) →
      (getNextTokenFromFile (ws ++ c :: (cs ++ rest))).1.type = "IDENFR") ∧
    ((getNextTokenFromFile (ws ++ c :: (cs ++ rest))).1.type ≠ "IDENFR" ↔
      ∃ p ∈ keywords, String.mk (c :: cs) = p.1) ∧
    keywords.map Prod.fst = ["const", "int", "char", "void", "main", "if", "else", "do",
      "while", "for", "scanf", "printf", "return"] ∧
    keywords.map Prod.snd = ["CONSTTK", "INTTK", "CHARTK", "VOIDTK", "MAINTK", "IFTK",
      "ELSETK", "DOTK", "WHILETK", "FORTK", "SCANFTK", "PRINTFTK", "RETURNTK"] ∧
    (getNextTokenFromFile "int1".toList).1 = ⟨"IDENFR", "int1"⟩ ∧
    (getNextTokenFromFile "main_".toList).1 = ⟨"IDENFR", "main_"⟩ := by
  have hstart : (isalpha c || c == '_') = true := by
    rcases hc with h | h
    · simp [h]
    · simp [h]
  have hrun : ∀ x ∈ cs, identChar x = true := by
    intro x hx
    rcases hcs x hx with h | h | h
    · simp [identChar, isalnum, h]
    · simp [identChar, isalnum, h]
    · simp [identChar, h]
  have hstop : ∀ x, rest.head? = some x → identChar x = false := by
    intro x hx
    have := hrest x hx
    simp only [not_or] at this
    simp [identChar, isalnum, this.1, this.2.1, this.2.2]
  obtain ⟨htake, hdrop⟩ := takeWhile_run hrun hstop
  have hcall : getNextTokenFromFile (ws ++ c :: (cs ++ rest)) =
      (⟨identType (String.mk (c :: cs)), String.mk (c :: cs)⟩, rest) := by
    rw [getNextTokenFromFile_skip_space ws _ hws, getNextTokenFromFile_ident hstart, htake, hdrop]
  have htable : ∀ p ∈ keywords, identType p.1 = p.2 := by decide
  have hkind : ∀ p ∈ keywords, p.2 ≠ "IDENFR" := by decide
  have hnone : (∀ p ∈ keywords, String.mk (c :: cs) ≠ p.1) →
      identType (String.mk (c :: cs)) = "IDENFR" := by
    intro h
    unfold identType
    rw [lookup_none keywords h]
  rw [hcall]
  refine ⟨rfl, rfl, ?_, hnone, ⟨?_, ?_⟩, by decide, by decide, by decide, by decide⟩
  · intro p hp he
    show identType (String.mk (c :: cs)) = p.2
    rw [he]
    exact htable p hp
  · intro hne
    by_contra hno
    exact hne (hnone (fun p hp he => hno ⟨p, hp, he⟩))
  · rintro ⟨p, hp, he⟩
    show identType (String.mk (c :: cs)) ≠ "IDENFR"
    rw [he, htable p hp]
    exact hkind p hp

/-- Witness of C8: the text ` while1(`, read as the identifier `while1`. -/
theorem identifier_or_keyword_witness :
    (getNextTokenFromFile " while1(".toList).1.value = "while1" ∧
    (getNextTokenFromFile " while1(".toList).2 = "(".toList ∧
    (getNextTokenFromFile " while1(".toList).1.type = "IDENFR" :=
  ⟨(identifier_or_keyword " ".toList "hile1".toList "(".toList 'w'
      (by decide) (by decide) (by decide) (by decide)).1,
    (identifier_or_keyword " ".toList "hile1".toList "(".toList 'w'
      (by decide) (by decide) (by decide) (by decide)).2.1,
    (identifier_or_keyword " ".toList "hile1".toList "(".toList 'w'
      (by decide) (by decide) (by decide) (by decide)).2.2.2.1 (by decide)⟩

/-- C9: quoted literals are de-quoted.  For every text `s` without a double
quote and every rest `r`, tokenizing `"s"r` returns `STRCON` with the text `s`
(both quotes excluded, `s` possibly empty) and leaves exactly `r` unread;
likewise with single quotes and `CHARCON`. -/
theorem quoted_literals (s r : List Char) :
    (dquote ∉ s →
      getNextTokenFromFile (dquote :: (s ++ dquote :: r)) = (⟨"STRCON", String.mk s⟩, r)) ∧
    (squote ∉ s →
      getNextTokenFromFile (squote :: (s ++ squote :: r)) = (⟨"CHARCON", String.mk s⟩, r)) := by
  constructor
  · intro hs
    obtain ⟨h1, h2⟩ := takeWhile_until hs r
    rw [getNextTokenFromFile_dquote, h1, h2]
    rfl
  · intro hs
    obtain ⟨h1, h2⟩ := takeWhile_until hs r
    rw [getNextTokenFromFile_squote, h1, h2]
    rfl

/-- Witness of C9: the text `a b` between quotes, followed by `);`, and the
empty text. -/
theorem quoted_literals_witness :
    dquote ∉ "a b".toList ∧ squote ∉ "a b".toList ∧
    getNextTokenFromFile (dquote :: ("a b".toList ++ dquote :: ");".toList)) =
      (⟨"STRCON", "a b"⟩, ");".toList) ∧
    getNextTokenFromFile (squote :: ("a b".toList ++ squote :: ");".toList)) =
      (⟨"CHARCON", "a b"⟩, ");".toList) ∧
    getNextTokenFromFile (dquote :: ([] ++ dquote :: ");".toList)) =
      (⟨"STRCON", ""⟩, ");".toList) :=
  ⟨by decide, by decide,
    (quoted_literals "a b".toList ");".toList).1 (by decide),
    (quoted_literals "a b".toList ");".toList).2 (by decide),
    (quoted_literals [] ");".toList).1 (by decide)⟩

/-- C10, as stated, fails: the text `printf(` followed by a double quote and
`abc`, where the source ends inside the literal, is tokenized without any
error into `PRINTFTK printf`, `LPARENT (` and a `STRCON` token holding the
truncated text `abc`. -/
theorem unterminated_string_accepted :
    tokenize ("printf(".toList ++ dquote :: "abc".toList) =
      [⟨"PRINTFTK", "printf"⟩, ⟨"LPARENT", "("⟩, ⟨"STRCON", "abc"⟩] ∧
    nthFromFile 2 ("printf(".toList ++ dquote :: "abc".toList) = ⟨"STRCON", "abc"⟩ ∧
    nthFromFile 3 ("printf(".toList ++ dquote :: "abc".toList) = eofToken := by
  decide

/-- C10, amended: an unterminated string literal is not rejected.  Whenever the
tokenizer, after optional white space, meets a double quote and the source is
exhausted before a closing double quote, `getNextTokenFromFile` returns a
`STRCON` token whose text is everything after the opening quote up to the last
character of the source, leaves the source exhausted, and answers end-of-input
at the next call. -/
theorem unterminated_string (ws s : List Char) (hws : ∀ w ∈ ws, isspace w = true)
    (hs : dquote ∉ s) :
    getNextTokenFromFile (ws ++ dquote :: s) = (⟨"STRCON", String.mk s⟩, []) ∧
    getNextTokenFromFile (getNextTokenFromFile (ws ++ dquote :: s)).2 = (eofToken, []) := by
  obtain ⟨h1, h2⟩ := takeWhile_open hs
  have hcall : getNextTokenFromFile (ws ++ dquote :: s) = (⟨"STRCON", String.mk s⟩, []) := by
    rw [getNextTokenFromFile_skip_space ws _ hws, getNextTokenFromFile_dquote, h1, h2]
    rfl
  rw [hcall]
  exact ⟨rfl, rfl⟩

/-- Witness of C10, amended: a space, a double quote and `abc`. -/
theorem unterminated_string_witness :
    dquote ∉ "abc".toList ∧
    getNextTokenFromFile (" ".toList ++ dquote :: "abc".toList) = (⟨"STRCON", "abc"⟩, []) :=
  ⟨by decide, (unterminated_string " ".toList "abc".toList (by decide) (by decide)).1⟩

theorem getSingleCharToken_of_not_mem {c : Char} (h : c ∉ ruleStarts) :
    getSingleCharToken c = "" := by
  simp only [ruleStarts, List.mem_cons, List.mem_singleton, List.not_mem_nil, or_false,
    not_or] at h
  obtain ⟨-, -, -, -, h1, h2, h3, h4, h5, h6, h7, h8, h9, h10, h11, h12⟩ := h
  unfold getSingleCharToken
  rw [if_neg h1, if_neg h2, if_neg h3, if_neg h4, if_neg h5, if_neg h6, if_neg h7, if_neg h8,
    if_neg h9, if_neg h10, if_neg h11, if_neg h12]

theorem noRule_iff {c : Char} :
    noRule c = true ↔ (isalpha c || c == '_') = false ∧ isdigit c = false ∧ c ≠ dquote ∧
      c ≠ squote ∧ c ∉ ruleStarts := by
  unfold noRule
  simp only [Bool.not_eq_true', Bool.or_eq_false_iff, beq_eq_false_iff_ne, ne_eq,
    List.contains_eq_any_beq, List.any_eq_false, beq_iff_eq]
  constructor
  · rintro ⟨⟨⟨⟨⟨h1, h2⟩, h3⟩, h4⟩, h5⟩, h6⟩
    exact ⟨⟨h1, h2⟩, h3, h4, h5, fun hm => h6 c hm rfl⟩
  · rintro ⟨⟨h1, h2⟩, h3, h4, h5, h6⟩
    exact ⟨⟨⟨⟨⟨h1, h2⟩, h3⟩, h4⟩, h5⟩, fun x hx hxc => h6 (hxc ▸ hx)⟩

/-- A character of `noRule` that is not white space either is read and dropped. -/
theorem getNextTokenFromFile_noRule {c : Char} (h : noRule c = true) (rest : List Char) :
    getNextTokenFromFile (c :: rest) = getNextTokenFromFile rest := by
  obtain ⟨h1, h2, h3, h4, h5⟩ := noRule_iff.1 h
  have h6 := getSingleCharToken_of_not_mem h5
  simp only [ruleStarts, List.mem_cons, List.mem_singleton, List.not_mem_nil, or_false,
    not_or] at h5
  obtain ⟨g1, g2, g3, g4, -⟩ := h5
  rw [getNextTokenFromFile]
  by_cases hsp : isspace c = true
  · rw [if_pos hsp]
  rw [if_neg hsp, if_neg (by simp [h1]), if_neg (by simp [h2]), if_neg (by simpa using h3),
    if_neg (by simpa using h4), if_neg (by simpa using g1), if_neg (by simpa using g2),
    if_neg (by simpa using g3), if_neg (by simpa using g4), h6]
  rfl

theorem getSingleCharToken_mem {c : Char} (h : getSingleCharToken c ≠ "") : c ∈ ruleStarts := by
  by_contra hn
  exact h (getSingleCharToken_of_not_mem hn)

theorem getSingleCharToken_ne_literal (c : Char) :
    getSingleCharToken c ≠ "STRCON" ∧ getSingleCharToken c ≠ "CHARCON" := by
  unfold getSingleCharToken
  constructor
  · iterate 12 refine ite_ne_of (by decide) ?_
    decide
  · iterate 12 refine ite_ne_of (by decide) ?_
    decide

theorem identType_ne_literal (s : String) :
    identType s ≠ "STRCON" ∧ identType s ≠ "CHARCON" := by
  rcases identType_cases s with h | h
  · rw [h]; exact ⟨by decide, by decide⟩
  · constructor
    · intro he
      rw [he] at h
      simp [keywords] at h
    · intro he
      rw [he] at h
      simp [keywords] at h

theorem tokenText_plain {t : Token} (h1 : t.type ≠ "STRCON") (h2 : t.type ≠ "CHARCON") :
    tokenText t = t.value.data := by
  unfold tokenText
  rw [if_neg h1, if_neg h2]

theorem Consumed_skip {c : Char} {inp : List Char} {t : Token} {rest : List Char}
    (hc : isspace c = true ∨ c = '!' ∨ noRule c = true) (h : Consumed inp t rest) :
    Consumed (c :: inp) t rest := by
  obtain ⟨skipped, text, h1, h2, h3⟩ := h
  refine ⟨c :: skipped, text, by rw [h1]; rfl, ?_, h3⟩
  intro x hx
  rcases List.mem_cons.1 hx with hx | hx
  · rw [hx]; exact hc
  · exact h2 x hx

theorem Consumed_exact {inp : List Char} {t : Token} {rest : List Char}
    (h : inp = tokenText t ++ rest) : Consumed inp t rest :=
  ⟨[], tokenText t, by rw [h]; rfl, fun _ hx => absurd hx (List.not_mem_nil _), Or.inl rfl⟩

/-- The characters removed when a literal opened by the quote `q` is read. -/
theorem Consumed_literal {q : Char} {ty : String} (rest : List Char)
    (hty : ty = "STRCON" ∨ ty = "CHARCON")
    (htext : ∀ v : String, tokenText ⟨ty, v⟩ = q :: v.data ++ [q]) :
    Consumed (q :: rest) ⟨ty, String.mk (rest.takeWhile (fun c => c != q))⟩
      (rest.dropWhile (fun c => c != q)).tail := by
  have hsplit := List.takeWhile_append_dropWhile (fun c => c != q) rest
  cases hd : rest.dropWhile (fun c => c != q) with
  | nil =>
    rw [hd, List.append_nil] at hsplit
    refine ⟨[], q :: rest, by simp, fun _ hx => absurd hx (List.not_mem_nil _), Or.inr ?_⟩
    refine ⟨hty, ?_, rfl⟩
    rw [htext, hsplit]
    show q :: rest = (q :: (rest ++ [q])).dropLast
    rw [List.dropLast_cons_of_ne_nil (by simp), List.dropLast_concat]
  | cons x r =>
    have hx : x = q := by
      have h0 := List.head_dropWhile_not (fun c => c != q) rest (by rw [hd]; simp)
      simp only [hd, List.head_cons] at h0
      simpa using h0
    apply Consumed_exact
    rw [htext]
    show q :: rest = q :: (rest.takeWhile (fun c => c != q) ++ [q]) ++ r
    rw [hd, hx] at hsplit
    nth_rewrite 1 [← hsplit]
    simp

theorem cons_tail_of_head {c : Char} {rest : List Char} (h : rest.head? = some c) :
    rest = c :: rest.tail := by
  cases rest with
  | nil => simp at h
  | cons x r =>
    simp only [List.head?_cons, Option.some.injEq] at h
    rw [h]
    rfl

/-- One character of the source: what the call removes, given what the call on
the characters after it removes. -/
theorem consumed_step (ch : Char) (rest : List Char)
    (hrec : (getNextTokenFromFile rest).1.type ≠ "EOF" →
      Consumed rest (getNextTokenFromFile rest).1 (getNextTokenFromFile rest).2) :
    (getNextTokenFromFile (ch :: rest)).1.type ≠ "EOF" →
      Consumed (ch :: rest) (getNextTokenFromFile (ch :: rest)).1
        (getNextTokenFromFile (ch :: rest)).2 := by
  rw [getNextTokenFromFile]
  by_cases h1 : isspace ch = true
  · rw [if_pos h1]
    exact fun h => Consumed_skip (Or.inl h1) (hrec h)
  rw [if_neg h1]
  by_cases h2 : (isalpha ch || ch == '_') = true
  · rw [if_pos h2]
    intro _
    apply Consumed_exact
    rw [tokenText_plain (identType_ne_literal _).1 (identType_ne_literal _).2]
    show ch :: rest = ch :: rest.takeWhile identChar ++ rest.dropWhile identChar
    rw [List.cons_append, List.takeWhile_append_dropWhile]
  rw [if_neg h2]
  by_cases h3 : isdigit ch = true
  · rw [if_pos h3]
    intro _
    apply Consumed_exact
    rw [tokenText_plain (show "INTCON" ≠ "STRCON" by decide)
      (show "INTCON" ≠ "CHARCON" by decide)]
    show ch :: rest = ch :: rest.takeWhile isdigit ++ rest.dropWhile isdigit
    rw [List.cons_append, List.takeWhile_append_dropWhile]
  rw [if_neg h3]
  by_cases h4 : (ch == dquote) = true
  · rw [if_pos h4]
    intro _
    have e : ch = dquote := by simpa using h4
    rw [e]
    exact Consumed_literal rest (Or.inl rfl) (fun _ => rfl)
  rw [if_neg h4]
  by_cases h5 : (ch == squote) = true
  · rw [if_pos h5]
    intro _
    have e : ch = squote := by simpa using h5
    rw [e]
    exact Consumed_literal rest (Or.inr rfl) (fun _ => rfl)
  rw [if_neg h5]
  by_cases h6 : (ch == '<') = true
  · rw [if_pos h6]
    have e : ch = '<' := by simpa using h6
    rw [e]
    by_cases hn : rest.head? = some '='
    · rw [if_pos hn]
      intro _
      apply Consumed_exact
      nth_rewrite 1 [cons_tail_of_head hn]
      rfl
    · rw [if_neg hn]
      exact fun _ => Consumed_exact rfl
  rw [if_neg h6]
  by_cases h7 : (ch == '>') = true
  · rw [if_pos h7]
    have e : ch = '>' := by simpa using h7
    rw [e]
    by_cases hn : rest.head? = some '='
    · rw [if_pos hn]
      intro _
      apply Consumed_exact
      nth_rewrite 1 [cons_tail_of_head hn]
      rfl
    · rw [if_neg hn]
      exact fun _ => Consumed_exact rfl
  rw [if_neg h7]
  by_cases h8 : (ch == '=') = true
  · rw [if_pos h8]
    have e : ch = '=' := by simpa using h8
    rw [e]
    by_cases hn : rest.head? = some '='
    · rw [if_pos hn]
      intro _
      apply Consumed_exact
      nth_rewrite 1 [cons_tail_of_head hn]
      rfl
    · rw [if_neg hn]
      exact fun _ => Consumed_exact rfl
  rw [if_neg h8]
  by_cases h9 : (ch == '!') = true
  · rw [if_pos h9]
    have e : ch = '!' := by simpa using h9
    rw [e]
    by_cases hn : rest.head? = some '='
    · rw [if_pos hn]
      intro _
      apply Consumed_exact
      nth_rewrite 1 [cons_tail_of_head hn]
      rfl
    · rw [if_neg hn]
      exact fun h => Consumed_skip (Or.inr (Or.inl rfl)) (hrec h)
  rw [if_neg h9]
  by_cases h10 : (getSingleCharToken ch != "") = true
  · rw [if_pos h10]
    intro _
    apply Consumed_exact
    rw [tokenText_plain (getSingleCharToken_ne_literal ch).1 (getSingleCharToken_ne_literal ch).2]
    rfl
  · rw [if_neg h10]
    have hnr : noRule ch = true := by
      rw [noRule_iff]
      refine ⟨by simpa using h2, by simpa using h3, by simpa using h4, by simpa using h5, ?_⟩
      intro hm
      have h0 : getSingleCharToken ch = "" := by simpa using h10
      simp only [ruleStarts, List.mem_cons, List.mem_singleton, List.not_mem_nil,
        or_false] at hm
      rcases hm with hm | hm | hm | hm | hm | hm | hm | hm | hm | hm | hm | hm | hm | hm |
        hm | hm
      · exact h6 (by simp [hm])
      · exact h7 (by simp [hm])
      · exact h8 (by simp [hm])
      · exact h9 (by simp [hm])
      all_goals
        rw [hm] at h0
        exact absurd h0 (by decide)
    exact fun h => Consumed_skip (Or.inr (Or.inr hnr)) (hrec h)

theorem consumed_all : ∀ inp : List Char,
    (getNextTokenFromFile inp).1.type ≠ "EOF" →
      Consumed inp (getNextTokenFromFile inp).1 (getNextTokenFromFile inp).2
  | [] => fun h => absurd rfl h
  | ch :: rest => consumed_step ch rest (consumed_all rest)

/-! ## Tokenizer: characters outside every rule -/

/-- C11, as stated, fails: on `!a` the `!` is dropped and the identifier after it
is returned, and on `@;` the `@`, which starts no token, is dropped and `;` is
returned; in both cases the answer is the one given without the character. -/
theorem unmatched_char_dropped :
    getNextTokenFromFile "!a".toList = (⟨"IDENFR", "a"⟩, []) ∧
    getNextTokenFromFile "!a".toList = getNextTokenFromFile "a".toList ∧
    noRule '@' = true ∧
    getNextTokenFromFile "@;".toList = (⟨"SEMICN", ";"⟩, []) ∧
    getNextTokenFromFile "@;".toList = getNextTokenFromFile ";".toList ∧
    getNextTokenFromFile "@".toList = (eofToken, []) := by
  decide

/-- C11, amended: when the next character after white space is a `!` not
followed by `=`, or a character that starts no token, `getNextTokenFromFile`
reads it, reports nothing and carries on: it answers what it answers on the
characters after it. -/
theorem unmatched_char_skipped (ws : List Char) (c : Char) (rest : List Char)
    (hws : ∀ w ∈ ws, isspace w = true)
    (hc : (c = '!' ∧ rest.head? ≠ some '=') ∨ noRule c = true) :
    getNextTokenFromFile (ws ++ c :: rest) = getNextTokenFromFile rest := by
  rw [getNextTokenFromFile_skip_space ws _ hws]
  rcases hc with ⟨h1, h2⟩ | h
  · rw [h1, getNextTokenFromFile_bang, if_neg h2]
  · exact getNextTokenFromFile_noRule h rest

/-- Witness of C11, amended: a space, `#`, then `x = 1`. -/
theorem unmatched_char_skipped_witness :
    noRule '#' = true ∧
    getNextTokenFromFile (" ".toList ++ '#' :: "x = 1".toList) =
      getNextTokenFromFile "x = 1".toList ∧
    getNextTokenFromFile "x = 1".toList = (⟨"IDENFR", "x"⟩, " = 1".toList) :=
  ⟨by decide,
    unmatched_char_skipped " ".toList '#' "x = 1".toList (by decide) (Or.inr (by decide)),
    by decide⟩

/-- C12, as stated, fails: on `@a` the call returns `IDENFR a` having removed
`@a`, which is not white space followed by `a`; on a double quote followed by
`ab` it returns `STRCON ab` having removed one quote, not two. -/
theorem consumes_more_than_token :
    getNextTokenFromFile "@a".toList = (⟨"IDENFR", "a"⟩, []) ∧
    ¬ ConsumesExactly "@a".toList ∧
    getNextTokenFromFile (dquote :: "ab".toList) = (⟨"STRCON", "ab"⟩, []) ∧
    ¬ ConsumesExactly (dquote :: "ab".toList) := by
  have e1 : getNextTokenFromFile "@a".toList = (⟨"IDENFR", "a"⟩, []) := by decide
  have e2 : getNextTokenFromFile (dquote :: "ab".toList) = (⟨"STRCON", "ab"⟩, []) := by decide
  refine ⟨e1, ?_, e2, ?_⟩
  · rintro ⟨ws, hws, h⟩
    rw [e1] at h
    have ht : tokenText ⟨"IDENFR", "a"⟩ = ['a'] := by decide
    rw [ht] at h
    cases ws with
    | nil => simp at h
    | cons w ws =>
      have hw : '@' = w := by
        have h0 := congrArg List.head? h
        simpa using h0
      have h1 := hws w (List.mem_cons_self _ _)
      rw [← hw] at h1
      revert h1
      decide
  · rintro ⟨ws, -, h⟩
    rw [e2] at h
    have ht : tokenText ⟨"STRCON", "ab"⟩ = [dquote, 'a', 'b', dquote] := by decide
    rw [ht] at h
    have h0 := congrArg List.length h
    simp at h0

/-- C12, amended: a call that returns a token other than end-of-input has removed
a run of skipped characters (white space, `!`, characters that start no token)
followed by the text of the token, and has left the rest of the input untouched.
The text is the lexeme, wrapped in its two quotes for a string or character
literal, except that a literal cut by the end of input has no closing quote and
leaves nothing. -/
theorem consumed_characters (inp : List Char)
    (h : (getNextTokenFromFile inp).1.type ≠ "EOF") :
    ∃ skipped text : List Char,
      inp = skipped ++ text ++ (getNextTokenFromFile inp).2 ∧
      (∀ c ∈ skipped, isspace c = true ∨ c = '!' ∨ noRule c = true) ∧
      (text = tokenText (getNextTokenFromFile inp).1 ∨
        (((getNextTokenFromFile inp).1.type = "STRCON" ∨
            (getNextTokenFromFile inp).1.type = "CHARCON") ∧
          text = (tokenText (getNextTokenFromFile inp).1).dropLast ∧
          (getNextTokenFromFile inp).2 = [])) :=
  consumed_all inp h

/-- Witness of C12, amended: the text `@ a<=b`, where `@` and a space are
skipped, `a` is the text of the token and `<=b` is left. -/
theorem consumed_characters_witness :
    (getNextTokenFromFile "@ a<=b".toList).1.type ≠ "EOF" ∧
    getNextTokenFromFile "@ a<=b".toList = (⟨"IDENFR", "a"⟩, "<=b".toList) ∧
    ∃ skipped text : List Char,
      "@ a<=b".toList = skipped ++ text ++ (getNextTokenFromFile "@ a<=b".toList).2 ∧
      (∀ c ∈ skipped, isspace c = true ∨ c = '!' ∨ noRule c = true) ∧
      (text = tokenText (getNextTokenFromFile "@ a<=b".toList).1 ∨
        (((getNextTokenFromFile "@ a<=b".toList).1.type = "STRCON" ∨
            (getNextTokenFromFile "@ a<=b".toList).1.type = "CHARCON") ∧
          text = (tokenText (getNextTokenFromFile "@ a<=b".toList).1).dropLast ∧
          (getNextTokenFromFile "@ a<=b".toList).2 = [])) :=
  ⟨by decide, by decide, consumed_characters "@ a<=b".toList (by decide)⟩

theorem Pres_mt {R : State → State → Prop} {T : String → Prop}
    (h : Closed R T) : Pres R mt := by
  intro s s1 hs
  simp only [mt, act, Option.some.injEq] at hs
  subst hs
  exact h.onMatch _ _

theorem Pres_emit {R : State → State → Prop} {T : String → Prop}
    (h : Closed R T) {t : String} (ht : T t) : Pres R (act (emit t)) := by
  intro s s1 hs
  simp only [act, Option.some.injEq] at hs
  subst hs
  exact h.onEmit _ _ ht

theorem Pres_skip {R : State → State → Prop} {T : String → Prop}
    (h : Closed R T) : Pres R skip := by
  intro s s1 hs
  simp only [skip, Option.some.injEq] at hs
  subst hs
  exact h.refl _

theorem Pres_seq_nil {R : State → State → Prop} {T : String → Prop}
    (h : Closed R T) : Pres R (seq []) := by
  intro s s1 hs
  simp only [seq, Option.some.injEq] at hs
  subst hs
  exact h.refl _

theorem Pres_seq_cons {R : State → State → Prop} {T : String → Prop}
    (h : Closed R T) {a : Action} {as : List Action} (ha : Pres R a)
    (has : Pres R (seq as)) : Pres R (seq (a :: as)) := by
  intro s s1 hs
  simp only [seq] at hs
  cases h1 : a s with
  | none => rw [h1] at hs; simp at hs
  | some s2 =>
    rw [h1] at hs
    exact h.trans _ _ _ (ha _ _ h1) (has _ _ hs)

theorem Pres_ifCur {R : State → State → Prop}
    {kinds : List String} {a b : Action} (ha : Pres R a) (hb : Pres R b) :
    Pres R (ifCur kinds a b) := by
  intro s s1 hs
  unfold ifCur at hs
  by_cases hc : s.currentToken.type ∈ kinds
  · rw [if_pos hc] at hs; exact ha _ _ hs
  · rw [if_neg hc] at hs; exact hb _ _ hs

theorem PresB_ifCur {R : State → State → Prop}
    {kinds : List String} {a b : Body} (ha : PresB R a) (hb : PresB R b) :
    PresB R (ifCur kinds a b) := by
  intro s s1 f hs
  unfold ifCur at hs
  by_cases hc : s.currentToken.type ∈ kinds
  · rw [if_pos hc] at hs; exact ha _ _ _ hs
  · rw [if_neg hc] at hs; exact hb _ _ _ hs

theorem Pres_ite {R : State → State → Prop}
    {c : Prop} [Decidable c] {a b : Action} (ha : Pres R a) (hb : Pres R b) :
    Pres R (if c then a else b) := by
  by_cases hc : c
  · rw [if_pos hc]; exact ha
  · rw [if_neg hc]; exact hb

theorem PresB_ite {R : State → State → Prop}
    {c : Prop} [Decidable c] {a b : Body} (ha : PresB R a) (hb : PresB R b) :
    PresB R (if c then a else b) := by
  by_cases hc : c
  · rw [if_pos hc]; exact ha
  · rw [if_neg hc]; exact hb

theorem Pres_withPeek {R : State → State → Prop} {T : String → Prop}
    (h : Closed R T) {k : Nat} (hk : 1 ≤ k) {f : Token → Action}
    (hf : ∀ t, Pres R (f t)) : Pres R (withPeek k f) := by
  intro s s1 hs
  exact h.trans _ _ _ (h.onPeek k s hk) (hf _ _ _ hs)

theorem PresB_withPeek {R : State → State → Prop} {T : String → Prop}
    (h : Closed R T) {k : Nat} (hk : 1 ≤ k) {f : Token → Body}
    (hf : ∀ t, PresB R (f t)) : PresB R (withPeek k f) := by
  intro s s1 b hs
  exact h.trans _ _ _ (h.onPeek k s hk) (hf _ _ _ _ hs)

theorem PresB_go {R : State → State → Prop}
    {a : Action} (ha : Pres R a) : PresB R (go a) := by
  intro s s1 f hs
  unfold go at hs
  cases h1 : a s with
  | none => rw [h1] at hs; simp at hs
  | some s2 =>
    rw [h1] at hs
    simp only [Option.map_some', Option.some.injEq, Prod.mk.injEq] at hs
    rw [← hs.1]
    exact ha _ _ h1

theorem PresB_brk {R : State → State → Prop} {T : String → Prop}
    (h : Closed R T) : PresB R brk := by
  intro s s1 f hs
  simp only [brk, Option.some.injEq, Prod.mk.injEq] at hs
  rw [← hs.1]
  exact h.refl _

theorem Pres_whileDo {R : State → State → Prop} {T : String → Prop}
    (h : Closed R T) {cond : State → Bool} {body : Body}
    (hb : PresB R body) : ∀ n, Pres R (whileDo cond body n)
  | 0 => by
    intro s s1 hs
    simp [whileDo] at hs
  | n + 1 => by
    intro s s1 hs
    simp only [whileDo] at hs
    by_cases hc : cond s = true
    · rw [if_pos hc] at hs
      cases h1 : body s with
      | none => rw [h1] at hs; simp at hs
      | some r =>
        obtain ⟨s2, f⟩ := r
        rw [h1] at hs
        simp only [Option.some_bind] at hs
        have h2 := hb _ _ _ h1
        cases f with
        | true =>
          simp only [if_true] at hs
          exact h.trans _ _ _ h2 (Pres_whileDo h hb n _ _ hs)
        | false =>
          simp only [Bool.false_eq_true, if_false, Option.some.injEq] at hs
          rw [← hs]
          exact h2
    · rw [if_neg hc] at hs
      simp only [Option.some.injEq] at hs
      rw [← hs]
      exact h.refl _

/-- Every completed run of a procedure relates the state before to the state
after by any relation that is closed under the steps of the parser and under
the tags the procedure can write. -/
theorem parse_closed {R : State → State → Prop} {T : String → Prop}
    (h : Closed R T) :
    ∀ (n : Nat) (p : Proc), (∀ t ∈ mayEmit p, T t) → Pres R (parse n p) := by
  intro n
  induction n with
  | zero =>
    intro p _ s s1 hs
    simp [parse] at hs
  | succ n ih =>
    intro p hT
    cases p <;> simp only [parse] <;>
    repeat' with_reducible first
      | exact Pres_mt h
      | exact Pres_skip h
      | exact Pres_seq_nil h
      | exact Pres_emit h (hT _ (by decide))
      | exact ih _ (fun t ht => hT t ((by decide : ∀ t ∈ mayEmit _, t ∈ mayEmit _) t ht))
      | apply Pres_seq_cons h
      | apply Pres_ifCur
      | apply Pres_ite
      | apply Pres_withPeek h (by decide)
      | apply Pres_whileDo h
      | apply PresB_go
      | exact PresB_brk h
      | apply PresB_ifCur
      | apply PresB_ite
      | apply PresB_withPeek h (by decide)
      | intro _

/-! ## What is left to parse -/

theorem work_eq_zero {s : State} : work s = 0 ↔ atEnd s := by
  unfold work
  by_cases h : atEnd s
  · rw [if_pos h]; exact ⟨fun _ => h, fun _ => rfl⟩
  · rw [if_neg h]; exact ⟨fun h0 => absurd h0 (Nat.succ_ne_zero _), fun h1 => absurd h1 h⟩

theorem work_pos_of_cur {s : State} (h : s.currentToken.type ≠ "EOF") : 0 < work s := by
  rcases Nat.eq_zero_or_pos (work s) with h0 | h0
  · exact absurd (work_eq_zero.1 h0).1 h
  · exact h0

theorem work_pos_of_curIn {kinds : List String} (hk : "EOF" ∉ kinds) {s : State}
    (h : curIn kinds s = true) : 0 < work s := by
  apply work_pos_of_cur
  intro he
  simp only [curIn, decide_eq_true_eq] at h
  exact hk (he ▸ h)

theorem work_emit (t : String) (s : State) : work (emit t s) = work s := rfl

theorem matchToken_buffered (e : String) {s : State}
    (h : s.bufferIndex < s.tokenBuffer.length) :
    matchToken e s =
      { s with outFile := s.outFile ++ [terminalLine s.currentToken],
               currentToken := s.tokenBuffer.getD s.bufferIndex eofToken,
               bufferIndex := s.bufferIndex + 1 } := by
  unfold matchToken getToken
  simp only [if_pos h]

theorem matchToken_unbuffered (e : String) {s : State}
    (h : ¬ s.bufferIndex < s.tokenBuffer.length) :
    matchToken e s =
      { s with outFile := s.outFile ++ [terminalLine s.currentToken],
               currentToken := (getNextTokenFromFile s.inFile).1,
               inFile := (getNextTokenFromFile s.inFile).2 } := by
  unfold matchToken getToken
  simp only [if_neg h]

theorem atEnd_nil_iff (c : Token) (o : List String) (b : List Token) (i : Nat) :
    atEnd ⟨[], o, c, b, i⟩ ↔ c.type = "EOF" ∧ b.length ≤ i := by
  unfold atEnd
  simp [getNextTokenFromFile, eofToken]

theorem atEnd_matchToken (e : String) {s : State} (h : atEnd s) : atEnd (matchToken e s) := by
  obtain ⟨_, h2, h3⟩ := h
  rw [matchToken_unbuffered e (by omega)]
  refine ⟨h3, h2, ?_⟩
  show (getNextTokenFromFile (getNextTokenFromFile s.inFile).2).1.type = "EOF"
  rw [getNextTokenFromFile_eof _ h3]
  rfl

theorem work_matchToken (e : String) (s : State) : work (matchToken e s) ≤ work s - 1 := by
  by_cases hend : atEnd s
  · rw [work_eq_zero.2 (atEnd_matchToken e hend)]
    exact Nat.zero_le _
  · have hw : work s = 2 * (s.inFile.length + (s.tokenBuffer.length - s.bufferIndex)) +
        (if s.currentToken.type = "EOF" then 0 else 1) + 1 := by
      unfold work; rw [if_neg hend]
    have hle : ∀ t : State, work t ≤ 2 * (t.inFile.length + (t.tokenBuffer.length - t.bufferIndex)) +
        (if t.currentToken.type = "EOF" then 0 else 1) + 1 := by
      intro t; unfold work; split <;> omega
    by_cases hb : s.bufferIndex < s.tokenBuffer.length
    · have h1 := hle (matchToken e s)
      rw [matchToken_buffered e hb] at h1 ⊢
      simp only at h1
      rw [hw]
      split at h1 <;> split <;> omega
    · by_cases he : (getNextTokenFromFile s.inFile).1.type = "EOF"
      · have hdead : atEnd (matchToken e s) := by
          rw [matchToken_unbuffered e hb]
          refine ⟨he, by simp only; omega, ?_⟩
          show (getNextTokenFromFile (getNextTokenFromFile s.inFile).2).1.type = "EOF"
          rw [getNextTokenFromFile_eof _ he]
          rfl
        rw [work_eq_zero.2 hdead]
        exact Nat.zero_le _
      · have h1 := hle (matchToken e s)
        have h2 := getNextTokenFromFile_length_lt he
        rw [matchToken_unbuffered e hb] at h1 ⊢
        simp only at h1
        rw [hw]
        split at h1 <;> split <;> omega

theorem peekTokenLoop_atEnd (idx : Nat) {s : State} (h : atEnd s) :
    ∀ fuel, atEnd (peekTokenLoop idx fuel s).2
  | 0 => h
  | fuel + 1 => by
    rw [peekTokenLoop]
    by_cases hg : s.tokenBuffer.length ≤ idx
    · rw [if_pos hg, if_pos h.2.2]
      refine ⟨h.1, h.2.1, ?_⟩
      show (getNextTokenFromFile (getNextTokenFromFile s.inFile).2).1.type = "EOF"
      rw [getNextTokenFromFile_eof _ h.2.2]
      rfl
    · rw [if_neg hg]
      exact h

theorem peekToken_atEnd (k : Nat) {s : State} (h : atEnd s) : atEnd (peekToken k s).2 :=
  peekTokenLoop_atEnd _ h _

theorem peekToken_atEnd_type {k : Nat} (hk : 1 ≤ k) {s : State} (h : atEnd s)
    (hw : s.bufferIndex + k ≤ sizeRange) : (peekToken k s).1.type = "EOF" := by
  obtain ⟨_, h2, h3⟩ := h
  unfold peekToken
  rw [peekIndex_eq hk hw]
  have hf : s.bufferIndex + k - 1 + 1 - s.tokenBuffer.length =
      (s.bufferIndex + k - 1 + 1 - s.tokenBuffer.length - 1) + 1 := by omega
  rw [hf, peekTokenLoop, if_pos (by omega), if_pos h3]
  exact h3

theorem peekTokenLoop_length (idx : Nat) :
    ∀ (fuel : Nat) (s : State),
      (peekTokenLoop idx fuel s).2.inFile.length + (peekTokenLoop idx fuel s).2.tokenBuffer.length ≤
        s.inFile.length + s.tokenBuffer.length ∧
      s.tokenBuffer.length ≤ (peekTokenLoop idx fuel s).2.tokenBuffer.length
  | 0, s => ⟨Nat.le_refl _, Nat.le_refl _⟩
  | fuel + 1, s => by
    rw [peekTokenLoop]
    by_cases hg : s.tokenBuffer.length ≤ idx
    · rw [if_pos hg]
      by_cases he : (getNextTokenFromFile s.inFile).1.type = "EOF"
      · rw [if_pos he]
        refine ⟨?_, Nat.le_refl _⟩
        show (getNextTokenFromFile s.inFile).2.length + _ ≤ _
        rw [getNextTokenFromFile_eof _ he]
        simp
      · rw [if_neg he]
        obtain ⟨h1, h2⟩ := peekTokenLoop_length idx fuel
          { s with inFile := (getNextTokenFromFile s.inFile).2,
                   tokenBuffer := s.tokenBuffer ++ [(getNextTokenFromFile s.inFile).1] }
        have h3 := getNextTokenFromFile_length_lt he
        simp only [List.length_append, List.length_singleton] at h1 h2
        exact ⟨by omega, by omega⟩
    · rw [if_neg hg]
      exact ⟨Nat.le_refl _, Nat.le_refl _⟩

theorem work_peekToken (k : Nat) (s : State) : work (peekToken k s).2 ≤ work s := by
  by_cases hend : atEnd s
  · rw [work_eq_zero.2 (peekToken_atEnd k hend)]
    exact Nat.zero_le _
  · have hw : work s = 2 * (s.inFile.length + (s.tokenBuffer.length - s.bufferIndex)) +
        (if s.currentToken.type = "EOF" then 0 else 1) + 1 := by
      unfold work; rw [if_neg hend]
    have hle : ∀ t : State, work t ≤ 2 * (t.inFile.length + (t.tokenBuffer.length - t.bufferIndex)) +
        (if t.currentToken.type = "EOF" then 0 else 1) + 1 := by
      intro t; unfold work; split <;> omega
    have h1 := hle (peekToken k s).2
    obtain ⟨f1, f2, -, -⟩ := peekTokenLoop_frame (peekIndex s.bufferIndex k)
      (peekIndex s.bufferIndex k + 1 - s.tokenBuffer.length) s
    obtain ⟨l1, l2⟩ := peekTokenLoop_length (peekIndex s.bufferIndex k)
      (peekIndex s.bufferIndex k + 1 - s.tokenBuffer.length) s
    unfold peekToken at h1 ⊢
    rw [f1, f2] at h1
    rw [hw]
    omega

/-- Along every step of the parser what is left to parse does not grow. -/
theorem work_closed : Closed (fun s s1 => work s1 ≤ work s) (fun _ => True) where
  refl := fun _ => Nat.le_refl _
  trans := fun _ _ _ h1 h2 => Nat.le_trans h2 h1
  onMatch := fun e s => Nat.le_trans (work_matchToken e s) (Nat.sub_le _ _)
  onPeek := fun k s _ => work_peekToken k s
  onEmit := fun t s _ => Nat.le_of_eq (work_emit t s)

theorem parse_work {n : Nat} {p : Proc} {s s1 : State} (h : parse n p s = some s1) :
    work s1 ≤ work s :=
  parse_closed work_closed n p (fun _ _ => trivial) s s1 h

/-! ## Termination at the end of input -/

theorem TmEnd_mt : TmEnd mt :=
  fun s h => ⟨matchToken "" s, rfl, atEnd_matchToken "" h⟩

theorem TmEnd_emit (t : String) : TmEnd (act (emit t)) :=
  fun s h => ⟨emit t s, rfl, h⟩

theorem TmEnd_skip : TmEnd skip :=
  fun s h => ⟨s, rfl, h⟩

theorem TmEnd_seq_nil : TmEnd (seq []) :=
  fun s h => ⟨s, rfl, h⟩

theorem TmEnd_seq_cons {a : Action} {as : List Action} (ha : TmEnd a) (has : TmEnd (seq as)) :
    TmEnd (seq (a :: as)) := by
  intro s h
  obtain ⟨s1, h1, e1⟩ := ha s h
  obtain ⟨s2, h2, e2⟩ := has s1 e1
  exact ⟨s2, by simp only [seq, h1, Option.some_bind, h2], e2⟩

theorem TmEnd_ifCur {kinds : List String} (hk : "EOF" ∉ kinds) (a : Action) {b : Action}
    (hb : TmEnd b) : TmEnd (ifCur kinds a b) := by
  intro s h
  have hc : s.currentToken.type ∉ kinds := by rw [h.1]; exact hk
  unfold ifCur
  rw [if_neg hc]
  exact hb s h

theorem TmEnd_whileDo {kinds : List String} (hk : "EOF" ∉ kinds) (body : Body) {n : Nat}
    (hn : 0 < n) : TmEnd (whileDo (curIn kinds) body n) := by
  intro s h
  have hc : ¬ (curIn kinds s = true) := by
    simp only [curIn, decide_eq_true_eq]
    rw [h.1]; exact hk
  obtain ⟨m, rfl⟩ : ∃ m, n = m + 1 := ⟨n - 1, by omega⟩
  exact ⟨s, by simp only [whileDo, if_neg hc], h⟩

/-- Started at the end of input, every procedure completes once its bound
exceeds the depth of its calls by two. -/
theorem parse_atEnd : ∀ (n : Nat) (p : Proc), rankEnd p + 1 < n → TmEnd (parse n p) := by
  intro n
  induction n with
  | zero => intro p hp; exact absurd hp (Nat.not_lt_zero _)
  | succ n ih =>
    intro p hp
    have hn : 0 < n := by omega
    cases p <;> simp only [parse] <;>
    repeat' with_reducible first
      | exact TmEnd_mt
      | exact TmEnd_skip
      | exact TmEnd_seq_nil
      | exact TmEnd_emit _
      | exact ih _ (Nat.lt_of_lt_of_le (Nat.succ_lt_succ (by decide)) (Nat.le_of_lt_succ hp))
      | apply TmEnd_seq_cons
      | apply TmEnd_ifCur (by decide)
      | exact TmEnd_whileDo (by decide) _ hn

/-! ## Progress -/

theorem parse_Rw (n : Nat) (p : Proc) : Pres Rw (parse n p) :=
  parse_closed work_closed n p (fun _ _ => trivial)

theorem Pres_strict_seq_first {a : Action} {as : List Action} (ha : Pres Rs a)
    (has : Pres Rw (seq as)) : Pres Rs (seq (a :: as)) := by
  intro s s1 hs
  simp only [seq] at hs
  cases h1 : a s with
  | none => rw [h1] at hs; simp at hs
  | some s2 =>
    rw [h1] at hs
    have e1 : work s2 ≤ work s - 1 := ha _ _ h1
    have e2 : work s1 ≤ work s2 := has _ _ hs
    exact Nat.le_trans e2 e1

theorem Pres_strict_mt : Pres Rs mt := by
  intro s s1 hs
  simp only [mt, act, Option.some.injEq] at hs
  subst hs
  exact work_matchToken _ _

theorem Pres_strict_withPeek {k : Nat} {f : Token → Action} (hf : ∀ t, Pres Rs (f t)) :
    Pres Rs (withPeek k f) := by
  intro s s1 hs
  have e1 : work s1 ≤ work (peekToken k s).2 - 1 := hf _ _ _ hs
  have e2 := work_peekToken k s
  show work s1 ≤ work s - 1
  omega

theorem PresIf_of_Pres {P : String → Prop} {R : State → State → Prop} {a : Action}
    (h : Pres R a) : PresIf P R a :=
  fun s s1 _ hs => h s s1 hs

theorem PresIf_weaken {P Q : String → Prop} {R : State → State → Prop} {a : Action}
    (hPQ : ∀ t, P t → Q t) (h : PresIf Q R a) : PresIf P R a :=
  fun s s1 hp hs => h s s1 (hPQ _ hp) hs

theorem PresIf_absurd {P : String → Prop} {R : State → State → Prop} {a : Action}
    (h : ∀ t, ¬ P t) : PresIf P R a :=
  fun _ _ hp _ => absurd hp (h _)

theorem PresIf_ifCur {P : String → Prop} {R : State → State → Prop} {kinds : List String}
    {a b : Action} (ha : PresIf (fun t => P t ∧ t ∈ kinds) R a)
    (hb : PresIf (fun t => P t ∧ t ∉ kinds) R b) : PresIf P R (ifCur kinds a b) := by
  intro s s1 hp hs
  unfold ifCur at hs
  by_cases hc : s.currentToken.type ∈ kinds
  · rw [if_pos hc] at hs; exact ha _ _ ⟨hp, hc⟩ hs
  · rw [if_neg hc] at hs; exact hb _ _ ⟨hp, hc⟩ hs

theorem PresIf_strict_seq_first {P : String → Prop} {a : Action} {as : List Action}
    (ha : PresIf P Rs a) (has : Pres Rw (seq as)) : PresIf P Rs (seq (a :: as)) := by
  intro s s1 hp hs
  simp only [seq] at hs
  cases h1 : a s with
  | none => rw [h1] at hs; simp at hs
  | some s2 =>
    rw [h1] at hs
    have e1 : work s2 ≤ work s - 1 := ha _ _ hp h1
    have e2 : work s1 ≤ work s2 := has _ _ hs
    exact Nat.le_trans e2 e1

/-- A procedure whose body starts with `match()` lowers what is left to parse. -/
theorem parse_strict_mt (n : Nat) (p : Proc) (hp : startsWithMatch p = true) :
    Pres Rs (parse n p) := by
  cases n with
  | zero => intro s s1 hs; simp [parse] at hs
  | succ n =>
    cases p <;> first | exact absurd hp (by decide) | skip
    all_goals
      simp only [parse]
      apply Pres_strict_seq_first Pres_strict_mt
      repeat' with_reducible first
        | exact Pres_mt work_closed
        | exact Pres_skip work_closed
        | exact Pres_seq_nil work_closed
        | exact Pres_emit work_closed trivial
        | exact parse_Rw _ _
        | apply Pres_seq_cons work_closed
        | apply Pres_ifCur
        | apply Pres_whileDo work_closed
        | apply PresB_go

/-- The procedure `parseFuncDefWithRet` lowers what is left to parse. -/
theorem parse_strict_funcDefWithRet (n : Nat) : Pres Rs (parse n Proc.parseFuncDefWithRet) := by
  cases n with
  | zero => intro s s1 hs; simp [parse] at hs
  | succ n =>
    simp only [parse]
    apply Pres_strict_seq_first (parse_strict_mt n Proc.parseDeclHead rfl)
    repeat' with_reducible first
      | exact Pres_mt work_closed
      | exact Pres_seq_nil work_closed
      | exact Pres_emit work_closed trivial
      | exact parse_Rw _ _
      | apply Pres_seq_cons work_closed

/-- Started at `while`, `do` or `for`, `parseLoopStmt` lowers what is left to parse. -/
theorem parse_strict_loopStmt (n : Nat) :
    PresIf (fun t => t ∈ ["WHILETK", "DOTK", "FORTK"]) Rs (parse n Proc.parseLoopStmt) := by
  cases n with
  | zero => intro s s1 _ hs; simp [parse] at hs
  | succ n =>
    simp only [parse]
    apply PresIf_strict_seq_first
    · apply PresIf_ifCur
      · apply PresIf_of_Pres
        apply Pres_strict_seq_first Pres_strict_mt
        repeat' with_reducible first
          | exact Pres_mt work_closed
          | exact Pres_seq_nil work_closed
          | exact parse_Rw _ _
          | apply Pres_seq_cons work_closed
      · apply PresIf_ifCur
        · apply PresIf_of_Pres
          apply Pres_strict_seq_first Pres_strict_mt
          repeat' with_reducible first
            | exact Pres_mt work_closed
            | exact Pres_seq_nil work_closed
            | exact parse_Rw _ _
            | apply Pres_seq_cons work_closed
        · apply PresIf_ifCur
          · apply PresIf_of_Pres
            apply Pres_strict_seq_first Pres_strict_mt
            repeat' with_reducible first
              | exact Pres_mt work_closed
              | exact Pres_seq_nil work_closed
              | exact parse_Rw _ _
              | apply Pres_seq_cons work_closed
              | apply Pres_ifCur
          · apply PresIf_absurd
            intro t h
            simp only [List.mem_cons, List.mem_singleton, List.not_mem_nil, or_false] at h
            tauto
    · exact Pres_seq_cons work_closed (Pres_emit work_closed trivial) (Pres_seq_nil work_closed)

/-- Started at a token that starts a statement, `parseStatement` lowers what is
left to parse. -/
theorem parse_strict_statement (n : Nat) :
    PresIf (fun t => t ∈ stmtFirst) Rs (parse n Proc.parseStatement) := by
  cases n with
  | zero => intro s s1 _ hs; simp [parse] at hs
  | succ n =>
    have hone : Pres Rw (seq [mt]) :=
      Pres_seq_cons work_closed (Pres_mt work_closed) (Pres_seq_nil work_closed)
    have hcall : ∀ p, startsWithMatch p = true → Pres Rs (seq [parse n p, mt]) :=
      fun p hp => Pres_strict_seq_first (parse_strict_mt n p hp) hone
    simp only [parse]
    apply PresIf_strict_seq_first
    · apply PresIf_ifCur
      · exact PresIf_of_Pres (parse_strict_mt n _ rfl)
      apply PresIf_ifCur
      · exact PresIf_weaken (fun t h => h.2) (parse_strict_loopStmt n)
      apply PresIf_ifCur
      · apply PresIf_of_Pres
        apply Pres_strict_seq_first Pres_strict_mt
        exact Pres_seq_cons work_closed (parse_Rw _ _) hone
      apply PresIf_ifCur
      · exact PresIf_of_Pres (hcall _ rfl)
      apply PresIf_ifCur
      · exact PresIf_of_Pres (hcall _ rfl)
      apply PresIf_ifCur
      · exact PresIf_of_Pres (hcall _ rfl)
      apply PresIf_ifCur
      · exact PresIf_of_Pres Pres_strict_mt
      apply PresIf_ifCur
      · apply PresIf_of_Pres
        apply Pres_strict_withPeek
        intro t
        by_cases hc : t.type = "LPARENT"
        · rw [if_pos hc]; exact hcall _ rfl
        · rw [if_neg hc]; exact hcall _ rfl
      · apply PresIf_absurd
        intro t h
        simp only [stmtFirst, List.mem_cons, List.mem_singleton, List.not_mem_nil,
          or_false] at h
        tauto
    · exact Pres_seq_cons work_closed (Pres_emit work_closed trivial) (Pres_seq_nil work_closed)

/-! ## Termination -/

theorem peekToken_idem {k : Nat} (_hk : 1 ≤ k) (s : State) :
    (peekToken k (peekToken k s).2).1 = (peekToken k s).1 :=
  peekToken_after_peek k k s

theorem peekToken_cur (k : Nat) (s : State) :
    (peekToken k s).2.currentToken = s.currentToken :=
  (peekTokenLoop_frame _ _ s).2.1

theorem Tm_mono {B C : Nat} {a : Action} (h : C ≤ B) (ha : Tm B a) : Tm C a :=
  fun s hs => ha s (Nat.le_trans hs h)

theorem Tm_mt (B : Nat) : Tm B mt :=
  fun s _ => ⟨matchToken "" s, rfl, Nat.le_trans (work_matchToken _ _) (Nat.sub_le _ _)⟩

theorem Tm_emit (B : Nat) (t : String) : Tm B (act (emit t)) :=
  fun s _ => ⟨emit t s, rfl, Nat.le_refl _⟩

theorem Tm_skip (B : Nat) : Tm B skip :=
  fun s _ => ⟨s, rfl, Nat.le_refl _⟩

theorem Tm_seq_nil (B : Nat) : Tm B (seq []) :=
  fun s _ => ⟨s, rfl, Nat.le_refl _⟩

theorem Tm_seq_cons {B : Nat} {a : Action} {as : List Action} (ha : Tm B a)
    (has : Tm B (seq as)) : Tm B (seq (a :: as)) := by
  intro s hs
  obtain ⟨s1, h1, e1⟩ := ha s hs
  obtain ⟨s2, h2, e2⟩ := has s1 (Nat.le_trans e1 hs)
  exact ⟨s2, by simp only [seq, h1, Option.some_bind, h2], Nat.le_trans e2 e1⟩

theorem Tm_seq_mt_shift {B : Nat} {as : List Action} (has : Tm B (seq as)) :
    Tm (B + 1) (seq (mt :: as)) := by
  intro s hs
  have e1 := work_matchToken "" s
  obtain ⟨s2, h2, e2⟩ := has (matchToken "" s) (by omega)
  refine ⟨s2, ?_, by omega⟩
  simp only [seq, mt, act, Option.some_bind, h2]

theorem Tm_ifCur {B : Nat} {kinds : List String} {a b : Action} (ha : Tm B a) (hb : Tm B b) :
    Tm B (ifCur kinds a b) := by
  intro s hs
  unfold ifCur
  by_cases hc : s.currentToken.type ∈ kinds
  · rw [if_pos hc]; exact ha s hs
  · rw [if_neg hc]; exact hb s hs

theorem Tm_ite {B : Nat} {c : Prop} [Decidable c] {a b : Action} (ha : Tm B a) (hb : Tm B b) :
    Tm B (if c then a else b) := by
  by_cases hc : c
  · rw [if_pos hc]; exact ha
  · rw [if_neg hc]; exact hb

theorem Tm_withPeek {B : Nat} {k : Nat} {f : Token → Action} (hf : ∀ t, Tm B (f t)) :
    Tm B (withPeek k f) := by
  intro s hs
  have e1 := work_peekToken k s
  obtain ⟨s1, h1, e2⟩ := hf (peekToken k s).1 (peekToken k s).2 (Nat.le_trans e1 hs)
  exact ⟨s1, h1, Nat.le_trans e2 e1⟩

theorem Tm_whileDo {cond : State → Bool} {body : Body} {B : Nat}
    (hbody : ∀ s, work s ≤ B → cond s = true →
      ∃ s1 f, body s = some (s1, f) ∧ work s1 ≤ work s ∧ (f = true → work s1 < work s)) :
    ∀ n, B < n → Tm B (whileDo cond body n) := by
  have key : ∀ n s, work s < n → work s ≤ B →
      ∃ s1, whileDo cond body n s = some s1 ∧ work s1 ≤ work s := by
    intro n
    induction n with
    | zero => intro s h; exact absurd h (Nat.not_lt_zero _)
    | succ n ih =>
      intro s hn hB
      simp only [whileDo]
      by_cases hc : cond s = true
      · rw [if_pos hc]
        obtain ⟨s1, f, h1, e1, e2⟩ := hbody s hB hc
        rw [h1]
        simp only [Option.some_bind]
        cases f with
        | false => exact ⟨s1, by simp, e1⟩
        | true =>
          have e3 := e2 rfl
          obtain ⟨s2, h2, e4⟩ := ih s1 (by omega) (by omega)
          exact ⟨s2, by simp [h2], by omega⟩
      · rw [if_neg hc]
        exact ⟨s, rfl, Nat.le_refl _⟩
  intro n hn s hs
  exact key n s (by omega) hs

theorem Tm_loop_mt {kinds : List String} (hk : "EOF" ∉ kinds) {B : Nat} {as : List Action}
    {n : Nat} (hn : B < n) (has : Tm B (seq as)) :
    Tm B (whileDo (curIn kinds) (go (seq (mt :: as))) n) := by
  apply Tm_whileDo _ n hn
  intro s hs hc
  have hpos := work_pos_of_curIn hk hc
  have e1 := work_matchToken "" s
  obtain ⟨s2, h2, e2⟩ := has (matchToken "" s) (by omega)
  refine ⟨s2, true, ?_, by omega, fun _ => by omega⟩
  simp only [go, seq, mt, act, Option.some_bind, h2, Option.map_some']

theorem Tm_loop_mt_shift {kinds : List String} (hk : "EOF" ∉ kinds) {B : Nat}
    {as : List Action} {n : Nat} (hn : B + 1 < n) (has : Tm B (seq as)) :
    Tm (B + 1) (whileDo (curIn kinds) (go (seq (mt :: as))) n) := by
  apply Tm_whileDo _ n hn
  intro s hs hc
  have hpos := work_pos_of_curIn hk hc
  have e1 := work_matchToken "" s
  obtain ⟨s2, h2, e2⟩ := has (matchToken "" s) (by omega)
  refine ⟨s2, true, ?_, by omega, fun _ => by omega⟩
  simp only [go, seq, mt, act, Option.some_bind, h2, Option.map_some']

theorem Tm_zero {a : Action} (h : TmEnd a) : Tm 0 a := by
  intro s hs
  have h0 : work s = 0 := Nat.le_zero.1 hs
  obtain ⟨s1, h1, e1⟩ := h s (work_eq_zero.1 h0)
  exact ⟨s1, h1, by rw [work_eq_zero.2 e1]; exact Nat.zero_le _⟩

theorem rankEnd_le (p : Proc) : rankEnd p ≤ 4 := by
  cases p <;> decide

theorem rankCall_le (p : Proc) : rankCall p ≤ 5 := by
  cases p <;> decide

theorem fuelBound_lt (B : Nat) (p : Proc) : fuelBound B p < 8 * (B + 1) := by
  have h1 := rankEnd_le p
  have h2 := rankCall_le p
  unfold fuelBound
  split <;> omega

theorem seq_cons_some {a : Action} {as : List Action} {s s1 : State}
    (h : seq (a :: as) s = some s1) : ∃ s2, a s = some s2 ∧ seq as s2 = some s1 := by
  simp only [seq] at h
  cases h1 : a s with
  | none => rw [h1] at h; simp at h
  | some s2 => rw [h1] at h; exact ⟨s2, rfl, h⟩

/-- Started at `int` or `char` with a token two ahead that is not `(`,
`parseVarDecl` lowers what is left to parse. -/
theorem parse_strict_varDecl {n : Nat} {s s1 : State}
    (hc : s.currentToken.type ∈ ["INTTK", "CHARTK"])
    (hp : (peekToken 2 s).1.type ≠ "LPARENT")
    (h : parse n Proc.parseVarDecl s = some s1) : work s1 < work s := by
  cases n with
  | zero => simp [parse] at h
  | succ n =>
    simp only [parse] at h
    obtain ⟨s2, h2, h3⟩ := seq_cons_some h
    have hrest : work s1 ≤ work s2 :=
      Pres_seq_cons work_closed (Pres_emit work_closed trivial) (Pres_seq_nil work_closed) _ _ h3
    have hbody : Pres Rs (seq [parse n Proc.parseVarDef, mt]) :=
      Pres_strict_seq_first (parse_strict_mt n Proc.parseVarDef rfl)
        (Pres_seq_cons work_closed (Pres_mt work_closed) (Pres_seq_nil work_closed))
    have hloopB : PresB Rw (withPeek 2 (fun next2 =>
        if next2.type = "LPARENT" then brk else go (seq [parse n Proc.parseVarDef, mt]))) := by
      apply PresB_withPeek work_closed (by decide)
      intro t
      apply PresB_ite (PresB_brk work_closed)
      apply PresB_go
      intro a b hab
      exact Nat.le_trans (hbody a b hab) (Nat.sub_le _ _)
    have hpos : 0 < work s := work_pos_of_cur (by
      intro he
      rw [he] at hc
      exact absurd hc (by decide))
    have hpos2 : 0 < work (peekToken 2 s).2 := work_pos_of_cur (by
      rw [peekToken_cur]
      intro he
      rw [he] at hc
      exact absurd hc (by decide))
    have hpk := work_peekToken 2 s
    cases n with
    | zero => simp [whileDo] at h2
    | succ m =>
      simp only [whileDo] at h2
      have hcond : curIn ["INTTK", "CHARTK"] s = true := by
        simp only [curIn, decide_eq_true_eq]; exact hc
      rw [if_pos hcond] at h2
      simp only [withPeek, if_neg hp] at h2
      cases h4 : seq [parse (m + 1) Proc.parseVarDef, mt] (peekToken 2 s).2 with
      | none => simp [go, h4] at h2
      | some s3 =>
        simp only [go, h4, Option.map_some', Option.some_bind, if_true] at h2
        have e1 : work s3 ≤ work (peekToken 2 s).2 - 1 := hbody _ _ h4
        have e2 : work s2 ≤ work s3 := Pres_whileDo work_closed hloopB m _ _ h2
        omega

/-- Every procedure completes as soon as its bound exceeds `fuelBound`, and what
is left to parse has not grown. -/
theorem parse_Tm : ∀ (n : Nat) (p : Proc) (B : Nat), fuelBound B p < n → Tm B (parse n p) := by
  intro n
  induction n with
  | zero => intro p B h; exact absurd h (Nat.not_lt_zero _)
  | succ n ih =>
    intro p B hb
    cases B with
    | zero =>
      apply Tm_zero
      apply parse_atEnd
      simpa [fuelBound] using hb
    | succ B =>
      have hb1 : 8 * (B + 1) + rankCall p < n + 1 := by simpa [fuelBound] using hb
      have hn1 : B + 1 < n := by omega
      have hn0 : B < n := by omega
      have ihPost : ∀ q, Tm B (parse n q) :=
        fun q => ih q B (Nat.lt_of_lt_of_le (fuelBound_lt B q) (by omega))
      have ihPre : ∀ q, rankCall q < rankCall p → Tm (B + 1) (parse n q) := by
        intro q hq
        apply ih q (B + 1)
        simp only [fuelBound, Nat.succ_ne_zero, if_false]
        omega
      cases p
      case parseStmtList =>
        simp only [parse]
        apply Tm_seq_cons _ (Tm_seq_cons (Tm_emit _ _) (Tm_seq_nil _))
        apply Tm_whileDo _ n hn1
        intro s hs hc
        obtain ⟨s1, h1, e1⟩ := ihPre Proc.parseStatement (by decide) s hs
        have e2 : work s1 ≤ work s - 1 := parse_strict_statement n s s1
          (by simpa [curIn] using hc) h1
        have hpos := work_pos_of_curIn (by decide) hc
        exact ⟨s1, true, by simp [go, h1], e1, fun _ => by omega⟩
      case parseVarDecl =>
        simp only [parse]
        apply Tm_seq_cons _ (Tm_seq_cons (Tm_emit _ _) (Tm_seq_nil _))
        apply Tm_whileDo _ n hn1
        intro s hs hc
        have hpk := work_peekToken 2 s
        simp only [withPeek]
        by_cases hl : (peekToken 2 s).1.type = "LPARENT"
        · rw [if_pos hl]
          exact ⟨_, false, rfl, hpk, fun h => absurd h (by decide)⟩
        · rw [if_neg hl]
          have hT : Tm (B + 1) (seq [parse n Proc.parseVarDef, mt]) :=
            Tm_seq_cons (ihPre _ (by decide)) (Tm_seq_cons (Tm_mt _) (Tm_seq_nil _))
          obtain ⟨s1, h1, e1⟩ := hT (peekToken 2 s).2 (by omega)
          have e2 : work s1 ≤ work (peekToken 2 s).2 - 1 :=
            Pres_strict_seq_first (parse_strict_mt n Proc.parseVarDef rfl)
              (Pres_seq_cons work_closed (Pres_mt work_closed) (Pres_seq_nil work_closed))
              _ _ h1
          have hpos : 0 < work (peekToken 2 s).2 := work_pos_of_cur (by
            rw [peekToken_cur]
            intro he
            simp only [curIn, he, decide_eq_true_eq] at hc
            exact absurd hc (by decide))
          exact ⟨s1, true, by simp [go, h1], by omega, fun _ => by omega⟩
      case parseProgram =>
        simp only [parse]
        apply Tm_seq_cons (Tm_ifCur (ihPre _ (by decide)) (Tm_skip _))
        apply Tm_seq_cons
        · apply Tm_whileDo _ n hn1
          intro s hs hc
          have hpk1 := work_peekToken 1 s
          have hpk2 := work_peekToken 2 (peekToken 1 s).2
          simp only [withPeek]
          by_cases hl : (peekToken 2 (peekToken 1 s).2).1.type ≠ "LPARENT"
          · rw [if_pos hl]
            obtain ⟨s1, h1, e1⟩ := ihPre Proc.parseVarDecl (by decide)
              (peekToken 2 (peekToken 1 s).2).2 (by omega)
            have hcur : (peekToken 2 (peekToken 1 s).2).2.currentToken.type ∈
                ["INTTK", "CHARTK"] := by
              rw [peekToken_cur, peekToken_cur]
              simpa [curIn] using hc
            have e2 := parse_strict_varDecl hcur
              (by rw [peekToken_idem (by decide)]; exact hl) h1
            exact ⟨s1, true, by simp [go, h1], by omega, fun _ => by omega⟩
          · rw [if_neg hl]
            exact ⟨_, false, rfl, by omega, fun h => absurd h (by decide)⟩
        apply Tm_seq_cons
        · apply Tm_whileDo _ n hn1
          intro s hs hc
          have hpos := work_pos_of_curIn (by decide) hc
          unfold ifCur
          by_cases hi : s.currentToken.type ∈ ["INTTK", "CHARTK"]
          · rw [if_pos hi]
            obtain ⟨s1, h1, e1⟩ := ihPre Proc.parseFuncDefWithRet (by decide) s hs
            have e2 : work s1 ≤ work s - 1 := parse_strict_funcDefWithRet n s s1 h1
            exact ⟨s1, true, by simp [go, h1], e1, fun _ => by omega⟩
          · rw [if_neg hi]
            have hpk := work_peekToken 1 s
            simp only [withPeek]
            by_cases hm : (peekToken 1 s).1.type = "MAINTK"
            · rw [if_pos hm]
              exact ⟨_, false, rfl, hpk, fun h => absurd h (by decide)⟩
            · rw [if_neg hm]
              obtain ⟨s1, h1, e1⟩ := ihPre Proc.parseFuncDefVoid (by decide)
                (peekToken 1 s).2 (by omega)
              have e2 : work s1 ≤ work (peekToken 1 s).2 - 1 :=
                parse_strict_mt n Proc.parseFuncDefVoid rfl _ _ h1
              have hpos2 : 0 < work (peekToken 1 s).2 := work_pos_of_cur (by
                rw [peekToken_cur]
                intro he
                simp only [curIn, he, decide_eq_true_eq] at hc
                exact absurd hc (by decide))
              exact ⟨s1, true, by simp [go, h1], by omega, fun _ => by omega⟩
        exact Tm_seq_cons (ihPre _ (by decide)) (Tm_seq_cons (Tm_emit _ _) (Tm_seq_nil _))
      all_goals
        simp only [parse]
        repeat' with_reducible first
          | exact Tm_mt _
          | exact Tm_skip _
          | exact Tm_seq_nil _
          | exact Tm_emit _ _
          | exact ihPost _
          | exact ihPre _ (by decide)
          | apply Tm_seq_mt_shift
          | apply Tm_seq_cons
          | apply Tm_ifCur
          | apply Tm_ite
          | apply Tm_withPeek
          | apply Tm_loop_mt_shift (by decide) hn1
          | apply Tm_loop_mt (by decide) hn0
          | intro _

/-- Every procedure completes in every state: some bound lets it run to
completion. -/
theorem parse_terminates (p : Proc) (s : State) :
    ∃ s1, parse (fuelBound (work s) p + 1) p s = some s1 := by
  obtain ⟨s1, h1, -⟩ := parse_Tm _ p (work s) (Nat.lt_succ_self _) s (Nat.le_refl _)
  exact ⟨s1, h1⟩

/-! ## Larger bounds give the same result -/

theorem Le_refl (a : Action) : Le a a :=
  fun _ _ h => h

theorem LeB_refl (a : Body) : LeB a a :=
  fun _ _ h => h

theorem Le_seq_cons {a b : Action} {as bs : List Action} (h1 : Le a b)
    (h2 : Le (seq as) (seq bs)) : Le (seq (a :: as)) (seq (b :: bs)) := by
  intro s s1 hs
  obtain ⟨s2, e1, e2⟩ := seq_cons_some hs
  simp only [seq, h1 _ _ e1, Option.some_bind, h2 _ _ e2]

theorem Le_ifCur {kinds : List String} {a b c d : Action} (h1 : Le a c) (h2 : Le b d) :
    Le (ifCur kinds a b) (ifCur kinds c d) := by
  intro s s1 hs
  unfold ifCur at hs ⊢
  by_cases hc : s.currentToken.type ∈ kinds
  · rw [if_pos hc] at hs ⊢; exact h1 _ _ hs
  · rw [if_neg hc] at hs ⊢; exact h2 _ _ hs

theorem LeB_ifCur {kinds : List String} {a b c d : Body} (h1 : LeB a c) (h2 : LeB b d) :
    LeB (ifCur kinds a b) (ifCur kinds c d) := by
  intro s s1 hs
  unfold ifCur at hs ⊢
  by_cases hc : s.currentToken.type ∈ kinds
  · rw [if_pos hc] at hs ⊢; exact h1 _ _ hs
  · rw [if_neg hc] at hs ⊢; exact h2 _ _ hs

theorem Le_ite {c : Prop} [Decidable c] {a b a1 b1 : Action} (h1 : Le a a1) (h2 : Le b b1) :
    Le (if c then a else b) (if c then a1 else b1) := by
  by_cases hc : c
  · rw [if_pos hc, if_pos hc]; exact h1
  · rw [if_neg hc, if_neg hc]; exact h2

theorem LeB_ite {c : Prop} [Decidable c] {a b a1 b1 : Body} (h1 : LeB a a1) (h2 : LeB b b1) :
    LeB (if c then a else b) (if c then a1 else b1) := by
  by_cases hc : c
  · rw [if_pos hc, if_pos hc]; exact h1
  · rw [if_neg hc, if_neg hc]; exact h2

theorem Le_withPeek {k : Nat} {f g : Token → Action} (h : ∀ t, Le (f t) (g t)) :
    Le (withPeek k f) (withPeek k g) :=
  fun _ _ hs => h _ _ _ hs

theorem LeB_withPeek {k : Nat} {f g : Token → Body} (h : ∀ t, LeB (f t) (g t)) :
    LeB (withPeek k f) (withPeek k g) :=
  fun _ _ hs => h _ _ _ hs

theorem LeB_go {a b : Action} (h : Le a b) : LeB (go a) (go b) := by
  intro s r hs
  unfold go at hs ⊢
  cases h1 : a s with
  | none => rw [h1] at hs; simp at hs
  | some s2 => rw [h1] at hs; rw [h _ _ h1]; exact hs

theorem Le_whileDo {cond : State → Bool} {a b : Body} (h : LeB a b) :
    ∀ {n m : Nat}, n ≤ m → Le (whileDo cond a n) (whileDo cond b m)
  | 0, _, _ => by intro s s1 hs; simp [whileDo] at hs
  | n + 1, 0, hnm => absurd hnm (Nat.not_succ_le_zero _)
  | n + 1, m + 1, hnm => by
    intro s s1 hs
    simp only [whileDo] at hs ⊢
    by_cases hc : cond s = true
    · rw [if_pos hc] at hs ⊢
      cases h1 : a s with
      | none => rw [h1] at hs; simp at hs
      | some r =>
        rw [h1] at hs
        rw [h _ _ h1]
        simp only [Option.some_bind] at hs ⊢
        by_cases hr : r.2 = true
        · rw [if_pos hr] at hs ⊢
          exact Le_whileDo h (Nat.le_of_succ_le_succ hnm) _ _ hs
        · rw [if_neg hr] at hs ⊢
          exact hs
    · rw [if_neg hc] at hs ⊢
      exact hs

/-- A completed run stays the same run under every larger bound. -/
theorem parse_mono : ∀ (n m : Nat) (p : Proc), n ≤ m → Le (parse n p) (parse m p) := by
  intro n
  induction n with
  | zero => intro m p _ s s1 hs; simp [parse] at hs
  | succ n ih =>
    intro m p hnm
    cases m with
    | zero => exact absurd hnm (Nat.not_succ_le_zero _)
    | succ m =>
      have hle : n ≤ m := Nat.le_of_succ_le_succ hnm
      cases p <;> simp only [parse] <;>
      repeat' with_reducible first
        | exact Le_refl _
        | exact LeB_refl _
        | exact ih _ _ hle
        | apply Le_seq_cons
        | apply Le_ifCur
        | apply Le_ite
        | apply Le_withPeek
        | apply Le_whileDo _ hle
        | apply LeB_go
        | apply LeB_ifCur
        | apply LeB_ite
        | apply LeB_withPeek
        | intro _

/-- The result of a completed run does not depend on the bound. -/
theorem parse_det {n m : Nat} {p : Proc} {s a b : State} (ha : parse n p s = some a)
    (hb : parse m p s = some b) : a = b := by
  have h1 := parse_mono n (max n m) p (Nat.le_max_left _ _) s a ha
  have h2 := parse_mono m (max n m) p (Nat.le_max_right _ _) s b hb
  rw [h1] at h2
  exact Option.some.inj h2

/-! ## The trace -/

theorem matchToken_outFile (e : String) (s : State) :
    (matchToken e s).outFile = s.outFile ++ [terminalLine s.currentToken] := by
  by_cases hb : s.bufferIndex < s.tokenBuffer.length
  · rw [matchToken_buffered e hb]
  · rw [matchToken_unbuffered e hb]

theorem peekToken_outFile (k : Nat) (s : State) : (peekToken k s).2.outFile = s.outFile :=
  (peekTokenLoop_frame _ _ s).2.2.1

theorem terminalLine_data (t : Token) :
    (terminalLine t).data = t.type.data ++ ' ' :: t.value.data := by
  simp [terminalLine, String.data_append]

theorem terminalLine_ne {r : String} (hr : ' ' ∉ r.data) (t : Token) : terminalLine t ≠ r := by
  intro h
  apply hr
  rw [← h, terminalLine_data]
  simp

theorem Out_closed (T : String → Prop) : Closed (Out T) T where
  refl := fun s => ⟨[], by simp, by simp⟩
  trans := by
    rintro a b c ⟨r1, h1, g1⟩ ⟨r2, h2, g2⟩
    refine ⟨r1 ++ r2, by rw [h2, h1, List.append_assoc], ?_⟩
    intro r hr
    rcases List.mem_append.1 hr with h | h
    · exact g1 r h
    · exact g2 r h
  onMatch := fun e s => ⟨[terminalLine s.currentToken], matchToken_outFile e s, by
    intro r hr
    rw [List.mem_singleton] at hr
    exact Or.inl ⟨_, hr⟩⟩
  onPeek := fun k s _ => ⟨[], by rw [peekToken_outFile]; simp, by simp⟩
  onEmit := fun t s ht => ⟨[t], rfl, by
    intro r hr
    rw [List.mem_singleton] at hr
    exact Or.inr (hr ▸ ht)⟩

/-- The records a completed run of a procedure adds are lines written by `match`
and tags the procedure can write. -/
theorem parse_out {n : Nat} {p : Proc} {s s1 : State} (h : parse n p s = some s1) :
    Out (fun t => t ∈ mayEmit p) s s1 :=
  parse_closed (Out_closed _) n p (fun _ ht => ht) s s1 h

theorem seq_append (as bs : List Action) (s : State) :
    seq (as ++ bs) s = (seq as s).bind (seq bs) := by
  induction as generalizing s with
  | nil => simp [seq]
  | cons a as ih =>
    simp only [List.cons_append, seq]
    cases a s with
    | none => simp
    | some s2 => simp [ih]

theorem seq_last {as : List Action} {s s1 : State} (h : seq as s = some s1) (hne : as ≠ []) :
    ∃ s2, seq as.dropLast s = some s2 ∧ as.getLast hne s2 = some s1 := by
  have hsplit : as = as.dropLast ++ [as.getLast hne] :=
    (List.dropLast_append_getLast hne).symm
  rw [hsplit, seq_append] at h
  cases h2 : seq as.dropLast s with
  | none => rw [h2] at h; simp at h
  | some s2 =>
    rw [h2] at h
    refine ⟨s2, rfl, ?_⟩
    simp only [Option.some_bind, seq] at h
    cases h3 : as.getLast hne s2 with
    | none => rw [h3] at h; simp at h
    | some s3 => rw [h3] at h; simpa using h

/-- The last thing a completed run of a procedure does is to write the tag of
the procedure; what it wrote before are lines written by `match` and tags the
procedure can write. -/
theorem parse_last {n : Nat} {p : Proc} {s s1 : State} (h : parse n p s = some s1) :
    ∃ s2, s1 = emit p.tag s2 ∧ Out (fun t => t ∈ mayEmit p) s s2 := by
  cases n with
  | zero => simp [parse] at h
  | succ n =>
    have hcall : ∀ q, (∀ t ∈ mayEmit q, t ∈ mayEmit p) →
        Pres (Out (fun t => t ∈ mayEmit p)) (parse n q) :=
      fun q hq => parse_closed (Out_closed _) n q hq
    have hC := Out_closed (fun t => t ∈ mayEmit p)
    cases p <;>
    · simp only [parse] at h
      obtain ⟨s2, h2, h3⟩ := seq_last h (by simp)
      simp only [List.dropLast, List.getLast] at h2 h3
      refine ⟨s2, (Option.some.inj h3).symm,
        (?_ : Pres (Out (fun t => t ∈ mayEmit _)) _) s s2 h2⟩
      repeat' with_reducible first
        | exact Pres_mt hC
        | exact Pres_skip hC
        | exact Pres_seq_nil hC
        | exact Pres_emit hC (by decide)
        | exact hcall _ (by decide)
        | apply Pres_seq_cons hC
        | apply Pres_ifCur
        | apply Pres_ite
        | apply Pres_withPeek hC (by decide)
        | apply Pres_whileDo hC
        | apply PresB_go
        | exact PresB_brk hC
        | apply PresB_ifCur
        | apply PresB_ite
        | apply PresB_withPeek hC (by decide)
        | intro _

/-- A completed run of a procedure ends by writing the record of the procedure;
what it wrote before are lines of `match` and records of the procedures it
calls. -/
theorem parse_last_nested {n : Nat} {p : Proc} {s s1 : State} (h : parse n p s = some s1) :
    ∃ s2, s1 = emit p.tag s2 ∧ Out (fun t => t ∈ nestedTags p) s s2 := by
  cases n with
  | zero => simp [parse] at h
  | succ n =>
    have hcall : ∀ q, (∀ t ∈ mayEmit q, t ∈ nestedTags p) →
        Pres (Out (fun t => t ∈ nestedTags p)) (parse n q) :=
      fun q hq => parse_closed (Out_closed _) n q hq
    have hC := Out_closed (fun t => t ∈ nestedTags p)
    cases p <;>
    · simp only [parse] at h
      obtain ⟨s2, h2, h3⟩ := seq_last h (by simp)
      simp only [List.dropLast, List.getLast] at h2 h3
      refine ⟨s2, (Option.some.inj h3).symm,
        (?_ : Pres (Out (fun t => t ∈ nestedTags _)) _) s s2 h2⟩
      repeat' with_reducible first
        | exact Pres_mt hC
        | exact Pres_skip hC
        | exact Pres_seq_nil hC
        | exact Pres_emit hC (by decide)
        | exact hcall _ (by decide)
        | apply Pres_seq_cons hC
        | apply Pres_ifCur
        | apply Pres_ite
        | apply Pres_withPeek hC (by decide)
        | apply Pres_whileDo hC
        | apply PresB_go
        | exact PresB_brk hC
        | apply PresB_ifCur
        | apply PresB_ite
        | apply PresB_withPeek hC (by decide)
        | intro _

theorem tag_not_nested : ∀ p : Proc, p ∉ selfNesting → p.tag ∉ nestedTags p := by
  intro p
  cases p <;> decide

/-! ## Matched tokens and the token stream -/

theorem pending_congr {s t : State} (h1 : s.tokenBuffer = t.tokenBuffer)
    (h2 : s.bufferIndex = t.bufferIndex) (h3 : s.inFile = t.inFile) (n : Nat) :
    pending s n = pending t n := by
  unfold pending
  rw [h1, h2, h3]

theorem terminals_append (a b : List String) : terminals (a ++ b) = terminals a ++ terminals b :=
  List.filter_append _ _

theorem terminals_line (t : Token) : terminals [terminalLine t] = [terminalLine t] := by
  have h : (' ' ∈ (terminalLine t).data) := by rw [terminalLine_data]; simp
  simp [terminals, List.filter, h]

theorem terminals_tag {t : String} (h : ' ' ∉ t.data) : terminals [t] = [] := by
  simp [terminals, List.filter, h]

theorem matchToken_bufferOk (e : String) {s : State} (h : BufferOk s) :
    BufferOk (matchToken e s) := by
  unfold BufferOk at h ⊢
  by_cases hb : s.bufferIndex < s.tokenBuffer.length
  · rw [matchToken_buffered e hb]; exact hb
  · rw [matchToken_unbuffered e hb]; exact h

theorem matchToken_upcoming (e : String) {s : State} (h : BufferOk s) (i : Nat) :
    upcoming (matchToken e s) i = upcoming s (i + 1) := by
  have hs1 : BufferOk { s with outFile := s.outFile ++ [terminalLine s.currentToken] } := h
  cases i with
  | zero =>
    show (getToken { s with outFile := s.outFile ++ [terminalLine s.currentToken] }).1 = pending s 0
    rw [getToken_result hs1]
    exact pending_congr rfl rfl rfl 0
  | succ i =>
    show pending (matchToken e s) i = pending s (i + 1)
    have e1 : pending (matchToken e s) i =
        pending (getToken { s with outFile := s.outFile ++ [terminalLine s.currentToken] }).2 i :=
      pending_congr rfl rfl rfl i
    rw [e1, getToken_pending hs1]
    exact pending_congr rfl rfl rfl _

theorem peekToken_upcoming (k : Nat) {s : State} (h : BufferOk s) (i : Nat) :
    upcoming (peekToken k s).2 i = upcoming s i := by
  cases i with
  | zero => exact peekToken_cur k s
  | succ i => exact peekToken_pending k h i

theorem Adv_closed : Closed Adv (fun t => ' ' ∉ t.data) where
  refl := fun s h => ⟨h, 0, by simp, fun _ => rfl⟩
  trans := by
    intro a b c h1 h2 ha
    obtain ⟨hb, j1, e1, u1⟩ := h1 ha
    obtain ⟨hc, j2, e2, u2⟩ := h2 hb
    refine ⟨hc, j1 + j2, ?_, ?_⟩
    · rw [e2, e1, List.append_assoc, List.range_add, List.map_append, List.map_map]
      congr 2
      apply List.map_congr_left
      intro i _
      show terminalLine (upcoming b i) = terminalLine (upcoming a (j1 + i))
      rw [u1, Nat.add_comm]
    · intro i
      rw [u2, u1, Nat.add_assoc, Nat.add_comm j2 j1]
  onMatch := by
    intro e s h
    refine ⟨matchToken_bufferOk e h, 1, ?_, matchToken_upcoming e h⟩
    rw [matchToken_outFile, terminals_append, terminals_line]
    rfl
  onPeek := by
    intro k s _ h
    refine ⟨peekToken_bufferOk k h, 0, ?_, peekToken_upcoming k h⟩
    rw [peekToken_outFile]
    simp
  onEmit := by
    intro t s ht h
    refine ⟨h, 0, ?_, fun _ => rfl⟩
    show terminals (s.outFile ++ [t]) = _
    rw [terminals_append, terminals_tag ht]
    simp

theorem mayEmit_no_blank : ∀ p : Proc, ∀ t ∈ mayEmit p, ' ' ∉ t.data := by
  intro p
  cases p <;> decide

/-- Across a completed run of a procedure the lines written by `match` are those
of the upcoming tokens, in order. -/
theorem parse_adv {n : Nat} {p : Proc} {s s1 : State} (h : parse n p s = some s1) :
    Adv s s1 :=
  parse_closed Adv_closed n p (mayEmit_no_blank p) s s1 h

theorem tokenizeLoop_ne_eof :
    ∀ (fuel : Nat) (inp : List Char), ∀ t ∈ tokenizeLoop fuel inp, t.type ≠ "EOF"
  | 0, _, t, h => by simp [tokenizeLoop] at h
  | fuel + 1, inp, t, h => by
    rw [tokenizeLoop] at h
    by_cases he : (getNextTokenFromFile inp).1.type = "EOF"
    · rw [if_pos he] at h; simp at h
    · rw [if_neg he] at h
      rcases List.mem_cons.1 h with h1 | h1
      · rw [h1]; exact he
      · exact tokenizeLoop_ne_eof fuel _ t h1

theorem nthFromFile_tokenizeLoop :
    ∀ (fuel : Nat) (inp : List Char), inp.length ≤ fuel → ∀ i,
      nthFromFile i inp = (tokenizeLoop fuel inp).getD i eofToken
  | 0, inp, h, i => by
    have : inp = [] := List.length_eq_zero.1 (Nat.le_zero.1 h)
    subst this
    simp [tokenizeLoop, nthFromFile_nil]
  | fuel + 1, inp, h, i => by
    rw [tokenizeLoop]
    by_cases he : (getNextTokenFromFile inp).1.type = "EOF"
    · rw [if_pos he, nthFromFile_of_eof he]
      simp
    · rw [if_neg he]
      have hlt := getNextTokenFromFile_length_lt he
      cases i with
      | zero => simp [nthFromFile]
      | succ i =>
        rw [nthFromFile, nthFromFile_tokenizeLoop fuel _ (by omega) i]
        simp

theorem nthFromFile_tokenize (inp : List Char) (i : Nat) :
    nthFromFile i inp = (tokenize inp).getD i eofToken :=
  nthFromFile_tokenizeLoop _ inp (Nat.le_refl _) i

theorem tokenize_ne_eof (inp : List Char) : ∀ t ∈ tokenize inp, t.type ≠ "EOF" :=
  tokenizeLoop_ne_eof _ inp

theorem firstTokens_succ (j : Nat) (inp : List Char) :
    firstTokens (j + 1) inp = firstTokens j inp ++ [nthFromFile j inp] := by
  simp [firstTokens, List.range_succ]

theorem firstTokens_filter (inp : List Char) :
    ∀ j, (firstTokens j inp).filter (fun t => decide (t.type ≠ "EOF")) = (tokenize inp).take j
  | 0 => by simp [firstTokens]
  | j + 1 => by
    rw [firstTokens_succ, List.filter_append, firstTokens_filter inp j, nthFromFile_tokenize]
    by_cases hj : j < (tokenize inp).length
    · have hne := tokenize_ne_eof inp _ (List.getElem_mem hj)
      have hget : (tokenize inp).getD j eofToken = (tokenize inp)[j] := by
        rw [List.getD_eq_getElem?_getD, List.getElem?_eq_getElem hj]; rfl
      rw [hget]
      simp only [List.filter, hne, ne_eq, not_false_eq_true, decide_True]
      rw [List.take_succ, List.getElem?_eq_getElem hj]
      rfl
    · have hget : (tokenize inp).getD j eofToken = eofToken := by
        rw [List.getD_eq_getElem?_getD, List.getElem?_eq_none (by omega)]; rfl
      rw [hget]
      simp only [List.filter, eofToken, ne_eq, not_true_eq_false, decide_False,
        List.append_nil]
      rw [List.take_of_length_le (by omega), List.take_of_length_le (by omega)]

theorem initParser_upcoming (inp : List Char) (i : Nat) :
    upcoming (initParser (initState inp)) i = nthFromFile i inp := by
  cases i with
  | zero => rfl
  | succ i =>
    show pending (initParser (initState inp)) i = nthFromFile (i + 1) inp
    unfold pending
    simp [initParser, initState, getToken, nthFromFile]

/-! ## Stepping through a run -/

theorem parse_zero (p : Proc) (s : State) : parse 0 p s = none := by
  cases p <;> rfl

theorem parse_some_succ {n : Nat} {p : Proc} {s s1 : State} (h : parse n p s = some s1) :
    ∃ m, n = m + 1 := by
  cases n with
  | zero => rw [parse_zero] at h; exact absurd h (by simp)
  | succ m => exact ⟨m, rfl⟩

theorem ifCur_pos {α : Type} {kinds : List String} {s : State}
    (h : s.currentToken.type ∈ kinds) (a b : State → α) : ifCur kinds a b s = a s := by
  unfold ifCur; rw [if_pos h]

theorem ifCur_neg {α : Type} {kinds : List String} {s : State}
    (h : s.currentToken.type ∉ kinds) (a b : State → α) : ifCur kinds a b s = b s := by
  unfold ifCur; rw [if_neg h]

theorem go_some {a : Action} {s : State} {r : State × Bool} (h : go a s = some r) :
    ∃ s2, a s = some s2 ∧ r = (s2, true) := by
  unfold go at h
  cases h1 : a s with
  | none => rw [h1] at h; simp at h
  | some s2 => rw [h1] at h; exact ⟨s2, rfl, by simpa using h.symm⟩

theorem whileDo_some {cond : State → Bool} {body : Body} {n : Nat} {s s1 : State}
    (h : whileDo cond body n s = some s1) (hc : cond s = true) :
    ∃ m r, n = m + 1 ∧ body s = some r ∧
      (if r.2 then whileDo cond body m r.1 else some r.1) = some s1 := by
  cases n with
  | zero => simp [whileDo] at h
  | succ m =>
    simp only [whileDo, if_pos hc] at h
    cases h1 : body s with
    | none => rw [h1] at h; simp at h
    | some r => rw [h1] at h; exact ⟨m, r, rfl, rfl, h⟩

theorem whileDo_skip {cond : State → Bool} {body : Body} {n : Nat} {s s1 : State}
    (h : whileDo cond body n s = some s1) (hc : ¬ cond s = true) : s1 = s := by
  cases n with
  | zero => simp [whileDo] at h
  | succ m =>
    simp only [whileDo, if_neg hc] at h
    exact (Option.some.inj h).symm

theorem Out_grows {T : String → Prop} {s s1 : State} (h : Out T s s1) :
    s.outFile <+: s1.outFile := by
  obtain ⟨recs, h1, -⟩ := h
  exact ⟨recs, h1.symm⟩

theorem out_of_last {p : Proc} {n : Nat} {s s1 : State} (h : parse n p s = some s1) :
    ∃ recs, s1.outFile = s.outFile ++ recs ++ [p.tag] ∧
      ∀ r ∈ recs, (∃ t : Token, r = terminalLine t) ∨ r ∈ mayEmit p := by
  obtain ⟨s2, h1, recs, h2, h3⟩ := parse_last h
  refine ⟨recs, ?_, h3⟩
  rw [h1]
  show s2.outFile ++ [p.tag] = _
  rw [h2]

theorem not_mem_of_records {T : String → Prop} {recs : List String} {x : String}
    (h : ∀ r ∈ recs, (∃ t : Token, r = terminalLine t) ∨ T r) (hx : ' ' ∉ x.data)
    (hT : ¬ T x) : x ∉ recs := by
  intro hm
  rcases h x hm with ⟨t, ht⟩ | ht
  · exact terminalLine_ne hx t ht.symm
  · exact hT ht

theorem parse_exists (p : Proc) (s : State) : ∃ n s1, parse n p s = some s1 := by
  obtain ⟨s1, h⟩ := parse_terminates p s
  exact ⟨_, s1, h⟩

/-! ## Parser: the claims -/

/-- C14: round trip of terminal records.  On every text the parser completes,
and the lines written by `match` during `parseProgram` are, in order, those of
the first `j` tokens of the text for some `j`.  Leaving out end-of-input tokens
these are a prefix of the token sequence of the text, and they are the whole
token sequence when the parse ends with the current token at end-of-input and
no end-of-input token matched. -/
theorem terminal_records_roundtrip (inp : List Char) :
    (∃ n s1, runParser n inp = some s1) ∧
    ∀ n s1, runParser n inp = some s1 →
      ∃ j, terminals s1.outFile = (firstTokens j inp).map terminalLine ∧
        s1.currentToken = nthFromFile j inp ∧
        (firstTokens j inp).filter (fun t => decide (t.type ≠ "EOF")) <+: tokenize inp ∧
        (s1.currentToken.type = "EOF" → (∀ t ∈ firstTokens j inp, t.type ≠ "EOF") →
          firstTokens j inp = tokenize inp) := by
  refine ⟨parse_exists _ _, ?_⟩
  intro n s1 h
  have hok : BufferOk (initParser (initState inp)) := by
    show (getToken (initState inp)).2.bufferIndex ≤ (getToken (initState inp)).2.tokenBuffer.length
    exact getToken_bufferOk (Nat.le_refl 0)
  obtain ⟨-, j, h1, h2⟩ := parse_adv h hok
  have hout : (initParser (initState inp)).outFile = [] := by
    simp [initParser, initState, getToken]
  have hcur : s1.currentToken = nthFromFile j inp := by
    have := h2 0
    rw [Nat.zero_add, initParser_upcoming] at this
    exact this
  refine ⟨j, ?_, hcur, ?_, ?_⟩
  · rw [h1, hout]
    simp only [terminals, List.filter_nil, List.nil_append, firstTokens, List.map_map]
    apply List.map_congr_left
    intro i _
    show terminalLine (upcoming _ i) = terminalLine (nthFromFile i inp)
    rw [initParser_upcoming]
  · rw [firstTokens_filter]
    exact List.take_prefix _ _
  · intro he hall
    have hf := firstTokens_filter inp j
    have hfil : (firstTokens j inp).filter (fun t => decide (t.type ≠ "EOF")) =
        firstTokens j inp := by
      apply List.filter_eq_self.2
      intro t ht
      simpa using hall t ht
    rw [hfil] at hf
    rw [hf]
    apply List.take_of_length_le
    by_contra hlt
    have hj : j < (tokenize inp).length := by omega
    have hne := tokenize_ne_eof inp _ (List.getElem_mem hj)
    apply hne
    rw [hcur, nthFromFile_tokenize, List.getD_eq_getElem?_getD,
      List.getElem?_eq_getElem hj] at he
    exact he

theorem peekToken_idem_state {k : Nat} (_hk : 1 ≤ k) (s : State) :
    (peekToken k (peekToken k s).2).2 = (peekToken k s).2 := by
  obtain ⟨m, -, -, hend⟩ := peekTokenLoop_buffer (peekIndex s.bufferIndex k)
    (peekIndex s.bufferIndex k + 1 - s.tokenBuffer.length) s (le_refl _)
  have f1 := peekToken_bufferIndex k s
  have hpk : peekToken k s = peekTokenLoop (peekIndex s.bufferIndex k)
    (peekIndex s.bufferIndex k + 1 - s.tokenBuffer.length) s := rfl
  rw [← hpk] at hend
  generalize peekToken k s = r at hend f1
  obtain ⟨t, s1⟩ := r
  simp only at hend f1
  unfold peekToken
  simp only [f1]
  rcases hend with ⟨h1, -, -, -⟩ | ⟨-, -, h3, -⟩
  · cases hf : peekIndex s.bufferIndex k + 1 - s1.tokenBuffer.length with
    | zero => rw [peekTokenLoop]
    | succ f => rw [peekTokenLoop, if_neg (by omega)]
  · exact peekTokenLoop_exhausted _ h3 _

theorem peek12_token {s : State} (_hs : BufferOk s) :
    (peekToken 2 (peekToken 1 s).2).1 = (peekToken 2 s).1 :=
  peekToken_after_peek 1 2 s

theorem matchToken_cur_after_peeks {s : State} (hs : BufferOk s) :
    (matchToken "" (peekToken 2 (peekToken 1 s).2).2).currentToken = (peekToken 1 s).1 := by
  have h1 := peekToken_bufferOk 1 hs
  have h2 := peekToken_bufferOk 2 h1
  have e := matchToken_upcoming "" h2 0
  rw [peekToken_upcoming 2 h1, peekToken_upcoming 1 hs] at e
  rw [peekToken_one_result hs]
  exact e

theorem matchToken_cur_after_peek {s : State} (hs : BufferOk s) :
    (matchToken "" (peekToken 1 s).2).currentToken = (peekToken 1 s).1 := by
  have h1 := peekToken_bufferOk 1 hs
  have e := matchToken_upcoming "" h1 0
  rw [peekToken_upcoming 1 hs] at e
  rw [peekToken_one_result hs]
  exact e

theorem Out_true_of_parse {n : Nat} {p : Proc} {s s1 : State} (h : parse n p s = some s1) :
    s.outFile <+: s1.outFile :=
  Out_grows (parse_out h)

/-- A run of `parseProgram` started at `int` or `char`: the constant block is
skipped and the first loop is entered. -/
theorem program_at_type {n : Nat} {s s1 : State}
    (hc : s.currentToken.type ∈ ["INTTK", "CHARTK"])
    (h : parse n Proc.parseProgram s = some s1) :
    ∃ m, n = m + 2 ∧
      (((peekToken 2 (peekToken 1 s).2).1.type = "LPARENT" ∧
          ∃ sF, parse (m + 1) Proc.parseFuncDefWithRet (peekToken 2 (peekToken 1 s).2).2 = some sF ∧
            sF.outFile <+: s1.outFile) ∨
        ((peekToken 2 (peekToken 1 s).2).1.type ≠ "LPARENT" ∧
          ∃ sV, parse (m + 1) Proc.parseVarDecl (peekToken 2 (peekToken 1 s).2).2 = some sV ∧
            sV.outFile <+: s1.outFile)) := by
  obtain ⟨n1, rfl⟩ := parse_some_succ h
  simp only [parse] at h
  obtain ⟨sa, ha, g1⟩ := seq_cons_some h
  have hnc : s.currentToken.type ∉ ["CONSTTK"] := by
    intro hx
    simp only [List.mem_cons, List.mem_singleton, List.not_mem_nil, or_false] at hc hx
    rw [hx] at hc
    revert hc; decide
  rw [ifCur_neg hnc] at ha
  have hsa : sa = s := (Option.some.inj ha).symm
  rw [hsa] at g1
  obtain ⟨sb, hb, g2⟩ := seq_cons_some g1
  have hcond : curIn ["INTTK", "CHARTK"] s = true := by
    simp only [curIn, decide_eq_true_eq]; exact hc
  obtain ⟨m, r, hm, hbody, hrest⟩ := whileDo_some hb hcond
  subst hm
  refine ⟨m, rfl, ?_⟩
  have hC := Out_closed (fun _ => True)
  have hcall : ∀ q, Pres (Out (fun _ => True)) (parse (m + 1) q) :=
    fun q => parse_closed hC _ q (fun _ _ => trivial)
  have hloop2 : Pres (Out (fun _ => True))
      (whileDo (curIn ["INTTK", "CHARTK", "VOIDTK"])
        (ifCur ["INTTK", "CHARTK"] (go (parse (m + 1) Proc.parseFuncDefWithRet))
          (withPeek 1 (fun next =>
            if next.type = "MAINTK" then brk
            else go (parse (m + 1) Proc.parseFuncDefVoid)))) m) := by
    apply Pres_whileDo hC
    apply PresB_ifCur (PresB_go (hcall _))
    apply PresB_withPeek hC (by decide)
    intro t
    exact PresB_ite (PresB_brk hC) (PresB_go (hcall _))
  have hend : Pres (Out (fun _ => True))
      (seq [parse (m + 1) Proc.parseMainFunc, act (emit "<程序>")]) :=
    Pres_seq_cons hC (hcall _) (Pres_seq_cons hC (Pres_emit hC trivial) (Pres_seq_nil hC))
  simp only [withPeek] at hbody
  by_cases hl : (peekToken 2 (peekToken 1 s).2).1.type = "LPARENT"
  · left
    refine ⟨hl, ?_⟩
    rw [if_neg (by simpa using hl)] at hbody
    have hr : r = ((peekToken 2 (peekToken 1 s).2).2, false) := (Option.some.inj hbody).symm
    rw [hr] at hrest
    simp only [Bool.false_eq_true, if_false, Option.some.injEq] at hrest
    rw [← hrest] at g2
    obtain ⟨sc, hc2, g3⟩ := seq_cons_some g2
    have hcur2 : (peekToken 2 (peekToken 1 s).2).2.currentToken.type ∈ ["INTTK", "CHARTK"] := by
      rw [peekToken_cur, peekToken_cur]; exact hc
    have hcond2 : curIn ["INTTK", "CHARTK", "VOIDTK"] (peekToken 2 (peekToken 1 s).2).2 = true := by
      simp only [curIn, decide_eq_true_eq]
      simp only [List.mem_cons, List.mem_singleton, List.not_mem_nil, or_false] at hcur2 ⊢
      tauto
    obtain ⟨m2, r2, hm2, hbody2, hrest2⟩ := whileDo_some hc2 hcond2
    rw [ifCur_pos hcur2] at hbody2
    obtain ⟨sF, hF, hr2⟩ := go_some hbody2
    refine ⟨sF, hF, ?_⟩
    rw [hr2] at hrest2
    simp only [if_true] at hrest2
    have hm2' : m2 = m := by omega
    rw [hm2'] at hrest2
    exact (Out_grows (hloop2 _ _ hrest2)).trans (Out_grows (hend _ _ g3))
  · right
    refine ⟨hl, ?_⟩
    rw [if_pos (by simpa using hl)] at hbody
    obtain ⟨sV, hV, hr⟩ := go_some hbody
    refine ⟨sV, hV, ?_⟩
    rw [hr] at hrest
    simp only [if_true] at hrest
    have h1 : Out (fun _ => True) sV sb := by
      refine (?_ : Pres (Out (fun _ => True)) _) sV sb hrest
      apply Pres_whileDo hC
      apply PresB_withPeek hC (by decide)
      intro t
      apply PresB_withPeek hC (by decide)
      intro t2
      exact PresB_ite (PresB_go (hcall _)) (PresB_brk hC)
    obtain ⟨sc, hc2, g3⟩ := seq_cons_some g2
    have hm0 : ∀ k, Pres (Out (fun _ => True))
      (whileDo (curIn ["INTTK", "CHARTK", "VOIDTK"])
        (ifCur ["INTTK", "CHARTK"] (go (parse (m + 1) Proc.parseFuncDefWithRet))
          (withPeek 1 (fun next =>
            if next.type = "MAINTK" then brk
            else go (parse (m + 1) Proc.parseFuncDefVoid)))) k) := by
      intro k
      apply Pres_whileDo hC
      apply PresB_ifCur (PresB_go (hcall _))
      apply PresB_withPeek hC (by decide)
      intro t
      exact PresB_ite (PresB_brk hC) (PresB_go (hcall _))
    exact (Out_grows h1).trans ((Out_grows (hm0 _ _ _ hc2)).trans (Out_grows (hend _ _ g3)))

theorem pres_true_call (n : Nat) (q : Proc) : Pres (Out (fun _ => True)) (parse n q) :=
  parse_closed (Out_closed _) n q (fun _ _ => trivial)

theorem seq_prefix_of_pres {a : Action} {s s1 : State}
    (hp : Pres (Out (fun _ => True)) a) (h : a s = some s1) : s.outFile <+: s1.outFile :=
  Out_grows (hp s s1 h)

/-- A completed `parseDeclHead` matched two tokens and wrote its record. -/
theorem declHead_run {n : Nat} {s s1 : State} (h : parse n Proc.parseDeclHead s = some s1) :
    s1 = emit "<声明头部>" (matchToken "" (matchToken "" s)) := by
  obtain ⟨m, rfl⟩ := parse_some_succ h
  simp only [parse, seq, mt, act, Option.bind_eq_bind, Option.some_bind] at h
  exact (Option.some.inj h).symm

/-- A completed `parseFuncDefWithRet` starts with the two lines of the declaration
head and the record `<声明头部>`. -/
theorem funcDefWithRet_run {n : Nat} {s s1 : State}
    (h : parse n Proc.parseFuncDefWithRet s = some s1) :
    ∃ recs, s1.outFile = s.outFile ++
      [terminalLine s.currentToken, terminalLine (matchToken "" s).currentToken,
        "<声明头部>"] ++ recs := by
  obtain ⟨m, rfl⟩ := parse_some_succ h
  simp only [parse] at h
  obtain ⟨sH, hH, g1⟩ := seq_cons_some h
  have e := declHead_run hH
  have hC := Out_closed (fun _ => True)
  have hrest : sH.outFile <+: s1.outFile := by
    refine seq_prefix_of_pres ?_ g1
    repeat' with_reducible first
      | exact Pres_mt hC
      | exact Pres_seq_nil hC
      | exact Pres_emit hC trivial
      | exact pres_true_call _ _
      | apply Pres_seq_cons hC
  obtain ⟨recs, hr⟩ := hrest
  refine ⟨recs, ?_⟩
  rw [← hr, e]
  show (matchToken "" (matchToken "" s)).outFile ++ ["<声明头部>"] ++ recs = _
  rw [matchToken_outFile, matchToken_outFile]
  simp

/-- A completed `parseVarDecl` entered at `int` or `char` with no `(` two tokens
ahead runs `parseVarDef` first. -/
theorem varDecl_run {n : Nat} {s s1 : State}
    (hc : s.currentToken.type ∈ ["INTTK", "CHARTK"])
    (hl : (peekToken 2 s).1.type ≠ "LPARENT")
    (hi : (peekToken 2 s).2 = s)
    (h : parse n Proc.parseVarDecl s = some s1) :
    ∃ m sD, n = m + 1 ∧ parse m Proc.parseVarDef s = some sD ∧ sD.outFile <+: s1.outFile := by
  obtain ⟨m, rfl⟩ := parse_some_succ h
  simp only [parse] at h
  obtain ⟨sa, ha, g1⟩ := seq_cons_some h
  have hcond : curIn ["INTTK", "CHARTK"] s = true := by
    simp only [curIn, decide_eq_true_eq]; exact hc
  obtain ⟨k, r, hk, hbody, hrest⟩ := whileDo_some ha hcond
  simp only [withPeek] at hbody
  rw [if_neg hl, hi] at hbody
  obtain ⟨sb, hb, hr⟩ := go_some hbody
  obtain ⟨sD, hD, g2⟩ := seq_cons_some hb
  refine ⟨m, sD, rfl, hD, ?_⟩
  rw [hr] at hrest
  simp only [if_true] at hrest
  have hC := Out_closed (fun _ => True)
  have h1 : sD.outFile <+: sb.outFile := by
    refine seq_prefix_of_pres ?_ g2
    exact Pres_seq_cons hC (Pres_mt hC) (Pres_seq_nil hC)
  have h2 : sb.outFile <+: sa.outFile := by
    refine seq_prefix_of_pres ?_ hrest
    repeat' with_reducible first
      | exact Pres_mt hC
      | exact Pres_seq_nil hC
      | exact pres_true_call _ _
      | apply Pres_seq_cons hC
      | apply Pres_whileDo hC
      | apply PresB_go
      | exact PresB_brk hC
      | apply PresB_ite
      | apply PresB_withPeek hC (by decide)
      | intro _
  have h3 : sa.outFile <+: s1.outFile := by
    refine seq_prefix_of_pres ?_ g1
    exact Pres_seq_cons hC (Pres_emit hC trivial) (Pres_seq_nil hC)
  exact h1.trans (h2.trans h3)

theorem seq_single_emit {t : String} {s s1 : State} (h : seq [act (emit t)] s = some s1) :
    s1 = emit t s := by
  simp only [seq, act, Option.bind_eq_bind, Option.some_bind] at h
  exact (Option.some.inj h).symm

theorem mt_some {s s1 : State} (h : mt s = some s1) : s1 = matchToken "" s :=
  (Option.some.inj h).symm

theorem seq_single_mt {s s1 : State} (h : seq [mt] s = some s1) : s1 = matchToken "" s := by
  simp only [seq, mt, act, Option.bind_eq_bind, Option.some_bind] at h
  exact (Option.some.inj h).symm

/-- A run of `parseStatement` started at an identifier looks one token ahead. -/
theorem statement_at_ident {n : Nat} {s s1 : State} (hc : s.currentToken.type = "IDENFR")
    (h : parse n Proc.parseStatement s = some s1) :
    ∃ m, n = m + 1 ∧
      (((peekToken 1 s).1.type = "LPARENT" ∧
          ∃ sC, parse m Proc.parseFuncCallVoid (peekToken 1 s).2 = some sC ∧
            s1 = emit "<语句>" (matchToken "" sC)) ∨
        ((peekToken 1 s).1.type ≠ "LPARENT" ∧
          ∃ sA, parse m Proc.parseAssignStmt (peekToken 1 s).2 = some sA ∧
            s1 = emit "<语句>" (matchToken "" sA))) := by
  obtain ⟨m, rfl⟩ := parse_some_succ h
  refine ⟨m, rfl, ?_⟩
  simp only [parse] at h
  obtain ⟨sa, ha, g1⟩ := seq_cons_some h
  have e1 := seq_single_emit g1
  rw [ifCur_neg (by rw [hc]; decide), ifCur_neg (by rw [hc]; decide),
    ifCur_neg (by rw [hc]; decide), ifCur_neg (by rw [hc]; decide),
    ifCur_neg (by rw [hc]; decide), ifCur_neg (by rw [hc]; decide),
    ifCur_neg (by rw [hc]; decide), ifCur_pos (by rw [hc]; decide)] at ha
  simp only [withPeek] at ha
  by_cases hl : (peekToken 1 s).1.type = "LPARENT"
  · left
    rw [if_pos hl] at ha
    obtain ⟨sC, hC, g2⟩ := seq_cons_some ha
    rw [seq_single_mt g2] at e1
    exact ⟨hl, sC, hC, e1⟩
  · right
    rw [if_neg hl] at ha
    obtain ⟨sA, hA, g2⟩ := seq_cons_some ha
    rw [seq_single_mt g2] at e1
    exact ⟨hl, sA, hA, e1⟩

/-- A completed `parseFuncCallVoid` matched the name and `(`, ran
`parseValueParamTable`, matched `)` and wrote its record. -/
theorem funcCallVoid_run {n : Nat} {s s1 : State}
    (h : parse n Proc.parseFuncCallVoid s = some s1) :
    ∃ m sP, n = m + 1 ∧
      parse m Proc.parseValueParamTable (matchToken "" (matchToken "" s)) = some sP ∧
      s1 = emit "<无返回值函数调用语句>" (matchToken "" sP) := by
  obtain ⟨m, rfl⟩ := parse_some_succ h
  simp only [parse] at h
  obtain ⟨sa, ha, g1⟩ := seq_cons_some h
  obtain ⟨sb, hb, g2⟩ := seq_cons_some g1
  obtain ⟨sP, hP, g3⟩ := seq_cons_some g2
  obtain ⟨sd, hd, g4⟩ := seq_cons_some g3
  rw [mt_some ha] at hb
  rw [mt_some hb] at hP
  rw [mt_some hd] at g4
  exact ⟨m, sP, rfl, hP, seq_single_emit g4⟩

/-- A completed `parseAssignStmt` matched the name; if the token then current is
`[` it matched it, ran `parseExpression` for the index and matched `]`; then it
matched `=`, ran `parseExpression` and wrote its record. -/
theorem assignStmt_run {n : Nat} {s s1 : State}
    (h : parse n Proc.parseAssignStmt s = some s1) :
    ∃ m, n = m + 1 ∧
      (((matchToken "" s).currentToken.type = "LBRACK" ∧
          ∃ sE sR, parse m Proc.parseExpression (matchToken "" (matchToken "" s)) = some sE ∧
            parse m Proc.parseExpression (matchToken "" (matchToken "" sE)) = some sR ∧
            s1 = emit "<赋值语句>" sR) ∨
        ((matchToken "" s).currentToken.type ≠ "LBRACK" ∧
          ∃ sR, parse m Proc.parseExpression (matchToken "" (matchToken "" s)) = some sR ∧
            s1 = emit "<赋值语句>" sR)) := by
  obtain ⟨m, rfl⟩ := parse_some_succ h
  refine ⟨m, rfl, ?_⟩
  simp only [parse] at h
  obtain ⟨sa, ha, g1⟩ := seq_cons_some h
  obtain ⟨sb, hb, g2⟩ := seq_cons_some g1
  obtain ⟨sc, hc, g3⟩ := seq_cons_some g2
  obtain ⟨sR, hR, g4⟩ := seq_cons_some g3
  have e1 := seq_single_emit g4
  have ea := mt_some ha
  subst ea
  by_cases hl : (matchToken "" s).currentToken.type = "LBRACK"
  · left
    rw [ifCur_pos (by rw [hl]; decide)] at hb
    obtain ⟨sd, hd, g5⟩ := seq_cons_some hb
    obtain ⟨sE, hE, g6⟩ := seq_cons_some g5
    rw [mt_some hd] at hE
    rw [seq_single_mt g6] at hc
    rw [mt_some hc] at hR
    exact ⟨hl, sE, sR, hE, hR, e1⟩
  · right
    rw [ifCur_neg (by simpa using hl)] at hb
    have eb : sb = matchToken "" s := (Option.some.inj hb).symm
    rw [eb] at hc
    rw [mt_some hc] at hR
    exact ⟨hl, sR, hR, e1⟩

/-- C17: assignment versus call at statement position.  `parseStatement` entered
at an identifier completes, and every completed run is decided by the next
token.  If it is `(`, the statement is parsed by `parseFuncCallVoid` and no
`<赋值语句>` is written before its record.  Otherwise it is parsed by
`parseAssignStmt`, which writes `<赋值语句>`; that procedure runs
`parseExpression` for an index, between the matches of `[` and `]`, exactly when
the token after the identifier is `[`, and in both cases runs `parseExpression`
for the right-hand side after the match of `=`. -/
theorem assign_versus_call {s : State} (hs : BufferOk s)
    (hc : s.currentToken.type = "IDENFR") :
    (∃ n s1, parse n Proc.parseStatement s = some s1) ∧
    ∀ n s1, parse n Proc.parseStatement s = some s1 →
      ((peekToken 1 s).1.type = "LPARENT" ∧
        ∃ m sC recs, parse m Proc.parseFuncCallVoid (peekToken 1 s).2 = some sC ∧
          s1 = emit "<语句>" (matchToken "" sC) ∧
          sC.outFile = s.outFile ++ recs ++ ["<无返回值函数调用语句>"] ∧
          "<赋值语句>" ∉ recs) ∨
      ((peekToken 1 s).1.type ≠ "LPARENT" ∧
        ∃ m sA recs, parse (m + 1) Proc.parseAssignStmt (peekToken 1 s).2 = some sA ∧
          s1 = emit "<语句>" (matchToken "" sA) ∧
          sA.outFile = s.outFile ++ recs ++ ["<赋值语句>"] ∧
          "<无返回值函数调用语句>" ∉ recs ∧
          (((peekToken 1 s).1.type = "LBRACK" ∧
            ∃ sE sR,
              parse m Proc.parseExpression
                (matchToken "" (matchToken "" (peekToken 1 s).2)) = some sE ∧
              parse m Proc.parseExpression (matchToken "" (matchToken "" sE)) = some sR ∧
              sA = emit "<赋值语句>" sR) ∨
          ((peekToken 1 s).1.type ≠ "LBRACK" ∧
            ∃ sR,
              parse m Proc.parseExpression
                (matchToken "" (matchToken "" (peekToken 1 s).2)) = some sR ∧
              sA = emit "<赋值语句>" sR))) := by
  refine ⟨parse_exists _ _, ?_⟩
  intro n s1 h
  obtain ⟨m, -, ⟨hl, sC, hC, e1⟩ | ⟨hl, sA, hA, e1⟩⟩ := statement_at_ident hc h
  · left
    obtain ⟨recs, hr, hrecs⟩ := out_of_last hC
    refine ⟨hl, m, sC, recs, hC, e1, ?_, not_mem_of_records hrecs (by decide) (by decide)⟩
    rw [hr, peekToken_outFile]
    rfl
  · right
    obtain ⟨recs, hr, hrecs⟩ := out_of_last hA
    obtain ⟨k, hk, hrun⟩ := assignStmt_run hA
    subst hk
    refine ⟨hl, k, sA, recs, hA, e1, ?_,
      not_mem_of_records hrecs (by decide) (by decide), ?_⟩
    · rw [hr, peekToken_outFile]
      rfl
    · rw [matchToken_cur_after_peek hs] at hrun
      exact hrun

/-- Witness of C17: the state reached on the text `a [ 1 ] = 2 ;` after
`initParser`, where the token after the identifier is `[`. -/
theorem assign_versus_call_witness :
    BufferOk (initParser (initState "a [ 1 ] = 2 ;".toList)) ∧
    (initParser (initState "a [ 1 ] = 2 ;".toList)).currentToken.type = "IDENFR" ∧
    (peekToken 1 (initParser (initState "a [ 1 ] = 2 ;".toList))).1.type = "LBRACK" ∧
    ∃ n s1, parse n Proc.parseStatement
      (initParser (initState "a [ 1 ] = 2 ;".toList)) = some s1 :=
  ⟨by decide, by decide, by decide,
    (@assign_versus_call (initParser (initState "a [ 1 ] = 2 ;".toList))
      (by decide) (by decide)).1⟩

/-- C18: a call at statement position is a without-return call.  `parseStatement`
entered at an identifier followed by `(` completes, and every completed run
writes: the line of the identifier, the line of `(`, the records of the
arguments closed by `<值参数表>`, the line of the token matched as `)`,
`<无返回值函数调用语句>`, the line of the token matched as `;`, `<语句>`.  Outside
the arguments there is neither `<有返回值函数调用语句>` nor `<因子>`. -/
theorem statement_call_is_void {s : State} (hs : BufferOk s)
    (hc : s.currentToken.type = "IDENFR") (hl : (peekToken 1 s).1.type = "LPARENT") :
    (∃ n s1, parse n Proc.parseStatement s = some s1) ∧
    ∀ n s1, parse n Proc.parseStatement s = some s1 →
      ∃ m sP args,
        parse m Proc.parseValueParamTable
          (matchToken "" (matchToken "" (peekToken 1 s).2)) = some sP ∧
        sP.outFile = s.outFile ++
          [terminalLine s.currentToken, terminalLine (peekToken 1 s).1] ++ args ++
          ["<值参数表>"] ∧
        s1.outFile = sP.outFile ++
          [terminalLine sP.currentToken, "<无返回值函数调用语句>",
            terminalLine (matchToken "" sP).currentToken, "<语句>"] := by
  refine ⟨parse_exists _ _, ?_⟩
  intro n s1 h
  obtain ⟨m, -, ⟨-, sC, hC, e1⟩ | ⟨hn, -⟩⟩ := statement_at_ident hc h
  · obtain ⟨k, sP, -, hP, e2⟩ := funcCallVoid_run hC
    obtain ⟨args, hr, -⟩ := out_of_last hP
    refine ⟨k, sP, args, hP, ?_, ?_⟩
    · rw [hr, matchToken_outFile, matchToken_outFile, peekToken_outFile, peekToken_cur,
        matchToken_cur_after_peek hs]
      simp [Proc.tag]
    · rw [e1, e2]
      show (matchToken "" (emit "<无返回值函数调用语句>" (matchToken "" sP))).outFile ++
        ["<语句>"] = _
      rw [matchToken_outFile]
      show (matchToken "" sP).outFile ++ ["<无返回值函数调用语句>"] ++
        [terminalLine (matchToken "" sP).currentToken] ++ ["<语句>"] = _
      rw [matchToken_outFile]
      simp
  · exact absurd hl hn

/-- Witness of C18: the tokens `a ( ) ;` give exactly the trace `IDENFR a`,
`LPARENT (`, `<值参数表>`, `RPARENT )`, `<无返回值函数调用语句>`, `SEMICN ;`,
`<语句>`. -/
theorem statement_call_is_void_witness :
    BufferOk (initParser (initState "a ( ) ;".toList)) ∧
    (initParser (initState "a ( ) ;".toList)).currentToken.type = "IDENFR" ∧
    (peekToken 1 (initParser (initState "a ( ) ;".toList))).1.type = "LPARENT" ∧
    (∃ n s1, parse n Proc.parseStatement (initParser (initState "a ( ) ;".toList)) = some s1) ∧
    (parse 12 Proc.parseStatement (initParser (initState "a ( ) ;".toList))).map
        (fun s1 => s1.outFile) =
      some ["IDENFR a", "LPARENT (", "<值参数表>", "RPARENT )", "<无返回值函数调用语句>",
        "SEMICN ;", "<语句>"] :=
  ⟨by decide, by decide, by decide,
    (@statement_call_is_void (initParser (initState "a ( ) ;".toList))
      (by decide) (by decide) (by decide)).1,
    by decide⟩

/-- C19, as stated, fails: on `for ( i = 0 ; i < 10 ; i = i + i + 1 ) ;` the token
at the step position is the identifier `i`, and `parseLoopStmt` completes:
`parseStep` matches `i` and writes `<无符号整数>` and `<步长>`, the `+` that
follows is matched in the place of `)`, and the procedure ends with its own
record, leaving `1` as the current token. -/
theorem for_step_identifier_accepted :
    (parse 20 Proc.parseLoopStmt
        (initParser (initState "for ( i = 0 ; i < 10 ; i = i + i + 1 ) ;".toList))).map
      (fun s1 => (s1.outFile, s1.currentToken)) =
    some (["FORTK for", "LPARENT (", "IDENFR i", "ASSIGN =", "INTCON 0", "<无符号整数>",
      "<整数>", "<因子>", "<项>", "<表达式>", "SEMICN ;", "IDENFR i", "<因子>", "<项>",
      "<表达式>", "LSS <", "INTCON 10", "<无符号整数>", "<整数>", "<因子>", "<项>",
      "<表达式>", "<条件>", "SEMICN ;", "IDENFR i", "ASSIGN =", "IDENFR i", "PLUS +",
      "IDENFR i", "<无符号整数>", "<步长>", "PLUS +", "<语句>", "<循环语句>"],
      ⟨"INTCON", "1"⟩) := by
  decide

/-- C19, amended: on `for ( i = 0 ; i < 10 ; i = i + 1 ) ;` the procedure
`parseLoopStmt` completes and writes `INTCON 1`, `<无符号整数>`, `<步长>` for the
step.  `parseStep` does not look at the kind of the token at the step position:
in every state it matches the current token, writes `<无符号整数>` and then
`<步长>`; and `parseLoopStmt` completes in every state. -/
theorem for_step_any_token :
    (parse 20 Proc.parseLoopStmt
        (initParser (initState "for ( i = 0 ; i < 10 ; i = i + 1 ) ;".toList))).map
      (fun s1 => s1.outFile) =
    some ["FORTK for", "LPARENT (", "IDENFR i", "ASSIGN =", "INTCON 0", "<无符号整数>",
      "<整数>", "<因子>", "<项>", "<表达式>", "SEMICN ;", "IDENFR i", "<因子>", "<项>",
      "<表达式>", "LSS <", "INTCON 10", "<无符号整数>", "<整数>", "<因子>", "<项>",
      "<表达式>", "<条件>", "SEMICN ;", "IDENFR i", "ASSIGN =", "IDENFR i", "PLUS +",
      "INTCON 1", "<无符号整数>", "<步长>", "RPARENT )", "SEMICN ;", "<语句>",
      "<循环语句>"] ∧
    (∀ (n : Nat) (s : State),
      parse (n + 2) Proc.parseStep s =
        some (emit "<步长>" (emit "<无符号整数>" (matchToken "" s))) ∧
      (emit "<步长>" (emit "<无符号整数>" (matchToken "" s))).outFile =
        s.outFile ++ [terminalLine s.currentToken, "<无符号整数>", "<步长>"]) ∧
    (∀ s : State, ∃ n s1, parse n Proc.parseLoopStmt s = some s1) := by
  refine ⟨by decide, ?_, fun s => parse_exists _ s⟩
  intro n s
  constructor
  · simp only [parse, seq, mt, act, Option.bind_eq_bind, Option.some_bind]
  · show (matchToken "" s).outFile ++ ["<无符号整数>"] ++ ["<步长>"] = _
    rw [matchToken_outFile]
    simp

/-- C20, as stated, fails: with current token `IDENFR a`, `match("INTCON")` writes
the line `IDENFR a` and moves on to `b`; and on the empty text `parseProgram`
runs to completion, matching the end-of-input token six times. -/
theorem match_ignores_expected_kind :
    (initParser (initState "a b".toList)).currentToken = ⟨"IDENFR", "a"⟩ ∧
    (matchToken "INTCON" (initParser (initState "a b".toList))).outFile = ["IDENFR a"] ∧
    (matchToken "INTCON" (initParser (initState "a b".toList))).currentToken =
      ⟨"IDENFR", "b"⟩ ∧
    (runParser 20 []).map (fun s1 => s1.outFile) =
      some ["EOF ", "EOF ", "EOF ", "EOF ", "EOF ", "<语句列>", "<复合语句>", "EOF ",
        "<主函数>", "<程序>"] := by
  decide

/-- C20, amended: `match` never fails.  Whatever kind is passed as expected and
whatever the current token is, end-of-input included, `match` does what
`match()` does: it writes the line of the current token, and the first pending
token becomes the current one, the rest of the pending stream staying pending.
No procedure stops early: every parsing procedure completes from this state. -/
theorem match_always_advances (e : String) {s : State} (hs : BufferOk s) :
    matchToken e s = matchToken "" s ∧
    (matchToken e s).outFile = s.outFile ++ [terminalLine s.currentToken] ∧
    (matchToken e s).currentToken = pending s 0 ∧
    (∀ i, pending (matchToken e s) i = pending s (i + 1)) ∧
    BufferOk (matchToken e s) ∧
    ∀ p : Proc, ∃ n s1, parse n p s = some s1 := by
  refine ⟨rfl, matchToken_outFile e s, matchToken_upcoming e hs 0, ?_,
    matchToken_bufferOk e hs, fun p => parse_exists p s⟩
  intro i
  exact matchToken_upcoming e hs (i + 1)

/-- Witness of C20, amended: the state at end of input reached on the empty
text, with expected kind `RBRACE`. -/
theorem match_always_advances_witness :
    BufferOk (initParser (initState [])) ∧
    (initParser (initState [])).currentToken = ⟨"EOF", ""⟩ ∧
    (matchToken "RBRACE" (initParser (initState []))).outFile = ["EOF "] ∧
    (matchToken "RBRACE" (initParser (initState []))).currentToken =
      pending (initParser (initState [])) 0 :=
  ⟨by decide, by decide, by decide,
    (@match_always_advances "RBRACE" (initParser (initState [])) (by decide)).2.2.1⟩

/-! ## Scenario and closed set of tags -/

/-- C21: the scenario trace.  On `int a; void main ( ) { a = 1 ; }` the run of
`parseProgram` completes and, whatever the bound, writes exactly
`scenarioTrace`: `<变量定义>`, then `SEMICN ;`, then `<变量说明>`, then the
records of the entry function from `VOIDTK void` to `RBRACE }` closed by
`<主函数>`, with no `<有返回值函数定义>` and no `<声明头部>`. -/
theorem scenario_trace :
    (runParser 20 scenarioText).map (fun s1 => s1.outFile) = some scenarioTrace ∧
    (∀ n s1, runParser n scenarioText = some s1 → s1.outFile = scenarioTrace) ∧
    scenarioTrace.take 5 =
      ["INTTK int", "IDENFR a", "<变量定义>", "SEMICN ;", "<变量说明>"] ∧
    (scenarioTrace.drop 5).take 2 = ["VOIDTK void", "MAINTK main"] ∧
    scenarioTrace.drop 23 = ["RBRACE \x7d", "<主函数>", "<程序>"] ∧
    "<赋值语句>" ∈ scenarioTrace.drop 5 ∧
    scenarioTrace.indexOf "<变量定义>" < scenarioTrace.indexOf "<变量说明>" ∧
    scenarioTrace.indexOf "<变量说明>" < scenarioTrace.indexOf "<主函数>" ∧
    "<有返回值函数定义>" ∉ scenarioTrace ∧ "<声明头部>" ∉ scenarioTrace := by
  have h20 : (runParser 20 scenarioText).map (fun s1 => s1.outFile) = some scenarioTrace := by
    decide
  refine ⟨h20, ?_, by decide, by decide, by decide, by decide, by decide, by decide,
    by decide, by decide⟩
  intro n s1 h
  cases h0 : runParser 20 scenarioText with
  | none => rw [h0] at h20; simp at h20
  | some s2 =>
    rw [h0] at h20
    have e : s1 = s2 := parse_det h h0
    rw [e]
    simpa using h20

theorem tag_mem_grammarTags (p : Proc) : p.tag ∈ grammarTags := by
  cases p <;> decide

theorem mayEmit_grammarTags :
    ∀ p : Proc, ∀ t ∈ mayEmit p, t ∈ grammarTags ∨ t = "<字符串>" := by
  intro p
  cases p <;> decide

/-- C22, as stated, fails: on `printf ( "hi" )` the procedure `parsePrintf`
writes the record `<字符串>` after the line of the string, and `<字符串>` is not
the tag of any of the 29 nonterminals. -/
theorem string_record_written :
    (parse 20 Proc.parsePrintf (initParser (initState printfText))).map
        (fun s1 => s1.outFile) =
      some ["PRINTFTK printf", "LPARENT (", "STRCON hi", "<字符串>", "RPARENT )",
        "<写语句>"] ∧
    "<字符串>" ∉ grammarTags ∧
    (∀ p : Proc, p.tag ≠ "<字符串>") ∧
    (∀ p : Proc, p.tag ∈ grammarTags) ∧ grammarTags.length = 29 := by
  refine ⟨by decide, by decide, ?_, tag_mem_grammarTags, by decide⟩
  intro p
  cases p <;> decide

/-- C22, amended: on every text `parseProgram` completes, and every record it
writes is a line written by `match`, the tag of one of the 29 nonterminals, or
`<字符串>`; the same holds for every procedure started in any state. -/
theorem closed_record_set :
    (∀ inp : List Char, ∃ n s1, runParser n inp = some s1) ∧
    (∀ (inp : List Char) (n : Nat) (s1 : State), runParser n inp = some s1 →
      ∀ r ∈ s1.outFile, (∃ t : Token, r = terminalLine t) ∨ r ∈ grammarTags ∨
        r = "<字符串>") ∧
    (∀ (p : Proc) (n : Nat) (s s1 : State), parse n p s = some s1 →
      ∃ recs, s1.outFile = s.outFile ++ recs ∧
        ∀ r ∈ recs, (∃ t : Token, r = terminalLine t) ∨ r ∈ grammarTags ∨
          r = "<字符串>") := by
  have hgen : ∀ (p : Proc) (n : Nat) (s s1 : State), parse n p s = some s1 →
      ∃ recs, s1.outFile = s.outFile ++ recs ∧
        ∀ r ∈ recs, (∃ t : Token, r = terminalLine t) ∨ r ∈ grammarTags ∨
          r = "<字符串>" := by
    intro p n s s1 h
    obtain ⟨recs, h1, h2⟩ := parse_out h
    refine ⟨recs, h1, ?_⟩
    intro r hr
    rcases h2 r hr with ht | ht
    · exact Or.inl ht
    · exact Or.inr (mayEmit_grammarTags p r ht)
  refine ⟨fun inp => parse_exists _ _, ?_, hgen⟩
  intro inp n s1 h
  obtain ⟨recs, h1, h2⟩ := hgen _ _ _ _ h
  have hout : (initParser (initState inp)).outFile = [] := by
    simp [initParser, initState, getToken]
  intro r hr
  rw [h1, hout, List.nil_append] at hr
  exact h2 r hr

/-! ## Index safety of the buffer -/

theorem checked_access {α : Type} (l : List Token) (i : Nat) (f : Token → α)
    (h : i < l.length) : (l[i]?).map f = some (f (l.getD i eofToken)) := by
  simp [List.getD_eq_getElem?_getD, List.getElem?_eq_getElem h]

theorem peekTokenLoopChecked_eq (idx : Nat) :
    ∀ (fuel : Nat) (s : State), idx + 1 - s.tokenBuffer.length ≤ fuel →
      peekTokenLoopChecked idx fuel s = some (peekTokenLoop idx fuel s)
  | 0, s, h => by
    have hlt : idx < s.tokenBuffer.length := by omega
    rw [peekTokenLoopChecked, peekTokenLoop]
    exact checked_access _ _ _ hlt
  | fuel + 1, s, h => by
    rw [peekTokenLoopChecked, peekTokenLoop]
    by_cases hg : s.tokenBuffer.length ≤ idx
    · rw [if_pos hg, if_pos hg]
      by_cases he : (getNextTokenFromFile s.inFile).1.type = "EOF"
      · rw [if_pos he, if_pos he]
      · rw [if_neg he, if_neg he]
        apply peekTokenLoopChecked_eq idx fuel
        simp only [List.length_append, List.length_singleton]
        omega
    · rw [if_neg hg, if_neg hg]
      exact checked_access _ _ _ (by omega)

theorem getTokenChecked_eq (s : State) : getTokenChecked s = some (getToken s) := by
  unfold getTokenChecked getToken
  by_cases h : s.bufferIndex < s.tokenBuffer.length
  · rw [if_pos h, if_pos h]
    exact checked_access _ _ _ h
  · rw [if_neg h, if_neg h]

/-- C27: index safety of the lookahead buffer.  `bufferIndex ≤
tokenBuffer.size()` holds at program start and is kept by `getToken()` and by
`peekToken(k)`.  The element accesses are within bounds: `getToken` and, for
`k ≥ 1`, `peekToken(k)` with the accesses checked never fail and give the
results of the functions. -/
theorem buffer_index_safety :
    (∀ inp : List Char, BufferOk (initState inp)) ∧
    (∀ s : State, BufferOk s →
      BufferOk (getToken s).2 ∧ ∀ k : Nat, BufferOk (peekToken k s).2) ∧
    (∀ s : State, getTokenChecked s = some (getToken s)) ∧
    (∀ (s : State) (k : Nat), 1 ≤ k → peekTokenChecked k s = some (peekToken k s)) := by
  refine ⟨fun inp => Nat.le_refl 0, ?_, getTokenChecked_eq, ?_⟩
  · intro s hs
    exact ⟨getToken_bufferOk hs, fun k => peekToken_bufferOk k hs⟩
  · intro s k hk
    unfold peekTokenChecked peekToken
    exact peekTokenLoopChecked_eq _ _ s (le_refl _)

/-! ## One variable declaration block -/

/-- How a loop ends: its condition is false, or its body left it. -/
theorem whileDo_exit {cond : State → Bool} {body : Body} {I : State → Prop}
    (hI : ∀ y r, I y → cond y = true → body y = some r → I r.1) :
    ∀ (n : Nat) (s s1 : State), I s → whileDo cond body n s = some s1 →
      I s1 ∧ (cond s1 = false ∨ ∃ y, I y ∧ cond y = true ∧ body y = some (s1, false))
  | 0, s, s1, _, h => by simp [whileDo] at h
  | n + 1, s, s1, hs, h => by
    simp only [whileDo] at h
    by_cases hc : cond s = true
    · rw [if_pos hc] at h
      cases h1 : body s with
      | none => rw [h1] at h; simp at h
      | some r =>
        rw [h1] at h
        simp only [Option.bind_eq_bind, Option.some_bind] at h
        have hr := hI s r hs hc h1
        by_cases hf : r.2 = true
        · rw [if_pos hf] at h
          exact whileDo_exit hI n r.1 s1 hr h
        · rw [if_neg hf] at h
          have e : r.1 = s1 := Option.some.inj h
          have hr2 : r = (s1, false) := by
            rw [← e]
            cases r with
            | mk a b =>
              simp only [Bool.not_eq_true] at hf
              simp only at hf ⊢
              rw [hf]
          refine ⟨e ▸ hr, Or.inr ⟨s, hs, hc, ?_⟩⟩
          rw [h1, hr2]
    · rw [if_neg hc] at h
      have e : s = s1 := Option.some.inj h
      subst e
      exact ⟨hs, Or.inl (by simpa using hc)⟩

theorem parse_bufferOk {n : Nat} {p : Proc} {s s1 : State} (h : parse n p s = some s1)
    (hs : BufferOk s) : BufferOk s1 :=
  (parse_adv h hs).1

/-- When `parseVarDecl` returns with `int` or `char` as the current token, it left
its loop because the token two ahead is `(`. -/
theorem varDecl_exit {n : Nat} {s s1 : State} (hs : BufferOk s)
    (h : parse n Proc.parseVarDecl s = some s1)
    (hc : s1.currentToken.type ∈ ["INTTK", "CHARTK"]) :
    ∃ y, BufferOk y ∧ (peekToken 2 y).1.type = "LPARENT" ∧
      s1 = emit "<变量说明>" (peekToken 2 y).2 := by
  obtain ⟨m, rfl⟩ := parse_some_succ h
  simp only [parse] at h
  obtain ⟨x, hx, g1⟩ := seq_cons_some h
  have e1 := seq_single_emit g1
  have hI : ∀ y r, BufferOk y → curIn ["INTTK", "CHARTK"] y = true →
      withPeek 2 (fun next2 =>
        if next2.type = "LPARENT" then brk
        else go (seq [parse m Proc.parseVarDef, mt])) y = some r → BufferOk r.1 := by
    intro y r hy _ hb
    have hP : PresB Adv (withPeek 2 (fun next2 =>
        if next2.type = "LPARENT" then brk
        else go (seq [parse m Proc.parseVarDef, mt]))) := by
      apply PresB_withPeek Adv_closed (by decide)
      intro t
      apply PresB_ite (PresB_brk Adv_closed)
      apply PresB_go
      exact Pres_seq_cons Adv_closed (parse_closed Adv_closed _ _ (mayEmit_no_blank _))
        (Pres_seq_cons Adv_closed (Pres_mt Adv_closed) (Pres_seq_nil Adv_closed))
    exact (hP y r.1 r.2 hb hy).1
  obtain ⟨-, hex⟩ := whileDo_exit hI m s x hs hx
  rcases hex with hnc | ⟨y, hy, -, hb⟩
  · exfalso
    rw [e1] at hc
    have : curIn ["INTTK", "CHARTK"] x = true := by
      simp only [curIn, decide_eq_true_eq]
      exact hc
    rw [this] at hnc
    exact absurd hnc (by decide)
  · refine ⟨y, hy, ?_⟩
    simp only [withPeek] at hb
    by_cases hl : (peekToken 2 y).1.type = "LPARENT"
    · rw [if_pos hl] at hb
      have e2 : (peekToken 2 y).2 = x := by
        have := Option.some.inj hb
        exact congrArg Prod.fst this
      rw [e2]
      exact ⟨hl, e1⟩
    · rw [if_neg hl] at hb
      obtain ⟨z, -, hz⟩ := go_some hb
      exact absurd (congrArg Prod.snd hz) (by simp)

/-- After `parseVarDecl` has returned with `int` or `char` as the current token,
the token two ahead is `(`. -/
theorem varDecl_then_lparent {n : Nat} {s s1 : State} (hs : BufferOk s)
    (h : parse n Proc.parseVarDecl s = some s1)
    (hc : s1.currentToken.type ∈ ["INTTK", "CHARTK"]) :
    (peekToken 2 (peekToken 1 s1).2).1.type = "LPARENT" := by
  obtain ⟨y, hy, hl, e⟩ := varDecl_exit hs h hc
  have h1 : BufferOk s1 := parse_bufferOk h hs
  have hp : BufferOk (peekToken 2 y).2 := peekToken_bufferOk 2 hy
  rw [peek12_token h1, e]
  have he : (peekToken 2 (emit "<变量说明>" (peekToken 2 y).2)).1 =
      (peekToken 2 (peekToken 2 y).2).1 := by
    rw [peekToken_stream, peekToken_stream]
    rfl
  rw [he, peekToken_idem (by decide)]
  exact hl

/-- The first loop of `parseProgram` writes nothing, or exactly what one run of
`parseVarDecl` writes. -/
theorem programVarLoop_run {n : Nat} {s s1 : State} (hs : BufferOk s)
    (h : programVarLoop n s = some s1) :
    (s1.outFile = s.outFile ∧ (s1 = s ∨ s1 = (peekToken 2 (peekToken 1 s).2).2)) ∨
    ∃ sV, parse n Proc.parseVarDecl (peekToken 2 (peekToken 1 s).2).2 = some sV ∧
      (s1 = sV ∨ s1 = (peekToken 2 (peekToken 1 sV).2).2) ∧ s1.outFile = sV.outFile := by
  unfold programVarLoop at h
  by_cases hc : curIn ["INTTK", "CHARTK"] s = true
  · obtain ⟨m, r, hm, hbody, hrest⟩ := whileDo_some h hc
    simp only [withPeek] at hbody
    by_cases hl : (peekToken 2 (peekToken 1 s).2).1.type = "LPARENT"
    · left
      rw [if_neg (by simpa using hl)] at hbody
      have hr : r = ((peekToken 2 (peekToken 1 s).2).2, false) := (Option.some.inj hbody).symm
      rw [hr] at hrest
      simp only [Bool.false_eq_true, if_false, Option.some.injEq] at hrest
      rw [← hrest]
      exact ⟨by rw [peekToken_outFile, peekToken_outFile], Or.inr rfl⟩
    · right
      rw [if_pos (by simpa using hl)] at hbody
      obtain ⟨sV, hV, hr⟩ := go_some hbody
      refine ⟨sV, hV, ?_⟩
      rw [hr] at hrest
      simp only [if_true] at hrest
      have hs2 : BufferOk (peekToken 2 (peekToken 1 s).2).2 :=
        peekToken_bufferOk 2 (peekToken_bufferOk 1 hs)
      by_cases hc2 : curIn ["INTTK", "CHARTK"] sV = true
      · obtain ⟨m2, r2, -, hbody2, hrest2⟩ := whileDo_some hrest hc2
        simp only [withPeek] at hbody2
        have hl2 := varDecl_then_lparent hs2 hV
          (by simpa only [curIn, decide_eq_true_eq] using hc2)
        rw [if_neg (by simpa using hl2)] at hbody2
        have hr2 : r2 = ((peekToken 2 (peekToken 1 sV).2).2, false) :=
          (Option.some.inj hbody2).symm
        rw [hr2] at hrest2
        simp only [Bool.false_eq_true, if_false, Option.some.injEq] at hrest2
        rw [← hrest2]
        exact ⟨Or.inr rfl, by rw [peekToken_outFile, peekToken_outFile]⟩
      · have e := whileDo_skip hrest hc2
        rw [e]
        exact ⟨Or.inl rfl, rfl⟩
  · left
    have e := whileDo_skip h hc
    rw [e]
    exact ⟨rfl, Or.inl rfl⟩

/-- C25: `parseProgram` runs `parseVarDecl` at most once.  `parseProgram` is the
constant block, the loop `programVarLoop`, the loop `programFuncLoop`,
`parseMainFunc` and the record `<程序>`.  From a state with `bufferIndex ≤
tokenBuffer.size()` it completes, and in every completed run the loop
`programVarLoop` either writes nothing or runs `parseVarDecl` exactly once:
what it writes is then what that one run writes, closed by the only
`<变量说明>`. -/
theorem varDecl_at_most_once {s : State} (hs : BufferOk s) :
    (∀ n, parse (n + 1) Proc.parseProgram =
      seq [ifCur ["CONSTTK"] (parse n Proc.parseConstDecl) skip, programVarLoop n,
        programFuncLoop n, parse n Proc.parseMainFunc, act (emit "<程序>")]) ∧
    (∃ n s1, parse (n + 1) Proc.parseProgram s = some s1) ∧
    ∀ n s1, parse (n + 1) Proc.parseProgram s = some s1 →
      ∃ sa sb,
        ifCur ["CONSTTK"] (parse n Proc.parseConstDecl) skip s = some sa ∧
        programVarLoop n sa = some sb ∧
        seq [programFuncLoop n, parse n Proc.parseMainFunc, act (emit "<程序>")] sb =
          some s1 ∧
        (sb.outFile = sa.outFile ∨
          ∃ sV recs,
            parse n Proc.parseVarDecl (peekToken 2 (peekToken 1 sa).2).2 = some sV ∧
            sV.outFile = sa.outFile ++ recs ++ ["<变量说明>"] ∧
            "<变量说明>" ∉ recs ∧
            sb.outFile = sV.outFile) := by
  refine ⟨fun n => rfl, ?_, ?_⟩
  · obtain ⟨n, s1, h⟩ := parse_exists Proc.parseProgram s
    obtain ⟨m, rfl⟩ := parse_some_succ h
    exact ⟨m, s1, h⟩
  · intro n s1 h
    have h0 : seq [ifCur ["CONSTTK"] (parse n Proc.parseConstDecl) skip, programVarLoop n,
        programFuncLoop n, parse n Proc.parseMainFunc, act (emit "<程序>")] s = some s1 := h
    obtain ⟨sa, ha, g1⟩ := seq_cons_some h0
    obtain ⟨sb, hb, g2⟩ := seq_cons_some g1
    refine ⟨sa, sb, ha, hb, g2, ?_⟩
    have hsa : BufferOk sa := by
      have hP : Pres Adv (ifCur ["CONSTTK"] (parse n Proc.parseConstDecl) skip) :=
        Pres_ifCur (parse_closed Adv_closed _ _ (mayEmit_no_blank _)) (Pres_skip Adv_closed)
      exact (hP s sa ha hs).1
    rcases programVarLoop_run hsa hb with ⟨h1, -⟩ | ⟨sV, hV, -, h2⟩
    · exact Or.inl h1
    · right
      obtain ⟨s2, e2, recs, hr, hrecs⟩ := parse_last_nested hV
      refine ⟨sV, recs, hV, ?_, ?_, h2⟩
      · rw [e2]
        show s2.outFile ++ ["<变量说明>"] = _
        rw [hr, peekToken_outFile, peekToken_outFile]
      · exact not_mem_of_records hrecs (by decide) (by decide)

/-- Witness of C25: the state reached on the scenario text after `initParser`;
there the run of `parseProgram` with bound 20 writes `<变量说明>` once. -/
theorem varDecl_at_most_once_witness :
    BufferOk (initParser (initState scenarioText)) ∧
    (∃ n s1, parse (n + 1) Proc.parseProgram (initParser (initState scenarioText)) =
      some s1) ∧
    (runParser 20 scenarioText).map (fun s1 => s1.outFile.count "<变量说明>") = some 1 :=
  ⟨by decide,
    (@varDecl_at_most_once (initParser (initState scenarioText)) (by decide)).2.1,
    by decide⟩

/-! ## Bounded lookahead -/

theorem PresK_mt {K : Nat} {R : State → State → Prop}
    {T : String → Prop}
    (h : ClosedUpTo K R T) : Pres R mt := by
  intro s s1 hs
  simp only [mt, act, Option.some.injEq] at hs
  subst hs
  exact h.onMatch _ _

theorem PresK_emit {K : Nat} {R : State → State → Prop}
    {T : String → Prop}
    (h : ClosedUpTo K R T) {t : String} (ht : T t) : Pres R (act (emit t)) := by
  intro s s1 hs
  simp only [act, Option.some.injEq] at hs
  subst hs
  exact h.onEmit _ _ ht

theorem PresK_skip {K : Nat} {R : State → State → Prop}
    {T : String → Prop}
    (h : ClosedUpTo K R T) : Pres R skip := by
  intro s s1 hs
  simp only [skip, Option.some.injEq] at hs
  subst hs
  exact h.refl _

theorem PresK_seq_nil {K : Nat} {R : State → State → Prop}
    {T : String → Prop}
    (h : ClosedUpTo K R T) : Pres R (seq []) := by
  intro s s1 hs
  simp only [seq, Option.some.injEq] at hs
  subst hs
  exact h.refl _

theorem PresK_seq_cons {K : Nat} {R : State → State → Prop}
    {T : String → Prop}
    (h : ClosedUpTo K R T) {a : Action} {as : List Action} (ha : Pres R a)
    (has : Pres R (seq as)) : Pres R (seq (a :: as)) := by
  intro s s1 hs
  simp only [seq] at hs
  cases h1 : a s with
  | none => rw [h1] at hs; simp at hs
  | some s2 =>
    rw [h1] at hs
    exact h.trans _ _ _ (ha _ _ h1) (has _ _ hs)

theorem PresK_withPeek {K : Nat} {R : State → State → Prop}
    {T : String → Prop}
    (h : ClosedUpTo K R T) {k : Nat} (hk : 1 ≤ k) (hK : k ≤ K) {f : Token → Action}
    (hf : ∀ t, Pres R (f t)) : Pres R (withPeek k f) := by
  intro s s1 hs
  exact h.trans _ _ _ (h.onPeek k s hk hK) (hf _ _ _ hs)

theorem PresBK_withPeek {K : Nat} {R : State → State → Prop}
    {T : String → Prop}
    (h : ClosedUpTo K R T) {k : Nat} (hk : 1 ≤ k) (hK : k ≤ K) {f : Token → Body}
    (hf : ∀ t, PresB R (f t)) : PresB R (withPeek k f) := by
  intro s s1 b hs
  exact h.trans _ _ _ (h.onPeek k s hk hK) (hf _ _ _ _ hs)

theorem PresBK_brk {K : Nat} {R : State → State → Prop}
    {T : String → Prop}
    (h : ClosedUpTo K R T) : PresB R brk := by
  intro s s1 f hs
  simp only [brk, Option.some.injEq, Prod.mk.injEq] at hs
  rw [← hs.1]
  exact h.refl _

theorem PresK_whileDo {K : Nat} {R : State → State → Prop}
    {T : String → Prop}
    (h : ClosedUpTo K R T) {cond : State → Bool} {body : Body}
    (hb : PresB R body) : ∀ n, Pres R (whileDo cond body n)
  | 0 => by
    intro s s1 hs
    simp [whileDo] at hs
  | n + 1 => by
    intro s s1 hs
    simp only [whileDo] at hs
    by_cases hc : cond s = true
    · rw [if_pos hc] at hs
      cases h1 : body s with
      | none => rw [h1] at hs; simp at hs
      | some r =>
        obtain ⟨s2, f⟩ := r
        rw [h1] at hs
        simp only [Option.some_bind] at hs
        have h2 := hb _ _ _ h1
        cases f with
        | true =>
          simp only [if_true] at hs
          exact h.trans _ _ _ h2 (PresK_whileDo h hb n _ _ hs)
        | false =>
          simp only [Bool.false_eq_true, if_false, Option.some.injEq] at hs
          rw [← hs]
          exact h2
    · rw [if_neg hc] at hs
      simp only [Option.some.injEq] at hs
      rw [← hs]
      exact h.refl _

/-- The procedures look at most two tokens ahead: every completed run of a
procedure relates the state before to the state after by any relation that is
closed under `match`, `peekToken(1)`, `peekToken(2)` and the writing of
records. -/
theorem parse_closedK {R : State → State → Prop} {T : String → Prop}
    (h : ClosedUpTo 2 R T) :
    ∀ (n : Nat) (p : Proc), (∀ t ∈ mayEmit p, T t) → Pres R (parse n p) := by
  intro n
  induction n with
  | zero =>
    intro p _ s s1 hs
    simp [parse] at hs
  | succ n ih =>
    intro p hT
    cases p <;> simp only [parse] <;>
    repeat' with_reducible first
      | exact PresK_mt h
      | exact PresK_skip h
      | exact PresK_seq_nil h
      | exact PresK_emit h (hT _ (by decide))
      | exact ih _ (fun t ht => hT t ((by decide : ∀ t ∈ mayEmit _, t ∈ mayEmit _) t ht))
      | apply PresK_seq_cons h
      | apply Pres_ifCur
      | apply Pres_ite
      | apply PresK_withPeek h (by decide) (by decide)
      | apply PresK_whileDo h
      | apply PresB_go
      | exact PresBK_brk h
      | apply PresB_ifCur
      | apply PresB_ite
      | apply PresBK_withPeek h (by decide) (by decide)
      | intro _

theorem getNextTokenFromFile_suffix (inp : List Char) :
    (getNextTokenFromFile inp).2 <:+ inp := by
  cases inp with
  | nil => exact List.suffix_refl _
  | cons ch rest =>
    exact (getNextTokenFromFile_suffix_cons rest ch).trans (List.suffix_cons ch rest)

theorem peekTokenLoop_suffix (idx : Nat) :
    ∀ (fuel : Nat) (s : State), (peekTokenLoop idx fuel s).2.inFile <:+ s.inFile
  | 0, s => List.suffix_refl _
  | fuel + 1, s => by
    rw [peekTokenLoop]
    by_cases hg : s.tokenBuffer.length ≤ idx
    · rw [if_pos hg]
      by_cases he : (getNextTokenFromFile s.inFile).1.type = "EOF"
      · rw [if_pos he]
        exact getNextTokenFromFile_suffix _
      · rw [if_neg he]
        exact (peekTokenLoop_suffix idx fuel _).trans (getNextTokenFromFile_suffix _)
    · rw [if_neg hg]

theorem peekToken_lookahead2 {k : Nat} (hk : 1 ≤ k) (hK : k ≤ 2) {s : State}
    (hs : Lookahead2 s) : Lookahead2 (peekToken k s).2 := by
  obtain ⟨m, hb, -, hend⟩ := peekTokenLoop_buffer (peekIndex s.bufferIndex k)
    (peekIndex s.bufferIndex k + 1 - s.tokenBuffer.length) s (le_refl _)
  obtain ⟨f1, -, -, f4⟩ := peekTokenLoop_frame (peekIndex s.bufferIndex k)
    (peekIndex s.bufferIndex k + 1 - s.tokenBuffer.length) s
  have hpk : peekToken k s = peekTokenLoop (peekIndex s.bufferIndex k)
    (peekIndex s.bufferIndex k + 1 - s.tokenBuffer.length) s := rfl
  rw [← hpk] at hend f1 f4 hb
  have hidx : peekIndex s.bufferIndex k ≤ s.bufferIndex + k - 1 := peekIndex_le hk
  obtain ⟨h1, h2⟩ := hs
  have hle := f4.length_le
  have hlen : (peekToken k s).2.tokenBuffer.length = s.tokenBuffer.length + m := by
    have := congrArg List.length hb
    simpa only [List.length_append, List.length_map, List.length_range] using this
  refine ⟨by rw [f1]; omega, ?_⟩
  rw [f1]
  rcases hend with ⟨-, -, -, h3⟩ | ⟨h3, -, -, -⟩
  · omega
  · omega

theorem getToken_lookahead2 {s : State} (hs : Lookahead2 s) :
    (getToken s).2.bufferIndex ≤ (getToken s).2.tokenBuffer.length ∧
      (getToken s).2.tokenBuffer.length ≤ (getToken s).2.bufferIndex + 2 := by
  obtain ⟨h1, h2⟩ := hs
  unfold getToken
  by_cases h : s.bufferIndex < s.tokenBuffer.length
  · rw [if_pos h]
    exact ⟨h, by show s.tokenBuffer.length ≤ s.bufferIndex + 1 + 2; omega⟩
  · rw [if_neg h]
    exact ⟨h1, h2⟩

theorem getToken_monotone (s : State) :
    s.bufferIndex ≤ (getToken s).2.bufferIndex ∧
      s.tokenBuffer <+: (getToken s).2.tokenBuffer ∧ (getToken s).2.inFile <:+ s.inFile := by
  unfold getToken
  by_cases h : s.bufferIndex < s.tokenBuffer.length
  · rw [if_pos h]
    exact ⟨Nat.le_succ _, List.prefix_refl _, List.suffix_refl _⟩
  · rw [if_neg h]
    exact ⟨Nat.le_refl _, List.prefix_refl _, getNextTokenFromFile_suffix _⟩

theorem peekToken_monotone (k : Nat) (s : State) :
    s.bufferIndex ≤ (peekToken k s).2.bufferIndex ∧
      s.tokenBuffer <+: (peekToken k s).2.tokenBuffer ∧
      (peekToken k s).2.inFile <:+ s.inFile := by
  obtain ⟨f1, -, -, f4⟩ := peekTokenLoop_frame (peekIndex s.bufferIndex k)
    (peekIndex s.bufferIndex k + 1 - s.tokenBuffer.length) s
  exact ⟨Nat.le_of_eq f1.symm, f4, peekTokenLoop_suffix _ _ s⟩

theorem parserStep_lookahead2 {s t : State} (h : ParserStep s t) (hs : Lookahead2 s) :
    Lookahead2 t := by
  rcases h with h | ⟨e, h⟩ | h | h | ⟨tag, h⟩
  · rw [h]
    exact getToken_lookahead2 hs
  · rw [h]
    exact @getToken_lookahead2
      { s with outFile := s.outFile ++ [terminalLine s.currentToken] } hs
  · rw [h]
    exact peekToken_lookahead2 (by decide) (by decide) hs
  · rw [h]
    exact peekToken_lookahead2 (by decide) (by decide) hs
  · rw [h]
    exact hs

theorem parserStep_monotone {s t : State} (h : ParserStep s t) :
    s.bufferIndex ≤ t.bufferIndex ∧ s.tokenBuffer <+: t.tokenBuffer ∧
      t.inFile <:+ s.inFile := by
  rcases h with h | ⟨e, h⟩ | h | h | ⟨tag, h⟩
  · rw [h]
    exact getToken_monotone s
  · rw [h]
    exact getToken_monotone { s with outFile := s.outFile ++ [terminalLine s.currentToken] }
  · rw [h]
    exact peekToken_monotone 1 s
  · rw [h]
    exact peekToken_monotone 2 s
  · rw [h]
    exact ⟨Nat.le_refl _, List.prefix_refl _, List.suffix_refl _⟩

theorem steps_closed : ClosedUpTo 2 (Relation.ReflTransGen ParserStep) (fun _ => True) where
  refl := fun _ => Relation.ReflTransGen.refl
  trans := fun _ _ _ h1 h2 => h1.trans h2
  onMatch := fun e _ => Relation.ReflTransGen.single (Or.inr (Or.inl ⟨e, rfl⟩))
  onPeek := by
    intro k s h1 h2
    have hk : k = 1 ∨ k = 2 := by omega
    rcases hk with hk | hk
    · rw [hk]
      exact Relation.ReflTransGen.single (Or.inr (Or.inr (Or.inl rfl)))
    · rw [hk]
      exact Relation.ReflTransGen.single (Or.inr (Or.inr (Or.inr (Or.inl rfl))))
  onEmit := fun t _ _ =>
    Relation.ReflTransGen.single (Or.inr (Or.inr (Or.inr (Or.inr ⟨t, rfl⟩))))

theorem parse_steps {n : Nat} {p : Proc} {s s1 : State} (h : parse n p s = some s1) :
    Relation.ReflTransGen ParserStep s s1 :=
  parse_closedK steps_closed n p (fun _ _ => trivial) s s1 h

theorem steps_lookahead2 {s t : State} (h : Relation.ReflTransGen ParserStep s t)
    (hs : Lookahead2 s) : Lookahead2 t := by
  induction h with
  | refl => exact hs
  | tail _ hstep ih => exact parserStep_lookahead2 hstep ih

/-! ## The procedures as statements -/

theorem Sim_mt (n : Nat) : Sim n mt Code.mt := rfl

theorem Sim_emit (n : Nat) (t : String) : Sim n (act (emit t)) (Code.emit t) := rfl

theorem Sim_skip (n : Nat) : Sim n skip Code.skip := rfl

theorem Sim_call (n : Nat) (p : Proc) : Sim n (parse n p) (Code.call p) := rfl

theorem Sim_seqs_nil (n : Nat) : Sim n (seq []) (Code.seqs []) := rfl

theorem Sim_seqs_cons {n : Nat} {a : Action} {as : List Action} {c : Code} {cs : List Code}
    (h1 : Sim n a c) (h2 : Sim n (seq as) (Code.seqs cs)) :
    Sim n (seq (a :: as)) (Code.seqs (c :: cs)) := by
  unfold Sim at h1 h2 ⊢
  funext s
  show (exec n c s).bind (fun r => if r.2 then exec n (Code.seqs cs) r.1 else some r) = _
  rw [h1, h2]
  simp only [go, seq]
  cases a s with
  | none => rfl
  | some s2 => rfl

theorem Sim_ifCur {n : Nat} {kinds : List String} {a b : Action} {ca cb : Code}
    (h1 : Sim n a ca) (h2 : Sim n b cb) :
    Sim n (ifCur kinds a b) (Code.ifCur kinds ca cb) := by
  unfold Sim at h1 h2 ⊢
  funext s
  show ifCur kinds (exec n ca) (exec n cb) s = _
  rw [h1, h2]
  unfold ifCur go
  by_cases hc : s.currentToken.type ∈ kinds
  · simp only [if_pos hc]
  · simp only [if_neg hc]

theorem SimB_ifCur {n : Nat} {kinds : List String} {a b : Body} {ca cb : Code}
    (h1 : SimB n a ca) (h2 : SimB n b cb) :
    SimB n (ifCur kinds a b) (Code.ifCur kinds ca cb) := by
  unfold SimB at h1 h2 ⊢
  show ifCur kinds (exec n ca) (exec n cb) = _
  rw [h1, h2]

theorem Sim_ite {n : Nat} {c : Prop} [Decidable c] {a b : Action} {ca cb : Code}
    (h1 : Sim n a ca) (h2 : Sim n b cb) :
    Sim n (if c then a else b) (if c then ca else cb) := by
  by_cases hc : c
  · rw [if_pos hc, if_pos hc]; exact h1
  · rw [if_neg hc, if_neg hc]; exact h2

theorem SimB_ite {n : Nat} {c : Prop} [Decidable c] {a b : Body} {ca cb : Code}
    (h1 : SimB n a ca) (h2 : SimB n b cb) :
    SimB n (if c then a else b) (if c then ca else cb) := by
  by_cases hc : c
  · rw [if_pos hc, if_pos hc]; exact h1
  · rw [if_neg hc, if_neg hc]; exact h2

theorem Sim_peek {n k : Nat} {f : Token → Action} {cf : Token → Code}
    (h : ∀ t, Sim n (f t) (cf t)) : Sim n (withPeek k f) (Code.peek k cf) := by
  unfold Sim at h ⊢
  funext s
  show exec n (cf (peekToken k s).1) (peekToken k s).2 = _
  rw [h]
  rfl

theorem SimB_peek {n k : Nat} {f : Token → Body} {cf : Token → Code}
    (h : ∀ t, SimB n (f t) (cf t)) : SimB n (withPeek k f) (Code.peek k cf) := by
  unfold SimB at h ⊢
  funext s
  show exec n (cf (peekToken k s).1) (peekToken k s).2 = _
  rw [h]
  rfl

theorem Sim_loop {n : Nat} {kinds : List String} {b : Body} {cb : Code}
    (h : SimB n b cb) : Sim n (whileDo (curIn kinds) b n) (Code.loop kinds cb) := by
  unfold SimB at h
  unfold Sim
  show go (whileDo (curIn kinds) (exec n cb) n) = _
  rw [h]

theorem SimB_go {n : Nat} {a : Action} {c : Code} (h : Sim n a c) : SimB n (go a) c := h

theorem SimB_brk (n : Nat) : SimB n brk Code.brk := rfl

/-- The body of every procedure, executed statement by statement, is the
procedure. -/
theorem code_sim (n : Nat) (p : Proc) : Sim n (parse (n + 1) p) (code p) := by
  cases p <;> simp only [parse, code] <;>
  repeat' with_reducible first
    | exact Sim_mt _
    | exact Sim_skip _
    | exact Sim_emit _ _
    | exact Sim_call _ _
    | exact Sim_seqs_nil _
    | exact SimB_brk _
    | apply Sim_seqs_cons
    | apply Sim_ifCur
    | apply Sim_ite
    | apply Sim_peek
    | apply Sim_loop
    | apply SimB_go
    | apply SimB_ifCur
    | apply SimB_ite
    | apply SimB_peek
    | intro _

theorem parse_eq_exec (n : Nat) (p : Proc) (s : State) :
    parse (n + 1) p s = (exec n (code p) s).map Prod.fst := by
  have h : exec n (code p) = go (parse (n + 1) p) := code_sim n p
  rw [h]
  unfold go
  cases parse (n + 1) p s with
  | none => rfl
  | some s1 => rfl

/-! ## Progress of loops and of calls -/

theorem hasPeek_ite {c : Prop} [Decidable c] (a b : Code) (j : Nat) :
    (if c then a else b).hasPeek j ↔ (c ∧ a.hasPeek j) ∨ (¬ c ∧ b.hasPeek j) := by
  by_cases hc : c
  · rw [if_pos hc]; simp [hc]
  · rw [if_neg hc]; simp [hc]

theorem hasLoop_ite {c : Prop} [Decidable c] (a b : Code) (k : List String) (x : Code) :
    (if c then a else b).hasLoop k x ↔ (c ∧ a.hasLoop k x) ∨ (¬ c ∧ b.hasLoop k x) := by
  by_cases hc : c
  · rw [if_pos hc]; simp [hc]
  · rw [if_neg hc]; simp [hc]

theorem mayPass_ite {c : Prop} [Decidable c] (a b : Code) :
    (if c then a else b).mayPass ↔ (c ∧ a.mayPass) ∨ (¬ c ∧ b.mayPass) := by
  by_cases hc : c
  · rw [if_pos hc]; simp [hc]
  · rw [if_neg hc]; simp [hc]

theorem callsFirst_ite {c : Prop} [Decidable c] (a b : Code) (q : Proc) :
    (if c then a else b).callsFirst q ↔ (c ∧ a.callsFirst q) ∨ (¬ c ∧ b.callsFirst q) := by
  by_cases hc : c
  · rw [if_pos hc]; simp [hc]
  · rw [if_neg hc]; simp [hc]

/-- The only lookahead distances in the procedures are 1 and 2. -/
theorem code_hasPeek (p : Proc) (j : Nat) (h : (code p).hasPeek j) : j = 1 ∨ j = 2 := by
  cases p <;>
    simp only [code, Code.seqs, Code.hasPeek, hasPeek_ite, or_false, false_or, and_false,
      exists_const, false_and] at h <;>
    first
      | exact absurd h id
      | omega
      | tauto

/-- A call made before any `match()` goes to a procedure of smaller `rankCall`. -/
theorem callsFirst_rank (p q : Proc) (h : (code p).callsFirst q) :
    rankCall q < rankCall p := by
  cases p <;>
    simp only [code, Code.seqs, Code.callsFirst, Code.mayPass, callsFirst_ite, mayPass_ite,
      or_false, false_or, and_false, false_and, and_true, true_and, exists_const,
      or_true, true_or, exists_false] at h <;>
    first
      | exact absurd h id
      | ((try casesm* _ ∨ _, _ ∧ _, ∃ _, _) <;> subst_vars <;> decide)

/-- A call made with the current token at end-of-input goes to a procedure of
smaller `rankEnd`. -/
theorem callsAtEnd_rank (p q : Proc) (h : (code p).callsAtEnd q) :
    rankEnd q < rankEnd p := by
  cases p <;>
    simp +decide only [code, Code.seqs, Code.callsAtEnd, or_false, false_or, and_false,
      false_and, and_true, true_and, stmtFirst, eofToken, if_true, if_false,
      List.mem_cons, List.mem_singleton, List.not_mem_nil, not_false_eq_true,
      not_true_eq_false] at h <;>
    first
      | exact absurd h id
      | ((try casesm* _ ∨ _, _ ∧ _, ∃ _, _) <;> subst_vars <;> decide)

theorem grows_closed : Closed Grows (fun _ => True) where
  refl := fun _ => List.prefix_refl _
  trans := fun _ _ _ h1 h2 => List.IsPrefix.trans h1 h2
  onMatch := fun e s => ⟨[terminalLine s.currentToken], (matchToken_outFile e s).symm⟩
  onPeek := fun k s _ => by
    show s.outFile <+: (peekToken k s).2.outFile
    rw [peekToken_outFile]
  onEmit := fun t s _ => ⟨[t], rfl⟩

theorem exec_grows (n : Nat) :
    ∀ (c : Code) (s r : State) (f : Bool), exec n c s = some (r, f) → s.outFile <+: r.outFile
  | Code.mt, s, r, f, h => by
    have e : (matchToken "" s, true) = (r, f) := Option.some.inj h
    rw [← (Prod.mk.inj e).1]
    exact grows_closed.onMatch _ _
  | Code.emit t, s, r, f, h => by
    have e : (emit t s, true) = (r, f) := Option.some.inj h
    rw [← (Prod.mk.inj e).1]
    exact ⟨[t], rfl⟩
  | Code.call p, s, r, f, h => by
    obtain ⟨s2, h2, e⟩ := go_some h
    rw [(Prod.mk.inj e).1]
    exact Out_grows (parse_out h2)
  | Code.skip, s, r, f, h => by
    have e : (s, true) = (r, f) := Option.some.inj h
    rw [← (Prod.mk.inj e).1]
  | Code.seq a b, s, r, f, h => by
    have h0 : (exec n a s).bind (fun r1 => if r1.2 then exec n b r1.1 else some r1) =
        some (r, f) := h
    cases h1 : exec n a s with
    | none => rw [h1] at h0; simp at h0
    | some r1 =>
      rw [h1] at h0
      simp only [Option.some_bind] at h0
      have g1 := exec_grows n a s r1.1 r1.2 h1
      by_cases hf : r1.2 = true
      · rw [if_pos hf] at h0
        exact g1.trans (exec_grows n b r1.1 r f h0)
      · rw [if_neg hf] at h0
        have e : r1 = (r, f) := Option.some.inj h0
        rw [e] at g1
        exact g1
  | Code.ifCur kinds a b, s, r, f, h => by
    have h0 : ifCur kinds (exec n a) (exec n b) s = some (r, f) := h
    by_cases hc : s.currentToken.type ∈ kinds
    · rw [ifCur_pos hc] at h0
      exact exec_grows n a s r f h0
    · rw [ifCur_neg hc] at h0
      exact exec_grows n b s r f h0
  | Code.peek k g, s, r, f, h => by
    have h0 : exec n (g (peekToken k s).1) (peekToken k s).2 = some (r, f) := h
    have g1 := exec_grows n (g (peekToken k s).1) _ r f h0
    rw [peekToken_outFile] at g1
    exact g1
  | Code.loop kinds b, s, r, f, h => by
    obtain ⟨s2, h2, e⟩ := go_some h
    rw [(Prod.mk.inj e).1]
    have hb : PresB Grows (exec n b) := fun x y g hx => exec_grows n b x y g hx
    exact Pres_whileDo grows_closed hb n s s2 h2
  | Code.brk, s, r, f, h => by
    have e : (s, false) = (r, f) := Option.some.inj h
    rw [← (Prod.mk.inj e).1]

theorem Consumes_grows {s s1 s2 : State} (h1 : Consumes s s1) (h2 : s1.outFile <+: s2.outFile) :
    Consumes s s2 := by
  obtain ⟨recs, hr⟩ := h1
  obtain ⟨more, hm⟩ := h2
  exact ⟨recs ++ more, by rw [← hm, hr]; simp⟩

theorem EatsC_mt (P : String → Prop) (n : Nat) : EatsC P n Code.mt := by
  intro s r _ h
  have e : (matchToken "" s, true) = (r, true) := Option.some.inj h
  rw [← (Prod.mk.inj e).1]
  exact ⟨[], matchToken_outFile _ _⟩

theorem EatsC_brk (P : String → Prop) (n : Nat) : EatsC P n Code.brk := by
  intro s r _ h
  have e : (s, false) = (r, true) := Option.some.inj h
  exact absurd (Prod.mk.inj e).2 (by decide)

theorem EatsC_seq {P : String → Prop} {n : Nat} {a : Code} (b : Code) (ha : EatsC P n a) :
    EatsC P n (Code.seq a b) := by
  intro s r hp h
  have h0 : (exec n a s).bind (fun r1 => if r1.2 then exec n b r1.1 else some r1) =
      some (r, true) := h
  cases h1 : exec n a s with
  | none => rw [h1] at h0; simp at h0
  | some r1 =>
    rw [h1] at h0
    simp only [Option.some_bind] at h0
    obtain ⟨x, f⟩ := r1
    cases f with
    | true =>
      simp only [if_true] at h0
      exact Consumes_grows (ha s x hp h1) (exec_grows n b x r true h0)
    | false =>
      simp only [Bool.false_eq_true, if_false, Option.some.injEq, Prod.mk.injEq] at h0
      exact absurd h0.2 (by decide)

theorem EatsC_seqs_cons {P : String → Prop} {n : Nat} {a : Code} (cs : List Code)
    (ha : EatsC P n a) : EatsC P n (Code.seqs (a :: cs)) :=
  EatsC_seq (Code.seqs cs) ha

theorem EatsC_ifCur {P : String → Prop} {n : Nat} {kinds : List String} {a b : Code}
    (ha : EatsC (fun t => P t ∧ t ∈ kinds) n a)
    (hb : EatsC (fun t => P t ∧ t ∉ kinds) n b) : EatsC P n (Code.ifCur kinds a b) := by
  intro s r hp h
  have h0 : ifCur kinds (exec n a) (exec n b) s = some (r, true) := h
  by_cases hc : s.currentToken.type ∈ kinds
  · rw [ifCur_pos hc] at h0
    exact ha s r ⟨hp, hc⟩ h0
  · rw [ifCur_neg hc] at h0
    exact hb s r ⟨hp, hc⟩ h0

theorem EatsC_ite {P : String → Prop} {n : Nat} {c : Prop} [Decidable c] {a b : Code}
    (ha : EatsC P n a) (hb : EatsC P n b) : EatsC P n (if c then a else b) := by
  by_cases hc : c
  · rw [if_pos hc]; exact ha
  · rw [if_neg hc]; exact hb

theorem EatsC_peek {P : String → Prop} {n k : Nat} {g : Token → Code}
    (hg : ∀ t, EatsC P n (g t)) : EatsC P n (Code.peek k g) := by
  intro s r hp h
  have h0 : exec n (g (peekToken k s).1) (peekToken k s).2 = some (r, true) := h
  obtain ⟨recs, hr⟩ := hg _ _ r (by rw [peekToken_cur]; exact hp) h0
  rw [peekToken_cur, peekToken_outFile] at hr
  exact ⟨recs, hr⟩

theorem EatsC_call {P : String → Prop} {n : Nat} {q : Proc}
    (h : PresIf P Consumes (parse n q)) : EatsC P n (Code.call q) := by
  intro s r hp hx
  obtain ⟨s2, h2, e⟩ := go_some hx
  rw [(Prod.mk.inj e).1]
  exact h s s2 hp h2

theorem EatsC_absurd {P : String → Prop} {n : Nat} {c : Code} (h : ∀ t, ¬ P t) :
    EatsC P n c :=
  fun _ _ hp _ => absurd hp (h _)

theorem EatsC_weaken {P Q : String → Prop} {n : Nat} {c : Code} (hPQ : ∀ t, P t → Q t)
    (h : EatsC Q n c) : EatsC P n c :=
  fun s r hp hx => h s r (hPQ _ hp) hx

/-- From a fact about the body to the procedure. -/
theorem parse_of_code {P : String → Prop} {n : Nat} {p : Proc} (h : EatsC P n (code p)) :
    PresIf P Consumes (parse (n + 1) p) := by
  intro s s1 hp hs
  have e : exec n (code p) = go (parse (n + 1) p) := code_sim n p
  apply h s s1 hp
  rw [e]
  unfold go
  rw [hs]
  rfl

/-- A procedure whose body starts with `match()` matches the current token. -/
theorem parse_consumes_first (n : Nat) (p : Proc) (hp : startsWithMatch p = true) :
    PresIf (fun _ => True) Consumes (parse n p) := by
  cases n with
  | zero => intro s s1 _ hs; simp [parse] at hs
  | succ n =>
    apply parse_of_code
    cases p <;> first | exact absurd hp (by decide) | skip
    all_goals
      simp only [code]
      exact EatsC_seqs_cons _ (EatsC_mt _ _)

/-! ## Every loop iteration matches a token -/

theorem parse_consumes_funcDefWithRet (n : Nat) :
    PresIf (fun _ => True) Consumes (parse n Proc.parseFuncDefWithRet) := by
  cases n with
  | zero => intro s s1 _ hs; simp [parse] at hs
  | succ n =>
    apply parse_of_code
    simp only [code]
    exact EatsC_seqs_cons _ (EatsC_call (parse_consumes_first n Proc.parseDeclHead rfl))

/-- Started at `while`, `do` or `for`, `parseLoopStmt` matches the current token. -/
theorem parse_consumes_loopStmt (n : Nat) :
    PresIf (fun t => t ∈ ["WHILETK", "DOTK", "FORTK"]) Consumes
      (parse n Proc.parseLoopStmt) := by
  cases n with
  | zero => intro s s1 _ hs; simp [parse] at hs
  | succ n =>
    apply parse_of_code
    simp only [code]
    apply EatsC_seqs_cons
    apply EatsC_ifCur (EatsC_seqs_cons _ (EatsC_mt _ _))
    apply EatsC_ifCur (EatsC_seqs_cons _ (EatsC_mt _ _))
    apply EatsC_ifCur (EatsC_seqs_cons _ (EatsC_mt _ _))
    apply EatsC_absurd
    intro t h
    simp only [List.mem_cons, List.mem_singleton, List.not_mem_nil, or_false] at h
    tauto

/-- Started at a token that starts a statement, `parseStatement` matches the
current token. -/
theorem parse_consumes_statement (n : Nat) :
    PresIf (fun t => t ∈ stmtFirst) Consumes (parse n Proc.parseStatement) := by
  cases n with
  | zero => intro s s1 _ hs; simp [parse] at hs
  | succ n =>
    have hcall : ∀ (P : String → Prop) (p : Proc), startsWithMatch p = true →
        EatsC P n (Code.call p) :=
      fun P p hp => EatsC_call (PresIf_weaken (fun _ _ => trivial) (parse_consumes_first n p hp))
    apply parse_of_code
    simp only [code]
    apply EatsC_seqs_cons
    apply EatsC_ifCur (hcall _ Proc.parseCondStmt rfl)
    apply EatsC_ifCur
      (EatsC_call (PresIf_weaken (fun t h => h.2) (parse_consumes_loopStmt n)))
    apply EatsC_ifCur (EatsC_seqs_cons _ (EatsC_mt _ _))
    apply EatsC_ifCur (EatsC_seqs_cons _ (hcall _ Proc.parseScanf rfl))
    apply EatsC_ifCur (EatsC_seqs_cons _ (hcall _ Proc.parsePrintf rfl))
    apply EatsC_ifCur (EatsC_seqs_cons _ (hcall _ Proc.parseReturnStmt rfl))
    apply EatsC_ifCur (EatsC_mt _ _)
    apply EatsC_ifCur
    · apply EatsC_peek
      intro t
      exact EatsC_ite (EatsC_seqs_cons _ (hcall _ Proc.parseFuncCallVoid rfl))
        (EatsC_seqs_cons _ (hcall _ Proc.parseAssignStmt rfl))
    · apply EatsC_absurd
      intro t h
      simp only [stmtFirst, List.mem_cons, List.mem_singleton, List.not_mem_nil,
        or_false] at h
      tauto

/-- The body of the first loop of `parseProgram`: when it does not break it has
run `parseVarDecl` with no `(` two tokens ahead, and `parseVarDef` has matched
the current token. -/
theorem programVarLoop_consumes (n : Nat) :
    EatsC (fun t => t ∈ ["INTTK", "CHARTK"]) n
      (Code.peek 1 (fun _ => Code.peek 2 (fun next2 =>
        if next2.type ≠ "LPARENT" then Code.call Proc.parseVarDecl else Code.brk))) := by
  intro s r hp h
  have h0 : exec n (if (peekToken 2 (peekToken 1 s).2).1.type ≠ "LPARENT"
      then Code.call Proc.parseVarDecl else Code.brk) (peekToken 2 (peekToken 1 s).2).2 =
      some (r, true) := h
  by_cases hl : (peekToken 2 (peekToken 1 s).2).1.type = "LPARENT"
  · rw [if_neg (by simpa using hl)] at h0
    exact absurd (Prod.mk.inj (Option.some.inj h0)).2 (by decide)
  · rw [if_pos (by simpa using hl)] at h0
    obtain ⟨sV, hV, e⟩ := go_some h0
    have er : r = sV := (Prod.mk.inj e).1
    have hcur : (peekToken 2 (peekToken 1 s).2).2.currentToken = s.currentToken := by
      rw [peekToken_cur, peekToken_cur]
    have hout : (peekToken 2 (peekToken 1 s).2).2.outFile = s.outFile := by
      rw [peekToken_outFile, peekToken_outFile]
    have hl2 : (peekToken 2 (peekToken 2 (peekToken 1 s).2).2).1.type ≠ "LPARENT" := by
      rw [peekToken_idem (by decide)]; exact hl
    obtain ⟨k, sD, -, hD, hpD⟩ := varDecl_run (by rw [hcur]; exact hp) hl2
      (peekToken_idem_state (by decide) _) hV
    obtain ⟨recs, hr⟩ := parse_consumes_first k Proc.parseVarDef rfl _ _ trivial hD
    rw [hcur, hout] at hr
    rw [er]
    exact Consumes_grows ⟨recs, hr⟩ hpD

/-- Every loop of every procedure: its condition fails on the end-of-input
token, and an iteration that does not break matches the current token. -/
theorem code_loops (p : Proc) (k : List String) (x : Code) (h : (code p).hasLoop k x) :
    "EOF" ∉ k ∧ ∀ n, EatsC (fun t => t ∈ k) n x := by
  have hcall : ∀ (n : Nat) (P : String → Prop) (q : Proc), startsWithMatch q = true →
      EatsC P n (Code.call q) :=
    fun n P q hq => EatsC_call (PresIf_weaken (fun _ _ => trivial) (parse_consumes_first n q hq))
  cases p <;>
    simp only [code, Code.seqs, Code.hasLoop, hasLoop_ite, or_false, false_or, and_false,
      false_and, exists_const, exists_false] at h <;>
    first
      | exact absurd h id
      | ((try casesm* _ ∨ _, _ ∧ _) <;> subst_vars <;>
          refine ⟨by decide, fun n => ?_⟩ <;>
          first
            | exact programVarLoop_consumes n
            | exact EatsC_seq _ (EatsC_mt _ _)
            | exact EatsC_call (parse_consumes_statement n)
            | exact EatsC_peek (fun _ => EatsC_ite (EatsC_brk _ _)
                (EatsC_seq _ (hcall n _ Proc.parseVarDef rfl)))
            | exact EatsC_ifCur
                (EatsC_call (PresIf_weaken (fun _ _ => trivial)
                  (parse_consumes_funcDefWithRet n)))
                (EatsC_peek (fun _ => EatsC_ite (EatsC_brk _ _)
                  (hcall n _ Proc.parseFuncDefVoid rfl))))

theorem rank_of_transGen {r : Proc → Nat} {R : Proc → Proc → Prop}
    (hR : ∀ p q, R p q → r q < r p) {p q : Proc} (h : Relation.TransGen R p q) :
    r q < r p := by
  induction h with
  | single h1 => exact hR _ _ h1
  | tail _ h2 ih => exact Nat.lt_trans (hR _ _ h2) ih

/-- C23: the parser terminates on every input.  `parseProgram` completes on
every text, the empty one included, and every procedure completes from every
state within the bound `fuelBound`.  Every procedure is its body `code p`
executed statement by statement.  In these bodies, the condition of every loop
fails on the end-of-input token, and every iteration that does not break
matches the token current at its start, which is not end-of-input.  No
procedure reaches itself through calls made before a `match()`, and none
reaches itself through calls made with the current token at end-of-input: every
cycle of calls passes the match of a token that is not end-of-input. -/
theorem parser_terminates :
    (∀ inp : List Char, ∃ n s1, runParser n inp = some s1) ∧
    (∀ (p : Proc) (s : State), ∃ s1, parse (fuelBound (work s) p + 1) p s = some s1) ∧
    (∀ (n : Nat) (p : Proc) (s : State),
      parse (n + 1) p s = (exec n (code p) s).map Prod.fst) ∧
    (∀ (p : Proc) (kinds : List String) (body : Code), (code p).hasLoop kinds body →
      "EOF" ∉ kinds ∧
      ∀ (n : Nat) (s r : State), s.currentToken.type ∈ kinds →
        exec n body s = some (r, true) →
        s.currentToken.type ≠ "EOF" ∧ Consumes s r) ∧
    (∀ p : Proc, ¬ Relation.TransGen (fun a b => (code a).callsFirst b) p p) ∧
    (∀ p : Proc, ¬ Relation.TransGen (fun a b => (code a).callsAtEnd b) p p) := by
  refine ⟨fun inp => parse_exists _ _, parse_terminates, parse_eq_exec, ?_, ?_, ?_⟩
  · intro p kinds body h
    obtain ⟨h1, h2⟩ := code_loops p kinds body h
    refine ⟨h1, ?_⟩
    intro n s r hc hx
    exact ⟨fun he => h1 (he ▸ hc), h2 n s r hc hx⟩
  · intro p h
    exact Nat.lt_irrefl _ (rank_of_transGen callsFirst_rank h)
  · intro p h
    exact Nat.lt_irrefl _ (rank_of_transGen callsAtEnd_rank h)

/-- C24: bounded lookahead.  At program start nothing is buffered; each
operation of the parser (`initParser`, `match`, `peekToken(1)`, `peekToken(2)`,
writing a record) keeps `bufferIndex ≤ tokenBuffer.size()` and at most two
tokens buffered ahead of the cursor, so this holds in every state reached from
the start by such operations.  Every run of a procedure, and so of
`parseProgram` on every text, is a sequence of these operations, and the only
calls `peekToken(k)` in the bodies of the procedures have `k = 1` or `k = 2`.
No operation moves the cursor back, changes a buffered token or returns to
characters already read. -/
theorem lookahead_bounded :
    (∀ inp : List Char, Lookahead2 (initState inp)) ∧
    (∀ s t : State, ParserStep s t → Lookahead2 s → Lookahead2 t) ∧
    (∀ (inp : List Char) (t : State),
      Relation.ReflTransGen ParserStep (initState inp) t → Lookahead2 t) ∧
    (∀ (p : Proc) (n : Nat) (s s1 : State), parse n p s = some s1 →
      Relation.ReflTransGen ParserStep s s1) ∧
    (∀ inp : List Char, ∃ n s1, runParser n inp = some s1) ∧
    (∀ (inp : List Char) (n : Nat) (s1 : State), runParser n inp = some s1 →
      Relation.ReflTransGen ParserStep (initState inp) s1 ∧
        s1.tokenBuffer.length - s1.bufferIndex ≤ 2) ∧
    (∀ (n : Nat) (p : Proc) (s : State),
      parse (n + 1) p s = (exec n (code p) s).map Prod.fst) ∧
    (∀ (p : Proc) (k : Nat), (code p).hasPeek k → k = 1 ∨ k = 2) ∧
    (∀ s t : State, ParserStep s t →
      s.bufferIndex ≤ t.bufferIndex ∧ s.tokenBuffer <+: t.tokenBuffer ∧
        t.inFile <:+ s.inFile) := by
  have h0 : ∀ inp : List Char, Lookahead2 (initState inp) :=
    fun inp => ⟨Nat.le_refl 0, Nat.zero_le _⟩
  refine ⟨h0, fun s t h hs => parserStep_lookahead2 h hs,
    fun inp t h => steps_lookahead2 h (h0 inp),
    fun p n s s1 h => parse_steps h, fun inp => parse_exists _ _, ?_, parse_eq_exec,
    code_hasPeek, fun s t h => parserStep_monotone h⟩
  intro inp n s1 h
  have hr : Relation.ReflTransGen ParserStep (initState inp) s1 :=
    Relation.ReflTransGen.head (Or.inl rfl) (parse_steps h)
  have hl := steps_lookahead2 hr (h0 inp)
  exact ⟨hr, by have := hl.2; omega⟩

/-! ## The standalone lexer -/

theorem ascii_ne_eofChar {c : Char} (h : c.toNat < 128) : c ≠ eofChar := by
  intro e
  rw [e] at h
  revert h
  decide

theorem tokenize_unfold (inp : List Char) :
    tokenize inp =
      if (getNextTokenFromFile inp).1.type = "EOF" then []
      else (getNextTokenFromFile inp).1 :: tokenize (getNextTokenFromFile inp).2 := by
  cases inp with
  | nil => simp [tokenize, tokenizeLoop, getNextTokenFromFile, eofToken]
  | cons c r =>
    have hle := (getNextTokenFromFile_suffix_cons r c).length_le
    show tokenizeLoop (r.length + 1) (c :: r) = _
    rw [tokenizeLoop, tokenizeLoop_fuel r.length _ hle]
    rfl

theorem tokenize_skip {c : Char} {r : List Char}
    (h : getNextTokenFromFile (c :: r) = getNextTokenFromFile r) :
    tokenize (c :: r) = tokenize r := by
  rw [tokenize_unfold (c :: r), tokenize_unfold r, h]

theorem tokenize_token {inp : List Char} {t : Token} {rest : List Char}
    (h : getNextTokenFromFile inp = (t, rest)) (ht : t.type ≠ "EOF") :
    tokenize inp = t :: tokenize rest := by
  rw [tokenize_unfold inp, h]
  exact if_neg ht

theorem getNextChar_nil {f : CharSource} (h : f.rest = []) :
    (getNextChar f).1 = eofChar := by
  unfold getNextChar
  by_cases hf : f.failed = true
  · rw [if_pos hf]
  · rw [if_neg hf, h]

theorem getNextChar_cons (c : Char) (r : List Char) :
    getNextChar ⟨c :: r, false⟩ = (c, ⟨r, false⟩) := rfl

theorem scanWhile_spec (p : Char → Bool) :
    ∀ (r : List Char) (fuel : Nat), r.length < fuel → Ascii r →
      (scanWhile p fuel ⟨r, false⟩).1 = r.takeWhile p ∧
      ((r.dropWhile p = [] ∧ (scanWhile p fuel ⟨r, false⟩).2 = (eofChar, ⟨[], true⟩)) ∨
        ∃ c r1, r.dropWhile p = c :: r1 ∧ c ≠ eofChar ∧
          (scanWhile p fuel ⟨r, false⟩).2 = (c, ⟨r1, false⟩))
  | [], fuel, hf, _ => by
    obtain ⟨k, rfl⟩ : ∃ k, fuel = k + 1 := ⟨fuel - 1, by omega⟩
    refine ⟨rfl, Or.inl ⟨rfl, rfl⟩⟩
  | c :: r, fuel, hf, ha => by
    obtain ⟨k, rfl⟩ : ∃ k, fuel = k + 1 := ⟨fuel - 1, by omega⟩
    have hc : c ≠ eofChar := ascii_ne_eofChar (ha c (List.mem_cons_self _ _))
    have hne : (c != eofChar) = true := by simpa using hc
    obtain ⟨ih1, ih2⟩ := scanWhile_spec p r k (by simp at hf; omega)
      (fun x hx => ha x (List.mem_cons_of_mem _ hx))
    rw [scanWhile, getNextChar_cons]
    by_cases hp : p c = true
    · simp only [hne, hp, Bool.and_self, if_true, List.takeWhile_cons_of_pos hp,
        List.dropWhile_cons_of_pos hp]
      exact ⟨by rw [ih1], ih2⟩
    · have hp2 : p c = false := by simpa using hp
      simp only [hne, hp2, Bool.and_false, Bool.false_eq_true, if_false]
      rw [List.takeWhile_cons_of_neg hp, List.dropWhile_cons_of_neg hp]
      exact ⟨rfl, Or.inr ⟨c, r, rfl, hc, rfl⟩⟩

/-- After an identifier or a number the stream stands at the first character
that does not belong to it. -/
theorem scanWhile_unget (p : Char → Bool) (r : List Char) (ha : Ascii r) :
    (scanWhile p (r.length + 1) ⟨r, false⟩).1 = r.takeWhile p ∧
    (if (scanWhile p (r.length + 1) ⟨r, false⟩).2.1 != eofChar then
        ungetChar (scanWhile p (r.length + 1) ⟨r, false⟩).2.1
          (scanWhile p (r.length + 1) ⟨r, false⟩).2.2
      else (scanWhile p (r.length + 1) ⟨r, false⟩).2.2).rest = r.dropWhile p ∧
    GoodSource (if (scanWhile p (r.length + 1) ⟨r, false⟩).2.1 != eofChar then
        ungetChar (scanWhile p (r.length + 1) ⟨r, false⟩).2.1
          (scanWhile p (r.length + 1) ⟨r, false⟩).2.2
      else (scanWhile p (r.length + 1) ⟨r, false⟩).2.2) := by
  obtain ⟨h1, h2⟩ := scanWhile_spec p r (r.length + 1) (Nat.lt_succ_self _) ha
  refine ⟨h1, ?_⟩
  rcases h2 with ⟨hd, he⟩ | ⟨c, r1, hd, hc, he⟩
  · rw [he, hd]
    simp [GoodSource]
  · rw [he, hd]
    have hne : (c != eofChar) = true := by simpa using hc
    simp only [hne, if_true]
    exact ⟨rfl, fun h => absurd h (by simp [ungetChar])⟩

/-- After a literal the stream stands behind the closing quote, or at the end. -/
theorem scanWhile_until (q : Char) (r : List Char) (ha : Ascii r) :
    (scanWhile (fun c => c != q) (r.length + 1) ⟨r, false⟩).1 =
      r.takeWhile (fun c => c != q) ∧
    (scanWhile (fun c => c != q) (r.length + 1) ⟨r, false⟩).2.2.rest =
      (r.dropWhile (fun c => c != q)).tail ∧
    GoodSource (scanWhile (fun c => c != q) (r.length + 1) ⟨r, false⟩).2.2 := by
  obtain ⟨h1, h2⟩ := scanWhile_spec (fun c => c != q) r (r.length + 1)
    (Nat.lt_succ_self _) ha
  refine ⟨h1, ?_⟩
  rcases h2 with ⟨hd, he⟩ | ⟨c, r1, hd, -, he⟩
  · rw [he, hd]
    simp [GoodSource]
  · rw [he, hd]
    exact ⟨rfl, fun h => absurd h (by simp)⟩

theorem analyzeOperator_spec (two one : String) (r : List Char) :
    (analyzeOperator two one ⟨r, false⟩).1 = (if r.head? = some '=' then two else one) ∧
    (analyzeOperator two one ⟨r, false⟩).2.rest = (if r.head? = some '=' then r.tail else r) ∧
    GoodSource (analyzeOperator two one ⟨r, false⟩).2 := by
  cases r with
  | nil =>
    refine ⟨?_, ?_, ?_⟩ <;> simp +decide [analyzeOperator, getNextChar, ungetChar, eofChar, GoodSource]
  | cons d r0 =>
    unfold analyzeOperator
    rw [getNextChar_cons]
    by_cases hd : d = '='
    · subst hd
      simp [GoodSource]
    · have h1 : (d == '=') = false := by simpa using hd
      simp [h1, hd, ungetChar, GoodSource]

theorem ascii_of_suffix {a b : List Char} (h : a <:+ b) (hb : Ascii b) : Ascii a :=
  fun c hc => hb c (h.subset hc)

/-- One iteration of `analyze` that writes the line of the token `t` and leaves
the stream at `rest`. -/
theorem analyze_emit {n : Nat} {c : Char} {r rest : List Char} {t : Token} {g : CharSource}
    (ih : ∀ f : CharSource, f.rest.length < n → GoodSource f → Ascii f.rest →
      analyzeLoop n f = (tokenize f.rest).map terminalLine)
    (hn : r.length < n) (ha : Ascii r)
    (hg : getNextTokenFromFile (c :: r) = (t, rest)) (ht : t.type ≠ "EOF")
    (hsuf : rest <:+ r) (hrest : g.rest = rest) (hgood : GoodSource g) :
    terminalLine t :: analyzeLoop n g = (tokenize (c :: r)).map terminalLine := by
  rw [tokenize_token hg ht, List.map_cons, ih g (by rw [hrest]; exact Nat.lt_of_le_of_lt hsuf.length_le hn)
    hgood (by rw [hrest]; exact ascii_of_suffix hsuf ha), hrest]

theorem analyzeLoop_spec :
    ∀ (n : Nat) (f : CharSource), f.rest.length < n → GoodSource f → Ascii f.rest →
      analyzeLoop n f = (tokenize f.rest).map terminalLine := by
  intro n
  induction n with
  | zero => intro f h; exact absurd h (Nat.not_lt_zero _)
  | succ n ih =>
    intro f hlen hgood ha
    obtain ⟨rest0, failed0⟩ := f
    cases rest0 with
    | nil =>
      have e : (getNextChar ⟨[], failed0⟩).1 = eofChar := getNextChar_nil rfl
      rw [analyzeLoop]
      dsimp only
      rw [e]
      simp [tokenize, tokenizeLoop]
    | cons c r =>
      have hf : failed0 = false := by
        cases failed0 with
        | false => rfl
        | true => exact absurd (hgood rfl) (by simp)
      subst hf
      have hr : Ascii r := fun x hx => ha x (List.mem_cons_of_mem _ hx)
      have hn : r.length < n := by simp at hlen; omega
      have hc : (c == eofChar) = false := by
        simpa using ascii_ne_eofChar (ha c (List.mem_cons_self _ _))
      have htail : ∀ l : List Char, l.tail <:+ l := fun l => List.tail_suffix l
      show analyzeLoop (n + 1) ⟨c :: r, false⟩ = (tokenize (c :: r)).map terminalLine
      rw [analyzeLoop]
      dsimp only
      rw [getNextChar_cons]
      dsimp only
      rw [if_neg (by simp [hc])]
      by_cases h1 : isspace c = true
      · rw [if_pos h1, ih ⟨r, false⟩ hn (fun h => absurd h (by simp)) hr]
        rw [tokenize_skip]
        rw [getNextTokenFromFile, if_pos h1]
      rw [if_neg h1]
      by_cases h2 : (isalpha c || c == '_') = true
      · rw [if_pos h2]
        obtain ⟨e1, e2, e3⟩ := scanWhile_unget identChar r hr
        rw [e1]
        exact analyze_emit ih hn hr (getNextTokenFromFile_ident h2 r) (identType_ne_eof _)
          (List.dropWhile_suffix _) e2 e3
      rw [if_neg h2]
      by_cases h3 : isdigit c = true
      · rw [if_pos h3]
        obtain ⟨e1, e2, e3⟩ := scanWhile_unget isdigit r hr
        rw [e1]
        refine analyze_emit ih hn hr (t := ⟨"INTCON", String.mk (c :: r.takeWhile isdigit)⟩) ?_
          (show "INTCON" ≠ "EOF" by decide) (List.dropWhile_suffix _) e2 e3
        rw [getNextTokenFromFile, if_neg h1, if_neg h2, if_pos h3]
      rw [if_neg h3]
      by_cases h4 : (c == dquote) = true
      · rw [if_pos h4]
        obtain ⟨e1, e2, e3⟩ := scanWhile_until dquote r hr
        rw [e1]
        refine analyze_emit ih hn hr
          (t := ⟨"STRCON", String.mk (r.takeWhile (fun x => x != dquote))⟩) ?_
          (show "STRCON" ≠ "EOF" by decide)
          ((htail _).trans (List.dropWhile_suffix _)) e2 e3
        rw [getNextTokenFromFile, if_neg h1, if_neg h2, if_neg h3, if_pos h4]
      rw [if_neg h4]
      by_cases h5 : (c == squote) = true
      · rw [if_pos h5]
        obtain ⟨e1, e2, e3⟩ := scanWhile_until squote r hr
        rw [e1]
        refine analyze_emit ih hn hr
          (t := ⟨"CHARCON", String.mk (r.takeWhile (fun x => x != squote))⟩) ?_
          (show "CHARCON" ≠ "EOF" by decide)
          ((htail _).trans (List.dropWhile_suffix _)) e2 e3
        rw [getNextTokenFromFile, if_neg h1, if_neg h2, if_neg h3, if_neg h4, if_pos h5]
      rw [if_neg h5]
      by_cases h6 : (c == '<') = true
      · rw [if_pos h6]
        obtain ⟨e1, e2, e3⟩ := analyzeOperator_spec "LEQ <=" "LSS <" r
        have hg : getNextTokenFromFile (c :: r) =
            if r.head? = some '=' then (⟨"LEQ", "<="⟩, r.tail) else (⟨"LSS", "<"⟩, r) := by
          rw [getNextTokenFromFile, if_neg h1, if_neg h2, if_neg h3, if_neg h4, if_neg h5,
            if_pos h6]
        rw [e1]
        by_cases hh : r.head? = some '='
        · rw [if_pos hh] at hg e2 ⊢
          exact analyze_emit ih hn hr hg (show "LEQ" ≠ "EOF" by decide) (htail _) e2 e3
        · rw [if_neg hh] at hg e2 ⊢
          exact analyze_emit ih hn hr hg (show "LSS" ≠ "EOF" by decide)
            (List.suffix_refl _) e2 e3
      rw [if_neg h6]
      by_cases h7 : (c == '>') = true
      · rw [if_pos h7]
        obtain ⟨e1, e2, e3⟩ := analyzeOperator_spec "GEQ >=" "GRE >" r
        have hg : getNextTokenFromFile (c :: r) =
            if r.head? = some '=' then (⟨"GEQ", ">="⟩, r.tail) else (⟨"GRE", ">"⟩, r) := by
          rw [getNextTokenFromFile, if_neg h1, if_neg h2, if_neg h3, if_neg h4, if_neg h5,
            if_neg h6, if_pos h7]
        rw [e1]
        by_cases hh : r.head? = some '='
        · rw [if_pos hh] at hg e2 ⊢
          exact analyze_emit ih hn hr hg (show "GEQ" ≠ "EOF" by decide) (htail _) e2 e3
        · rw [if_neg hh] at hg e2 ⊢
          exact analyze_emit ih hn hr hg (show "GRE" ≠ "EOF" by decide)
            (List.suffix_refl _) e2 e3
      rw [if_neg h7]
      by_cases h8 : (c == '=') = true
      · rw [if_pos h8]
        obtain ⟨e1, e2, e3⟩ := analyzeOperator_spec "EQL ==" "ASSIGN =" r
        have hg : getNextTokenFromFile (c :: r) =
            if r.head? = some '=' then (⟨"EQL", "=="⟩, r.tail) else (⟨"ASSIGN", "="⟩, r) := by
          rw [getNextTokenFromFile, if_neg h1, if_neg h2, if_neg h3, if_neg h4, if_neg h5,
            if_neg h6, if_neg h7, if_pos h8]
        rw [e1]
        by_cases hh : r.head? = some '='
        · rw [if_pos hh] at hg e2 ⊢
          exact analyze_emit ih hn hr hg (show "EQL" ≠ "EOF" by decide) (htail _) e2 e3
        · rw [if_neg hh] at hg e2 ⊢
          exact analyze_emit ih hn hr hg (show "ASSIGN" ≠ "EOF" by decide)
            (List.suffix_refl _) e2 e3
      rw [if_neg h8]
      by_cases h9 : (c == '!') = true
      · rw [if_pos h9]
        obtain ⟨e1, e2, e3⟩ := analyzeOperator_spec "NEQ !=" "" r
        have hg : getNextTokenFromFile (c :: r) =
            if r.head? = some '=' then (⟨"NEQ", "!="⟩, r.tail)
            else getNextTokenFromFile r := by
          rw [getNextTokenFromFile, if_neg h1, if_neg h2, if_neg h3, if_neg h4, if_neg h5,
            if_neg h6, if_neg h7, if_neg h8, if_pos h9]
        by_cases hh : r.head? = some '='
        · rw [if_pos hh] at hg e2
          have hq : ((getNextChar ⟨r, false⟩).1 == '=') = true := by
            cases r with
            | nil => simp at hh
            | cons d r0 =>
              simp only [List.head?_cons, Option.some.injEq] at hh
              rw [getNextChar_cons, hh]
              exact beq_self_eq_true _
          have e4 : (analyzeOperator "NEQ !=" "" ⟨r, false⟩).2 = (getNextChar ⟨r, false⟩).2 := by
            unfold analyzeOperator
            rw [if_pos hq]
          rw [if_pos hq]
          rw [e4] at e2 e3
          exact analyze_emit ih hn hr hg (show "NEQ" ≠ "EOF" by decide) (htail _) e2 e3
        · rw [if_neg hh] at hg e2
          have hq : ¬ ((getNextChar ⟨r, false⟩).1 == '=') = true := by
            cases r with
            | nil => simp +decide [getNextChar, eofChar]
            | cons d r0 =>
              simp only [List.head?_cons, Option.some.injEq] at hh
              rw [getNextChar_cons]
              simpa using hh
          have e4 : (analyzeOperator "NEQ !=" "" ⟨r, false⟩).2 =
              ungetChar (getNextChar ⟨r, false⟩).1 (getNextChar ⟨r, false⟩).2 := by
            unfold analyzeOperator
            rw [if_neg hq]
          rw [if_neg hq]
          rw [e4] at e2 e3
          rw [ih _ (by rw [e2]; exact hn) e3 (by rw [e2]; exact hr), e2, tokenize_skip hg]
      rw [if_neg h9]
      by_cases h10 : (getSingleCharToken c != "") = true
      · rw [if_pos h10]
        refine analyze_emit ih hn hr (t := ⟨getSingleCharToken c, String.mk [c]⟩)
          (g := ⟨r, false⟩) ?_ (getSingleCharToken_ne_eof c) (List.suffix_refl _) rfl
          (fun h => absurd h (by simp))
        rw [getNextTokenFromFile, if_neg h1, if_neg h2, if_neg h3, if_neg h4, if_neg h5,
          if_neg h6, if_neg h7, if_neg h8, if_neg h9, if_pos h10]
      · rw [if_neg h10, ih ⟨r, false⟩ hn (fun h => absurd h (by simp)) hr]
        rw [tokenize_skip]
        rw [getNextTokenFromFile, if_neg h1, if_neg h2, if_neg h3, if_neg h4, if_neg h5,
          if_neg h6, if_neg h7, if_neg h8, if_neg h9, if_neg h10]

/-- C26: the two tokenizers agree.  On every ASCII text the lines written by
`analyze` of the standalone lexer are, in order, the lines `type value` of the
tokens that repeated calls of `getNextTokenFromFile` return before the
first end-of-input token. -/
theorem lexers_agree (inp : List Char) (h : ∀ c ∈ inp, c.toNat < 128) :
    analyze inp = (tokenize inp).map terminalLine :=
  analyzeLoop_spec (inp.length + 1) ⟨inp, false⟩ (Nat.lt_succ_self _)
    (fun hf => absurd hf (by simp)) h

/-- Witness of C26: the text `int a<=b; x != 1 ! y`. -/
theorem lexers_agree_witness :
    (∀ c ∈ "int a<=b; x != 1 ! y".toList, c.toNat < 128) ∧
    analyze "int a<=b; x != 1 ! y".toList =
      (tokenize "int a<=b; x != 1 ! y".toList).map terminalLine ∧
    analyze "int a<=b; x != 1 ! y".toList =
      ["INTTK int", "IDENFR a", "LEQ <=", "IDENFR b", "SEMICN ;", "IDENFR x", "NEQ !=",
        "INTCON 1", "IDENFR y"] :=
  ⟨by decide, lexers_agree "int a<=b; x != 1 ! y".toList (by decide), by decide⟩

/-- Outside ASCII the two can differ: `analyze` takes the byte 255 for the end of
the input, the tokenizer of the parser skips it. -/
theorem lexers_differ_on_byte_255 :
    analyze ("a ".toList ++ eofChar :: "b".toList) = ["IDENFR a"] ∧
    (tokenize ("a ".toList ++ eofChar :: "b".toList)).map terminalLine =
      ["IDENFR a", "IDENFR b"] := by
  decide

/-! ## The closure under the empty word -/

theorem strcmpChars_eq_zero : ∀ a b : List Char, strcmpChars a b = 0 ↔ a = b
  | [], [] => by simp [strcmpChars]
  | [], _ :: _ => by simp [strcmpChars]
  | _ :: _, [] => by simp [strcmpChars]
  | a :: as, b :: bs => by
    rw [strcmpChars]
    by_cases h : a = b
    · rw [if_pos h, strcmpChars_eq_zero as bs]
      simp [h]
    · rw [if_neg h]
      by_cases h2 : a.toNat < b.toNat
      · rw [if_pos h2]; simp [h]
      · rw [if_neg h2]; simp [h]

theorem strcmp_eq_zero (a b : String) : strcmp a b = 0 ↔ a = b := by
  unfold strcmp
  rw [strcmpChars_eq_zero]
  exact ⟨fun h => String.ext h, fun h => by rw [h]⟩

theorem char_toNat_ne {a b : Char} (h : a ≠ b) : a.toNat ≠ b.toNat := by
  intro e
  apply h
  have := congrArg Char.ofNat e
  simpa using this

theorem strcmpChars_total : ∀ a b : List Char, strcmpChars a b ≤ 0 ∨ strcmpChars b a ≤ 0
  | [], [] => by simp [strcmpChars]
  | [], _ :: _ => by simp [strcmpChars]
  | _ :: _, [] => by simp [strcmpChars]
  | a :: as, b :: bs => by
    rw [strcmpChars, strcmpChars]
    by_cases h : a = b
    · rw [if_pos h, if_pos h.symm]
      exact strcmpChars_total as bs
    · rw [if_neg h, if_neg (fun e : b = a => h e.symm)]
      have hne := char_toNat_ne h
      by_cases h2 : a.toNat < b.toNat
      · rw [if_pos h2]; left; decide
      · rw [if_neg h2, if_pos (by omega)]; right; decide

theorem strcmpChars_trans : ∀ a b c : List Char,
    strcmpChars a b ≤ 0 → strcmpChars b c ≤ 0 → strcmpChars a c ≤ 0
  | [], _, [], _, _ => by simp [strcmpChars]
  | [], _, _ :: _, _, _ => by simp [strcmpChars]
  | _ :: _, [], _, h, _ => by simp [strcmpChars] at h
  | _ :: _, _ :: _, [], _, h => by simp [strcmpChars] at h
  | a :: as, b :: bs, c :: cs, h1, h2 => by
    rw [strcmpChars] at h1 h2 ⊢
    by_cases hab : a = b
    · rw [if_pos hab] at h1
      by_cases hbc : b = c
      · rw [if_pos hbc] at h2
        rw [if_pos (hab.trans hbc)]
        exact strcmpChars_trans as bs cs h1 h2
      · rw [if_neg hbc] at h2
        rw [if_neg (by rw [hab]; exact hbc)]
        rw [hab]
        exact h2
    · rw [if_neg hab] at h1
      have hlt : a.toNat < b.toNat := by
        by_contra hn
        rw [if_neg hn] at h1
        exact absurd h1 (by decide)
      by_cases hbc : b = c
      · rw [← hbc, if_neg hab, if_pos hlt]
        decide
      · rw [if_neg hbc] at h2
        have hlt2 : b.toNat < c.toNat := by
          by_contra hn
          rw [if_neg hn] at h2
          exact absurd h2 (by decide)
        have hac : a ≠ c := by
          intro e
          rw [e] at hlt
          omega
        rw [if_neg hac, if_pos (by omega)]
        decide

theorem sort_set_sorted (set : StateSet) :
    (sort_set set).Sorted (fun a b => strcmp a b ≤ 0) :=
  @List.sorted_insertionSort _ (fun a b => strcmp a b ≤ 0) _
    ⟨fun a b => strcmpChars_total a.data b.data⟩
    ⟨fun a b c => strcmpChars_trans a.data b.data c.data⟩ set

theorem sort_set_perm (set : StateSet) : (sort_set set).Perm set :=
  List.perm_insertionSort _ set

theorem sort_set_of_sorted {set : StateSet} (h : set.Sorted (fun a b => strcmp a b ≤ 0)) :
    sort_set set = set :=
  List.Sorted.insertionSort_eq h

theorem is_in_set_iff (set : StateSet) (x : String) : is_in_set set x = true ↔ x ∈ set := by
  unfold is_in_set
  rw [List.any_eq_true]
  constructor
  · rintro ⟨y, hy, h⟩
    have : strcmp y x = 0 := by simpa using h
    rw [← (strcmp_eq_zero y x).1 this]
    exact hy
  · intro h
    exact ⟨x, h, by simpa using (strcmp_eq_zero x x).2 rfl⟩

theorem add_to_set_new {set : StateSet} {x : String} (h : x ∉ set)
    (hl : set.length < MAX_STATES) : add_to_set set x = some (set ++ [x]) := by
  have hin : ¬ (set.any (fun item => strcmp item x == 0)) = true :=
    fun e => h ((is_in_set_iff set x).1 e)
  unfold add_to_set
  rw [if_neg hin, if_pos hl]

theorem add_to_set_full {set : StateSet} {x : String} (h : x ∉ set)
    (hl : ¬ set.length < MAX_STATES) : add_to_set set x = none := by
  have hin : ¬ (set.any (fun item => strcmp item x == 0)) = true :=
    fun e => h ((is_in_set_iff set x).1 e)
  unfold add_to_set
  rw [if_neg hin, if_neg hl]

theorem strcmpChars_antisymm : ∀ a b : List Char,
    strcmpChars a b ≤ 0 → strcmpChars b a ≤ 0 → a = b
  | [], [], _, _ => rfl
  | [], _ :: _, _, h => by simp [strcmpChars] at h
  | _ :: _, [], h, _ => by simp [strcmpChars] at h
  | a :: as, b :: bs, h1, h2 => by
    rw [strcmpChars] at h1 h2
    by_cases hab : a = b
    · rw [if_pos hab] at h1
      rw [if_pos hab.symm] at h2
      rw [hab, strcmpChars_antisymm as bs h1 h2]
    · rw [if_neg hab] at h1
      rw [if_neg (fun e : b = a => hab e.symm)] at h2
      exfalso
      by_cases h3 : a.toNat < b.toNat
      · rw [if_neg (by omega)] at h2
        exact absurd h2 (by decide)
      · rw [if_neg h3] at h1
        exact absurd h1 (by decide)

theorem sort_set_unique {set l : StateSet} (hp : l.Perm set)
    (hl : l.Sorted (fun a b => strcmp a b ≤ 0)) : l = sort_set set :=
  @List.eq_of_perm_of_sorted _ (fun a b => strcmp a b ≤ 0)
    ⟨fun a b h1 h2 => String.ext (strcmpChars_antisymm a.data b.data h1 h2)⟩ _ _
    (hp.trans (sort_set_perm set).symm) hl (sort_set_sorted set)

theorem epsReach_step {nfa : List Transition} {S : StateSet} {a : String} {t : Transition}
    (ha : EpsReach nfa S a) (ht : t ∈ nfa) (hs : t.src = a) (hc : t.input_char = '~') :
    EpsReach nfa S t.dst := by
  obtain ⟨s, hsS, hr⟩ := ha
  exact ⟨s, hsS, hr.tail ⟨t, ht, hs, hc, rfl⟩⟩

theorem closureInv_add {nfa : List Transition} {S res : StateSet} {x : String}
    (h : ClosureInv nfa S res) (hx : x ∉ res) (hr : EpsReach nfa S x) :
    ClosureInv nfa S (res ++ [x]) := by
  obtain ⟨h1, h2, h3⟩ := h
  refine ⟨?_, ?_, ?_⟩
  · rw [List.nodup_append]
    refine ⟨h1, List.nodup_singleton x, ?_⟩
    intro a ha hb
    rw [List.mem_singleton] at hb
    rw [hb] at ha
    exact hx ha
  · intro y hy
    exact List.mem_append_left _ (h2 y hy)
  · intro y hy
    rcases List.mem_append.1 hy with hy | hy
    · exact h3 y hy
    · rw [List.mem_singleton] at hy
      rw [hy]
      exact hr

theorem closureInner_spec (nfa : List Transition) (S : StateSet) (hcap : FitsCapacity nfa S)
    (curr : String) (hcurr : EpsReach nfa S curr) :
    ∀ ts : List Transition, (∀ t ∈ ts, t ∈ nfa) → ∀ (res : StateSet) (ch : Bool),
      ClosureInv nfa S res →
      ∃ res1 ch1, closureInner curr ts (res, ch) = some (res1, ch1) ∧
        ClosureInv nfa S res1 ∧ (∀ x ∈ res, x ∈ res1) ∧
        (∀ t ∈ ts, t.src = curr → t.input_char = '~' → t.dst ∈ res1) ∧
        (ch1 = false → res1 = res ∧ ch = false) ∧
        (ch1 = true → ch = true ∨ res.length < res1.length) ∧
        res.length ≤ res1.length := by
  intro ts
  induction ts with
  | nil =>
    intro _ res ch hinv
    refine ⟨res, ch, rfl, hinv, fun _ h => h, ?_, fun h => ⟨rfl, h⟩, fun h => Or.inl h,
      le_refl _⟩
    intro t ht
    cases ht
  | cons t ts ih =>
    intro hts res ch hinv
    have hts1 : ∀ u ∈ ts, u ∈ nfa := fun u hu => hts u (List.mem_cons_of_mem _ hu)
    rw [closureInner]
    by_cases hc : strcmp t.src curr = 0 ∧ t.input_char = '~'
    · rw [if_pos hc]
      have hsrc : t.src = curr := (strcmp_eq_zero _ _).1 hc.1
      by_cases hin : t.dst ∈ res
      · rw [if_pos ((is_in_set_iff res t.dst).2 hin)]
        obtain ⟨res1, ch1, e, g1, g2, g3, g4, g5, g6⟩ := ih hts1 res ch hinv
        refine ⟨res1, ch1, e, g1, g2, ?_, g4, g5, g6⟩
        intro u hu hus huc
        rcases List.mem_cons.1 hu with hu | hu
        · rw [hu]
          exact g2 _ hin
        · exact g3 u hu hus huc
      · rw [if_neg (fun e => hin ((is_in_set_iff res t.dst).1 e))]
        have hreach : EpsReach nfa S t.dst :=
          epsReach_step hcurr (hts t (List.mem_cons_self _ _)) hsrc hc.2
        have hinv1 : ClosureInv nfa S (res ++ [t.dst]) := closureInv_add hinv hin hreach
        have hlen : (res ++ [t.dst]).length ≤ MAX_STATES := hcap _ hinv1.1 hinv1.2.2
        have hlt : res.length < MAX_STATES := by
          rw [List.length_append] at hlen
          simp only [List.length_singleton] at hlen
          omega
        rw [add_to_set_new hin hlt]
        obtain ⟨res1, ch1, e, g1, g2, g3, g4, g5, g6⟩ := ih hts1 (res ++ [t.dst]) true hinv1
        have hl1 : res.length < res1.length := by
          rw [List.length_append] at g6
          simp only [List.length_singleton] at g6
          omega
        refine ⟨res1, ch1, e, g1, fun x hx => g2 x (List.mem_append_left _ hx), ?_, ?_,
          fun _ => Or.inr hl1, le_of_lt hl1⟩
        · intro u hu hus huc
          rcases List.mem_cons.1 hu with hu | hu
          · rw [hu]
            exact g2 _ (List.mem_append_right _ (List.mem_singleton_self _))
          · exact g3 u hu hus huc
        · intro h
          exact absurd (g4 h).2 (by decide)
    · rw [if_neg hc]
      obtain ⟨res1, ch1, e, g1, g2, g3, g4, g5, g6⟩ := ih hts1 res ch hinv
      refine ⟨res1, ch1, e, g1, g2, ?_, g4, g5, g6⟩
      intro u hu hus huc
      rcases List.mem_cons.1 hu with hu | hu
      · rw [hu] at hus huc
        exact absurd ⟨(strcmp_eq_zero _ _).2 hus, huc⟩ hc
      · exact g3 u hu hus huc

theorem closurePass_spec (nfa : List Transition) (S : StateSet) (hcap : FitsCapacity nfa S) :
    ∀ items : List String, (∀ x ∈ items, EpsReach nfa S x) → ∀ (res : StateSet) (ch : Bool),
      ClosureInv nfa S res →
      ∃ res1 ch1, closurePass nfa items (res, ch) = some (res1, ch1) ∧
        ClosureInv nfa S res1 ∧ (∀ x ∈ res, x ∈ res1) ∧
        (∀ c ∈ items, ∀ t ∈ nfa, t.src = c → t.input_char = '~' → t.dst ∈ res1) ∧
        (ch1 = false → res1 = res ∧ ch = false) ∧
        (ch1 = true → ch = true ∨ res.length < res1.length) ∧
        res.length ≤ res1.length := by
  intro items
  induction items with
  | nil =>
    intro _ res ch hinv
    refine ⟨res, ch, rfl, hinv, fun _ h => h, ?_, fun h => ⟨rfl, h⟩, fun h => Or.inl h,
      le_refl _⟩
    intro c hc
    cases hc
  | cons curr items ih =>
    intro hit res ch hinv
    obtain ⟨ra, ca, ea, a1, a2, a3, a4, a5, a6⟩ :=
      closureInner_spec nfa S hcap curr (hit curr (List.mem_cons_self _ _)) nfa
        (fun _ h => h) res ch hinv
    obtain ⟨rb, cb, eb, b1, b2, b3, b4, b5, b6⟩ :=
      ih (fun x hx => hit x (List.mem_cons_of_mem _ hx)) ra ca a1
    refine ⟨rb, cb, ?_, b1, fun x hx => b2 x (a2 x hx), ?_, ?_, ?_, le_trans a6 b6⟩
    · rw [closurePass, ea]
      exact eb
    · intro c hc t ht hs hch
      rcases List.mem_cons.1 hc with hc | hc
      · rw [hc] at hs
        exact b2 _ (a3 t ht hs hch)
      · exact b3 c hc t ht hs hch
    · intro h
      obtain ⟨e1, e2⟩ := b4 h
      obtain ⟨e3, e4⟩ := a4 e2
      exact ⟨e1.trans e3, e4⟩
    · intro h
      rcases b5 h with h1 | h1
      · rcases a5 h1 with h2 | h2
        · exact Or.inl h2
        · exact Or.inr (lt_of_lt_of_le h2 b6)
      · exact Or.inr (lt_of_le_of_lt a6 h1)

theorem closureLoop_spec (nfa : List Transition) (S : StateSet) (hcap : FitsCapacity nfa S) :
    ∀ (n : Nat) (res : StateSet), ClosureInv nfa S res → MAX_STATES < n + res.length →
      ∃ R, closureLoop nfa n res = some R ∧ ClosureInv nfa S R ∧
        ∀ x ∈ R, ∀ t ∈ nfa, t.src = x → t.input_char = '~' → t.dst ∈ R := by
  intro n
  induction n with
  | zero =>
    intro res hinv hn
    have := hcap res hinv.1 hinv.2.2
    omega
  | succ n ih =>
    intro res hinv hn
    obtain ⟨r1, c1, e, g1, _, g3, g4, g5, _⟩ :=
      closurePass_spec nfa S hcap res hinv.2.2 res false hinv
    rw [closureLoop, e]
    cases c1 with
    | false =>
      obtain ⟨e1, _⟩ := g4 rfl
      rw [e1] at g3
      exact ⟨r1, rfl, g1, by rw [e1]; exact g3⟩
    | true =>
      have hlt : res.length < r1.length := by
        rcases g5 rfl with h | h
        · exact absurd h (by decide)
        · exact h
      exact ih r1 g1 (by omega)

theorem closureInner_closed (curr : String) (res : StateSet) (ch : Bool) :
    ∀ ts : List Transition, (∀ t ∈ ts, t.src = curr → t.input_char = '~' → t.dst ∈ res) →
      closureInner curr ts (res, ch) = some (res, ch) := by
  intro ts
  induction ts with
  | nil => intro _; rfl
  | cons t ts ih =>
    intro h
    have h1 := ih (fun u hu => h u (List.mem_cons_of_mem _ hu))
    rw [closureInner]
    by_cases hc : strcmp t.src curr = 0 ∧ t.input_char = '~'
    · rw [if_pos hc]
      have hin : t.dst ∈ res :=
        h t (List.mem_cons_self _ _) ((strcmp_eq_zero _ _).1 hc.1) hc.2
      rw [if_pos ((is_in_set_iff res t.dst).2 hin)]
      exact h1
    · rw [if_neg hc]
      exact h1

theorem closurePass_closed (nfa : List Transition) (res : StateSet) (ch : Bool) :
    ∀ items : List String,
      (∀ c ∈ items, ∀ t ∈ nfa, t.src = c → t.input_char = '~' → t.dst ∈ res) →
      closurePass nfa items (res, ch) = some (res, ch) := by
  intro items
  induction items with
  | nil => intro _; rfl
  | cons c items ih =>
    intro h
    rw [closurePass, closureInner_closed c res ch nfa (h c (List.mem_cons_self _ _))]
    exact ih (fun d hd => h d (List.mem_cons_of_mem _ hd))

theorem closureLoop_closed (nfa : List Transition) (res : StateSet) (n : Nat)
    (h : ∀ c ∈ res, ∀ t ∈ nfa, t.src = c → t.input_char = '~' → t.dst ∈ res) :
    closureLoop nfa (n + 1) res = some res := by
  rw [closureLoop, closurePass_closed nfa res false res h]
  rfl

theorem get_closure_closed (nfa : List Transition) (res : StateSet)
    (h : ∀ c ∈ res, ∀ t ∈ nfa, t.src = c → t.input_char = '~' → t.dst ∈ res)
    (hs : res.Sorted (fun a b => strcmp a b ≤ 0)) : get_closure nfa res = some res := by
  unfold get_closure copy_set
  rw [closureLoop_closed nfa res MAX_STATES h]
  show some (sort_set res) = some res
  rw [sort_set_of_sorted hs]

theorem closed_of_reach {nfa : List Transition} {S R : StateSet} (hS : ∀ x ∈ S, x ∈ R)
    (hR : ∀ x ∈ R, ∀ t ∈ nfa, t.src = x → t.input_char = '~' → t.dst ∈ R)
    {x : String} (hx : EpsReach nfa S x) : x ∈ R := by
  obtain ⟨s, hs, hr⟩ := hx
  induction hr with
  | refl => exact hS s hs
  | tail _ hstep ih =>
    obtain ⟨t, ht, h1, h2, h3⟩ := hstep
    rw [← h3]
    exact hR _ ih t ht h1 h2

theorem fitsCapacity_of_small (nfa : List Transition) (S : StateSet)
    (h : (S ++ nfa.map (fun t => t.dst)).length ≤ MAX_STATES) : FitsCapacity nfa S := by
  intro l hl hr
  have hsub : l ⊆ S ++ nfa.map (fun t => t.dst) := by
    intro x hx
    obtain ⟨s, hs, hreach⟩ := hr x hx
    cases hreach with
    | refl => exact List.mem_append_left _ hs
    | tail _ hstep =>
      obtain ⟨t, ht, _, _, h3⟩ := hstep
      rw [← h3]
      exact List.mem_append_right _ (List.mem_map.2 ⟨t, ht, rfl⟩)
  exact le_trans (List.Subperm.length_le (List.Nodup.subperm hl hsub)) h

theorem get_closure_correct (nfa : List Transition) (S : StateSet) (hS : S.Nodup)
    (hcap : FitsCapacity nfa S) :
    ∃ R, get_closure nfa S = some R ∧ R.Nodup ∧ R.Sorted (fun a b => strcmp a b ≤ 0) ∧
      (∀ x, x ∈ R ↔ EpsReach nfa S x) ∧ get_closure nfa R = some R := by
  have hinv : ClosureInv nfa S S :=
    ⟨hS, fun _ h => h, fun x hx => ⟨x, hx, Relation.ReflTransGen.refl⟩⟩
  have hlen : S.length ≤ MAX_STATES := hcap S hS hinv.2.2
  obtain ⟨R, e, ⟨r1, r2, r3⟩, hclosed⟩ :=
    closureLoop_spec nfa S hcap (MAX_STATES + 1) S hinv (by omega)
  have hmem : ∀ x, x ∈ sort_set R ↔ x ∈ R := fun x => (sort_set_perm R).mem_iff
  have hiff : ∀ x, x ∈ sort_set R ↔ EpsReach nfa S x := fun x =>
    ⟨fun h => r3 x ((hmem x).1 h), fun h => (hmem x).2 (closed_of_reach r2 hclosed h)⟩
  refine ⟨sort_set R, ?_, (sort_set_perm R).nodup_iff.2 r1, sort_set_sorted R, hiff, ?_⟩
  · unfold get_closure copy_set
    rw [e]
    rfl
  · apply get_closure_closed nfa (sort_set R) _ (sort_set_sorted R)
    intro c hc t ht hs hch
    exact (hmem _).2 (hclosed c ((hmem c).1 hc) t ht hs hch)

/-- C28 (counterexample): the input set `fullSet` has `MAX_STATES` distinct
names, so it is duplicate-free and within capacity, and the table has the one
rule `aa -~-> x`.  The state `x` is reached from `aa` and is not in the set, so
the first pass calls `add_to_set` on a full set: it writes `items[100]`, outside
the array.  No number of passes gives a result. -/
theorem get_closure_overflow :
    fullSet.Nodup ∧ fullSet.length = MAX_STATES ∧ fullSet.head? = some "aa" ∧
      EpsReach overflowTable fullSet "x" ∧ is_in_set fullSet "x" = false ∧
      add_to_set fullSet "x" = none ∧
      closureInner "aa" overflowTable (fullSet, false) = none ∧
      (∀ n, closureLoop overflowTable n fullSet = none) ∧
      get_closure overflowTable fullSet = none := by
  have h1 : closureInner "aa" overflowTable (fullSet, false) = none := by
    set_option maxRecDepth 100000 in decide
  have h2 : closurePass overflowTable fullSet (fullSet, false) = none := by
    have e : fullSet = "aa" :: fullSet.tail := by
      set_option maxRecDepth 100000 in decide
    rw [e, closurePass, ← e, h1]
    rfl
  have h3 : ∀ n, closureLoop overflowTable n fullSet = none := by
    intro n
    cases n with
    | zero => rfl
    | succ n =>
      rw [closureLoop, h2]
      rfl
  refine ⟨by set_option maxRecDepth 100000 in decide, by decide,
    by set_option maxRecDepth 100000 in decide, ?_,
    by set_option maxRecDepth 100000 in decide,
    by set_option maxRecDepth 100000 in decide, h1, h3, ?_⟩
  · exact ⟨"aa", by set_option maxRecDepth 100000 in decide,
      Relation.ReflTransGen.single ⟨⟨"aa", '~', "x"⟩, List.mem_singleton_self _, rfl, rfl, rfl⟩⟩
  · unfold get_closure copy_set
    rw [h3]
    rfl

/-- C28 (amended): for every table and every duplicate-free input set `S` such
that the states reached from `S` by transitions labelled `~` fit into a set
(every duplicate-free list of them has at most `MAX_STATES` names),
`get_closure` returns a set `R`: the passes end without a write outside the
array, and every bound on their number beyond `MAX_STATES - |S|` gives the same
`R`.  `R` is duplicate-free and sorted in `strcmp` order, holds exactly the
states reached from some state of `S` by zero or more transitions labelled `~`
(so it contains `S` and is closed under these transitions), and `get_closure`
applied to `R` returns `R`. -/
theorem get_closure_spec (nfa : List Transition) (S : StateSet) (hS : S.Nodup)
    (hcap : ∀ l : List String, l.Nodup → (∀ x ∈ l, EpsReach nfa S x) →
      l.length ≤ MAX_STATES) :
    ∃ R, get_closure nfa S = some R ∧
      (∀ n, MAX_STATES < n + S.length →
        (closureLoop nfa n (copy_set S)).map sort_set = some R) ∧
      R.Nodup ∧ R.Sorted (fun a b => strcmp a b ≤ 0) ∧
      (∀ x, x ∈ R ↔ EpsReach nfa S x) ∧ (∀ x ∈ S, x ∈ R) ∧
      (∀ a b, a ∈ R → EpsStep nfa a b → b ∈ R) ∧
      get_closure nfa R = some R := by
  obtain ⟨R, e, hnd, hsorted, hiff, hidem⟩ := get_closure_correct nfa S hS hcap
  have hinv : ClosureInv nfa S S :=
    ⟨hS, fun _ h => h, fun x hx => ⟨x, hx, Relation.ReflTransGen.refl⟩⟩
  refine ⟨R, e, ?_, hnd, hsorted, hiff, ?_, ?_, hidem⟩
  · intro n hn
    obtain ⟨R1, e1, ⟨r1, r2, r3⟩, hclosed⟩ := closureLoop_spec nfa S hcap n S hinv hn
    unfold copy_set
    rw [e1]
    show some (sort_set R1) = some R
    have hperm : R.Perm R1 := by
      rw [List.perm_ext_iff_of_nodup hnd r1]
      intro x
      rw [hiff x]
      exact ⟨fun h => closed_of_reach r2 hclosed h, fun h => r3 x h⟩
    rw [sort_set_unique hperm hsorted]
  · intro x hx
    exact (hiff x).2 ⟨x, hx, Relation.ReflTransGen.refl⟩
  · intro a b ha hstep
    obtain ⟨s, hs, hr⟩ := (hiff a).1 ha
    exact (hiff b).2 ⟨s, hs, hr.tail hstep⟩

/-- C28 (witness): on the table `closureTable` the closure of `X` is
`1, 3, X, Y`. -/
theorem get_closure_spec_witness :
    get_closure closureTable ["X"] = some ["1", "3", "X", "Y"] ∧
      ∃ R, get_closure closureTable ["X"] = some R ∧
        (∀ n, MAX_STATES < n + ["X"].length →
          (closureLoop closureTable n (copy_set ["X"])).map sort_set = some R) ∧
        R.Nodup ∧ R.Sorted (fun a b => strcmp a b ≤ 0) ∧
        (∀ x, x ∈ R ↔ EpsReach closureTable ["X"] x) ∧ (∀ x ∈ ["X"], x ∈ R) ∧
        (∀ a b, a ∈ R → EpsStep closureTable a b → b ∈ R) ∧
        get_closure closureTable R = some R :=
  ⟨by decide, get_closure_spec closureTable ["X"] (by decide)
    (fitsCapacity_of_small closureTable ["X"] (by decide))⟩

/-! ## The marked trace -/

theorem whileDoT_erase {cond : State → Bool} {body : Traced → Option (Traced × Bool)}
    {b : Body} (h : ∀ x, (body x).map (fun r => (r.1.1, r.2)) = b x.1) :
    ∀ (m : Nat) (x : Traced), (whileDoT cond body m x).map Prod.fst = whileDo cond b m x.1
  | 0, _ => rfl
  | m + 1, x => by
    rw [whileDoT, whileDo]
    beta_reduce
    by_cases hc : cond x.1 = true
    · rw [if_pos hc, if_pos hc, ← h x]
      cases body x with
      | none => rfl
      | some r =>
        show (if r.2 = true then whileDoT cond body m r.1 else some r.1).map Prod.fst =
          if r.2 = true then whileDo cond b m r.1.1 else some r.1.1
        by_cases hr : r.2 = true
        · rw [if_pos hr, if_pos hr]
          exact whileDoT_erase h m r.1
        · rw [if_neg hr, if_neg hr]
          rfl
    · rw [if_neg hc, if_neg hc]
      rfl

theorem execT_erase {call : Proc → Nat → Traced → Option Traced} {n : Nat}
    (hcall : ∀ q d x, (call q d x).map Prod.fst = parse n q x.1) :
    ∀ (c : Code) (d : Nat) (x : Traced),
      (execT call n d c x).map (fun r => (r.1.1, r.2)) = exec n c x.1 := by
  intro c
  induction c with
  | mt => intro d x; rfl
  | emit t => intro d x; rfl
  | call p =>
    intro d x
    show ((call p (d + 1) x).map (fun y => (y, true))).map (fun r => (r.1.1, r.2)) =
      (parse n p x.1).map (fun s1 => (s1, true))
    rw [← hcall p (d + 1) x]
    cases call p (d + 1) x with
    | none => rfl
    | some y => rfl
  | skip => intro d x; rfl
  | seq a b iha ihb =>
    intro d x
    show ((execT call n d a x).bind
        (fun r => if r.2 then execT call n d b r.1 else some r)).map
        (fun r => (r.1.1, r.2)) =
      (exec n a x.1).bind (fun r => if r.2 then exec n b r.1 else some r)
    rw [← iha d x]
    cases execT call n d a x with
    | none => rfl
    | some r =>
      show (if r.2 = true then execT call n d b r.1 else some r).map
          (fun r => (r.1.1, r.2)) =
        if r.2 = true then exec n b r.1.1 else some (r.1.1, r.2)
      by_cases hr : r.2 = true
      · rw [if_pos hr, if_pos hr]
        exact ihb d r.1
      · rw [if_neg hr, if_neg hr]
        rfl
  | ifCur kinds a b iha ihb =>
    intro d x
    show (if x.1.currentToken.type ∈ kinds then execT call n d a x
        else execT call n d b x).map (fun r => (r.1.1, r.2)) =
      if x.1.currentToken.type ∈ kinds then exec n a x.1 else exec n b x.1
    by_cases hc : x.1.currentToken.type ∈ kinds
    · rw [if_pos hc, if_pos hc]
      exact iha d x
    · rw [if_neg hc, if_neg hc]
      exact ihb d x
  | peek k f ih =>
    intro d x
    exact ih (peekToken k x.1).1 d ((peekToken k x.1).2, x.2)
  | loop kinds b ih =>
    intro d x
    show ((whileDoT (curIn kinds) (execT call n d b) n x).map (fun y => (y, true))).map
        (fun r => (r.1.1, r.2)) =
      (whileDo (curIn kinds) (exec n b) n x.1).map (fun s1 => (s1, true))
    rw [← whileDoT_erase (fun y => ih d y) n x]
    cases whileDoT (curIn kinds) (execT call n d b) n x with
    | none => rfl
    | some y => rfl
  | brk => intro d x; rfl

/-- Leaving out the marks, the run with the marked trace is the run of
`parse`. -/
theorem parseT_erase :
    ∀ (n : Nat) (p : Proc) (d : Nat) (x : Traced),
      (parseT n p d x).map Prod.fst = parse n p x.1
  | 0, _, _, _ => rfl
  | n + 1, p, d, x => by
    rw [parse_eq_exec, ← execT_erase (fun q d x => parseT_erase n q d x) (code p) d x]
    show ((execT (parseT n) n d (code p) x).map Prod.fst).map Prod.fst = _
    cases execT (parseT n) n d (code p) x with
    | none => rfl
    | some r => rfl

theorem GoodT_refl (d : Nat) (x : Traced) : GoodT d x x :=
  ⟨[], by simp, by simp, by simp⟩

theorem GoodT_trans {d : Nat} {x y z : Traced} (h1 : GoodT d x y) (h2 : GoodT d y z) :
    GoodT d x z := by
  obtain ⟨m1, a1, b1, c1⟩ := h1
  obtain ⟨m2, a2, b2, c2⟩ := h2
  refine ⟨m1 ++ m2, by rw [a2, a1, List.append_assoc],
    by rw [b2, b1, List.map_append, List.append_assoc], ?_⟩
  intro r hr
  rcases List.mem_append.1 hr with h | h
  · exact c1 r h
  · exact c2 r h

theorem GoodT_of_call {call : Proc → Nat → Traced → Option Traced} {d : Nat}
    (hc : CallT call d) {q : Proc} {x y : Traced} (h : call q (d + 1) x = some y) :
    GoodT d x y := by
  obtain ⟨marks, a, b, c⟩ := hc q x y h
  exact ⟨marks, a, b, fun r hr => Or.inl (c r hr)⟩

theorem HeadT_mt (call : Proc → Nat → Traced → Option Traced) (n d : Nat) :
    HeadT call n d Code.mt := by
  intro x y b h
  have e : ((matchToken "" x.1, x.2 ++ [(d, terminalLine x.1.currentToken)]), true) = (y, b) :=
    Option.some.inj h
  have ey := congrArg Prod.fst e
  have eb := congrArg Prod.snd e
  simp only at ey eb
  refine ⟨eb.symm, [(d, terminalLine x.1.currentToken)], ?_, ?_, ?_⟩
  · rw [← ey]
  · rw [← ey]
    exact matchToken_outFile "" x.1
  · intro r hr
    rw [List.mem_singleton] at hr
    rw [hr]
    exact Or.inr ⟨rfl, Or.inl ⟨_, rfl⟩⟩

theorem HeadT_emit_string (call : Proc → Nat → Traced → Option Traced) (n d : Nat) :
    HeadT call n d (Code.emit "<字符串>") := by
  intro x y b h
  have e : ((emit "<字符串>" x.1, x.2 ++ [(d, "<字符串>")]), true) = (y, b) :=
    Option.some.inj h
  have ey := congrArg Prod.fst e
  have eb := congrArg Prod.snd e
  simp only at ey eb
  refine ⟨eb.symm, [(d, "<字符串>")], ?_, ?_, ?_⟩
  · rw [← ey]
  · rw [← ey]
    rfl
  · intro r hr
    rw [List.mem_singleton] at hr
    rw [hr]
    exact Or.inr ⟨rfl, Or.inr rfl⟩

theorem HeadT_skip (call : Proc → Nat → Traced → Option Traced) (n d : Nat) :
    HeadT call n d Code.skip := by
  intro x y b h
  have e : (x, true) = (y, b) := Option.some.inj h
  have ey := congrArg Prod.fst e
  have eb := congrArg Prod.snd e
  simp only at ey eb
  rw [← ey]
  exact ⟨eb.symm, GoodT_refl d x⟩

theorem HeadT_call {call : Proc → Nat → Traced → Option Traced} {d : Nat}
    (hc : CallT call d) (n : Nat) (q : Proc) : HeadT call n d (Code.call q) := by
  intro x y b h
  have h1 : (call q (d + 1) x).map (fun y => (y, true)) = some (y, b) := h
  cases hq : call q (d + 1) x with
  | none => rw [hq] at h1; exact absurd h1 (by simp)
  | some z =>
    rw [hq] at h1
    have e : (z, true) = (y, b) := Option.some.inj h1
    have ey := congrArg Prod.fst e
    have eb := congrArg Prod.snd e
    simp only at ey eb
    rw [← ey]
    exact ⟨eb.symm, GoodT_of_call hc hq⟩

theorem HeadT_seqs_nil (call : Proc → Nat → Traced → Option Traced) (n d : Nat) :
    HeadT call n d (Code.seqs []) :=
  HeadT_skip call n d

theorem execT_seq_some {call : Proc → Nat → Traced → Option Traced} {n d : Nat}
    {a b : Code} {x : Traced} {r : Traced × Bool}
    (h : execT call n d (Code.seq a b) x = some r) :
    ∃ r1, execT call n d a x = some r1 ∧
      ((r1.2 = true ∧ execT call n d b r1.1 = some r) ∨ (r1.2 = false ∧ r = r1)) := by
  have h1 : (execT call n d a x).bind
      (fun r => if r.2 then execT call n d b r.1 else some r) = some r := h
  cases ha : execT call n d a x with
  | none => rw [ha] at h1; exact absurd h1 (by simp)
  | some r1 =>
    rw [ha] at h1
    refine ⟨r1, rfl, ?_⟩
    have h2 : (if r1.2 = true then execT call n d b r1.1 else some r1) = some r := h1
    by_cases hr : r1.2 = true
    · rw [if_pos hr] at h2
      exact Or.inl ⟨hr, h2⟩
    · rw [if_neg hr] at h2
      exact Or.inr ⟨by simpa using hr, (Option.some.inj h2).symm⟩

theorem HeadT_seqs_cons {call : Proc → Nat → Traced → Option Traced} {n d : Nat}
    {c : Code} {cs : List Code} (h1 : HeadT call n d c) (h2 : HeadT call n d (Code.seqs cs)) :
    HeadT call n d (Code.seqs (c :: cs)) := by
  intro x y b h
  obtain ⟨r1, ha, hb | hb⟩ := execT_seq_some h
  · obtain ⟨-, g1⟩ := h1 x r1.1 r1.2 ha
    obtain ⟨e2, g2⟩ := h2 r1.1 y b hb.2
    exact ⟨e2, GoodT_trans g1 g2⟩
  · obtain ⟨e1, -⟩ := h1 x r1.1 r1.2 ha
    rw [e1] at hb
    exact absurd hb.1 (by decide)

theorem HeadT_ifCur {call : Proc → Nat → Traced → Option Traced} {n d : Nat}
    {kinds : List String} {a b : Code} (h1 : HeadT call n d a) (h2 : HeadT call n d b) :
    HeadT call n d (Code.ifCur kinds a b) := by
  intro x y f h
  have h0 : (if x.1.currentToken.type ∈ kinds then execT call n d a x
      else execT call n d b x) = some (y, f) := h
  by_cases hc : x.1.currentToken.type ∈ kinds
  · rw [if_pos hc] at h0
    exact h1 x y f h0
  · rw [if_neg hc] at h0
    exact h2 x y f h0

theorem HeadT_ite {call : Proc → Nat → Traced → Option Traced} {n d : Nat}
    {c : Prop} [Decidable c] {a b : Code} (h1 : HeadT call n d a) (h2 : HeadT call n d b) :
    HeadT call n d (if c then a else b) := by
  by_cases hc : c
  · rw [if_pos hc]; exact h1
  · rw [if_neg hc]; exact h2

theorem HeadT_peek {call : Proc → Nat → Traced → Option Traced} {n d k : Nat}
    {f : Token → Code} (h : ∀ t, HeadT call n d (f t)) : HeadT call n d (Code.peek k f) := by
  intro x y b hx
  have h0 : execT call n d (f (peekToken k x.1).1) ((peekToken k x.1).2, x.2) = some (y, b) :=
    hx
  obtain ⟨e, marks, a1, b1, c1⟩ := h _ _ y b h0
  refine ⟨e, marks, a1, ?_, c1⟩
  rw [b1]
  show (peekToken k x.1).2.outFile ++ _ = _
  rw [peekToken_outFile]

theorem BodyT_of_HeadT {call : Proc → Nat → Traced → Option Traced} {n d : Nat} {c : Code}
    (h : HeadT call n d c) : BodyT call n d c :=
  fun x y b hx => (h x y b hx).2

theorem BodyT_brk (call : Proc → Nat → Traced → Option Traced) (n d : Nat) :
    BodyT call n d Code.brk := by
  intro x y b h
  have e : (x, false) = (y, b) := Option.some.inj h
  have ey := congrArg Prod.fst e
  simp only at ey
  rw [← ey]
  exact GoodT_refl d x

theorem BodyT_ifCur {call : Proc → Nat → Traced → Option Traced} {n d : Nat}
    {kinds : List String} {a b : Code} (h1 : BodyT call n d a) (h2 : BodyT call n d b) :
    BodyT call n d (Code.ifCur kinds a b) := by
  intro x y f h
  have h0 : (if x.1.currentToken.type ∈ kinds then execT call n d a x
      else execT call n d b x) = some (y, f) := h
  by_cases hc : x.1.currentToken.type ∈ kinds
  · rw [if_pos hc] at h0
    exact h1 x y f h0
  · rw [if_neg hc] at h0
    exact h2 x y f h0

theorem BodyT_ite {call : Proc → Nat → Traced → Option Traced} {n d : Nat}
    {c : Prop} [Decidable c] {a b : Code} (h1 : BodyT call n d a) (h2 : BodyT call n d b) :
    BodyT call n d (if c then a else b) := by
  by_cases hc : c
  · rw [if_pos hc]; exact h1
  · rw [if_neg hc]; exact h2

theorem BodyT_peek {call : Proc → Nat → Traced → Option Traced} {n d k : Nat}
    {f : Token → Code} (h : ∀ t, BodyT call n d (f t)) : BodyT call n d (Code.peek k f) := by
  intro x y b hx
  have h0 : execT call n d (f (peekToken k x.1).1) ((peekToken k x.1).2, x.2) = some (y, b) :=
    hx
  obtain ⟨marks, a1, b1, c1⟩ := h _ _ y b h0
  refine ⟨marks, a1, ?_, c1⟩
  rw [b1]
  show (peekToken k x.1).2.outFile ++ _ = _
  rw [peekToken_outFile]

theorem whileDoT_good {d : Nat} {cond : State → Bool}
    {body : Traced → Option (Traced × Bool)}
    (h : ∀ x y b, body x = some (y, b) → GoodT d x y) :
    ∀ (m : Nat) (x y : Traced), whileDoT cond body m x = some y → GoodT d x y
  | 0, _, _, hx => by
    rw [whileDoT] at hx
    exact absurd hx (by simp)
  | m + 1, x, y, hx => by
    rw [whileDoT] at hx
    beta_reduce at hx
    by_cases hc : cond x.1 = true
    · rw [if_pos hc] at hx
      cases hb : body x with
      | none => rw [hb] at hx; exact absurd hx (by simp)
      | some r =>
        rw [hb] at hx
        have h2 : (if r.2 = true then whileDoT cond body m r.1 else some r.1) = some y := hx
        have g1 : GoodT d x r.1 := h x r.1 r.2 hb
        by_cases hr : r.2 = true
        · rw [if_pos hr] at h2
          exact GoodT_trans g1 (whileDoT_good h m r.1 y h2)
        · rw [if_neg hr] at h2
          rw [← Option.some.inj h2]
          exact g1
    · rw [if_neg hc] at hx
      rw [← Option.some.inj hx]
      exact GoodT_refl d x

theorem HeadT_loop {call : Proc → Nat → Traced → Option Traced} {n d : Nat}
    {kinds : List String} {b : Code} (h : BodyT call n d b) :
    HeadT call n d (Code.loop kinds b) := by
  intro x y f hx
  have h1 : (whileDoT (curIn kinds) (execT call n d b) n x).map (fun y => (y, true)) =
      some (y, f) := hx
  cases hw : whileDoT (curIn kinds) (execT call n d b) n x with
  | none => rw [hw] at h1; exact absurd h1 (by simp)
  | some z =>
    rw [hw] at h1
    have e : (z, true) = (y, f) := Option.some.inj h1
    have ey := congrArg Prod.fst e
    have eb := congrArg Prod.snd e
    simp only at ey eb
    rw [← ey]
    exact ⟨eb.symm, whileDoT_good h n x z hw⟩

theorem OwnT_last (call : Proc → Nat → Traced → Option Traced) (n d : Nat) (tag : String) :
    OwnT call n d tag (Code.seqs [Code.emit tag]) := by
  intro x y b h
  have e : ((emit tag x.1, x.2 ++ [(d, tag)]), true) = (y, b) := Option.some.inj h
  have ey := congrArg Prod.fst e
  simp only at ey
  exact ⟨x, GoodT_refl d x, ey.symm⟩

theorem OwnT_seqs_cons {call : Proc → Nat → Traced → Option Traced} {n d : Nat}
    {tag : String} {c : Code} {cs : List Code} (h1 : HeadT call n d c)
    (h2 : OwnT call n d tag (Code.seqs cs)) : OwnT call n d tag (Code.seqs (c :: cs)) := by
  intro x y b h
  obtain ⟨r1, ha, hb | hb⟩ := execT_seq_some h
  · obtain ⟨-, g1⟩ := h1 x r1.1 r1.2 ha
    obtain ⟨y0, g2, e⟩ := h2 r1.1 y b hb.2
    exact ⟨y0, GoodT_trans g1 g2, e⟩
  · obtain ⟨e1, -⟩ := h1 x r1.1 r1.2 ha
    rw [e1] at hb
    exact absurd hb.1 (by decide)

/-- The body of every procedure adds lines as `GoodT` says and then, as its last
action, the record of the procedure with the mark of the invocation. -/
theorem code_own {call : Proc → Nat → Traced → Option Traced} {d : Nat}
    (hc : CallT call d) (n : Nat) (p : Proc) : OwnT call n d p.tag (code p) := by
  cases p <;> simp only [code, Proc.tag] <;>
  repeat' with_reducible first
    | exact OwnT_last _ _ _ _
    | exact HeadT_mt _ _ _
    | exact HeadT_skip _ _ _
    | exact HeadT_emit_string _ _ _
    | exact HeadT_call hc _ _
    | exact HeadT_seqs_nil _ _ _
    | exact BodyT_brk _ _ _
    | apply OwnT_seqs_cons
    | apply HeadT_seqs_cons
    | apply HeadT_ifCur
    | apply HeadT_ite
    | apply HeadT_peek
    | apply HeadT_loop
    | apply BodyT_peek
    | apply BodyT_ite
    | apply BodyT_ifCur
    | apply BodyT_of_HeadT
    | intro _

/-- An invocation at depth `d` adds lines as `GoodT` says and then its own record
with the mark `d`. -/
theorem parseT_spec :
    ∀ (n : Nat) (p : Proc) (d : Nat) (x y : Traced), parseT n p d x = some y →
      ∃ y0, GoodT d x y0 ∧ y = (emit p.tag y0.1, y0.2 ++ [(d, p.tag)])
  | 0, _, _, _, _, h => by
    rw [parseT] at h
    exact absurd h (by simp)
  | n + 1, p, d, x, y, h => by
    have hc : CallT (parseT n) d := by
      intro q x1 y1 h1
      obtain ⟨y0, ⟨marks, a, b, c⟩, e⟩ := parseT_spec n q (d + 1) x1 y1 h1
      refine ⟨marks ++ [(d + 1, q.tag)], ?_, ?_, ?_⟩
      · rw [e]
        show y0.2 ++ _ = _
        rw [a, List.append_assoc]
      · rw [e]
        show y0.1.outFile ++ [q.tag] = _
        rw [b, List.map_append, List.append_assoc]
        rfl
      · intro r hr
        rcases List.mem_append.1 hr with hr | hr
        · rcases c r hr with g | g
          · omega
          · omega
        · rw [List.mem_singleton] at hr
          rw [hr]
          exact Nat.lt_succ_self d
    have h1 : (execT (parseT n) n d (code p) x).map Prod.fst = some y := h
    cases he : execT (parseT n) n d (code p) x with
    | none => rw [he] at h1; exact absurd h1 (by simp)
    | some r =>
      rw [he] at h1
      have e : r.1 = y := Option.some.inj h1
      obtain ⟨y0, g, e2⟩ := code_own hc n p x r.1 r.2 he
      exact ⟨y0, g, e ▸ e2⟩

/-- C13: post-order trace emission.  For every parsing procedure and every
state, the invocation completes, and the last thing it does is to write its own
nonterminal record: the output is the output before the call, then the records
written inside the invocation (lines written by `match` and records of the
procedures called), then the record of the procedure itself.  The invocation
writes its record exactly once: in the run that marks every line with the depth
of the invocation that wrote it (`parseT`, which is `parse` when the marks are
left out), an invocation at depth `d` adds lines with marks greater than `d`,
written by the invocations below it, and lines with the mark `d`, written by
itself; the latter are lines of `match`, the tag `<字符串>`, and its own
record, which is the last line and occurs with the mark `d` nowhere before.
The result does not depend on the bound. -/
theorem postorder_emission (p : Proc) (s : State) :
    (∃ n s1, parse n p s = some s1) ∧
    (∀ n s1, parse n p s = some s1 →
      ∃ s2 recs, s1 = emit p.tag s2 ∧ s2.outFile = s.outFile ++ recs ∧
        s1.outFile = s.outFile ++ recs ++ [p.tag] ∧
        (∀ r ∈ recs, (∃ t : Token, r = terminalLine t) ∨ r ∈ nestedTags p) ∧
        (p ∉ selfNesting → p.tag ∉ recs)) ∧
    (∀ (n d : Nat) (log : List (Nat × String)),
      (parseT n p d (s, log)).map Prod.fst = parse n p s) ∧
    (∀ (n d : Nat) (log : List (Nat × String)) (s1 : State), parse n p s = some s1 →
      ∃ marks : List (Nat × String),
        parseT n p d (s, log) = some (s1, log ++ marks ++ [(d, p.tag)]) ∧
        s1.outFile = s.outFile ++ (marks ++ [(d, p.tag)]).map Prod.snd ∧
        (d, p.tag) ∉ marks ∧
        ∀ r ∈ marks, d < r.1 ∨
          (r.1 = d ∧ ((∃ t : Token, r.2 = terminalLine t) ∨ r.2 = "<字符串>"))) ∧
    (∀ n m a b, parse n p s = some a → parse m p s = some b → a = b) := by
  have hblank : ' ' ∉ p.tag.data := mayEmit_no_blank p p.tag (by cases p <;> decide)
  have hstr : p.tag ≠ "<字符串>" := by cases p <;> decide
  refine ⟨parse_exists p s, ?_, fun n d log => parseT_erase n p d (s, log), ?_,
    fun n m a b ha hb => parse_det ha hb⟩
  · intro n s1 h
    obtain ⟨s2, h1, recs, h2, h3⟩ := parse_last_nested h
    refine ⟨s2, recs, h1, h2, ?_, h3, ?_⟩
    · rw [h1]
      show s2.outFile ++ [p.tag] = _
      rw [h2]
    · intro hp
      exact not_mem_of_records h3 hblank (tag_not_nested p hp)
  · intro n d log s1 h
    have he := parseT_erase n p d (s, log)
    rw [show ((s, log) : Traced).1 = s from rfl, h] at he
    cases hT : parseT n p d (s, log) with
    | none => rw [hT] at he; exact absurd he (by simp)
    | some y =>
      rw [hT] at he
      have e1 : y.1 = s1 := Option.some.inj he
      obtain ⟨y0, ⟨marks, a, b, c⟩, e⟩ := parseT_spec n p d (s, log) y hT
      have ey1 : y.1 = emit p.tag y0.1 := by rw [e]
      have ey2 : y.2 = y0.2 ++ [(d, p.tag)] := by rw [e]
      refine ⟨marks, ?_, ?_, ?_, c⟩
      · have : y = (s1, log ++ marks ++ [(d, p.tag)]) := by
          refine Prod.ext e1 ?_
          rw [ey2, a]
        rw [this]
      · rw [← e1, ey1]
        show y0.1.outFile ++ [p.tag] = _
        rw [b, List.map_append, List.append_assoc]
        rfl
      · intro hm
        rcases c _ hm with g | ⟨-, ⟨t, ht⟩ | ht⟩
        · exact absurd g (Nat.lt_irrefl d)
        · exact terminalLine_ne hblank t ht.symm
        · exact hstr ht

/-! ## Declaration or function definition -/

theorem bind_go {a : Action} {f : State → Option State} (s : State) :
    (go a s).bind (fun r => if r.2 then f r.1 else some r.1) = (a s).bind f := by
  unfold go
  cases a s with
  | none => rfl
  | some s1 => rfl

/-- C15, as stated, fails after the first function definition.  On the text
`int f ( ) { } int a ; void main ( ) { }` the second loop of `parseProgram`
meets `int a ;` with `;` two tokens ahead and parses it with
`parseFuncDefWithRet`: the trace has `INTTK int`, `IDENFR a`, `<声明头部>`, then
`SEMICN ;` written in the place of the parenthesis, closes the construct with
`<有返回值函数定义>`, and holds no `<变量定义>`. -/
theorem funcdef_without_lparent :
    (runParser 20 lateDeclText).map (fun s1 => s1.outFile) = some lateDeclTrace ∧
    (∀ n s1, runParser n lateDeclText = some s1 → s1.outFile = lateDeclTrace) ∧
    (parse 20 Proc.parseFuncDefWithRet
        (peekToken 2 (peekToken 1 (initParser (initState lateDeclText))).2).2).map
      (fun t => (t.outFile, t.currentToken, (peekToken 1 t).1, (peekToken 2 t).1)) =
      some (lateDeclTrace.take 11, ⟨"INTTK", "int"⟩, ⟨"IDENFR", "a"⟩, ⟨"SEMICN", ";"⟩) ∧
    (lateDeclTrace.drop 11).take 4 = ["INTTK int", "IDENFR a", "<声明头部>", "SEMICN ;"] ∧
    lateDeclTrace.count "<有返回值函数定义>" = 2 ∧ "<变量定义>" ∉ lateDeclTrace ∧
    "<变量说明>" ∉ lateDeclTrace := by
  have h20 : (runParser 20 lateDeclText).map (fun s1 => s1.outFile) = some lateDeclTrace := by
    decide
  refine ⟨h20, ?_, by decide, by decide, by decide, by decide, by decide⟩
  intro n s1 h
  cases h0 : runParser 20 lateDeclText with
  | none => rw [h0] at h20; simp at h20
  | some s2 =>
    rw [h0] at h20
    have e : s1 = s2 := parse_det h h0
    rw [e]
    simpa using h20

/-- C15, amended: where `parseProgram` decides between declaration and function
definition.  Let the current token be `int` or `char`.
In the first loop of `parseProgram` (reached after the optional constant
block) and in the loop of `parseVarDecl` the construct is decided by the token
two positions ahead: if it is `(`, the loop is left and nothing is parsed or
written there; otherwise the first loop runs `parseVarDecl`, and the loop of
`parseVarDecl` runs `parseVarDef` on the construct, matches the token after it
and goes on with the next construct.  In the second loop of `parseProgram`
there is no lookahead: the construct is parsed by `parseFuncDefWithRet`
whatever follows.  `parseFuncDefWithRet` writes the line of the type, the
line of the identifier and then `<声明头部>`; `parseVarDef` ends with
`<变量定义>` and writes no `<声明头部>`.  Every run completes, and a run of
`parseProgram` entered at `int` or `char` treats its first construct in this
way. -/
theorem decl_versus_funcdef {s : State} (hs : BufferOk s)
    (hc : s.currentToken.type ∈ ["INTTK", "CHARTK"]) :
    (∀ n, parse (n + 1) Proc.parseProgram =
      seq [ifCur ["CONSTTK"] (parse n Proc.parseConstDecl) skip,
        whileDo (curIn ["INTTK", "CHARTK"]) (programVarBody n) n,
        whileDo (curIn ["INTTK", "CHARTK", "VOIDTK"]) (programFuncBody n) n,
        parse n Proc.parseMainFunc, act (emit "<程序>")]) ∧
    (∀ n, parse (n + 1) Proc.parseVarDecl =
      seq [whileDo (curIn ["INTTK", "CHARTK"]) (varDeclBody n) n,
        act (emit "<变量说明>")]) ∧
    (∀ n m, whileDo (curIn ["INTTK", "CHARTK"]) (programVarBody n) (m + 1) s =
      if (peekToken 2 s).1.type = "LPARENT" then some (peekToken 2 (peekToken 1 s).2).2
      else (parse n Proc.parseVarDecl (peekToken 2 (peekToken 1 s).2).2).bind
        (whileDo (curIn ["INTTK", "CHARTK"]) (programVarBody n) m)) ∧
    (∀ n m, whileDo (curIn ["INTTK", "CHARTK"]) (varDeclBody n) (m + 1) s =
      if (peekToken 2 s).1.type = "LPARENT" then some (peekToken 2 s).2
      else (parse n Proc.parseVarDef (peekToken 2 s).2).bind
        (fun sD => whileDo (curIn ["INTTK", "CHARTK"]) (varDeclBody n) m
          (matchToken "" sD))) ∧
    (∀ n m, whileDo (curIn ["INTTK", "CHARTK", "VOIDTK"]) (programFuncBody n) (m + 1) s =
      (parse n Proc.parseFuncDefWithRet s).bind
        (whileDo (curIn ["INTTK", "CHARTK", "VOIDTK"]) (programFuncBody n) m)) ∧
    (∀ (t : State) n sF, BufferOk t → parse n Proc.parseFuncDefWithRet t = some sF →
      ∃ recs, sF.outFile = t.outFile ++
        [terminalLine t.currentToken, terminalLine (pending t 0), "<声明头部>"] ++ recs) ∧
    (∀ (t : State) n sD, parse n Proc.parseVarDef t = some sD →
      ∃ recs, sD.outFile = t.outFile ++ recs ++ ["<变量定义>"] ∧ "<声明头部>" ∉ recs) ∧
    (∀ p : Proc, ∃ n s1, parse n p s = some s1) ∧
    (∀ n s1, parse n Proc.parseProgram s = some s1 →
      ((peekToken 2 s).1.type = "LPARENT" ∧
        ∃ m sF recs,
          parse m Proc.parseFuncDefWithRet (peekToken 2 (peekToken 1 s).2).2 = some sF ∧
          sF.outFile = s.outFile ++
            [terminalLine s.currentToken, terminalLine (peekToken 1 s).1, "<声明头部>"] ++
            recs ∧
          sF.outFile <+: s1.outFile) ∨
      ((peekToken 2 s).1.type ≠ "LPARENT" ∧
        ∃ m sV sD recs,
          parse (m + 1) Proc.parseVarDecl (peekToken 2 (peekToken 1 s).2).2 = some sV ∧
          parse m Proc.parseVarDef (peekToken 2 (peekToken 1 s).2).2 = some sD ∧
          sD.outFile = s.outFile ++ recs ++ ["<变量定义>"] ∧
          "<声明头部>" ∉ recs ∧
          sD.outFile <+: sV.outFile ∧ sV.outFile <+: s1.outFile)) := by
  have hcond : curIn ["INTTK", "CHARTK"] s = true := by
    simp only [curIn, decide_eq_true_eq]
    exact hc
  have hcond3 : curIn ["INTTK", "CHARTK", "VOIDTK"] s = true := by
    simp only [curIn, decide_eq_true_eq, List.mem_cons, List.mem_singleton,
      List.not_mem_nil, or_false] at hc ⊢
    rcases hc with h | h
    · exact Or.inl h
    · exact Or.inr (Or.inl h)
  refine ⟨fun n => rfl, fun n => rfl, ?_, ?_, ?_, ?_, ?_, fun p => parse_exists p s, ?_⟩
  · intro n m
    rw [whileDo]
    beta_reduce
    rw [if_pos hcond]
    unfold programVarBody withPeek
    beta_reduce
    rw [peek12_token hs]
    by_cases hl : (peekToken 2 s).1.type = "LPARENT"
    · rw [if_pos hl, if_neg (not_not.2 hl)]
      rfl
    · rw [if_neg hl, if_pos hl]
      exact bind_go _
  · intro n m
    rw [whileDo]
    beta_reduce
    rw [if_pos hcond]
    unfold varDeclBody withPeek
    beta_reduce
    by_cases hl : (peekToken 2 s).1.type = "LPARENT"
    · rw [if_pos hl, if_pos hl]
      rfl
    · rw [if_neg hl, if_neg hl, bind_go]
      show ((parse n Proc.parseVarDef (peekToken 2 s).2).bind
        (fun s1 => (mt s1).bind (seq []))).bind _ = _
      cases parse n Proc.parseVarDef (peekToken 2 s).2 with
      | none => rfl
      | some sD => rfl
  · intro n m
    rw [whileDo]
    beta_reduce
    rw [if_pos hcond3]
    unfold programFuncBody ifCur
    rw [if_pos hc]
    exact bind_go _
  · intro t n sF ht h
    obtain ⟨recs, hr⟩ := funcDefWithRet_run h
    refine ⟨recs, ?_⟩
    rw [hr]
    have e : (matchToken "" t).currentToken = pending t 0 := matchToken_upcoming "" ht 0
    rw [e]
  · intro t n sD h
    obtain ⟨recs, hr, hrecs⟩ := out_of_last h
    exact ⟨recs, hr, not_mem_of_records hrecs (by decide) (by decide)⟩
  · intro n s1 h
    have hout : (peekToken 2 (peekToken 1 s).2).2.outFile = s.outFile := by
      rw [peekToken_outFile, peekToken_outFile]
    have hcur : (peekToken 2 (peekToken 1 s).2).2.currentToken = s.currentToken := by
      rw [peekToken_cur, peekToken_cur]
    obtain ⟨m, -, ⟨hl, sF, hF, hpre⟩ | ⟨hl, sV, hV, hpre⟩⟩ := program_at_type hc h
    · left
      rw [peek12_token hs] at hl
      refine ⟨hl, m + 1, sF, ?_⟩
      obtain ⟨recs, hr⟩ := funcDefWithRet_run hF
      refine ⟨recs, hF, ?_, hpre⟩
      rw [hr, hout, hcur, matchToken_cur_after_peeks hs]
    · right
      rw [peek12_token hs] at hl
      refine ⟨hl, ?_⟩
      have hc2 : (peekToken 2 (peekToken 1 s).2).2.currentToken.type ∈
          ["INTTK", "CHARTK"] := by
        rw [hcur]; exact hc
      have hl2 : (peekToken 2 (peekToken 2 (peekToken 1 s).2).2).1.type ≠ "LPARENT" := by
        rw [peekToken_idem (by decide), peek12_token hs]; exact hl
      obtain ⟨k, sD, hk, hD, hpD⟩ :=
        varDecl_run hc2 hl2 (peekToken_idem_state (by decide) _) hV
      have hk2 : k = m := by omega
      subst hk2
      obtain ⟨recs, hr, hrecs⟩ := out_of_last hD
      refine ⟨k, sV, sD, recs, hV, hD, ?_, ?_, hpD, hpre⟩
      · rw [hr, hout]; rfl
      · exact not_mem_of_records hrecs (by decide) (by decide)

/-- Witness of C15, amended: the state reached on the text `int a ;` after
`initParser`, where the token two positions ahead is `;`: the loop of
`parseVarDecl` runs `parseVarDef` on the construct, and `parseProgram`
completes. -/
theorem decl_versus_funcdef_witness :
    BufferOk (initParser (initState "int a ;".toList)) ∧
    (initParser (initState "int a ;".toList)).currentToken.type ∈ ["INTTK", "CHARTK"] ∧
    (peekToken 2 (initParser (initState "int a ;".toList))).1.type ≠ "LPARENT" ∧
    (whileDo (curIn ["INTTK", "CHARTK"]) (varDeclBody 3) 2
        (initParser (initState "int a ;".toList)) =
      if (peekToken 2 (initParser (initState "int a ;".toList))).1.type = "LPARENT" then
        some (peekToken 2 (initParser (initState "int a ;".toList))).2
      else (parse 3 Proc.parseVarDef
          (peekToken 2 (initParser (initState "int a ;".toList))).2).bind
        (fun sD => whileDo (curIn ["INTTK", "CHARTK"]) (varDeclBody 3) 1
          (matchToken "" sD))) ∧
    ∃ n s1, parse n Proc.parseProgram (initParser (initState "int a ;".toList)) = some s1 :=
  ⟨by decide, by decide, by decide,
    (@decl_versus_funcdef (initParser (initState "int a ;".toList))
      (by decide) (by decide)).2.2.2.1 3 1,
    (@decl_versus_funcdef (initParser (initState "int a ;".toList))
      (by decide) (by decide)).2.2.2.2.2.2.2.1 Proc.parseProgram⟩

end Compiler
